import Mathlib

/-!
# Merge Hull (Algorithm 8.2, `Ch8/mergeHull.c`)

A shallow embedding of the divide-and-conquer convex hull program and a
verification of its contract.

Modelling conventions.

* `PointT` and `HullT` are the C structs.  A `HullT` carries the hull array
  as a list holding exactly the `nu + nl` entries the C code wrote.
* The program is embedded twice.  In `findTangent`, `joinHulls`, `mergeHull`,
  `grahamScan` the orientation macro is the exact cross product `AREA` on
  mathematical integers: this is the program wherever no `int` operation
  overflows, and it is the reference for the geometry.  In `findTangent32`,
  `joinHulls32`, `mergeHull32`, `grahamScan32` the macro is `AREA32`, every
  difference, product and the final subtraction reduced to 32 bits by
  `wrap32`: this is the program on `int` coordinates (signed overflow is
  undefined behaviour in C; wrap-around is what an unoptimised build
  computes).  For coordinates of absolute value at most `16383` the two
  coincide (`mergeHull32_small`, `grahamScan32_small`).
* Array reads `H[i]` are `rd H i`; an out-of-range read returns the default
  point.  Pointers into a hull array are modelled by their index.
* Indices (`min`, `max`, `mid`, `nu`, `nl`) are natural numbers: every
  decrement `mid - 1` in the source is guarded by `mid > 0` or `mid > nu`.
* `while` loops are structurally recursive on a fuel argument; each caller
  supplies the length of the searched interval plus one, which is shown to
  suffice because every iteration that does not `break` shrinks the interval.
  The recursion of `mergeHull` is given both with a fuel argument
  (`mergeHullAux`) and by well-founded recursion on `n` (`mergeHullWF`).
* The scan loop of `Ch8/grahamScan.c` is `grahamScan`: the hull array is a
  list of `n` entries updated in place, with the number `m` of live entries.
-/

namespace MergeHull

/-- The C struct `PointT`: a point number and integer coordinates. -/
structure PointT where
  num : Int
  x : Int
  y : Int
deriving DecidableEq, Repr

instance : Inhabited PointT := ⟨⟨0, 0, 0⟩⟩

/-- The C struct `HullT`: hull array, number of points on the upper and on the lower hull. -/
structure HullT where
  H : List PointT
  nu : Nat
  nl : Nat
deriving DecidableEq, Repr

/-- The exact value of the macro `AREA(a, b, c)`: the cross product over the integers, which
is what the macro computes on `int` operands whenever none of its operations overflows
(`AREA32` is the macro in 32-bit arithmetic). -/
def AREA (a b c : PointT) : Int :=
  (b.x - a.x) * (c.y - a.y) - (c.x - a.x) * (b.y - a.y)

/-- The macro `RIGHT(a, b, c)` on the exact value of `AREA` (`RIGHT32` is the test as the
program evaluates it on `int` operands). -/
def RIGHT (a b c : PointT) : Prop := AREA a b c < 0

/-- The macro `LEFT(a, b, c)` on the exact value of `AREA` (`LEFT32` is the test as the
program evaluates it on `int` operands). -/
def LEFT (a b c : PointT) : Prop := AREA a b c > 0

instance (a b c : PointT) : Decidable (RIGHT a b c) := by unfold RIGHT; infer_instance

instance (a b c : PointT) : Decidable (LEFT a b c) := by unfold LEFT; infer_instance

/-- Array read `H[i]`. -/
def rd (H : List PointT) (i : Nat) : PointT := H.getD i default

/-- The loop `for (t = H + a; t < H + b; t++) Hbuff[m++] = *t;` as the list of copied entries. -/
def copyRange (H : List PointT) (a b : Nat) : List PointT :=
  (List.range (b - a)).map (fun k => rd H (a + k))

/-- The `while` loop of the upper branch of `findTangent`; returns the final `mid`. -/
def tangentUpperLoop (p : PointT) (H : List PointT) (nu : Nat) : Nat → Nat → Nat → Nat → Nat
  | 0, _, _, mid => mid
  | fuel + 1, min, max, mid =>
    if min ≤ max then
      let mid := (min + max) / 2
      if 0 < mid ∧ RIGHT p (rd H (mid - 1)) (rd H mid) then
        tangentUpperLoop p H nu fuel min (mid - 1) mid
      else if mid = nu then mid
      else if ¬ RIGHT p (rd H mid) (rd H (mid + 1)) then
        tangentUpperLoop p H nu fuel (mid + 1) max mid
      else mid
    else mid

/-- The `while` loop of the lower branch of `findTangent`; returns the final `mid`. -/
def tangentLowerLoop (p : PointT) (H : List PointT) (nu n : Nat) : Nat → Nat → Nat → Nat → Nat
  | 0, _, _, mid => mid
  | fuel + 1, min, max, mid =>
    if min ≤ max then
      let mid := (min + max) / 2
      if nu < mid ∧ ¬ LEFT p (rd H (mid % n)) (rd H (mid - 1)) then
        tangentLowerLoop p H nu n fuel min (mid - 1) mid
      else if mid = n then mid
      else if LEFT p (rd H ((mid + 1) % n)) (rd H mid) then
        tangentLowerLoop p H nu n fuel (mid + 1) max mid
      else mid
    else mid

/-- The function `findTangent(p, HI, upper)`; the returned pointer `H + mid%n` is the index `mid % n`. -/
def findTangent (p : PointT) (HI : HullT) (upper : Int) : Nat :=
  let n := HI.nu + HI.nl
  if upper ≠ 0 then
    tangentUpperLoop p HI.H HI.nu (HI.nu + 1) 0 HI.nu 0 % n
  else
    tangentLowerLoop p HI.H HI.nu n (HI.nl + 1) HI.nu n 0 % n

/-- The first `while` loop of `joinHulls` (upper tangent); returns the final `(mid, q)`. -/
def joinUpperLoop (HI1 HI2 : HullT) : Nat → Nat → Nat → Nat × Nat → Nat × Nat
  | 0, _, _, s => s
  | fuel + 1, min, max, s =>
    if min ≤ max then
      let mid := (min + max) / 2
      let q := findTangent (rd HI1.H mid) HI2 1
      if 0 < mid ∧ ¬ RIGHT (rd HI1.H (mid - 1)) (rd HI1.H mid) (rd HI2.H q) then
        joinUpperLoop HI1 HI2 fuel min (mid - 1) (mid, q)
      else if mid = HI1.nu then (mid, q)
      else if RIGHT (rd HI1.H mid) (rd HI1.H (mid + 1)) (rd HI2.H q) then
        joinUpperLoop HI1 HI2 fuel (mid + 1) max (mid, q)
      else (mid, q)
    else s

/-- The second `while` loop of `joinHulls` (lower tangent); returns the final `(mid, q)`. -/
def joinLowerLoop (HI1 HI2 : HullT) : Nat → Nat → Nat → Nat × Nat → Nat × Nat
  | 0, _, _, s => s
  | fuel + 1, min, max, s =>
    let n1 := HI1.nu + HI1.nl
    if min ≤ max then
      let mid := (min + max) / 2
      let q := findTangent (rd HI1.H (mid % n1)) HI2 0
      if HI1.nu < mid ∧ LEFT (rd HI1.H (mid % n1)) (rd HI1.H (mid - 1)) (rd HI2.H q) then
        joinLowerLoop HI1 HI2 fuel min (mid - 1) (mid, q)
      else if mid = n1 then (mid, q)
      else if ¬ LEFT (rd HI1.H ((mid + 1) % n1)) (rd HI1.H mid) (rd HI2.H q) then
        joinLowerLoop HI1 HI2 fuel (mid + 1) max (mid, q)
      else (mid, q)
    else s

/-- The assembly part of `joinHulls` (source lines 183-208), from the four tangent indices. -/
def assemble (HI1 HI2 : HullT) (pu qu pl ql : Nat) : HullT :=
  let n1 := HI1.nu + HI1.nl
  let upper := copyRange HI1.H 0 (pu + 1) ++ copyRange HI2.H qu HI2.nu
  let lower2 :=
    if ql = 0 then copyRange HI2.H HI2.nu (HI2.nu + HI2.nl) ++ [rd HI2.H 0]
    else copyRange HI2.H HI2.nu (ql + 1)
  let lower1 := if pl ≠ 0 then copyRange HI1.H pl n1 else []
  ⟨upper ++ (lower2 ++ lower1), upper.length, (lower2 ++ lower1).length⟩

/-- The function `joinHulls(HI1, HI2, Hbuff)`; the output array is the `H` field of the result. -/
def joinHulls (HI1 HI2 : HullT) : HullT :=
  let n1 := HI1.nu + HI1.nl
  let u := joinUpperLoop HI1 HI2 (HI1.nu + 1) 0 HI1.nu (0, 0)
  let l := joinLowerLoop HI1 HI2 (HI1.nl + 1) HI1.nu n1 (0, 0)
  assemble HI1 HI2 u.1 u.2 (l.1 % n1) l.2

/-- The base case `n <= 3` of `mergeHull`. -/
def mergeHullBase (S : List PointT) (n : Nat) : HullT :=
  if n = 2 then ⟨[rd S 0, rd S 1], 1, 1⟩
  else if RIGHT (rd S 0) (rd S 1) (rd S 2) then ⟨[rd S 0, rd S 1, rd S 2], 2, 1⟩
  else if LEFT (rd S 0) (rd S 1) (rd S 2) then ⟨[rd S 0, rd S 2, rd S 1], 1, 2⟩
  else ⟨[rd S 0, rd S 2], 1, 1⟩

/-- The recursion of `mergeHull` on the first `n` entries of `S`, with a recursion budget.
`S + mid` is `S.drop mid`. -/
def mergeHullAux : Nat → List PointT → Nat → HullT
  | 0, S, n => if n ≤ 3 then mergeHullBase S n else ⟨[], 0, 0⟩
  | fuel + 1, S, n =>
    if n ≤ 3 then mergeHullBase S n
    else
      let mid := n / 2
      let HI1 := mergeHullAux fuel S mid
      let HI2 := mergeHullAux fuel (S.drop mid) (n - mid)
      joinHulls HI1 HI2

/-- The function `mergeHull(S, n, H, Hbuff)`: the depth of the recursion is below `n`. -/
def mergeHull (S : List PointT) (n : Nat) : HullT := mergeHullAux n S n

/-- Strict lexicographic order on coordinates (x, then y). -/
def lexLt (a b : PointT) : Prop := a.x < b.x ∨ (a.x = b.x ∧ a.y < b.y)

instance (a b : PointT) : Decidable (lexLt a b) := by unfold lexLt; infer_instance

/-- The input is sorted ascending by (x, then y) with pairwise distinct coordinates. -/
def SortedLex (S : List PointT) : Prop := S.Pairwise lexLt

/-- A point built from its coordinates, numbered `0`. -/
def pt (x y : Int) : PointT := ⟨0, x, y⟩

/-- Non-strict lexicographic order on coordinates. -/
def lexLe (a b : PointT) : Prop := lexLt a b ∨ (a.x = b.x ∧ a.y = b.y)

instance (a b : PointT) : Decidable (lexLe a b) := by unfold lexLe; infer_instance

/-- Cross product of the integer vectors `(u1, u2)` and `(v1, v2)`. -/
def cr (u1 u2 v1 v2 : Int) : Int := u1 * v2 - u2 * v1

/-- The vector `(u1, u2)` points to the right, or straight up. -/
def lexPos (u1 u2 : Int) : Prop := 0 < u1 ∨ (u1 = 0 ∧ 0 < u2)

/-- Cross product of the vectors `a → b` and `c → d`. -/
def vc (a b c d : PointT) : Int := cr (b.x - a.x) (b.y - a.y) (d.x - c.x) (d.y - c.y)

/-- A hull chain describing a strictly convex polygon in clockwise order (or a segment):
the upper chain `H[0..nu]` ascends and the lower chain `H[nu..n-1], H[0]` descends in the
lexicographic order, every vertex is on or to the right of every directed edge, and when
there are at least three vertices every cyclic consecutive triple is a strict right turn. -/
structure Valid (HI : HullT) : Prop where
  nu_pos : 1 ≤ HI.nu
  nl_pos : 1 ≤ HI.nl
  len : HI.H.length = HI.nu + HI.nl
  up : ∀ i, i < HI.nu → lexLt (rd HI.H i) (rd HI.H (i + 1))
  lo : ∀ i, HI.nu ≤ i → i < HI.nu + HI.nl →
    lexLt (rd HI.H ((i + 1) % (HI.nu + HI.nl))) (rd HI.H i)
  cvx : ∀ i j, i < HI.nu + HI.nl → j < HI.nu + HI.nl →
    AREA (rd HI.H i) (rd HI.H ((i + 1) % (HI.nu + HI.nl))) (rd HI.H j) ≤ 0
  turn : 3 ≤ HI.nu + HI.nl → ∀ i, i < HI.nu + HI.nl →
    AREA (rd HI.H i) (rd HI.H ((i + 1) % (HI.nu + HI.nl)))
      (rd HI.H ((i + 2) % (HI.nu + HI.nl))) < 0

/-- The point `s` is inside or on the boundary of the hull chain: on or to the right of every
directed edge, and between the leftmost and the rightmost vertex in the lexicographic order. -/
def Inside (HI : HullT) (s : PointT) : Prop :=
  (∀ i, i < HI.nu + HI.nl →
    AREA (rd HI.H i) (rd HI.H ((i + 1) % (HI.nu + HI.nl))) s ≤ 0) ∧
  lexLe (rd HI.H 0) s ∧ lexLe s (rd HI.H HI.nu)

/-- The outcome of the two tangent searches of `joinHulls`: `pu`, `qu` are the indices of the
upper tangent points, `tl` and `tq` the final (unwrapped) values of `mid` of the lower searches
in the left and in the right hull, each with the local conditions under which the loops stop. -/
structure Bridges (HI1 HI2 : HullT) (pu qu tl tq : Nat) : Prop where
  pu_le : pu ≤ HI1.nu
  pu_l : pu = 0 ∨ RIGHT (rd HI1.H (pu - 1)) (rd HI1.H pu) (rd HI2.H qu)
  pu_r : pu = HI1.nu ∨ ¬ RIGHT (rd HI1.H pu) (rd HI1.H (pu + 1)) (rd HI2.H qu)
  qu_le : qu ≤ HI2.nu
  qu_l : qu = 0 ∨ ¬ RIGHT (rd HI1.H pu) (rd HI2.H (qu - 1)) (rd HI2.H qu)
  qu_r : qu = HI2.nu ∨ RIGHT (rd HI1.H pu) (rd HI2.H qu) (rd HI2.H (qu + 1))
  tl_ge : HI1.nu ≤ tl
  tl_le : tl ≤ HI1.nu + HI1.nl
  tl_l : tl = HI1.nu ∨ ¬ LEFT (rd HI1.H (tl % (HI1.nu + HI1.nl))) (rd HI1.H (tl - 1))
    (rd HI2.H (tq % (HI2.nu + HI2.nl)))
  tl_r : tl = HI1.nu + HI1.nl ∨ LEFT (rd HI1.H ((tl + 1) % (HI1.nu + HI1.nl))) (rd HI1.H tl)
    (rd HI2.H (tq % (HI2.nu + HI2.nl)))
  tq_ge : HI2.nu ≤ tq
  tq_le : tq ≤ HI2.nu + HI2.nl
  tq_l : tq = HI2.nu ∨ LEFT (rd HI1.H (tl % (HI1.nu + HI1.nl)))
    (rd HI2.H (tq % (HI2.nu + HI2.nl))) (rd HI2.H (tq - 1))
  tq_r : tq = HI2.nu + HI2.nl ∨ ¬ LEFT (rd HI1.H (tl % (HI1.nu + HI1.nl)))
    (rd HI2.H ((tq + 1) % (HI2.nu + HI2.nl))) (rd HI2.H tq)

/-- The lower part copied from the right hull. -/
def lower2 (HI2 : HullT) (ql : Nat) : List PointT :=
  if ql = 0 then copyRange HI2.H HI2.nu (HI2.nu + HI2.nl) ++ [rd HI2.H 0]
  else copyRange HI2.H HI2.nu (ql + 1)

/-- The lower part copied from the left hull. -/
def lower1 (HI1 : HullT) (pl : Nat) : List PointT :=
  if pl ≠ 0 then copyRange HI1.H pl (HI1.nu + HI1.nl) else []

/-- The hull chain `HI` is the convex hull of the first `n` entries of `S`: it is valid, starts
at the first and has the last of these entries at index `nu`, contains all of them, consists of
some of them, and has at most `n` vertices. -/
def HullOf (S : List PointT) (n : Nat) (HI : HullT) : Prop :=
  Valid HI ∧ rd HI.H 0 = rd S 0 ∧ rd HI.H HI.nu = rd S (n - 1) ∧
  (∀ i, i < n → Inside HI (rd S i)) ∧
  (∀ k, k < HI.nu + HI.nl → ∃ i, i < n ∧ rd HI.H k = rd S i) ∧
  HI.nu + HI.nl ≤ n

instance (S : List PointT) : Decidable (SortedLex S) := by unfold SortedLex; infer_instance

/-- The validity of a hull chain as the claim about `joinHulls` words it: `nu, nl ≥ 1`,
pairwise distinct points, index `0` lexicographically smallest, index `nu` lexicographically
largest, and either size two or every cyclic consecutive triple a strict right turn. -/
def ChainOK (HI : HullT) : Prop :=
  1 ≤ HI.nu ∧ 1 ≤ HI.nl ∧ HI.H.length = HI.nu + HI.nl ∧
  (∀ i, i < HI.nu + HI.nl → ∀ j, j < HI.nu + HI.nl → i ≠ j →
    ¬ ((rd HI.H i).x = (rd HI.H j).x ∧ (rd HI.H i).y = (rd HI.H j).y)) ∧
  (∀ k, k < HI.nu + HI.nl → lexLe (rd HI.H 0) (rd HI.H k)) ∧
  (∀ k, k < HI.nu + HI.nl → lexLe (rd HI.H k) (rd HI.H HI.nu)) ∧
  (HI.nu + HI.nl = 2 ∨ ∀ i, i < HI.nu + HI.nl →
    AREA (rd HI.H i) (rd HI.H ((i + 1) % (HI.nu + HI.nl)))
      (rd HI.H ((i + 2) % (HI.nu + HI.nl))) < 0)

instance (HI : HullT) : Decidable (ChainOK HI) := by unfold ChainOK; infer_instance

/-- Every point of the chain is on or to the right of every directed edge of the chain. -/
def Cvx (HI : HullT) : Prop :=
  ∀ i, i < HI.nu + HI.nl → ∀ j, j < HI.nu + HI.nl →
    AREA (rd HI.H i) (rd HI.H ((i + 1) % (HI.nu + HI.nl))) (rd HI.H j) ≤ 0

instance (HI : HullT) : Decidable (Cvx HI) := by unfold Cvx; infer_instance

/-- Every point of `A` is on or to the right of every directed edge of `R`. -/
def Covers (R A : HullT) : Prop :=
  ∀ i, i < R.nu + R.nl → ∀ j, j < A.nu + A.nl →
    AREA (rd R.H i) (rd R.H ((i + 1) % (R.nu + R.nl))) (rd A.H j) ≤ 0

instance (R A : HullT) : Decidable (Covers R A) := by unfold Covers; infer_instance

/-- Every point of `A` is lexicographically smaller than every point of `B`. -/
def LeftOf (A B : HullT) : Prop :=
  ∀ i, i < A.nu + A.nl → ∀ j, j < B.nu + B.nl → lexLt (rd A.H i) (rd B.H j)

instance (A B : HullT) : Decidable (LeftOf A B) := by unfold LeftOf; infer_instance

/-- Non-strict order of the sort by `comparePoints`: ascending by x, then y, equal coordinates
allowed. -/
def SortedLe (S : List PointT) : Prop := S.Pairwise lexLe

instance (S : List PointT) : Decidable (SortedLe S) := by unfold SortedLe; infer_instance

/-- The identities (`num` fields) of the input are pairwise distinct. -/
def UniqueNum (S : List PointT) : Prop := S.Pairwise (fun a b => a.num ≠ b.num)

instance (S : List PointT) : Decidable (UniqueNum S) := by unfold UniqueNum; infer_instance

/-- The function `mergeHull` by well-founded recursion on `n`, as the source writes it: both
recursive calls are on strictly smaller sizes because `n > 3` in the recursive case. -/
def mergeHullWF (S : List PointT) (n : Nat) : HullT :=
  if n ≤ 3 then mergeHullBase S n
  else joinHulls (mergeHullWF S (n / 2)) (mergeHullWF (S.drop (n / 2)) (n - n / 2))
termination_by n
decreasing_by all_goals omega

/-- The sizes of all the calls of `mergeHull` made for an input of size `n`, the outermost call
first. -/
def mergeHullCalls (n : Nat) : List Nat :=
  if n ≤ 3 then [n]
  else n :: (mergeHullCalls (n / 2) ++ mergeHullCalls (n - n / 2))
termination_by n
decreasing_by all_goals omega

/-- Reduction of an integer to the range of a 32-bit two's-complement `int` (wrap-around
modulo `2^32`). -/
def wrap32 (z : Int) : Int := (z + 2147483648) % 4294967296 - 2147483648

/-- The macro `AREA` as computed in 32-bit `int` arithmetic with wrap-around: every difference,
every product and the final subtraction is reduced modulo `2^32`. -/
def AREA32 (a b c : PointT) : Int :=
  wrap32 (wrap32 (wrap32 (b.x - a.x) * wrap32 (c.y - a.y))
    - wrap32 (wrap32 (c.x - a.x) * wrap32 (b.y - a.y)))

/-- The integer `z` is a value of a 32-bit `int`. -/
def Int32 (z : Int) : Prop := -2147483648 ≤ z ∧ z ≤ 2147483647

instance (z : Int) : Decidable (Int32 z) := by unfold Int32; infer_instance

/-- Both coordinates of `p` are values of a 32-bit `int`. -/
def Int32Point (p : PointT) : Prop := Int32 p.x ∧ Int32 p.y

instance (p : PointT) : Decidable (Int32Point p) := by unfold Int32Point; infer_instance

/-- The integers `u` and `v` have the same sign: both negative, both zero or both positive. -/
def SameSign (u v : Int) : Prop := (u < 0 ↔ v < 0) ∧ (0 < u ↔ 0 < v)

instance (u v : Int) : Decidable (SameSign u v) := by unfold SameSign; infer_instance

/-- The points `p` and `q` have the same coordinates (their `num` fields may differ). -/
def CoordEq (p q : PointT) : Prop := p.x = q.x ∧ p.y = q.y

instance (p q : PointT) : Decidable (CoordEq p q) := by unfold CoordEq; infer_instance

/-- The inner `while` loop of the Graham scan (grahamScan.c, lines 73-77) on the hull array `H`
with `m` live entries: while `m > 2` and the last three live entries are not a right turn, the
second to last entry is overwritten by the last one and `m` decreases. -/
def grahamPop : Nat → List PointT → Nat → List PointT × Nat
  | 0, H, m => (H, m)
  | fuel + 1, H, m =>
    if 2 < m ∧ ¬ RIGHT (rd H (m - 3)) (rd H (m - 2)) (rd H (m - 1)) then
      grahamPop fuel (H.set (m - 2) (rd H (m - 1))) (m - 1)
    else (H, m)

/-- The `for` loop of the Graham scan (grahamScan.c, lines 71-78) from index `i`: the point
`S[i]` is stored at `H[m]`, `m` increases, and the inner loop runs. -/
def grahamLoop (S : List PointT) (n : Nat) : Nat → Nat → List PointT → Nat → List PointT × Nat
  | 0, _, H, m => (H, m)
  | fuel + 1, i, H, m =>
    if i < n then
      grahamLoop S n fuel (i + 1) (grahamPop (m + 1) (H.set m (rd S i)) (m + 1)).1
        (grahamPop (m + 1) (H.set m (rd S i)) (m + 1)).2
    else (H, m)

/-- The scan of grahamScan.c (lines 68-78) on the sorted array `S` of `n` points: the hull array
of `n` entries, with `H[0] = S[0]`, `H[1] = S[1]`, `m = 2`, then the `for` loop; the printed
hull is `H[0..m-1]`. -/
def grahamScan (S : List PointT) (n : Nat) : List PointT :=
  (grahamLoop S n n 2 (((List.replicate n default).set 0 (rd S 0)).set 1 (rd S 1)) 2).1.take
    (grahamLoop S n n 2 (((List.replicate n default).set 0 (rd S 0)).set 1 (rd S 1)) 2).2

/-- The list `L` is the upper hull of the first `i` points of `S`: it leads from the first to
the last of them in ascending lexicographic order through some of them, turns strictly right at
every inner vertex, and has every one of the `i` points on or to the right of every edge. -/
structure UHull (S : List PointT) (i : Nat) (L : List PointT) : Prop where
  len : 2 ≤ L.length
  first : rd L 0 = rd S 0
  last : rd L (L.length - 1) = rd S (i - 1)
  inc : ∀ j, j + 1 < L.length → lexLt (rd L j) (rd L (j + 1))
  turn : ∀ j, j + 2 < L.length → AREA (rd L j) (rd L (j + 1)) (rd L (j + 2)) < 0
  sup : ∀ j, j + 1 < L.length → ∀ k, k < i → AREA (rd L j) (rd L (j + 1)) (rd S k) ≤ 0
  mem : ∀ j, j < L.length → ∃ k, k < i ∧ rd L j = rd S k

/-- No two entries of the hull chain have equal x and equal y. -/
def NoDupCoords (HI : HullT) : Prop :=
  ∀ j, j < HI.nu + HI.nl → ∀ i, i < j →
    ¬ ((rd HI.H i).x = (rd HI.H j).x ∧ (rd HI.H i).y = (rd HI.H j).y)

instance (HI : HullT) : Decidable (NoDupCoords HI) := by unfold NoDupCoords; infer_instance

/-- Both coordinates of `p` have absolute value at most `16383`. -/
def SmallPoint (p : PointT) : Prop :=
  -16383 ≤ p.x ∧ p.x ≤ 16383 ∧ -16383 ≤ p.y ∧ p.y ≤ 16383

instance (p : PointT) : Decidable (SmallPoint p) := by unfold SmallPoint; infer_instance

/-- The entries `H[a], ..., H[b]` of an array, both ends included (`H[a..b]` in the wording of
the assembly claim); empty when `b < a`. -/
def slice (H : List PointT) (a b : Nat) : List PointT := (H.take (b + 1)).drop a

/-- The merged chain as the assembly claim describes it, from the four tangent indices:
`HI1[0..pu] ++ HI2[qu..nu2-1] ++ L2 ++ L1`, with `L2 = HI2[nu2..n2-1] ++ [HI2[0]]` when
`ql = 0` and `HI2[nu2..ql]` otherwise, and `L1 = []` when `pl = 0` and `HI1[pl..n1-1]`
otherwise. -/
def assembleSpec (HI1 HI2 : HullT) (pu qu pl ql : Nat) : HullT :=
  let L2 :=
    if ql = 0 then slice HI2.H HI2.nu (HI2.nu + HI2.nl - 1) ++ slice HI2.H 0 0
    else slice HI2.H HI2.nu ql
  let L1 := if pl = 0 then [] else slice HI1.H pl (HI1.nu + HI1.nl - 1)
  ⟨slice HI1.H 0 pu ++ slice HI2.H qu (HI2.nu - 1) ++ L2 ++ L1,
    (pu + 1) + (HI2.nu - qu), (L2 ++ L1).length⟩

/-- The three ways in which an iteration of a search loop ends: `max = mid - 1`,
`min = mid + 1`, or `break`. -/
inductive MoveT where
  | left
  | right
  | stop
deriving DecidableEq, Repr

/-- The record of one iteration of a search loop: the interval `[min, max]` on entry, the probed
index `mid`, the indices at which the searched array is read, and how the iteration ends. -/
structure StepT where
  min : Nat
  max : Nat
  mid : Nat
  reads : List Nat
  move : MoveT
deriving DecidableEq, Repr

/-- The iterations of a loop `while (min <= max) { mid = (min + max) / 2; ... }` whose body, at
the probe `mid`, ends as `(body mid).1` says after reading the searched array at the indices
`(body mid).2`: one record per iteration, for at most `fuel` iterations. -/
def searchTrace (body : Nat → MoveT × List Nat) : Nat → Nat → Nat → List StepT
  | 0, _, _ => []
  | fuel + 1, min, max =>
    if min ≤ max then
      match (body ((min + max) / 2)).1 with
      | MoveT.left =>
        ⟨min, max, (min + max) / 2, (body ((min + max) / 2)).2, MoveT.left⟩ ::
          searchTrace body fuel min ((min + max) / 2 - 1)
      | MoveT.right =>
        ⟨min, max, (min + max) / 2, (body ((min + max) / 2)).2, MoveT.right⟩ ::
          searchTrace body fuel ((min + max) / 2 + 1) max
      | MoveT.stop => [⟨min, max, (min + max) / 2, (body ((min + max) / 2)).2, MoveT.stop⟩]
    else []

/-- The value of `mid` after the loop: the probe of the last iteration, or the value before
the loop if there was no iteration. -/
def lastMid : List StepT → Nat → Nat
  | [], m => m
  | s :: tr, _ => lastMid tr s.mid

/-- The body of the `while` loop of the upper branch of `findTangent` at the probe `mid`: how
the iteration ends, and the indices of `H` read by the tests evaluated (the second operand of
`&&` is evaluated only when `mid > 0`). -/
def tangentUpperBody (p : PointT) (H : List PointT) (nu mid : Nat) : MoveT × List Nat :=
  if 0 < mid ∧ RIGHT p (rd H (mid - 1)) (rd H mid) then (MoveT.left, [mid - 1, mid])
  else if mid = nu then (MoveT.stop, if 0 < mid then [mid - 1, mid] else [])
  else if ¬ RIGHT p (rd H mid) (rd H (mid + 1)) then
    (MoveT.right, (if 0 < mid then [mid - 1, mid] else []) ++ [mid, mid + 1])
  else (MoveT.stop, (if 0 < mid then [mid - 1, mid] else []) ++ [mid, mid + 1])

/-- The body of the `while` loop of the lower branch of `findTangent` at the probe `mid`. -/
def tangentLowerBody (p : PointT) (H : List PointT) (nu n mid : Nat) : MoveT × List Nat :=
  if nu < mid ∧ ¬ LEFT p (rd H (mid % n)) (rd H (mid - 1)) then (MoveT.left, [mid % n, mid - 1])
  else if mid = n then (MoveT.stop, if nu < mid then [mid % n, mid - 1] else [])
  else if LEFT p (rd H ((mid + 1) % n)) (rd H mid) then
    (MoveT.right, (if nu < mid then [mid % n, mid - 1] else []) ++ [(mid + 1) % n, mid])
  else (MoveT.stop, (if nu < mid then [mid % n, mid - 1] else []) ++ [(mid + 1) % n, mid])

/-- The body of the first `while` loop of `joinHulls` at the probe `mid`: how the iteration
ends, and the indices of `H1` read (`H1[mid]` through the pointer passed to `findTangent`). -/
def joinUpperBody (HI1 HI2 : HullT) (mid : Nat) : MoveT × List Nat :=
  if 0 < mid ∧ ¬ RIGHT (rd HI1.H (mid - 1)) (rd HI1.H mid)
      (rd HI2.H (findTangent (rd HI1.H mid) HI2 1)) then
    (MoveT.left, [mid, mid - 1, mid])
  else if mid = HI1.nu then (MoveT.stop, mid :: (if 0 < mid then [mid - 1, mid] else []))
  else if RIGHT (rd HI1.H mid) (rd HI1.H (mid + 1))
      (rd HI2.H (findTangent (rd HI1.H mid) HI2 1)) then
    (MoveT.right, mid :: (if 0 < mid then [mid - 1, mid] else []) ++ [mid, mid + 1])
  else (MoveT.stop, mid :: (if 0 < mid then [mid - 1, mid] else []) ++ [mid, mid + 1])

/-- The body of the second `while` loop of `joinHulls` at the probe `mid`. -/
def joinLowerBody (HI1 HI2 : HullT) (mid : Nat) : MoveT × List Nat :=
  if HI1.nu < mid ∧ LEFT (rd HI1.H (mid % (HI1.nu + HI1.nl))) (rd HI1.H (mid - 1))
      (rd HI2.H (findTangent (rd HI1.H (mid % (HI1.nu + HI1.nl))) HI2 0)) then
    (MoveT.left, [mid % (HI1.nu + HI1.nl), mid % (HI1.nu + HI1.nl), mid - 1])
  else if mid = HI1.nu + HI1.nl then
    (MoveT.stop, mid % (HI1.nu + HI1.nl) ::
      (if HI1.nu < mid then [mid % (HI1.nu + HI1.nl), mid - 1] else []))
  else if ¬ LEFT (rd HI1.H ((mid + 1) % (HI1.nu + HI1.nl))) (rd HI1.H mid)
      (rd HI2.H (findTangent (rd HI1.H (mid % (HI1.nu + HI1.nl))) HI2 0)) then
    (MoveT.right, mid % (HI1.nu + HI1.nl) ::
      (if HI1.nu < mid then [mid % (HI1.nu + HI1.nl), mid - 1] else [])
        ++ [(mid + 1) % (HI1.nu + HI1.nl), mid])
  else
    (MoveT.stop, mid % (HI1.nu + HI1.nl) ::
      (if HI1.nu < mid then [mid % (HI1.nu + HI1.nl), mid - 1] else [])
        ++ [(mid + 1) % (HI1.nu + HI1.nl), mid])

/-- A pointer into one of the two hull arrays allocated by `main`: `buff` is `false` for the
array `H` and `true` for the array `Hbuff`, `off` is the offset from the start of the array.
Pointer arithmetic changes the offset only. -/
structure PtrT where
  buff : Bool
  off : Nat
deriving DecidableEq, Repr

/-- The C struct `HullT` with its field `H` as a pointer. -/
structure HullP where
  H : PtrT
  nu : Nat
  nl : Nat
deriving DecidableEq, Repr

/-- The contents of the two hull arrays of `main`, with the record of all the writes performed
so far: which array (`false` for `H`, `true` for `Hbuff`) and which index. -/
structure MemT where
  H : List PointT
  Hbuff : List PointT
  writes : List (Bool × Nat)
deriving DecidableEq, Repr

/-- The array selected by `b`. -/
def MemT.arr (M : MemT) (b : Bool) : List PointT := if b then M.Hbuff else M.H

/-- The read `p[i]`. -/
def MemT.load (M : MemT) (p : PtrT) (i : Nat) : PointT := rd (M.arr p.buff) (p.off + i)

/-- The write `p[i] = v`, recorded in `writes`. -/
def MemT.store (M : MemT) (p : PtrT) (i : Nat) (v : PointT) : MemT :=
  if p.buff then ⟨M.H, M.Hbuff.set (p.off + i) v, M.writes ++ [(true, p.off + i)]⟩
  else ⟨M.H.set (p.off + i) v, M.Hbuff, M.writes ++ [(false, p.off + i)]⟩

/-- The array as seen through the pointer `p`: the entries `p[0], p[1], ...` up to the end of
the array. -/
def MemT.view (M : MemT) (p : PtrT) : List PointT := (M.arr p.buff).drop p.off

/-- A hull struct as the searches read it: the array from its pointer `H` on, with `nu` and
`nl`. -/
def MemT.hull (M : MemT) (HI : HullP) : HullT := ⟨M.view HI.H, HI.nu, HI.nl⟩

/-- A copy loop of `joinHulls`, `for (t = src + a; ...; t++) out[m++] = *t;`, running `k`
times: each iteration reads the memory as the previous ones left it. -/
def copyMem (M : MemT) (src : PtrT) (a : Nat) (out : PtrT) (m : Nat) : Nat → MemT
  | 0 => M
  | k + 1 => copyMem (M.store out m (M.load src a)) src (a + 1) out (m + 1) k

/-- The function `joinHulls(HI1, HI2, Hbuff)` on the memory: the two searches read the chains
through the pointers `HI1.H` and `HI2.H`, the four copy loops write `Hbuff[0], Hbuff[1], ...`
in the order of the source. -/
def joinHullsMem (M : MemT) (HI1 HI2 : HullP) (Hbuff : PtrT) : MemT × HullP :=
  let n1 := HI1.nu + HI1.nl
  let u := joinUpperLoop (M.hull HI1) (M.hull HI2) (HI1.nu + 1) 0 HI1.nu (0, 0)
  let l := joinLowerLoop (M.hull HI1) (M.hull HI2) (HI1.nl + 1) HI1.nu n1 (0, 0)
  let M1 := copyMem M HI1.H 0 Hbuff 0 (u.1 + 1)
  let M2 := copyMem M1 HI2.H u.2 Hbuff (u.1 + 1) (HI2.nu - u.2)
  let nu := u.1 + 1 + (HI2.nu - u.2)
  let M3 :=
    if l.2 = 0 then
      (copyMem M2 HI2.H HI2.nu Hbuff nu HI2.nl).store Hbuff (nu + HI2.nl)
        ((copyMem M2 HI2.H HI2.nu Hbuff nu HI2.nl).load HI2.H 0)
    else copyMem M2 HI2.H HI2.nu Hbuff nu (l.2 + 1 - HI2.nu)
  let m3 := nu + (if l.2 = 0 then HI2.nl + 1 else l.2 + 1 - HI2.nu)
  let M4 := if l.1 % n1 ≠ 0 then copyMem M3 HI1.H (l.1 % n1) Hbuff m3 (n1 - l.1 % n1) else M3
  let m4 := m3 + (if l.1 % n1 ≠ 0 then n1 - l.1 % n1 else 0)
  (M4, ⟨Hbuff, nu, m4 - nu⟩)

/-- The base case `n <= 3` of `mergeHull` on the memory: the hull is written to `H[0..2]`. -/
def mergeHullBaseMem (S : List PointT) (n : Nat) (H : PtrT) (M : MemT) : MemT × HullP :=
  if n = 2 then ((M.store H 0 (rd S 0)).store H 1 (rd S 1), ⟨H, 1, 1⟩)
  else if RIGHT (rd S 0) (rd S 1) (rd S 2) then
    (((M.store H 0 (rd S 0)).store H 1 (rd S 1)).store H 2 (rd S 2), ⟨H, 2, 1⟩)
  else if LEFT (rd S 0) (rd S 1) (rd S 2) then
    (((M.store H 0 (rd S 0)).store H 1 (rd S 2)).store H 2 (rd S 1), ⟨H, 1, 2⟩)
  else ((M.store H 0 (rd S 0)).store H 1 (rd S 2), ⟨H, 1, 1⟩)

/-- The function `mergeHull(S, n, H, Hbuff)` on the memory, with a recursion budget: the first
recursive call exchanges `H` and `Hbuff`, the second one is given both arrays from offset
`n1` on, and `joinHulls` writes to `H`. -/
def mergeHullMem : Nat → List PointT → Nat → PtrT → PtrT → MemT → MemT × HullP
  | 0, S, n, H, _, M => if n ≤ 3 then mergeHullBaseMem S n H M else (M, ⟨H, 0, 0⟩)
  | fuel + 1, S, n, H, Hbuff, M =>
    if n ≤ 3 then mergeHullBaseMem S n H M
    else
      let mid := n / 2
      let r1 := mergeHullMem fuel S mid Hbuff H M
      let n1 := r1.2.nu + r1.2.nl
      let r2 := mergeHullMem fuel (S.drop mid) (n - mid) ⟨Hbuff.buff, Hbuff.off + n1⟩
        ⟨H.buff, H.off + n1⟩ r1.1
      joinHullsMem r2.1 r1.2 r2.2 H

/-- Writing the list `L` to `out[m], out[m + 1], ...`. -/
def writeList (M : MemT) (out : PtrT) (m : Nat) : List PointT → MemT
  | [] => M
  | v :: L => writeList (M.store out m v) out (m + 1) L

/-- Going from the memory `M` to the memory `M2`, the two arrays keep their lengths, every
entry outside the indices `o, ..., o + n - 1` keeps its value, and every write performed in
between falls at one of these indices. -/
def Frame (M M2 : MemT) (o n : Nat) : Prop :=
  (∀ b, (M2.arr b).length = (M.arr b).length) ∧
  (∀ b j, j < o ∨ o + n ≤ j → rd (M2.arr b) j = rd (M.arr b) j) ∧
  ∃ W, M2.writes = M.writes ++ W ∧ ∀ w, w ∈ W → o ≤ w.2 ∧ w.2 < o + n

/-- The effect of a call with output pointer `H` on `n` points that computes the hull `T`:
the hull struct returned points to `H`, the chain is stored from `H[0]` on, and the memory
changes within the indices `H.off, ..., H.off + n - 1` only. -/
def MemPost (M : MemT) (H : PtrT) (n : Nat) (T : HullT) (r : MemT × HullP) : Prop :=
  r.2 = ⟨H, T.nu, T.nl⟩ ∧ (∀ i, i < T.nu + T.nl → r.1.load H i = rd T.H i) ∧
  Frame M r.1 H.off n

/-- The function `comparePoints(q1, q2)` on the two points its arguments point to, in `int`
arithmetic with wrap-around modulo `2^32`: `p1.x - p2.x` when the abscissas differ, else
`p1.y - p2.y`. -/
def comparePoints (p1 p2 : PointT) : Int :=
  if p1.x ≠ p2.x then wrap32 (p1.x - p2.x) else wrap32 (p1.y - p2.y)

/-- The one subtraction that `comparePoints` performs on `p1`, `p2` has an exact result that
is a value of a 32-bit `int`. -/
def CompareFits (p1 p2 : PointT) : Prop :=
  if p1.x ≠ p2.x then Int32 (p1.x - p2.x) else Int32 (p1.y - p2.y)

instance (p1 p2 : PointT) : Decidable (CompareFits p1 p2) := by
  unfold CompareFits; infer_instance

/-- The macro `RIGHT(a, b, c)` as the program evaluates it on `int` operands: the value of
`AREA` computed in 32-bit arithmetic is negative. -/
def RIGHT32 (a b c : PointT) : Prop := AREA32 a b c < 0

/-- The macro `LEFT(a, b, c)` as the program evaluates it on `int` operands: the value of
`AREA` computed in 32-bit arithmetic is positive. -/
def LEFT32 (a b c : PointT) : Prop := AREA32 a b c > 0

instance (a b c : PointT) : Decidable (RIGHT32 a b c) := by unfold RIGHT32; infer_instance

instance (a b c : PointT) : Decidable (LEFT32 a b c) := by unfold LEFT32; infer_instance

/-- The `while` loop of the upper branch of `findTangent` with the tests in 32-bit arithmetic;
returns the final `mid`. -/
def tangentUpperLoop32 (p : PointT) (H : List PointT) (nu : Nat) : Nat → Nat → Nat → Nat → Nat
  | 0, _, _, mid => mid
  | fuel + 1, min, max, mid =>
    if min ≤ max then
      let mid := (min + max) / 2
      if 0 < mid ∧ RIGHT32 p (rd H (mid - 1)) (rd H mid) then
        tangentUpperLoop32 p H nu fuel min (mid - 1) mid
      else if mid = nu then mid
      else if ¬ RIGHT32 p (rd H mid) (rd H (mid + 1)) then
        tangentUpperLoop32 p H nu fuel (mid + 1) max mid
      else mid
    else mid

/-- The `while` loop of the lower branch of `findTangent` with the tests in 32-bit arithmetic;
returns the final `mid`. -/
def tangentLowerLoop32 (p : PointT) (H : List PointT) (nu n : Nat) : Nat → Nat → Nat → Nat → Nat
  | 0, _, _, mid => mid
  | fuel + 1, min, max, mid =>
    if min ≤ max then
      let mid := (min + max) / 2
      if nu < mid ∧ ¬ LEFT32 p (rd H (mid % n)) (rd H (mid - 1)) then
        tangentLowerLoop32 p H nu n fuel min (mid - 1) mid
      else if mid = n then mid
      else if LEFT32 p (rd H ((mid + 1) % n)) (rd H mid) then
        tangentLowerLoop32 p H nu n fuel (mid + 1) max mid
      else mid
    else mid

/-- The function `findTangent(p, HI, upper)` with the tests in 32-bit arithmetic; the returned
pointer `H + mid%n` is the index `mid % n`. -/
def findTangent32 (p : PointT) (HI : HullT) (upper : Int) : Nat :=
  let n := HI.nu + HI.nl
  if upper ≠ 0 then
    tangentUpperLoop32 p HI.H HI.nu (HI.nu + 1) 0 HI.nu 0 % n
  else
    tangentLowerLoop32 p HI.H HI.nu n (HI.nl + 1) HI.nu n 0 % n

/-- The first `while` loop of `joinHulls` (upper tangent) with the tests in 32-bit arithmetic;
returns the final `(mid, q)`. -/
def joinUpperLoop32 (HI1 HI2 : HullT) : Nat → Nat → Nat → Nat × Nat → Nat × Nat
  | 0, _, _, s => s
  | fuel + 1, min, max, s =>
    if min ≤ max then
      let mid := (min + max) / 2
      let q := findTangent32 (rd HI1.H mid) HI2 1
      if 0 < mid ∧ ¬ RIGHT32 (rd HI1.H (mid - 1)) (rd HI1.H mid) (rd HI2.H q) then
        joinUpperLoop32 HI1 HI2 fuel min (mid - 1) (mid, q)
      else if mid = HI1.nu then (mid, q)
      else if RIGHT32 (rd HI1.H mid) (rd HI1.H (mid + 1)) (rd HI2.H q) then
        joinUpperLoop32 HI1 HI2 fuel (mid + 1) max (mid, q)
      else (mid, q)
    else s

/-- The second `while` loop of `joinHulls` (lower tangent) with the tests in 32-bit
arithmetic; returns the final `(mid, q)`. -/
def joinLowerLoop32 (HI1 HI2 : HullT) : Nat → Nat → Nat → Nat × Nat → Nat × Nat
  | 0, _, _, s => s
  | fuel + 1, min, max, s =>
    let n1 := HI1.nu + HI1.nl
    if min ≤ max then
      let mid := (min + max) / 2
      let q := findTangent32 (rd HI1.H (mid % n1)) HI2 0
      if HI1.nu < mid ∧ LEFT32 (rd HI1.H (mid % n1)) (rd HI1.H (mid - 1)) (rd HI2.H q) then
        joinLowerLoop32 HI1 HI2 fuel min (mid - 1) (mid, q)
      else if mid = n1 then (mid, q)
      else if ¬ LEFT32 (rd HI1.H ((mid + 1) % n1)) (rd HI1.H mid) (rd HI2.H q) then
        joinLowerLoop32 HI1 HI2 fuel (mid + 1) max (mid, q)
      else (mid, q)
    else s

/-- The function `joinHulls(HI1, HI2, Hbuff)` with the tests in 32-bit arithmetic; the output
array is the `H` field of the result. -/
def joinHulls32 (HI1 HI2 : HullT) : HullT :=
  let n1 := HI1.nu + HI1.nl
  let u := joinUpperLoop32 HI1 HI2 (HI1.nu + 1) 0 HI1.nu (0, 0)
  let l := joinLowerLoop32 HI1 HI2 (HI1.nl + 1) HI1.nu n1 (0, 0)
  assemble HI1 HI2 u.1 u.2 (l.1 % n1) l.2

/-- The base case `n <= 3` of `mergeHull` with the tests in 32-bit arithmetic. -/
def mergeHullBase32 (S : List PointT) (n : Nat) : HullT :=
  if n = 2 then ⟨[rd S 0, rd S 1], 1, 1⟩
  else if RIGHT32 (rd S 0) (rd S 1) (rd S 2) then ⟨[rd S 0, rd S 1, rd S 2], 2, 1⟩
  else if LEFT32 (rd S 0) (rd S 1) (rd S 2) then ⟨[rd S 0, rd S 2, rd S 1], 1, 2⟩
  else ⟨[rd S 0, rd S 2], 1, 1⟩

/-- The recursion of `mergeHull` on the first `n` entries of `S` with the tests in 32-bit
arithmetic, with a recursion budget. `S + mid` is `S.drop mid`. -/
def mergeHullAux32 : Nat → List PointT → Nat → HullT
  | 0, S, n => if n ≤ 3 then mergeHullBase32 S n else ⟨[], 0, 0⟩
  | fuel + 1, S, n =>
    if n ≤ 3 then mergeHullBase32 S n
    else
      let mid := n / 2
      let HI1 := mergeHullAux32 fuel S mid
      let HI2 := mergeHullAux32 fuel (S.drop mid) (n - mid)
      joinHulls32 HI1 HI2

/-- The function `mergeHull(S, n, H, Hbuff)` as the program runs it on `int` coordinates, every
orientation test evaluated in 32-bit arithmetic. -/
def mergeHull32 (S : List PointT) (n : Nat) : HullT := mergeHullAux32 n S n

/-- The inner `while` loop of the Graham scan with the test in 32-bit arithmetic. -/
def grahamPop32 : Nat → List PointT → Nat → List PointT × Nat
  | 0, H, m => (H, m)
  | fuel + 1, H, m =>
    if 2 < m ∧ ¬ RIGHT32 (rd H (m - 3)) (rd H (m - 2)) (rd H (m - 1)) then
      grahamPop32 fuel (H.set (m - 2) (rd H (m - 1))) (m - 1)
    else (H, m)

/-- The `for` loop of the Graham scan with the test in 32-bit arithmetic. -/
def grahamLoop32 (S : List PointT) (n : Nat) :
    Nat → Nat → List PointT → Nat → List PointT × Nat
  | 0, _, H, m => (H, m)
  | fuel + 1, i, H, m =>
    if i < n then
      grahamLoop32 S n fuel (i + 1) (grahamPop32 (m + 1) (H.set m (rd S i)) (m + 1)).1
        (grahamPop32 (m + 1) (H.set m (rd S i)) (m + 1)).2
    else (H, m)

/-- The scan of grahamScan.c as the program runs it on `int` coordinates: the printed hull
`H[0..m-1]`. -/
def grahamScan32 (S : List PointT) (n : Nat) : List PointT :=
  (grahamLoop32 S n n 2 (((List.replicate n default).set 0 (rd S 0)).set 1 (rd S 1)) 2).1.take
    (grahamLoop32 S n n 2 (((List.replicate n default).set 0 (rd S 0)).set 1 (rd S 1)) 2).2

/-- Every point of the list has both coordinates of absolute value at most `16383`. -/
def SmallList (L : List PointT) : Prop := ∀ p ∈ L, SmallPoint p

instance (L : List PointT) : Decidable (SmallList L) := by unfold SmallList; infer_instance

/-- The function `joinHulls(HI1, HI2, Hbuff)` on the memory with the tests in 32-bit
arithmetic: the two searches read the chains through the pointers `HI1.H` and `HI2.H`, the four
copy loops write `Hbuff[0], Hbuff[1], ...` in the order of the source. -/
def joinHullsMem32 (M : MemT) (HI1 HI2 : HullP) (Hbuff : PtrT) : MemT × HullP :=
  let n1 := HI1.nu + HI1.nl
  let u := joinUpperLoop32 (M.hull HI1) (M.hull HI2) (HI1.nu + 1) 0 HI1.nu (0, 0)
  let l := joinLowerLoop32 (M.hull HI1) (M.hull HI2) (HI1.nl + 1) HI1.nu n1 (0, 0)
  let M1 := copyMem M HI1.H 0 Hbuff 0 (u.1 + 1)
  let M2 := copyMem M1 HI2.H u.2 Hbuff (u.1 + 1) (HI2.nu - u.2)
  let nu := u.1 + 1 + (HI2.nu - u.2)
  let M3 :=
    if l.2 = 0 then
      (copyMem M2 HI2.H HI2.nu Hbuff nu HI2.nl).store Hbuff (nu + HI2.nl)
        ((copyMem M2 HI2.H HI2.nu Hbuff nu HI2.nl).load HI2.H 0)
    else copyMem M2 HI2.H HI2.nu Hbuff nu (l.2 + 1 - HI2.nu)
  let m3 := nu + (if l.2 = 0 then HI2.nl + 1 else l.2 + 1 - HI2.nu)
  let M4 := if l.1 % n1 ≠ 0 then copyMem M3 HI1.H (l.1 % n1) Hbuff m3 (n1 - l.1 % n1) else M3
  let m4 := m3 + (if l.1 % n1 ≠ 0 then n1 - l.1 % n1 else 0)
  (M4, ⟨Hbuff, nu, m4 - nu⟩)

/-- The base case `n <= 3` of `mergeHull` on the memory with the tests in 32-bit
arithmetic. -/
def mergeHullBaseMem32 (S : List PointT) (n : Nat) (H : PtrT) (M : MemT) : MemT × HullP :=
  if n = 2 then ((M.store H 0 (rd S 0)).store H 1 (rd S 1), ⟨H, 1, 1⟩)
  else if RIGHT32 (rd S 0) (rd S 1) (rd S 2) then
    (((M.store H 0 (rd S 0)).store H 1 (rd S 1)).store H 2 (rd S 2), ⟨H, 2, 1⟩)
  else if LEFT32 (rd S 0) (rd S 1) (rd S 2) then
    (((M.store H 0 (rd S 0)).store H 1 (rd S 2)).store H 2 (rd S 1), ⟨H, 1, 2⟩)
  else ((M.store H 0 (rd S 0)).store H 1 (rd S 2), ⟨H, 1, 1⟩)

/-- The function `mergeHull(S, n, H, Hbuff)` on the memory with the tests in 32-bit
arithmetic, with a recursion budget. -/
def mergeHullMem32 : Nat → List PointT → Nat → PtrT → PtrT → MemT → MemT × HullP
  | 0, S, n, H, _, M => if n ≤ 3 then mergeHullBaseMem32 S n H M else (M, ⟨H, 0, 0⟩)
  | fuel + 1, S, n, H, Hbuff, M =>
    if n ≤ 3 then mergeHullBaseMem32 S n H M
    else
      let mid := n / 2
      let r1 := mergeHullMem32 fuel S mid Hbuff H M
      let n1 := r1.2.nu + r1.2.nl
      let r2 := mergeHullMem32 fuel (S.drop mid) (n - mid) ⟨Hbuff.buff, Hbuff.off + n1⟩
        ⟨H.buff, H.off + n1⟩ r1.1
      joinHullsMem32 r2.1 r1.2 r2.2 H

/-! ### Cross products of integer vectors -/

theorem cr_trans {a1 a2 b1 b2 c1 c2 : Int} (ha : lexPos a1 a2) (hb : lexPos b1 b2)
    (hc : lexPos c1 c2) (hab : cr a1 a2 b1 b2 ≤ 0) (hbc : cr b1 b2 c1 c2 ≤ 0) :
    cr a1 a2 c1 c2 ≤ 0 := by
  unfold cr at *
  have key : b1 * (a1 * c2 - a2 * c1) = a1 * (b1 * c2 - b2 * c1) + c1 * (a1 * b2 - a2 * b1) := by ring
  have ha1 : 0 ≤ a1 := by rcases ha with h | h <;> omega
  have hc1 : 0 ≤ c1 := by rcases hc with h | h <;> omega
  rcases hb with hb | ⟨hb1, hb2⟩
  · have h1 : a1 * (b1 * c2 - b2 * c1) ≤ 0 := mul_nonpos_of_nonneg_of_nonpos ha1 hbc
    have h2 : c1 * (a1 * b2 - a2 * b1) ≤ 0 := mul_nonpos_of_nonneg_of_nonpos hc1 hab
    by_contra hcon
    push_neg at hcon
    have := mul_pos hb hcon
    linarith
  · subst hb1
    simp only [zero_mul, sub_zero, zero_sub, mul_zero] at *
    have ha0 : a1 = 0 := by
      by_contra hne
      have : 0 < a1 := lt_of_le_of_ne ha1 (Ne.symm hne)
      have := mul_pos this hb2
      linarith
    subst ha0
    have ha2 : 0 < a2 := by rcases ha with h | h <;> omega
    have := mul_nonneg ha2.le hc1
    simp only [zero_mul, zero_sub]
    linarith

theorem cr_trans_lt_le {a1 a2 b1 b2 c1 c2 : Int} (ha : lexPos a1 a2) (hb : lexPos b1 b2)
    (hc : lexPos c1 c2) (hab : cr a1 a2 b1 b2 < 0) (hbc : cr b1 b2 c1 c2 ≤ 0) :
    cr a1 a2 c1 c2 < 0 := by
  unfold cr at *
  have key : b1 * (a1 * c2 - a2 * c1) = a1 * (b1 * c2 - b2 * c1) + c1 * (a1 * b2 - a2 * b1) := by ring
  have ha1 : 0 ≤ a1 := by rcases ha with h | h <;> omega
  have hc1 : 0 ≤ c1 := by rcases hc with h | h <;> omega
  rcases hb with hb | ⟨hb1, hb2⟩
  · have hc1' : 0 < c1 := by
      rcases hc with h | ⟨h, h2⟩
      · exact h
      · subst h
        simp only [mul_zero, sub_zero] at hbc
        have := mul_pos hb h2
        linarith
    have h1 : a1 * (b1 * c2 - b2 * c1) ≤ 0 := mul_nonpos_of_nonneg_of_nonpos ha1 hbc
    have h2 : c1 * (a1 * b2 - a2 * b1) < 0 := mul_neg_of_pos_of_neg hc1' hab
    by_contra hcon
    push_neg at hcon
    have := mul_nonneg hb.le hcon
    linarith
  · subst hb1
    simp only [zero_mul, sub_zero, zero_sub, mul_zero] at *
    have := mul_nonneg ha1 hb2.le
    linarith

theorem cr_trans_le_lt {a1 a2 b1 b2 c1 c2 : Int} (ha : lexPos a1 a2) (hb : lexPos b1 b2)
    (hc : lexPos c1 c2) (hab : cr a1 a2 b1 b2 ≤ 0) (hbc : cr b1 b2 c1 c2 < 0) :
    cr a1 a2 c1 c2 < 0 := by
  unfold cr at *
  have key : b1 * (a1 * c2 - a2 * c1) = a1 * (b1 * c2 - b2 * c1) + c1 * (a1 * b2 - a2 * b1) := by ring
  have ha1 : 0 ≤ a1 := by rcases ha with h | h <;> omega
  have hc1 : 0 ≤ c1 := by rcases hc with h | h <;> omega
  rcases hb with hb | ⟨hb1, hb2⟩
  · rcases ha with ha | ⟨ha0, ha2⟩
    · have h1 : a1 * (b1 * c2 - b2 * c1) < 0 := mul_neg_of_pos_of_neg ha hbc
      have h2 : c1 * (a1 * b2 - a2 * b1) ≤ 0 := mul_nonpos_of_nonneg_of_nonpos hc1 hab
      by_contra hcon
      push_neg at hcon
      have := mul_nonneg hb.le hcon
      linarith
    · subst ha0
      have hc1' : 0 < c1 := by
        rcases hc with h | ⟨h, h2⟩
        · exact h
        · subst h
          simp only [mul_zero, sub_zero] at hbc
          have := mul_pos hb h2
          linarith
      simp only [zero_mul, sub_zero, zero_sub, mul_zero] at *
      have := mul_pos ha2 hc1'
      linarith
  · subst hb1
    simp only [zero_mul, sub_zero, zero_sub, mul_zero] at *
    have hc1' : 0 < c1 := by
      by_contra hne
      have : c1 = 0 := by omega
      subst this
      simp at hbc
    have ha0 : a1 = 0 := by
      by_contra hne
      have : 0 < a1 := lt_of_le_of_ne ha1 (Ne.symm hne)
      have := mul_pos this hb2
      linarith
    subst ha0
    have ha2 : 0 < a2 := by rcases ha with h | h <;> omega
    have := mul_pos ha2 hc1'
    simp only [zero_mul, zero_sub]
    linarith

theorem cr_cone {a1 a2 b1 b2 h1 h2 w1 w2 : Int} (hab : 0 < cr a1 a2 b1 b2)
    (hah : 0 ≤ cr a1 a2 h1 h2) (hhb : 0 ≤ cr h1 h2 b1 b2)
    (hwa : cr w1 w2 a1 a2 ≤ 0) (hwb : cr w1 w2 b1 b2 ≤ 0) : cr w1 w2 h1 h2 ≤ 0 := by
  unfold cr at *
  have key : (w1 * h2 - w2 * h1) * (a1 * b2 - a2 * b1)
      = (h1 * b2 - h2 * b1) * (w1 * a2 - w2 * a1) + (a1 * h2 - a2 * h1) * (w1 * b2 - w2 * b1) := by
    ring
  have e1 := mul_nonpos_of_nonneg_of_nonpos hhb hwa
  have e2 := mul_nonpos_of_nonneg_of_nonpos hah hwb
  by_contra hcon
  push_neg at hcon
  have := mul_pos hcon hab
  linarith

theorem cr_cone_ge {a1 a2 b1 b2 h1 h2 w1 w2 : Int} (hab : 0 < cr a1 a2 b1 b2)
    (hah : 0 ≤ cr a1 a2 h1 h2) (hhb : 0 ≤ cr h1 h2 b1 b2)
    (hwa : 0 ≤ cr w1 w2 a1 a2) (hwb : 0 ≤ cr w1 w2 b1 b2) : 0 ≤ cr w1 w2 h1 h2 := by
  have h := @cr_cone a1 a2 b1 b2 h1 h2 (-w1) (-w2) hab hah hhb
    (by unfold cr at *; linarith) (by unfold cr at *; linarith)
  unfold cr at *
  linarith

/-! ### Orientation of points -/

theorem lexLt_iff_lexPos (a b : PointT) : lexLt a b ↔ lexPos (b.x - a.x) (b.y - a.y) := by
  unfold lexLt lexPos
  constructor
  · rintro (h | ⟨h1, h2⟩)
    · left; omega
    · right; omega
  · rintro (h | ⟨h1, h2⟩)
    · left; omega
    · right; omega

theorem lexLt_trans {a b c : PointT} (h1 : lexLt a b) (h2 : lexLt b c) : lexLt a c := by
  unfold lexLt at *
  omega

theorem lexLt_irrefl (a : PointT) : ¬ lexLt a a := by
  unfold lexLt
  omega

theorem lexLt_asymm {a b : PointT} (h1 : lexLt a b) (h2 : lexLt b a) : False := by
  unfold lexLt at *
  omega

theorem lexLe_of_lt {a b : PointT} (h : lexLt a b) : lexLe a b := Or.inl h

theorem lexLe_refl (a : PointT) : lexLe a a := Or.inr ⟨rfl, rfl⟩

theorem lexLe_trans {a b c : PointT} (h1 : lexLe a b) (h2 : lexLe b c) : lexLe a c := by
  unfold lexLe lexLt at *
  omega

theorem lexLt_of_le_of_lt {a b c : PointT} (h1 : lexLe a b) (h2 : lexLt b c) : lexLt a c := by
  unfold lexLe lexLt at *
  omega

theorem lexLt_of_lt_of_le {a b c : PointT} (h1 : lexLt a b) (h2 : lexLe b c) : lexLt a c := by
  unfold lexLe lexLt at *
  omega

theorem vc_trans {a b c d e f : PointT} (hab : lexLt a b) (hcd : lexLt c d) (hef : lexLt e f)
    (h1 : vc a b c d ≤ 0) (h2 : vc c d e f ≤ 0) : vc a b e f ≤ 0 :=
  cr_trans ((lexLt_iff_lexPos _ _).1 hab) ((lexLt_iff_lexPos _ _).1 hcd)
    ((lexLt_iff_lexPos _ _).1 hef) h1 h2

theorem vc_trans_lt_le {a b c d e f : PointT} (hab : lexLt a b) (hcd : lexLt c d)
    (hef : lexLt e f) (h1 : vc a b c d < 0) (h2 : vc c d e f ≤ 0) : vc a b e f < 0 :=
  cr_trans_lt_le ((lexLt_iff_lexPos _ _).1 hab) ((lexLt_iff_lexPos _ _).1 hcd)
    ((lexLt_iff_lexPos _ _).1 hef) h1 h2

theorem vc_trans_le_lt {a b c d e f : PointT} (hab : lexLt a b) (hcd : lexLt c d)
    (hef : lexLt e f) (h1 : vc a b c d ≤ 0) (h2 : vc c d e f < 0) : vc a b e f < 0 :=
  cr_trans_le_lt ((lexLt_iff_lexPos _ _).1 hab) ((lexLt_iff_lexPos _ _).1 hcd)
    ((lexLt_iff_lexPos _ _).1 hef) h1 h2

/-- If `T` is a strict right turn between `A` and `B`, `s` lies in the wedge at `T`
(right of `A → T` and of `T → B`) and both `A` and `B` are on or right of the line `T → X`,
then so is `s`. -/
theorem cone_right {A T B s X : PointT} (hturn : AREA A T B < 0) (hs1 : AREA A T s ≤ 0)
    (hs2 : AREA T B s ≤ 0) (hA : AREA T X A ≤ 0) (hB : AREA T X B ≤ 0) : AREA T X s ≤ 0 := by
  have h := @cr_cone (A.x - T.x) (A.y - T.y) (B.x - T.x) (B.y - T.y) (s.x - T.x) (s.y - T.y)
    (X.x - T.x) (X.y - T.y)
    (by unfold cr; unfold AREA at hturn; linarith)
    (by unfold cr; unfold AREA at hs1; linarith)
    (by unfold cr; unfold AREA at hs2; linarith)
    (by unfold cr; unfold AREA at hA; linarith)
    (by unfold cr; unfold AREA at hB; linarith)
  unfold cr at h
  unfold AREA
  linarith

/-- The mirror image of `cone_right`: both neighbours on or left of `T → X`. -/
theorem cone_left {A T B s X : PointT} (hturn : AREA A T B < 0) (hs1 : AREA A T s ≤ 0)
    (hs2 : AREA T B s ≤ 0) (hA : 0 ≤ AREA T X A) (hB : 0 ≤ AREA T X B) : 0 ≤ AREA T X s := by
  have h := @cr_cone_ge (A.x - T.x) (A.y - T.y) (B.x - T.x) (B.y - T.y) (s.x - T.x)
    (s.y - T.y) (X.x - T.x) (X.y - T.y)
    (by unfold cr; unfold AREA at hturn; linarith)
    (by unfold cr; unfold AREA at hs1; linarith)
    (by unfold cr; unfold AREA at hs2; linarith)
    (by unfold cr; unfold AREA at hA; linarith)
    (by unfold cr; unfold AREA at hB; linarith)
  unfold cr at h
  unfold AREA
  linarith

/-! ### Segments -/

theorem seg_right {T O s X : PointT}
    (hle : (lexLe T s ∧ lexLe s O) ∨ (lexLe O s ∧ lexLe s T))
    (hcol : AREA T O s = 0) (hO : AREA T X O ≤ 0) : AREA T X s ≤ 0 := by
  unfold AREA at *
  unfold lexLe lexLt at hle
  by_cases hx : O.x = T.x
  · have hsx : s.x = T.x := by omega
    have e : (O.y - T.y) * ((X.x - T.x) * (s.y - T.y) - (s.x - T.x) * (X.y - T.y))
        = (s.y - T.y) * ((X.x - T.x) * (O.y - T.y) - (O.x - T.x) * (X.y - T.y)) := by
      rw [hsx, hx]; ring
    rcases lt_trichotomy (O.y) (T.y) with h | h | h
    · have h1 : s.y - T.y ≤ 0 := by omega
      have h2 : O.y - T.y < 0 := by omega
      have := mul_nonneg_of_nonpos_of_nonpos h1 hO
      by_contra hc
      push_neg at hc
      have := mul_neg_of_neg_of_pos h2 hc
      linarith
    · have : s.y = T.y := by omega
      rw [hsx, this]; simp
    · have h1 : 0 ≤ s.y - T.y := by omega
      have h2 : 0 < O.y - T.y := by omega
      have := mul_nonpos_of_nonneg_of_nonpos h1 hO
      by_contra hc
      push_neg at hc
      have := mul_pos h2 hc
      linarith
  · have e : (O.x - T.x) * ((X.x - T.x) * (s.y - T.y) - (s.x - T.x) * (X.y - T.y))
        = (s.x - T.x) * ((X.x - T.x) * (O.y - T.y) - (O.x - T.x) * (X.y - T.y))
          + (X.x - T.x) * ((O.x - T.x) * (s.y - T.y) - (s.x - T.x) * (O.y - T.y)) := by
      ring
    rw [hcol] at e
    rcases lt_or_gt_of_ne hx with h | h
    · have h1 : s.x - T.x ≤ 0 := by omega
      have h2 : O.x - T.x < 0 := by omega
      have := mul_nonneg_of_nonpos_of_nonpos h1 hO
      by_contra hc
      push_neg at hc
      have := mul_neg_of_neg_of_pos h2 hc
      linarith
    · have h1 : 0 ≤ s.x - T.x := by omega
      have h2 : 0 < O.x - T.x := by omega
      have := mul_nonpos_of_nonneg_of_nonpos h1 hO
      by_contra hc
      push_neg at hc
      have := mul_pos h2 hc
      linarith

theorem AREA_swap (a b c : PointT) : AREA a c b = - AREA a b c := by
  unfold AREA; ring

theorem AREA_rot (a b c : PointT) : AREA b c a = AREA a b c := by
  unfold AREA; ring

theorem AREA_self_left (a b : PointT) : AREA a a b = 0 := by
  unfold AREA; ring

theorem AREA_self_right (a b : PointT) : AREA a b b = 0 := by
  unfold AREA; ring

theorem AREA_self_mid (a b : PointT) : AREA a b a = 0 := by
  unfold AREA; ring

theorem seg_left {T O s X : PointT}
    (hle : (lexLe T s ∧ lexLe s O) ∨ (lexLe O s ∧ lexLe s T))
    (hcol : AREA T O s = 0) (hO : 0 ≤ AREA T X O) : 0 ≤ AREA T X s := by
  -- reflect `X` through `T`
  have h := @seg_right T O s ⟨0, 2 * T.x - X.x, 2 * T.y - X.y⟩ hle hcol
    (by unfold AREA at *; simp only; linarith)
  unfold AREA at *
  simp only at h
  linarith

/-! ### Consequences of validity -/

namespace Valid

variable {HI : HullT}

theorem n_pos (hv : Valid HI) : 0 < HI.nu + HI.nl := by
  have := hv.nu_pos
  omega

theorem up_lt (hv : Valid HI) : ∀ j i, i < j → j ≤ HI.nu → lexLt (rd HI.H i) (rd HI.H j) := by
  intro j
  induction j with
  | zero => intro i hi; omega
  | succ j ih =>
    intro i hi hj
    have h1 := hv.up j (by omega)
    rcases Nat.lt_or_ge i j with h | h
    · exact lexLt_trans (ih i h (by omega)) h1
    · have : i = j := by omega
      subst this
      exact h1

theorem lo_lt (hv : Valid HI) : ∀ j i, HI.nu ≤ i → i < j → j ≤ HI.nu + HI.nl →
    lexLt (rd HI.H (j % (HI.nu + HI.nl))) (rd HI.H i) := by
  intro j
  induction j with
  | zero => intro i _ hi; omega
  | succ j ih =>
    intro i hi hij hj
    have h1 := hv.lo j (by omega) (by omega)
    rcases Nat.lt_or_ge i j with h | h
    · have h2 := ih i hi h (by omega)
      rw [Nat.mod_eq_of_lt (by omega : j < HI.nu + HI.nl)] at h2
      exact lexLt_trans h1 h2
    · have : i = j := by omega
      subst this
      exact h1

theorem first_le (hv : Valid HI) (k : Nat) (hk : k < HI.nu + HI.nl) :
    lexLe (rd HI.H 0) (rd HI.H k) := by
  rcases Nat.eq_zero_or_pos k with h | h
  · subst h; exact lexLe_refl _
  · rcases Nat.lt_or_ge HI.nu k with h2 | h2
    · have := hv.lo_lt (HI.nu + HI.nl) k (by omega) hk (le_refl _)
      rw [Nat.mod_self] at this
      exact lexLe_of_lt this
    · exact lexLe_of_lt (hv.up_lt k 0 h h2)

theorem le_last (hv : Valid HI) (k : Nat) (hk : k < HI.nu + HI.nl) :
    lexLe (rd HI.H k) (rd HI.H HI.nu) := by
  rcases Nat.lt_trichotomy k HI.nu with h | h | h
  · exact lexLe_of_lt (hv.up_lt HI.nu k h (le_refl _))
  · subst h; exact lexLe_refl _
  · have := hv.lo_lt k HI.nu (le_refl _) h (by omega)
    rw [Nat.mod_eq_of_lt hk] at this
    exact lexLe_of_lt this

theorem first_lt_last (hv : Valid HI) : lexLt (rd HI.H 0) (rd HI.H HI.nu) :=
  hv.up_lt HI.nu 0 hv.nu_pos (le_refl _)

theorem cvx_cyc (hv : Valid HI) (c j : Nat) (hj : j < HI.nu + HI.nl) :
    AREA (rd HI.H (c % (HI.nu + HI.nl))) (rd HI.H ((c + 1) % (HI.nu + HI.nl)))
      (rd HI.H j) ≤ 0 := by
  have h := hv.cvx (c % (HI.nu + HI.nl)) j (Nat.mod_lt _ hv.n_pos) hj
  rwa [Nat.mod_add_mod] at h

theorem turn_cyc (hv : Valid HI) (h3 : 3 ≤ HI.nu + HI.nl) (c : Nat) :
    AREA (rd HI.H (c % (HI.nu + HI.nl))) (rd HI.H ((c + 1) % (HI.nu + HI.nl)))
      (rd HI.H ((c + 2) % (HI.nu + HI.nl))) < 0 := by
  have h := hv.turn h3 (c % (HI.nu + HI.nl)) (Nat.mod_lt _ hv.n_pos)
  rwa [Nat.mod_add_mod, Nat.mod_add_mod] at h

theorem vertex_inside (hv : Valid HI) (j : Nat) (hj : j < HI.nu + HI.nl) :
    Inside HI (rd HI.H j) :=
  ⟨fun i hi => hv.cvx i j hi hj, hv.first_le j hj, hv.le_last j hj⟩

end Valid

theorem Inside.cyc {HI : HullT} {s : PointT} (hs : Inside HI s) (hn : 0 < HI.nu + HI.nl)
    (c : Nat) :
    AREA (rd HI.H (c % (HI.nu + HI.nl))) (rd HI.H ((c + 1) % (HI.nu + HI.nl))) s ≤ 0 := by
  have h := hs.1 (c % (HI.nu + HI.nl)) (Nat.mod_lt _ hn)
  rwa [Nat.mod_add_mod] at h

/-- For a two-point chain, an inside point lies on the segment. -/
theorem Inside.seg {HI : HullT} {s : PointT} (hs : Inside HI s) (h2 : HI.nu + HI.nl = 2)
    (hnu : HI.nu = 1) :
    AREA (rd HI.H 0) (rd HI.H 1) s = 0 ∧ lexLe (rd HI.H 0) s ∧ lexLe s (rd HI.H 1) := by
  obtain ⟨h, hl1, hl2⟩ := hs
  have e0 := h 0 (by omega)
  have e1 := h 1 (by omega)
  rw [h2] at e0 e1
  rw [hnu] at hl2
  norm_num at e0 e1
  refine ⟨?_, hl1, hl2⟩
  unfold AREA at *
  linarith

namespace Valid

variable {HI : HullT}

theorem wedge_right (hv : Valid HI) {s : PointT} (hs : Inside HI s) (c : Nat) (X : PointT)
    (h1 : AREA (rd HI.H ((c + 1) % (HI.nu + HI.nl))) X (rd HI.H (c % (HI.nu + HI.nl))) ≤ 0)
    (h2 : AREA (rd HI.H ((c + 1) % (HI.nu + HI.nl))) X
      (rd HI.H ((c + 2) % (HI.nu + HI.nl))) ≤ 0) :
    AREA (rd HI.H ((c + 1) % (HI.nu + HI.nl))) X s ≤ 0 := by
  rcases Nat.lt_or_ge (HI.nu + HI.nl) 3 with h3 | h3
  · have hnu := hv.nu_pos
    have hnl := hv.nl_pos
    have hn2 : HI.nu + HI.nl = 2 := by omega
    have hnu1 : HI.nu = 1 := by omega
    obtain ⟨hcol, hl1, hl2⟩ := hs.seg hn2 hnu1
    rw [hn2] at h1 ⊢
    rcases Nat.mod_two_eq_zero_or_one c with hc | hc
    · have e1 : (c + 1) % 2 = 1 := by omega
      rw [e1, hc] at h1
      rw [e1]
      exact seg_right (Or.inr ⟨hl1, hl2⟩) (by unfold AREA at *; linarith) h1
    · have e1 : (c + 1) % 2 = 0 := by omega
      rw [e1, hc] at h1
      rw [e1]
      exact seg_right (Or.inl ⟨hl1, hl2⟩) hcol h1
  · have ht := hv.turn_cyc h3 c
    have s1 := hs.cyc hv.n_pos c
    have s2 := hs.cyc hv.n_pos (c + 1)
    exact MergeHull.cone_right ht s1 s2 h1 h2

theorem wedge_left (hv : Valid HI) {s : PointT} (hs : Inside HI s) (c : Nat) (X : PointT)
    (h1 : 0 ≤ AREA (rd HI.H ((c + 1) % (HI.nu + HI.nl))) X (rd HI.H (c % (HI.nu + HI.nl))))
    (h2 : 0 ≤ AREA (rd HI.H ((c + 1) % (HI.nu + HI.nl))) X
      (rd HI.H ((c + 2) % (HI.nu + HI.nl)))) :
    0 ≤ AREA (rd HI.H ((c + 1) % (HI.nu + HI.nl))) X s := by
  rcases Nat.lt_or_ge (HI.nu + HI.nl) 3 with h3 | h3
  · have hnu := hv.nu_pos
    have hnl := hv.nl_pos
    have hn2 : HI.nu + HI.nl = 2 := by omega
    have hnu1 : HI.nu = 1 := by omega
    obtain ⟨hcol, hl1, hl2⟩ := hs.seg hn2 hnu1
    rw [hn2] at h1 ⊢
    rcases Nat.mod_two_eq_zero_or_one c with hc | hc
    · have e1 : (c + 1) % 2 = 1 := by omega
      rw [e1, hc] at h1
      rw [e1]
      exact seg_left (Or.inr ⟨hl1, hl2⟩) (by unfold AREA at *; linarith) h1
    · have e1 : (c + 1) % 2 = 0 := by omega
      rw [e1, hc] at h1
      rw [e1]
      exact seg_left (Or.inl ⟨hl1, hl2⟩) hcol h1
  · have ht := hv.turn_cyc h3 c
    have s1 := hs.cyc hv.n_pos c
    have s2 := hs.cyc hv.n_pos (c + 1)
    exact MergeHull.cone_left ht s1 s2 h1 h2

end Valid

/-! ### The binary searches of `findTangent` -/

theorem tangentUpperLoop_spec (p : PointT) (H : List PointT) (nu : Nat) :
    ∀ fuel min max mid0, max + 1 - min ≤ fuel → min ≤ max → max ≤ nu →
      (min = 0 ∨ ¬ RIGHT p (rd H (min - 1)) (rd H min)) →
      (max = nu ∨ RIGHT p (rd H max) (rd H (max + 1))) →
      min ≤ tangentUpperLoop p H nu fuel min max mid0 ∧
      tangentUpperLoop p H nu fuel min max mid0 ≤ max ∧
      (tangentUpperLoop p H nu fuel min max mid0 = 0 ∨
        ¬ RIGHT p (rd H (tangentUpperLoop p H nu fuel min max mid0 - 1))
          (rd H (tangentUpperLoop p H nu fuel min max mid0))) ∧
      (tangentUpperLoop p H nu fuel min max mid0 = nu ∨
        RIGHT p (rd H (tangentUpperLoop p H nu fuel min max mid0))
          (rd H (tangentUpperLoop p H nu fuel min max mid0 + 1))) := by
  intro fuel
  induction fuel with
  | zero => intro min max mid0 hf hle; omega
  | succ fuel ih =>
    intro min max mid0 hf hle hmax hmin hmx
    have hm1 : min ≤ (min + max) / 2 := by omega
    have hm2 : (min + max) / 2 ≤ max := by omega
    rw [tangentUpperLoop]
    simp only [if_pos hle]
    split_ifs with h1 h2 h3
    · -- go left
      have hlt : min < (min + max) / 2 := by
        rcases Nat.lt_or_ge min ((min + max) / 2) with h | h
        · exact h
        · exfalso
          have e : (min + max) / 2 = min := by omega
          rw [e] at h1
          rcases hmin with h0 | h0
          · omega
          · exact h0 h1.2
      have hr : (min + max) / 2 - 1 + 1 = (min + max) / 2 := by omega
      have := ih min ((min + max) / 2 - 1) ((min + max) / 2) (by omega) (by omega) (by omega)
        hmin (Or.inr (by rw [hr]; exact h1.2))
      refine ⟨this.1, by omega, this.2.2.1, this.2.2.2⟩
    · -- boundary
      refine ⟨hm1, hm2, ?_, Or.inl h2⟩
      by_contra hc
      push_neg at hc
      exact h1 ⟨by omega, hc.2⟩
    · -- tangent found
      refine ⟨hm1, hm2, ?_, Or.inr h3⟩
      by_contra hc
      push_neg at hc
      exact h1 ⟨by omega, hc.2⟩
    · -- go right
      have hlt : (min + max) / 2 < max := by
        rcases Nat.lt_or_ge ((min + max) / 2) max with h | h
        · exact h
        · exfalso
          have e : (min + max) / 2 = max := by omega
          rw [e] at h2 h3
          rcases hmx with h0 | h0
          · exact h2 h0
          · exact h3 h0
      have := ih ((min + max) / 2 + 1) max ((min + max) / 2) (by omega) (by omega) hmax
        (Or.inr (by simpa using h3)) hmx
      refine ⟨by omega, this.2.1, this.2.2.1, this.2.2.2⟩

theorem tangentLowerLoop_spec (p : PointT) (H : List PointT) (nu n : Nat) :
    ∀ fuel min max mid0, max + 1 - min ≤ fuel → min ≤ max → nu ≤ min → max ≤ n →
      (min = nu ∨ LEFT p (rd H (min % n)) (rd H (min - 1))) →
      (max = n ∨ ¬ LEFT p (rd H ((max + 1) % n)) (rd H max)) →
      min ≤ tangentLowerLoop p H nu n fuel min max mid0 ∧
      tangentLowerLoop p H nu n fuel min max mid0 ≤ max ∧
      (tangentLowerLoop p H nu n fuel min max mid0 = nu ∨
        LEFT p (rd H (tangentLowerLoop p H nu n fuel min max mid0 % n))
          (rd H (tangentLowerLoop p H nu n fuel min max mid0 - 1))) ∧
      (tangentLowerLoop p H nu n fuel min max mid0 = n ∨
        ¬ LEFT p (rd H ((tangentLowerLoop p H nu n fuel min max mid0 + 1) % n))
          (rd H (tangentLowerLoop p H nu n fuel min max mid0))) := by
  intro fuel
  induction fuel with
  | zero => intro min max mid0 hf hle; omega
  | succ fuel ih =>
    intro min max mid0 hf hle hnu hmax hmin hmx
    have hm1 : min ≤ (min + max) / 2 := by omega
    have hm2 : (min + max) / 2 ≤ max := by omega
    rw [tangentLowerLoop]
    simp only [if_pos hle]
    split_ifs with h1 h2 h3
    · -- go towards the rightmost point
      have hlt : min < (min + max) / 2 := by
        rcases Nat.lt_or_ge min ((min + max) / 2) with h | h
        · exact h
        · exfalso
          have e : (min + max) / 2 = min := by omega
          rw [e] at h1
          rcases hmin with h0 | h0
          · omega
          · exact h1.2 h0
      have hr : (min + max) / 2 - 1 + 1 = (min + max) / 2 := by omega
      have := ih min ((min + max) / 2 - 1) ((min + max) / 2) (by omega) (by omega) hnu
        (by omega) hmin (Or.inr (by rw [hr]; exact h1.2))
      refine ⟨this.1, by omega, this.2.2.1, this.2.2.2⟩
    · -- boundary: leftmost point
      refine ⟨hm1, hm2, ?_, Or.inl h2⟩
      by_contra hc
      push_neg at hc
      exact h1 ⟨by omega, hc.2⟩
    · -- go towards the leftmost point
      have hlt : (min + max) / 2 < max := by
        rcases Nat.lt_or_ge ((min + max) / 2) max with h | h
        · exact h
        · exfalso
          have e : (min + max) / 2 = max := by omega
          rw [e] at h2 h3
          rcases hmx with h0 | h0
          · exact h2 h0
          · exact h0 h3
      have := ih ((min + max) / 2 + 1) max ((min + max) / 2) (by omega) (by omega) (by omega)
        hmax (Or.inr (by simpa using h3)) hmx
      refine ⟨by omega, this.2.1, this.2.2.1, this.2.2.2⟩
    · -- tangent found
      refine ⟨hm1, hm2, ?_, Or.inr h3⟩
      by_contra hc
      push_neg at hc
      exact h1 ⟨by omega, hc.2⟩

/-! ### Transitivity of the slope order with a possibly vanishing outer vector -/

theorem vc_trans_r {a b c d e f : PointT} (hab : lexLt a b) (hcd : lexLt c d)
    (hef : lexLe e f) (h1 : vc a b c d ≤ 0) (h2 : vc c d e f ≤ 0) : vc a b e f ≤ 0 := by
  rcases hef with h | ⟨hx, hy⟩
  · exact vc_trans hab hcd h h1 h2
  · unfold vc cr
    rw [hx, hy]
    simp

theorem vc_trans_l {a b c d e f : PointT} (hab : lexLe a b) (hcd : lexLt c d)
    (hef : lexLt e f) (h1 : vc a b c d ≤ 0) (h2 : vc c d e f ≤ 0) : vc a b e f ≤ 0 := by
  rcases hab with h | ⟨hx, hy⟩
  · exact vc_trans h hcd hef h1 h2
  · unfold vc cr
    rw [hx, hy]
    simp

/-- Three points of which the first two coincide are collinear. -/
theorem AREA_eq_left {a b : PointT} (h : a.x = b.x ∧ a.y = b.y) (c : PointT) :
    AREA a b c = 0 := by
  unfold AREA
  rw [h.1, h.2]
  ring

/-- Three points of which the last two coincide are collinear. -/
theorem AREA_eq_right (a : PointT) {b c : PointT} (h : b.x = c.x ∧ b.y = c.y) :
    AREA a b c = 0 := by
  unfold AREA
  rw [h.1, h.2]
  ring

/-- Three points of which the first and the last coincide are collinear. -/
theorem AREA_eq_outer {a c : PointT} (h : a.x = c.x ∧ a.y = c.y) (b : PointT) :
    AREA a b c = 0 := by
  unfold AREA
  rw [h.1, h.2]
  ring

/-- The orientation of a triple depends on coordinates only (first point). -/
theorem AREA_congr_1 {a a' : PointT} (h : a.x = a'.x ∧ a.y = a'.y) (b c : PointT) :
    AREA a b c = AREA a' b c := by
  unfold AREA
  rw [h.1, h.2]

theorem AREA_congr_2 {b b' : PointT} (h : b.x = b'.x ∧ b.y = b'.y) (a c : PointT) :
    AREA a b c = AREA a b' c := by
  unfold AREA
  rw [h.1, h.2]

theorem AREA_congr_3 {c c' : PointT} (h : c.x = c'.x ∧ c.y = c'.y) (a b : PointT) :
    AREA a b c = AREA a b c' := by
  unfold AREA
  rw [h.1, h.2]

theorem lexLt_congr_l {a a' b : PointT} (h : a.x = a'.x ∧ a.y = a'.y) (hl : lexLt a b) :
    lexLt a' b := by
  unfold lexLt at *
  omega

theorem lexLt_congr_r {a b b' : PointT} (h : b.x = b'.x ∧ b.y = b'.y) (hl : lexLt a b) :
    lexLt a b' := by
  unfold lexLt at *
  omega

theorem lexLt_ne {a b : PointT} (hl : lexLt a b) (h : a.x = b.x ∧ a.y = b.y) : False := by
  unfold lexLt at hl
  omega

/-- Every vertex other than the first is lexicographically larger than the first. -/
theorem Valid.first_lt {HI : HullT} (hv : Valid HI) (k : Nat) (h0 : 0 < k)
    (hk : k < HI.nu + HI.nl) : lexLt (rd HI.H 0) (rd HI.H k) := by
  rcases Nat.lt_or_ge HI.nu k with h2 | h2
  · have := hv.lo_lt (HI.nu + HI.nl) k (by omega) hk (le_refl _)
    rwa [Nat.mod_self] at this
  · exact hv.up_lt k 0 h0 h2

/-- Every vertex other than the one at index `nu` is lexicographically smaller than it. -/
theorem Valid.lt_last {HI : HullT} (hv : Valid HI) (k : Nat) (hk : k < HI.nu + HI.nl)
    (hne : k ≠ HI.nu) : lexLt (rd HI.H k) (rd HI.H HI.nu) := by
  rcases Nat.lt_trichotomy k HI.nu with h | h | h
  · exact hv.up_lt HI.nu k h (le_refl _)
  · exact absurd h hne
  · have := hv.lo_lt k HI.nu (le_refl _) h (by omega)
    rwa [Nat.mod_eq_of_lt hk] at this

theorem findTangent_upper_local (p : PointT) (HI : HullT) (hnl : 1 ≤ HI.nl) :
    findTangent p HI 1 ≤ HI.nu ∧
    (findTangent p HI 1 = 0 ∨
      ¬ RIGHT p (rd HI.H (findTangent p HI 1 - 1)) (rd HI.H (findTangent p HI 1))) ∧
    (findTangent p HI 1 = HI.nu ∨
      RIGHT p (rd HI.H (findTangent p HI 1)) (rd HI.H (findTangent p HI 1 + 1))) := by
  have h := tangentUpperLoop_spec p HI.H HI.nu (HI.nu + 1) 0 HI.nu 0 (by omega) (by omega)
    (le_refl _) (Or.inl rfl) (Or.inl rfl)
  have e : findTangent p HI 1 = tangentUpperLoop p HI.H HI.nu (HI.nu + 1) 0 HI.nu 0 := by
    unfold findTangent
    simp only [ne_eq, one_ne_zero, not_false_eq_true, if_true]
    exact Nat.mod_eq_of_lt (by omega)
  rw [e]
  exact ⟨h.2.1, h.2.2.1, h.2.2.2⟩

theorem findTangent_lower_local (p : PointT) (HI : HullT) :
    ∃ t, HI.nu ≤ t ∧ t ≤ HI.nu + HI.nl ∧ findTangent p HI 0 = t % (HI.nu + HI.nl) ∧
      (t = HI.nu ∨ LEFT p (rd HI.H (t % (HI.nu + HI.nl))) (rd HI.H (t - 1))) ∧
      (t = HI.nu + HI.nl ∨ ¬ LEFT p (rd HI.H ((t + 1) % (HI.nu + HI.nl))) (rd HI.H t)) := by
  have h := tangentLowerLoop_spec p HI.H HI.nu (HI.nu + HI.nl) (HI.nl + 1) HI.nu
    (HI.nu + HI.nl) 0 (by omega) (by omega) (le_refl _) (le_refl _) (Or.inl rfl) (Or.inl rfl)
  refine ⟨_, h.1, h.2.1, ?_, h.2.2.1, h.2.2.2⟩
  unfold findTangent
  simp

/-- Upper tangent from a point on the left: a local tangent vertex of the upper chain
has the whole hull on or to the right of the line from `p`. -/
theorem Valid.tangent_upper {HI : HullT} (hv : Valid HI) {p : PointT}
    (hp : lexLe p (rd HI.H 0)) {t : Nat} (ht : t ≤ HI.nu)
    (h1 : t = 0 ∨ ¬ RIGHT p (rd HI.H (t - 1)) (rd HI.H t))
    (h2 : t = HI.nu ∨ RIGHT p (rd HI.H t) (rd HI.H (t + 1)))
    {s : PointT} (hs : Inside HI s) : AREA p (rd HI.H t) s ≤ 0 := by
  have hnu := hv.nu_pos
  have hnl := hv.nl_pos
  have htn : t < HI.nu + HI.nl := by omega
  have eT : (t + (HI.nu + HI.nl) - 1 + 1) % (HI.nu + HI.nl) = t := by
    rw [show t + (HI.nu + HI.nl) - 1 + 1 = t + (HI.nu + HI.nl) by omega, Nat.add_mod_right,
      Nat.mod_eq_of_lt htn]
  have eN : (t + (HI.nu + HI.nl) - 1 + 2) % (HI.nu + HI.nl) = (t + 1) % (HI.nu + HI.nl) := by
    rw [show t + (HI.nu + HI.nl) - 1 + 2 = t + 1 + (HI.nu + HI.nl) by omega, Nat.add_mod_right]
  have hpT : lexLt p (rd HI.H t) := by
    rcases Nat.eq_zero_or_pos t with h0 | h0
    · subst h0
      rcases hp with h | h
      · exact h
      · exfalso
        rcases h2 with h' | h'
        · omega
        · unfold RIGHT at h'
          rw [AREA_eq_left h] at h'
          exact lt_irrefl _ h'
    · exact lexLt_of_le_of_lt hp (hv.up_lt t 0 h0 ht)
  -- the predecessor of `t` is on or left of `T → p`
  have hA : 0 ≤ AREA (rd HI.H t) p (rd HI.H ((t + (HI.nu + HI.nl) - 1) % (HI.nu + HI.nl))) := by
    rcases Nat.eq_zero_or_pos t with h0 | h0
    · subst h0
      have eP : (0 + (HI.nu + HI.nl) - 1) % (HI.nu + HI.nl) = HI.nu + HI.nl - 1 := by
        rw [Nat.zero_add]; exact Nat.mod_eq_of_lt (by omega)
      rw [eP]
      have hr : RIGHT p (rd HI.H 0) (rd HI.H (0 + 1)) := by
        rcases h2 with h | h
        · omega
        · exact h
      have hTB : lexLt (rd HI.H 0) (rd HI.H (0 + 1)) := hv.up 0 (by omega)
      have hTA : lexLt (rd HI.H 0) (rd HI.H (HI.nu + HI.nl - 1)) := by
        have := hv.lo (HI.nu + HI.nl - 1) (by omega) (by omega)
        rwa [show HI.nu + HI.nl - 1 + 1 = HI.nu + HI.nl by omega, Nat.mod_self] at this
      have hc := hv.cvx (HI.nu + HI.nl - 1) 1 (by omega) (by omega)
      rw [show HI.nu + HI.nl - 1 + 1 = HI.nu + HI.nl by omega, Nat.mod_self] at hc
      have k := vc_trans_lt_le hpT hTB hTA
        (by unfold RIGHT AREA at hr; unfold vc cr; linarith)
        (by unfold AREA at hc; unfold vc cr; simp only [Nat.zero_add]; linarith)
      unfold vc cr at k
      unfold AREA
      linarith
    · have eP : (t + (HI.nu + HI.nl) - 1) % (HI.nu + HI.nl) = t - 1 := by
        rw [show t + (HI.nu + HI.nl) - 1 = t - 1 + (HI.nu + HI.nl) by omega, Nat.add_mod_right]
        exact Nat.mod_eq_of_lt (by omega)
      rw [eP]
      have hr : ¬ RIGHT p (rd HI.H (t - 1)) (rd HI.H t) := by
        rcases h1 with h | h
        · omega
        · exact h
      unfold RIGHT at hr
      push_neg at hr
      unfold AREA at *
      linarith
  -- the successor of `t` is on or left of `T → p`
  have hB : 0 ≤ AREA (rd HI.H t) p (rd HI.H ((t + 1) % (HI.nu + HI.nl))) := by
    rcases Nat.lt_or_ge t HI.nu with h0 | h0
    · rw [Nat.mod_eq_of_lt (by omega : t + 1 < HI.nu + HI.nl)]
      have hr : RIGHT p (rd HI.H t) (rd HI.H (t + 1)) := by
        rcases h2 with h | h
        · omega
        · exact h
      unfold RIGHT at hr
      rw [AREA_swap] at hr
      unfold AREA at *
      linarith
    · have e : t = HI.nu := by omega
      subst e
      have eP : (HI.nu + (HI.nu + HI.nl) - 1) % (HI.nu + HI.nl) = HI.nu - 1 := by
        rw [show HI.nu + (HI.nu + HI.nl) - 1 = HI.nu - 1 + (HI.nu + HI.nl) by omega,
          Nat.add_mod_right]
        exact Nat.mod_eq_of_lt (by omega)
      rw [eP] at hA
      have hAT : lexLt (rd HI.H (HI.nu - 1)) (rd HI.H HI.nu) := by
        have := hv.up (HI.nu - 1) (by omega)
        rwa [show HI.nu - 1 + 1 = HI.nu by omega] at this
      have hBT : lexLt (rd HI.H ((HI.nu + 1) % (HI.nu + HI.nl))) (rd HI.H HI.nu) :=
        hv.lo HI.nu (le_refl _) (by omega)
      have hc := hv.cvx_cyc (HI.nu - 1) ((HI.nu + 1) % (HI.nu + HI.nl))
        (Nat.mod_lt _ hv.n_pos)
      rw [show HI.nu - 1 + 1 = HI.nu by omega, Nat.mod_eq_of_lt (by omega : HI.nu - 1 < _),
        Nat.mod_eq_of_lt (by omega : HI.nu < HI.nu + HI.nl)] at hc
      have k := vc_trans hBT hAT hpT
        (by unfold AREA at hc; unfold vc cr; linarith)
        (by unfold AREA at hA; unfold vc cr; linarith)
      unfold vc cr at k
      unfold AREA
      linarith
  have hcone := hv.wedge_left hs (t + (HI.nu + HI.nl) - 1) p
  rw [eT, eN] at hcone
  have := hcone hA hB
  rw [AREA_swap] at this
  unfold AREA at *
  linarith

namespace Valid

variable {HI : HullT}

/-- At the leftmost vertex both neighbours are lexicographically larger, and the upper
neighbour is counter-clockwise of the lower one. -/
theorem left_fan (hv : Valid HI) :
    lexLt (rd HI.H 0) (rd HI.H 1) ∧ lexLt (rd HI.H 0) (rd HI.H (HI.nu + HI.nl - 1)) ∧
    vc (rd HI.H 0) (rd HI.H 1) (rd HI.H 0) (rd HI.H (HI.nu + HI.nl - 1)) ≤ 0 := by
  have hnu := hv.nu_pos
  have hnl := hv.nl_pos
  have hTB : lexLt (rd HI.H 0) (rd HI.H (0 + 1)) := hv.up 0 (by omega)
  have hTA : lexLt (rd HI.H 0) (rd HI.H (HI.nu + HI.nl - 1)) := by
    have := hv.lo (HI.nu + HI.nl - 1) (by omega) (by omega)
    rwa [show HI.nu + HI.nl - 1 + 1 = HI.nu + HI.nl by omega, Nat.mod_self] at this
  have hc := hv.cvx (HI.nu + HI.nl - 1) 1 (by omega) (by omega)
  rw [show HI.nu + HI.nl - 1 + 1 = HI.nu + HI.nl by omega, Nat.mod_self] at hc
  refine ⟨hTB, hTA, ?_⟩
  unfold AREA at hc
  unfold vc cr
  linarith

/-- At the rightmost vertex both neighbours are lexicographically smaller, and the lower
neighbour's direction is clockwise of the upper one's. -/
theorem right_fan (hv : Valid HI) :
    lexLt (rd HI.H (HI.nu - 1)) (rd HI.H HI.nu) ∧
    lexLt (rd HI.H ((HI.nu + 1) % (HI.nu + HI.nl))) (rd HI.H HI.nu) ∧
    vc (rd HI.H ((HI.nu + 1) % (HI.nu + HI.nl))) (rd HI.H HI.nu)
      (rd HI.H (HI.nu - 1)) (rd HI.H HI.nu) ≤ 0 := by
  have hnu := hv.nu_pos
  have hnl := hv.nl_pos
  have hAT : lexLt (rd HI.H (HI.nu - 1)) (rd HI.H HI.nu) := by
    have := hv.up (HI.nu - 1) (by omega)
    rwa [show HI.nu - 1 + 1 = HI.nu by omega] at this
  have hBT : lexLt (rd HI.H ((HI.nu + 1) % (HI.nu + HI.nl))) (rd HI.H HI.nu) :=
    hv.lo HI.nu (le_refl _) (by omega)
  have hc := hv.cvx_cyc (HI.nu - 1) ((HI.nu + 1) % (HI.nu + HI.nl))
    (Nat.mod_lt _ hv.n_pos)
  rw [show HI.nu - 1 + 1 = HI.nu by omega, Nat.mod_eq_of_lt (by omega : HI.nu - 1 < _),
    Nat.mod_eq_of_lt (by omega : HI.nu < HI.nu + HI.nl)] at hc
  refine ⟨hAT, hBT, ?_⟩
  unfold AREA at hc
  unfold vc cr
  linarith

/-- Lower tangent from a point on the left. -/
theorem tangent_lower (hv : Valid HI) {p : PointT}
    (hp : lexLe p (rd HI.H 0)) {t : Nat} (ht1 : HI.nu ≤ t) (ht2 : t ≤ HI.nu + HI.nl)
    (h1 : t = HI.nu ∨ LEFT p (rd HI.H (t % (HI.nu + HI.nl))) (rd HI.H (t - 1)))
    (h2 : t = HI.nu + HI.nl ∨ ¬ LEFT p (rd HI.H ((t + 1) % (HI.nu + HI.nl))) (rd HI.H t))
    {s : PointT} (hs : Inside HI s) : 0 ≤ AREA p (rd HI.H (t % (HI.nu + HI.nl))) s := by
  have hnu := hv.nu_pos
  have hnl := hv.nl_pos
  obtain ⟨l1, l2, l3⟩ := hv.left_fan
  obtain ⟨r1, r2, r3⟩ := hv.right_fan
  have eT : (t - 1 + 1) % (HI.nu + HI.nl) = t % (HI.nu + HI.nl) := by
    rw [show t - 1 + 1 = t by omega]
  have eN : (t - 1 + 2) % (HI.nu + HI.nl) = (t + 1) % (HI.nu + HI.nl) := by
    rw [show t - 1 + 2 = t + 1 by omega]
  have eP : (t - 1) % (HI.nu + HI.nl) = t - 1 := Nat.mod_eq_of_lt (by omega)
  have hpT : lexLt p (rd HI.H (t % (HI.nu + HI.nl))) := by
    rcases Nat.lt_or_ge t (HI.nu + HI.nl) with h0 | h0
    · rw [Nat.mod_eq_of_lt h0]
      exact lexLt_of_le_of_lt hp (hv.first_lt t (by omega) h0)
    · have e : t = HI.nu + HI.nl := by omega
      rw [e, Nat.mod_self]
      rcases hp with h | h
      · exact h
      · exfalso
        rcases h1 with h' | h'
        · omega
        · rw [e, Nat.mod_self] at h'
          unfold LEFT at h'
          rw [AREA_eq_left h] at h'
          exact lt_irrefl _ h'
  have hB : AREA (rd HI.H (t % (HI.nu + HI.nl))) p
      (rd HI.H ((t + 1) % (HI.nu + HI.nl))) ≤ 0 := by
    rcases Nat.lt_or_ge t (HI.nu + HI.nl) with h0 | h0
    · have hr : ¬ LEFT p (rd HI.H ((t + 1) % (HI.nu + HI.nl))) (rd HI.H t) := by
        rcases h2 with h | h
        · omega
        · exact h
      rw [Nat.mod_eq_of_lt h0]
      unfold LEFT at hr
      unfold AREA at *
      linarith
    · have e : t = HI.nu + HI.nl := by omega
      subst e
      have hl : LEFT p (rd HI.H ((HI.nu + HI.nl) % (HI.nu + HI.nl)))
          (rd HI.H (HI.nu + HI.nl - 1)) := by
        rcases h1 with h | h
        · omega
        · exact h
      rw [Nat.mod_self] at hl hpT ⊢
      rw [show (HI.nu + HI.nl + 1) % (HI.nu + HI.nl) = 1 by
        rw [Nat.add_mod_left]; exact Nat.mod_eq_of_lt (by omega)]
      have k := vc_trans_le_lt l1 l2 hpT l3
        (by unfold LEFT AREA at hl; unfold vc cr; linarith)
      unfold vc cr at k
      unfold AREA
      linarith
  have hA : AREA (rd HI.H (t % (HI.nu + HI.nl))) p (rd HI.H (t - 1)) ≤ 0 := by
    rcases Nat.lt_or_ge HI.nu t with h0 | h0
    · have hl : LEFT p (rd HI.H (t % (HI.nu + HI.nl))) (rd HI.H (t - 1)) := by
        rcases h1 with h | h
        · omega
        · exact h
      unfold LEFT at hl
      unfold AREA at *
      linarith
    · have e : t = HI.nu := by omega
      subst e
      rw [Nat.mod_eq_of_lt (by omega : HI.nu < HI.nu + HI.nl)] at hB hpT ⊢
      have k := vc_trans hpT r2 r1
        (by unfold AREA at hB; unfold vc cr; linarith) r3
      unfold vc cr at k
      unfold AREA
      linarith
  have hcone := hv.wedge_right hs (t - 1) p
  rw [eT, eN, eP] at hcone
  have := hcone hA hB
  unfold AREA at *
  linarith

/-- Upper tangent towards a point on the right. -/
theorem tangent_upper_right (hv : Valid HI) {q : PointT}
    (hq : lexLe (rd HI.H HI.nu) q) {t : Nat} (ht : t ≤ HI.nu)
    (h1 : t = 0 ∨ RIGHT (rd HI.H (t - 1)) (rd HI.H t) q)
    (h2 : t = HI.nu ∨ ¬ RIGHT (rd HI.H t) (rd HI.H (t + 1)) q)
    {s : PointT} (hs : Inside HI s) : AREA (rd HI.H t) q s ≤ 0 := by
  have hnu := hv.nu_pos
  have hnl := hv.nl_pos
  obtain ⟨l1, l2, l3⟩ := hv.left_fan
  obtain ⟨r1, r2, r3⟩ := hv.right_fan
  have htn : t < HI.nu + HI.nl := by omega
  have eT : (t + (HI.nu + HI.nl) - 1 + 1) % (HI.nu + HI.nl) = t := by
    rw [show t + (HI.nu + HI.nl) - 1 + 1 = t + (HI.nu + HI.nl) by omega, Nat.add_mod_right,
      Nat.mod_eq_of_lt htn]
  have eN : (t + (HI.nu + HI.nl) - 1 + 2) % (HI.nu + HI.nl) = (t + 1) % (HI.nu + HI.nl) := by
    rw [show t + (HI.nu + HI.nl) - 1 + 2 = t + 1 + (HI.nu + HI.nl) by omega, Nat.add_mod_right]
  have hTq : lexLt (rd HI.H t) q := by
    rcases Nat.lt_or_ge t HI.nu with h0 | h0
    · exact lexLt_of_lt_of_le (hv.lt_last t htn (by omega)) hq
    · have e : t = HI.nu := by omega
      rw [e]
      rcases hq with h | h
      · exact h
      · exfalso
        rcases h1 with h' | h'
        · omega
        · rw [e] at h'
          unfold RIGHT at h'
          rw [AREA_eq_right _ h] at h'
          exact lt_irrefl _ h'
  have hB : t < HI.nu →
      AREA (rd HI.H t) q (rd HI.H ((t + 1) % (HI.nu + HI.nl))) ≤ 0 := by
    intro h0
    rw [Nat.mod_eq_of_lt (by omega : t + 1 < HI.nu + HI.nl)]
    have hr : ¬ RIGHT (rd HI.H t) (rd HI.H (t + 1)) q := by
      rcases h2 with h | h
      · omega
      · exact h
    unfold RIGHT at hr
    unfold AREA at *
    linarith
  have hA : 0 < t →
      AREA (rd HI.H t) q (rd HI.H ((t + (HI.nu + HI.nl) - 1) % (HI.nu + HI.nl))) < 0 := by
    intro h0
    have eP : (t + (HI.nu + HI.nl) - 1) % (HI.nu + HI.nl) = t - 1 := by
      rw [show t + (HI.nu + HI.nl) - 1 = t - 1 + (HI.nu + HI.nl) by omega, Nat.add_mod_right]
      exact Nat.mod_eq_of_lt (by omega)
    rw [eP]
    have hr : RIGHT (rd HI.H (t - 1)) (rd HI.H t) q := by
      rcases h1 with h | h
      · omega
      · exact h
    unfold RIGHT at hr
    unfold AREA at *
    linarith
  have hA' : AREA (rd HI.H t) q
      (rd HI.H ((t + (HI.nu + HI.nl) - 1) % (HI.nu + HI.nl))) ≤ 0 := by
    rcases Nat.eq_zero_or_pos t with h0 | h0
    · subst h0
      have hb := hB (by omega)
      rw [show (0 + 1) % (HI.nu + HI.nl) = 1 from Nat.mod_eq_of_lt (by omega)] at hb
      have eP : (0 + (HI.nu + HI.nl) - 1) % (HI.nu + HI.nl) = HI.nu + HI.nl - 1 := by
        rw [Nat.zero_add]; exact Nat.mod_eq_of_lt (by omega)
      rw [eP]
      have k := vc_trans hTq l1 l2 (by unfold AREA at hb; unfold vc cr; linarith) l3
      unfold vc cr at k
      unfold AREA
      linarith
    · exact le_of_lt (hA h0)
  have hB' : AREA (rd HI.H t) q (rd HI.H ((t + 1) % (HI.nu + HI.nl))) ≤ 0 := by
    rcases Nat.lt_or_ge t HI.nu with h0 | h0
    · exact hB h0
    · have e : t = HI.nu := by omega
      subst e
      have ha := hA (by omega)
      have eP : (HI.nu + (HI.nu + HI.nl) - 1) % (HI.nu + HI.nl) = HI.nu - 1 := by
        rw [show HI.nu + (HI.nu + HI.nl) - 1 = HI.nu - 1 + (HI.nu + HI.nl) by omega,
          Nat.add_mod_right]
        exact Nat.mod_eq_of_lt (by omega)
      rw [eP] at ha
      have k := vc_trans_le_lt r2 r1 hTq r3
        (by unfold AREA at ha; unfold vc cr; linarith)
      unfold vc cr at k
      unfold AREA
      linarith
  have hcone := hv.wedge_right hs (t + (HI.nu + HI.nl) - 1) q
  rw [eT, eN] at hcone
  exact hcone hA' hB'

/-- Lower tangent towards a point on the right. -/
theorem tangent_lower_right (hv : Valid HI) {q : PointT}
    (hq : lexLe (rd HI.H HI.nu) q) {t : Nat} (ht1 : HI.nu ≤ t) (ht2 : t ≤ HI.nu + HI.nl)
    (h1 : t = HI.nu ∨ ¬ LEFT (rd HI.H (t % (HI.nu + HI.nl))) (rd HI.H (t - 1)) q)
    (h2 : t = HI.nu + HI.nl ∨ LEFT (rd HI.H ((t + 1) % (HI.nu + HI.nl))) (rd HI.H t) q)
    {s : PointT} (hs : Inside HI s) : 0 ≤ AREA (rd HI.H (t % (HI.nu + HI.nl))) q s := by
  have hnu := hv.nu_pos
  have hnl := hv.nl_pos
  obtain ⟨l1, l2, l3⟩ := hv.left_fan
  obtain ⟨r1, r2, r3⟩ := hv.right_fan
  have eT : (t - 1 + 1) % (HI.nu + HI.nl) = t % (HI.nu + HI.nl) := by
    rw [show t - 1 + 1 = t by omega]
  have eN : (t - 1 + 2) % (HI.nu + HI.nl) = (t + 1) % (HI.nu + HI.nl) := by
    rw [show t - 1 + 2 = t + 1 by omega]
  have eP : (t - 1) % (HI.nu + HI.nl) = t - 1 := Nat.mod_eq_of_lt (by omega)
  have hTq : lexLt (rd HI.H (t % (HI.nu + HI.nl))) q := by
    rcases Nat.lt_or_ge HI.nu t with h0 | h0
    · exact lexLt_of_lt_of_le (hv.lt_last _ (Nat.mod_lt _ hv.n_pos) (by
        rcases Nat.lt_or_ge t (HI.nu + HI.nl) with c | c
        · rw [Nat.mod_eq_of_lt c]; omega
        · rw [show t = HI.nu + HI.nl by omega, Nat.mod_self]; omega)) hq
    · have e : t = HI.nu := by omega
      rw [e, Nat.mod_eq_of_lt (by omega)]
      rcases hq with h | h
      · exact h
      · exfalso
        rcases h2 with h' | h'
        · omega
        · rw [e] at h'
          unfold LEFT at h'
          rw [AREA_eq_right _ h] at h'
          exact lt_irrefl _ h'
  have hA : HI.nu < t → 0 ≤ AREA (rd HI.H (t % (HI.nu + HI.nl))) q (rd HI.H (t - 1)) := by
    intro h0
    have hl : ¬ LEFT (rd HI.H (t % (HI.nu + HI.nl))) (rd HI.H (t - 1)) q := by
      rcases h1 with h | h
      · omega
      · exact h
    unfold LEFT at hl
    unfold AREA at *
    linarith
  have hB : t < HI.nu + HI.nl →
      0 < AREA (rd HI.H (t % (HI.nu + HI.nl))) q (rd HI.H ((t + 1) % (HI.nu + HI.nl))) := by
    intro h0
    have hl : LEFT (rd HI.H ((t + 1) % (HI.nu + HI.nl))) (rd HI.H t) q := by
      rcases h2 with h | h
      · omega
      · exact h
    rw [Nat.mod_eq_of_lt h0]
    unfold LEFT at hl
    unfold AREA at *
    linarith
  have hA' : 0 ≤ AREA (rd HI.H (t % (HI.nu + HI.nl))) q (rd HI.H (t - 1)) := by
    rcases Nat.lt_or_ge HI.nu t with h0 | h0
    · exact hA h0
    · have e : t = HI.nu := by omega
      subst e
      have hb := hB (by omega)
      rw [Nat.mod_eq_of_lt (by omega : HI.nu < HI.nu + HI.nl)] at hb hTq ⊢
      have k := vc_trans_lt_le hTq r2 r1
        (by unfold AREA at hb; unfold vc cr; linarith) r3
      unfold vc cr at k
      unfold AREA
      linarith
  have hB' : 0 ≤ AREA (rd HI.H (t % (HI.nu + HI.nl))) q
      (rd HI.H ((t + 1) % (HI.nu + HI.nl))) := by
    rcases Nat.lt_or_ge t (HI.nu + HI.nl) with h0 | h0
    · exact le_of_lt (hB h0)
    · have e : t = HI.nu + HI.nl := by omega
      subst e
      have ha := hA (by omega)
      rw [Nat.mod_self] at ha hTq ⊢
      rw [show (HI.nu + HI.nl + 1) % (HI.nu + HI.nl) = 1 by
        rw [Nat.add_mod_left]; exact Nat.mod_eq_of_lt (by omega)]
      have k := vc_trans l1 l2 hTq l3
        (by unfold AREA at ha; unfold vc cr; linarith)
      unfold vc cr at k
      unfold AREA
      linarith
  have hcone := hv.wedge_left hs (t - 1) q
  rw [eT, eN, eP] at hcone
  exact hcone hA' hB'

end Valid

/-! ### The binary searches of `joinHulls` -/

theorem joinUpperLoop_spec (HI1 HI2 : HullT)
    (hX : ∀ m, 0 < m → m ≤ HI1.nu →
      RIGHT (rd HI1.H (m - 1)) (rd HI1.H m)
        (rd HI2.H (findTangent (rd HI1.H (m - 1)) HI2 1)) →
      RIGHT (rd HI1.H (m - 1)) (rd HI1.H m) (rd HI2.H (findTangent (rd HI1.H m) HI2 1))) :
    ∀ fuel min max s0, max + 1 - min ≤ fuel → min ≤ max → max ≤ HI1.nu →
      (min = 0 ∨ RIGHT (rd HI1.H (min - 1)) (rd HI1.H min)
        (rd HI2.H (findTangent (rd HI1.H (min - 1)) HI2 1))) →
      (max = HI1.nu ∨ ¬ RIGHT (rd HI1.H max) (rd HI1.H (max + 1))
        (rd HI2.H (findTangent (rd HI1.H (max + 1)) HI2 1))) →
      ∃ t, joinUpperLoop HI1 HI2 fuel min max s0 = (t, findTangent (rd HI1.H t) HI2 1) ∧
        min ≤ t ∧ t ≤ max ∧
        (t = 0 ∨ RIGHT (rd HI1.H (t - 1)) (rd HI1.H t)
          (rd HI2.H (findTangent (rd HI1.H t) HI2 1))) ∧
        (t = HI1.nu ∨ ¬ RIGHT (rd HI1.H t) (rd HI1.H (t + 1))
          (rd HI2.H (findTangent (rd HI1.H t) HI2 1))) := by
  intro fuel
  induction fuel with
  | zero => intro min max s0 hf hle; omega
  | succ fuel ih =>
    intro min max s0 hf hle hmax hmin hmx
    have hm1 : min ≤ (min + max) / 2 := by omega
    have hm2 : (min + max) / 2 ≤ max := by omega
    rw [joinUpperLoop]
    simp only [if_pos hle]
    split_ifs with h1 h2 h3
    · -- go left
      have hlt : min < (min + max) / 2 := by
        rcases Nat.lt_or_ge min ((min + max) / 2) with h | h
        · exact h
        · exfalso
          have e : (min + max) / 2 = min := by omega
          rw [e] at h1
          rcases hmin with h0 | h0
          · omega
          · exact h1.2 (hX min (by omega) (by omega) h0)
      have hr : (min + max) / 2 - 1 + 1 = (min + max) / 2 := by omega
      obtain ⟨t, e, b1, b2, c1, c2⟩ := ih min ((min + max) / 2 - 1)
        ((min + max) / 2, findTangent (rd HI1.H ((min + max) / 2)) HI2 1)
        (by omega) (by omega) (by omega) hmin (Or.inr (by rw [hr]; exact h1.2))
      exact ⟨t, e, b1, by omega, c1, c2⟩
    · -- boundary
      refine ⟨_, rfl, hm1, hm2, ?_, Or.inl h2⟩
      by_contra hc
      push_neg at hc
      exact h1 ⟨by omega, hc.2⟩
    · -- go right
      have hlt : (min + max) / 2 < max := by
        rcases Nat.lt_or_ge ((min + max) / 2) max with h | h
        · exact h
        · exfalso
          have e : (min + max) / 2 = max := by omega
          rw [e] at h2 h3
          rcases hmx with h0 | h0
          · exact h2 h0
          · exact h0 (hX (max + 1) (by omega) (by omega) h3)
      obtain ⟨t, e, b1, b2, c1, c2⟩ := ih ((min + max) / 2 + 1) max
        ((min + max) / 2, findTangent (rd HI1.H ((min + max) / 2)) HI2 1)
        (by omega) (by omega) hmax (Or.inr (by simpa using h3)) hmx
      exact ⟨t, e, by omega, b2, c1, c2⟩
    · -- tangent found
      refine ⟨_, rfl, hm1, hm2, ?_, Or.inr h3⟩
      by_contra hc
      push_neg at hc
      exact h1 ⟨by omega, hc.2⟩

theorem joinLowerLoop_spec (HI1 HI2 : HullT)
    (hY : ∀ m, HI1.nu < m → m ≤ HI1.nu + HI1.nl →
      LEFT (rd HI1.H (m % (HI1.nu + HI1.nl))) (rd HI1.H (m - 1))
        (rd HI2.H (findTangent (rd HI1.H (m % (HI1.nu + HI1.nl))) HI2 0)) →
      LEFT (rd HI1.H (m % (HI1.nu + HI1.nl))) (rd HI1.H (m - 1))
        (rd HI2.H (findTangent (rd HI1.H ((m - 1) % (HI1.nu + HI1.nl))) HI2 0))) :
    ∀ fuel min max s0, max + 1 - min ≤ fuel → min ≤ max → HI1.nu ≤ min →
      max ≤ HI1.nu + HI1.nl →
      (min = HI1.nu ∨ ¬ LEFT (rd HI1.H (min % (HI1.nu + HI1.nl))) (rd HI1.H (min - 1))
        (rd HI2.H (findTangent (rd HI1.H ((min - 1) % (HI1.nu + HI1.nl))) HI2 0))) →
      (max = HI1.nu + HI1.nl ∨
        LEFT (rd HI1.H ((max + 1) % (HI1.nu + HI1.nl))) (rd HI1.H max)
          (rd HI2.H (findTangent (rd HI1.H ((max + 1) % (HI1.nu + HI1.nl))) HI2 0))) →
      ∃ t, joinLowerLoop HI1 HI2 fuel min max s0
          = (t, findTangent (rd HI1.H (t % (HI1.nu + HI1.nl))) HI2 0) ∧
        min ≤ t ∧ t ≤ max ∧
        (t = HI1.nu ∨ ¬ LEFT (rd HI1.H (t % (HI1.nu + HI1.nl))) (rd HI1.H (t - 1))
          (rd HI2.H (findTangent (rd HI1.H (t % (HI1.nu + HI1.nl))) HI2 0))) ∧
        (t = HI1.nu + HI1.nl ∨
          LEFT (rd HI1.H ((t + 1) % (HI1.nu + HI1.nl))) (rd HI1.H t)
            (rd HI2.H (findTangent (rd HI1.H (t % (HI1.nu + HI1.nl))) HI2 0))) := by
  intro fuel
  induction fuel with
  | zero => intro min max s0 hf hle; omega
  | succ fuel ih =>
    intro min max s0 hf hle hnu hmax hmin hmx
    have hm1 : min ≤ (min + max) / 2 := by omega
    have hm2 : (min + max) / 2 ≤ max := by omega
    rw [joinLowerLoop]
    simp only [if_pos hle]
    split_ifs with h1 h2 h3
    · -- go towards the rightmost point
      have hlt : min < (min + max) / 2 := by
        rcases Nat.lt_or_ge min ((min + max) / 2) with h | h
        · exact h
        · exfalso
          have e : (min + max) / 2 = min := by omega
          rw [e] at h1
          rcases hmin with h0 | h0
          · omega
          · exact h0 (hY min (by omega) (by omega) h1.2)
      have hr : (min + max) / 2 - 1 + 1 = (min + max) / 2 := by omega
      obtain ⟨t, e, b1, b2, c1, c2⟩ := ih min ((min + max) / 2 - 1)
        ((min + max) / 2,
          findTangent (rd HI1.H ((min + max) / 2 % (HI1.nu + HI1.nl))) HI2 0)
        (by omega) (by omega) hnu (by omega) hmin (Or.inr (by rw [hr]; exact h1.2))
      exact ⟨t, e, b1, by omega, c1, c2⟩
    · -- boundary: leftmost point
      refine ⟨_, rfl, hm1, hm2, ?_, Or.inl h2⟩
      by_contra hc
      push_neg at hc
      exact h1 ⟨by omega, hc.2⟩
    · -- tangent found
      have hlt : (min + max) / 2 < HI1.nu + HI1.nl := by omega
      refine ⟨_, rfl, hm1, hm2, ?_, Or.inr ?_⟩
      · by_contra hc
        push_neg at hc
        exact h1 ⟨by omega, hc.2⟩
      · rw [Nat.mod_eq_of_lt hlt]
        rw [Nat.mod_eq_of_lt hlt] at h3
        exact h3
    · -- go towards the leftmost point
      have hlt0 : (min + max) / 2 < HI1.nu + HI1.nl := by omega
      have hlt : (min + max) / 2 < max := by
        rcases Nat.lt_or_ge ((min + max) / 2) max with h | h
        · exact h
        · exfalso
          have e : (min + max) / 2 = max := by omega
          rw [e] at h2 h3
          rcases hmx with h0 | h0
          · exact h2 h0
          · have := hY (max + 1) (by omega) (by omega) h0
            rw [show max + 1 - 1 = max by omega] at this
            exact h3 this
      obtain ⟨t, e, b1, b2, c1, c2⟩ := ih ((min + max) / 2 + 1) max
        ((min + max) / 2,
          findTangent (rd HI1.H ((min + max) / 2 % (HI1.nu + HI1.nl))) HI2 0)
        (by omega) (by omega) (by omega) hmax
        (Or.inr (by rw [show (min + max) / 2 + 1 - 1 = (min + max) / 2 by omega]; exact h3))
        hmx
      exact ⟨t, e, by omega, b2, c1, c2⟩

theorem findTangent_upper_lt {HI : HullT} (hv : Valid HI) (p : PointT) :
    findTangent p HI 1 < HI.nu + HI.nl := by
  have := (findTangent_upper_local p HI hv.nl_pos).1
  have := hv.nl_pos
  omega

theorem findTangent_lower_lt {HI : HullT} (hv : Valid HI) (p : PointT) :
    findTangent p HI 0 < HI.nu + HI.nl := by
  obtain ⟨t, _, _, e, _⟩ := findTangent_lower_local p HI
  rw [e]
  exact Nat.mod_lt _ hv.n_pos

theorem findTangent_upper_tangent {HI : HullT} (hv : Valid HI) {p : PointT}
    (hp : lexLe p (rd HI.H 0)) {s : PointT} (hs : Inside HI s) :
    AREA p (rd HI.H (findTangent p HI 1)) s ≤ 0 := by
  obtain ⟨h0, h1, h2⟩ := findTangent_upper_local p HI hv.nl_pos
  exact hv.tangent_upper hp h0 h1 h2 hs

theorem findTangent_lower_tangent {HI : HullT} (hv : Valid HI) {p : PointT}
    (hp : lexLe p (rd HI.H 0)) {s : PointT} (hs : Inside HI s) :
    0 ≤ AREA p (rd HI.H (findTangent p HI 0)) s := by
  obtain ⟨t, h0, h0', e, h1, h2⟩ := findTangent_lower_local p HI
  rw [e]
  exact hv.tangent_lower hp h0 h0' h1 h2 hs

/-- Every vertex of the left hull is lexicographically on or below every vertex of the right
hull. -/
theorem sep_le {HI1 HI2 : HullT} (hv1 : Valid HI1) (hv2 : Valid HI2)
    (hsep : lexLe (rd HI1.H HI1.nu) (rd HI2.H 0)) {i j : Nat} (hi : i < HI1.nu + HI1.nl)
    (hj : j < HI2.nu + HI2.nl) : lexLe (rd HI1.H i) (rd HI2.H j) :=
  lexLe_trans (lexLe_trans (hv1.le_last i hi) hsep) (hv2.first_le j hj)

/-- Every vertex of the left hull is lexicographically below every vertex of the right hull,
except that the last vertex of the left and the first vertex of the right hull may coincide. -/
theorem sep_lt {HI1 HI2 : HullT} (hv1 : Valid HI1) (hv2 : Valid HI2)
    (hsep : lexLe (rd HI1.H HI1.nu) (rd HI2.H 0)) {i j : Nat} (hi : i < HI1.nu + HI1.nl)
    (hj : j < HI2.nu + HI2.nl) (hij : i ≠ HI1.nu ∨ j ≠ 0) :
    lexLt (rd HI1.H i) (rd HI2.H j) := by
  rcases hij with h | h
  · exact lexLt_of_lt_of_le (hv1.lt_last i hi h) (lexLe_trans hsep (hv2.first_le j hj))
  · exact lexLt_of_le_of_lt (lexLe_trans (hv1.le_last i hi) hsep)
      (hv2.first_lt j (by omega) hj)

theorem join_upper_mono {HI1 HI2 : HullT} (hv1 : Valid HI1) (hv2 : Valid HI2)
    (hsep : lexLe (rd HI1.H HI1.nu) (rd HI2.H 0)) (m : Nat) (hm0 : 0 < m) (hm : m ≤ HI1.nu)
    (h : RIGHT (rd HI1.H (m - 1)) (rd HI1.H m)
      (rd HI2.H (findTangent (rd HI1.H (m - 1)) HI2 1))) :
    RIGHT (rd HI1.H (m - 1)) (rd HI1.H m) (rd HI2.H (findTangent (rd HI1.H m) HI2 1)) := by
  have hnl := hv1.nl_pos
  have hAB : lexLt (rd HI1.H (m - 1)) (rd HI1.H m) := hv1.up_lt m (m - 1) (by omega) hm
  have hq := findTangent_upper_lt hv2 (rd HI1.H (m - 1))
  have hq' := findTangent_upper_lt hv2 (rd HI1.H m)
  have hAq := sep_lt hv1 hv2 hsep (by omega : m - 1 < HI1.nu + HI1.nl) hq (Or.inl (by omega))
  have hA0 := sep_le hv1 hv2 hsep (by omega : m - 1 < HI1.nu + HI1.nl) hv2.n_pos
  have hBq' : lexLt (rd HI1.H m) (rd HI2.H (findTangent (rd HI1.H m) HI2 1)) := by
    rcases Nat.lt_or_ge m HI1.nu with c | c
    · exact sep_lt hv1 hv2 hsep (by omega) hq' (Or.inl (by omega))
    · have e : m = HI1.nu := by omega
      rw [e]
      rcases hsep with hs | hc
      · exact lexLt_of_lt_of_le hs (hv2.first_le _ (by rw [← e]; exact hq'))
      · exfalso
        have ht0 := findTangent_upper_tangent hv2 hA0 (hv2.vertex_inside 0 hv2.n_pos)
        unfold RIGHT at h
        rw [e, AREA_congr_2 hc] at h
        rw [e, AREA_swap] at ht0
        omega
  have ht := findTangent_upper_tangent hv2 hA0 (hv2.vertex_inside _ hq')
  unfold RIGHT at *
  by_contra hc
  push_neg at hc
  have k := vc_trans_le_lt hBq' hAB hAq
    (by unfold AREA at hc; unfold vc cr; linarith)
    (by unfold AREA at h; unfold vc cr; linarith)
  unfold vc cr at k
  unfold AREA at *
  linarith

theorem join_lower_mono {HI1 HI2 : HullT} (hv1 : Valid HI1) (hv2 : Valid HI2)
    (hsep : lexLe (rd HI1.H HI1.nu) (rd HI2.H 0)) (m : Nat) (hm0 : HI1.nu < m)
    (hm : m ≤ HI1.nu + HI1.nl)
    (h : LEFT (rd HI1.H (m % (HI1.nu + HI1.nl))) (rd HI1.H (m - 1))
      (rd HI2.H (findTangent (rd HI1.H (m % (HI1.nu + HI1.nl))) HI2 0))) :
    LEFT (rd HI1.H (m % (HI1.nu + HI1.nl))) (rd HI1.H (m - 1))
      (rd HI2.H (findTangent (rd HI1.H ((m - 1) % (HI1.nu + HI1.nl))) HI2 0)) := by
  have hnu := hv1.nu_pos
  have hBA : lexLt (rd HI1.H (m % (HI1.nu + HI1.nl))) (rd HI1.H (m - 1)) :=
    hv1.lo_lt m (m - 1) (by omega) (by omega) hm
  have e1 : (m - 1) % (HI1.nu + HI1.nl) = m - 1 := Nat.mod_eq_of_lt (by omega)
  rw [e1]
  have hmm := Nat.mod_lt m hv1.n_pos
  have hmne : m % (HI1.nu + HI1.nl) ≠ HI1.nu := by
    rcases Nat.lt_or_ge m (HI1.nu + HI1.nl) with c | c
    · rw [Nat.mod_eq_of_lt c]; omega
    · rw [show m = HI1.nu + HI1.nl by omega, Nat.mod_self]; omega
  have hq := findTangent_lower_lt hv2 (rd HI1.H (m % (HI1.nu + HI1.nl)))
  have hq' := findTangent_lower_lt hv2 (rd HI1.H (m - 1))
  have hBq := sep_lt hv1 hv2 hsep hmm hq (Or.inl hmne)
  have hB0 := sep_le hv1 hv2 hsep hmm hv2.n_pos
  have hAq' : lexLt (rd HI1.H (m - 1)) (rd HI2.H (findTangent (rd HI1.H (m - 1)) HI2 0)) := by
    rcases Nat.lt_or_ge HI1.nu (m - 1) with c | c
    · exact sep_lt hv1 hv2 hsep (by omega) hq' (Or.inl (by omega))
    · have e : m - 1 = HI1.nu := by omega
      rw [e]
      rcases hsep with hs | hc
      · exact lexLt_of_lt_of_le hs (hv2.first_le _ (by rw [← e]; exact hq'))
      · exfalso
        have ht0 := findTangent_lower_tangent hv2 hB0 (hv2.vertex_inside 0 hv2.n_pos)
        unfold LEFT at h
        rw [e, AREA_congr_2 hc] at h
        rw [AREA_swap] at ht0
        omega
  have ht := findTangent_lower_tangent hv2 hB0 (hv2.vertex_inside _ hq')
  unfold LEFT at *
  by_contra hc
  push_neg at hc
  have k := vc_trans_lt_le hBq hBA hAq'
    (by unfold AREA at h; unfold vc cr; linarith)
    (by unfold AREA at hc; unfold vc cr; linarith)
  unfold vc cr at k
  unfold AREA at *
  linarith

theorem joinHulls_bridges {HI1 HI2 : HullT} (hv1 : Valid HI1) (hv2 : Valid HI2)
    (hsep : lexLe (rd HI1.H HI1.nu) (rd HI2.H 0)) :
    ∃ pu qu tl tq, Bridges HI1 HI2 pu qu tl tq ∧
      joinHulls HI1 HI2
        = assemble HI1 HI2 pu qu (tl % (HI1.nu + HI1.nl)) (tq % (HI2.nu + HI2.nl)) := by
  have hnu1 := hv1.nu_pos
  have hnl1 := hv1.nl_pos
  obtain ⟨pu, eu, _, hpu, cu1, cu2⟩ := joinUpperLoop_spec HI1 HI2
    (join_upper_mono hv1 hv2 hsep) (HI1.nu + 1) 0 HI1.nu (0, 0) (by omega) (by omega)
    (le_refl _) (Or.inl rfl) (Or.inl rfl)
  obtain ⟨tl, el, htl1, htl2, cl1, cl2⟩ := joinLowerLoop_spec HI1 HI2
    (join_lower_mono hv1 hv2 hsep) (HI1.nl + 1) HI1.nu (HI1.nu + HI1.nl) (0, 0) (by omega)
    (by omega) (le_refl _) (le_refl _) (Or.inl rfl) (Or.inl rfl)
  obtain ⟨q0, q1, q2⟩ := findTangent_upper_local (rd HI1.H pu) HI2 hv2.nl_pos
  obtain ⟨tq, r0, r0', er, r1, r2⟩ :=
    findTangent_lower_local (rd HI1.H (tl % (HI1.nu + HI1.nl))) HI2
  refine ⟨pu, findTangent (rd HI1.H pu) HI2 1, tl, tq, ?_, ?_⟩
  · rw [er] at cl1 cl2
    exact ⟨hpu, cu1, cu2, q0, q1, q2, htl1, htl2, cl1, cl2, r0, r0', r1, r2⟩
  · unfold joinHulls
    simp only [eu, el, er]

/-! ### The two bridges support both hulls -/

section bridges

variable {HI1 HI2 : HullT} {pu qu tl tq : Nat}

theorem Bridges.pu_lt (hb : Bridges HI1 HI2 pu qu tl tq) (hv1 : Valid HI1) :
    pu < HI1.nu + HI1.nl := by
  have := hb.pu_le
  have := hv1.nl_pos
  omega

theorem Bridges.qu_lt (hb : Bridges HI1 HI2 pu qu tl tq) (hv2 : Valid HI2) :
    qu < HI2.nu + HI2.nl := by
  have := hb.qu_le
  have := hv2.nl_pos
  omega

theorem Bridges.upper_right (hb : Bridges HI1 HI2 pu qu tl tq) (hv1 : Valid HI1)
    (hv2 : Valid HI2) (hsep : lexLe (rd HI1.H HI1.nu) (rd HI2.H 0)) {s : PointT}
    (hs : Inside HI2 s) : AREA (rd HI1.H pu) (rd HI2.H qu) s ≤ 0 :=
  hv2.tangent_upper (sep_le hv1 hv2 hsep (hb.pu_lt hv1) hv2.n_pos) hb.qu_le hb.qu_l hb.qu_r hs

theorem Bridges.upper_left (hb : Bridges HI1 HI2 pu qu tl tq) (hv1 : Valid HI1)
    (hv2 : Valid HI2) (hsep : lexLe (rd HI1.H HI1.nu) (rd HI2.H 0)) {s : PointT}
    (hs : Inside HI1 s) : AREA (rd HI1.H pu) (rd HI2.H qu) s ≤ 0 :=
  hv1.tangent_upper_right
    (sep_le hv1 hv2 hsep (by have := hv1.nl_pos; omega) (hb.qu_lt hv2)) hb.pu_le hb.pu_l
    hb.pu_r hs

theorem Bridges.lower_right (hb : Bridges HI1 HI2 pu qu tl tq) (hv1 : Valid HI1)
    (hv2 : Valid HI2) (hsep : lexLe (rd HI1.H HI1.nu) (rd HI2.H 0)) {s : PointT}
    (hs : Inside HI2 s) :
    0 ≤ AREA (rd HI1.H (tl % (HI1.nu + HI1.nl))) (rd HI2.H (tq % (HI2.nu + HI2.nl))) s :=
  hv2.tangent_lower (sep_le hv1 hv2 hsep (Nat.mod_lt _ hv1.n_pos) hv2.n_pos) hb.tq_ge hb.tq_le
    hb.tq_l hb.tq_r hs

theorem Bridges.lower_left (hb : Bridges HI1 HI2 pu qu tl tq) (hv1 : Valid HI1)
    (hv2 : Valid HI2) (hsep : lexLe (rd HI1.H HI1.nu) (rd HI2.H 0)) {s : PointT}
    (hs : Inside HI1 s) :
    0 ≤ AREA (rd HI1.H (tl % (HI1.nu + HI1.nl))) (rd HI2.H (tq % (HI2.nu + HI2.nl))) s :=
  hv1.tangent_lower_right
    (sep_le hv1 hv2 hsep (by have := hv1.nl_pos; omega) (Nat.mod_lt _ hv2.n_pos)) hb.tl_ge
    hb.tl_le hb.tl_l hb.tl_r hs

/-- The upper bridge ascends strictly in the lexicographic order. -/
theorem Bridges.upper_lt (hb : Bridges HI1 HI2 pu qu tl tq) (hv1 : Valid HI1)
    (hv2 : Valid HI2) (hsep : lexLe (rd HI1.H HI1.nu) (rd HI2.H 0)) :
    lexLt (rd HI1.H pu) (rd HI2.H qu) := by
  have hnu := hv1.nu_pos
  by_cases h : pu = HI1.nu ∧ qu = 0
  · obtain ⟨h1, h2⟩ := h
    rw [h1, h2]
    rcases hsep with hs | hc
    · exact hs
    · exfalso
      rcases hb.pu_l with h' | h'
      · omega
      · rw [h1, h2] at h'
        unfold RIGHT at h'
        rw [AREA_eq_right _ hc] at h'
        exact lt_irrefl _ h'
  · exact sep_lt hv1 hv2 hsep (hb.pu_lt hv1) (hb.qu_lt hv2) (by omega)

/-- The lower bridge ascends strictly in the lexicographic order. -/
theorem Bridges.lower_lt (hb : Bridges HI1 HI2 pu qu tl tq) (hv1 : Valid HI1)
    (hv2 : Valid HI2) (hsep : lexLe (rd HI1.H HI1.nu) (rd HI2.H 0)) :
    lexLt (rd HI1.H (tl % (HI1.nu + HI1.nl))) (rd HI2.H (tq % (HI2.nu + HI2.nl))) := by
  have hnu1 := hv1.nu_pos
  have hnl1 := hv1.nl_pos
  have hnu2 := hv2.nu_pos
  have hnl2 := hv2.nl_pos
  have h1 := hb.tl_ge
  have h2 := hb.tl_le
  have h3 := hb.tq_ge
  have h4 := hb.tq_le
  by_cases h : tl = HI1.nu ∧ tq = HI2.nu + HI2.nl
  · obtain ⟨e1, e2⟩ := h
    rw [e1, e2, Nat.mod_self, Nat.mod_eq_of_lt (by omega)]
    rcases hsep with hs | hc
    · exact hs
    · exfalso
      rcases hb.tq_l with h' | h'
      · omega
      · rw [e1, e2, Nat.mod_self, Nat.mod_eq_of_lt (by omega)] at h'
        unfold LEFT at h'
        rw [AREA_eq_left hc] at h'
        exact lt_irrefl _ h'
  · refine sep_lt hv1 hv2 hsep (Nat.mod_lt _ hv1.n_pos) (Nat.mod_lt _ hv2.n_pos) ?_
    by_cases c : tl = HI1.nu
    · right
      have : tq < HI2.nu + HI2.nl := by omega
      rw [Nat.mod_eq_of_lt this]
      omega
    · left
      rcases Nat.lt_or_ge tl (HI1.nu + HI1.nl) with d | d
      · rw [Nat.mod_eq_of_lt d]; exact c
      · rw [show tl = HI1.nu + HI1.nl by omega, Nat.mod_self]; omega

/-- Points inside the right hull are on the right of the kept upper edges of the left hull. -/
theorem Bridges.left_upper_edge (hb : Bridges HI1 HI2 pu qu tl tq) (hv1 : Valid HI1)
    (hv2 : Valid HI2) (hsep : lexLe (rd HI1.H HI1.nu) (rd HI2.H 0)) {i : Nat} (hi : i < pu)
    {s : PointT} (hs : Inside HI2 s) : AREA (rd HI1.H i) (rd HI1.H (i + 1)) s ≤ 0 := by
  have hpu := hb.pu_le
  have hpn := hb.pu_lt hv1
  have hd : lexLt (rd HI1.H i) (rd HI1.H (i + 1)) := hv1.up i (by omega)
  have hg : lexLt (rd HI1.H i) (rd HI1.H pu) := hv1.up_lt pu i hi hpu
  have hw : lexLt (rd HI1.H pu) (rd HI2.H qu) := hb.upper_lt hv1 hv2 hsep
  have hz : lexLe (rd HI1.H pu) s :=
    lexLe_trans (sep_le hv1 hv2 hsep hpn hv2.n_pos) hs.2.1
  have c1 := hv1.cvx i pu (by omega) hpn
  rw [Nat.mod_eq_of_lt (by omega : i + 1 < HI1.nu + HI1.nl)] at c1
  have c2 := hb.upper_left hv1 hv2 hsep (hv1.vertex_inside i (by omega))
  have c3 := hb.upper_right hv1 hv2 hsep hs
  have k1 := vc_trans hd hg hw (by unfold AREA at c1; unfold vc cr; linarith)
    (by unfold AREA at c2; unfold vc cr; linarith)
  have k2 := vc_trans_r hd hw hz k1 (by unfold AREA at c3; unfold vc cr; linarith)
  unfold vc cr at k2
  unfold AREA at *
  linarith

/-- Points inside the left hull are on the right of the kept upper edges of the right hull. -/
theorem Bridges.right_upper_edge (hb : Bridges HI1 HI2 pu qu tl tq) (hv1 : Valid HI1)
    (hv2 : Valid HI2) (hsep : lexLe (rd HI1.H HI1.nu) (rd HI2.H 0)) {c : Nat} (hc1 : qu ≤ c)
    (hc2 : c < HI2.nu) {s : PointT} (hs : Inside HI1 s) :
    AREA (rd HI2.H c) (rd HI2.H (c + 1)) s ≤ 0 := by
  have hnl := hv2.nl_pos
  have hqn := hb.qu_lt hv2
  have hd : lexLt (rd HI2.H c) (rd HI2.H (c + 1)) := hv2.up c hc2
  have hg : lexLt (rd HI2.H qu) (rd HI2.H (c + 1)) := hv2.up_lt (c + 1) qu (by omega) (by omega)
  have hw : lexLt (rd HI1.H pu) (rd HI2.H qu) := hb.upper_lt hv1 hv2 hsep
  have hz : lexLe s (rd HI2.H qu) :=
    lexLe_trans hs.2.2 (lexLe_trans hsep (hv2.first_le qu hqn))
  have c1 := hv2.cvx c qu (by omega) hqn
  rw [Nat.mod_eq_of_lt (by omega : c + 1 < HI2.nu + HI2.nl)] at c1
  have c2 := hb.upper_right hv1 hv2 hsep (hv2.vertex_inside (c + 1) (by omega))
  have c3 := hb.upper_left hv1 hv2 hsep hs
  have k1 := vc_trans_l hz hw hg (by unfold AREA at c3; unfold vc cr; linarith)
    (by unfold AREA at c2; unfold vc cr; linarith)
  have k2 := vc_trans_l hz hg hd k1 (by unfold AREA at c1; unfold vc cr; linarith)
  unfold vc cr at k2
  unfold AREA at *
  linarith

/-- Points inside the left hull are on the right of the kept lower edges of the right hull. -/
theorem Bridges.right_lower_edge (hb : Bridges HI1 HI2 pu qu tl tq) (hv1 : Valid HI1)
    (hv2 : Valid HI2) (hsep : lexLe (rd HI1.H HI1.nu) (rd HI2.H 0)) {c : Nat}
    (hc1 : HI2.nu ≤ c) (hc2 : c < tq) {s : PointT} (hs : Inside HI1 s) :
    AREA (rd HI2.H c) (rd HI2.H ((c + 1) % (HI2.nu + HI2.nl))) s ≤ 0 := by
  have htq := hb.tq_le
  have hcn : c < HI2.nu + HI2.nl := by omega
  have hqn := Nat.mod_lt tq hv2.n_pos
  have hn1 := Nat.mod_lt (c + 1) hv2.n_pos
  have he : lexLt (rd HI2.H ((c + 1) % (HI2.nu + HI2.nl))) (rd HI2.H c) := hv2.lo c hc1 hcn
  have hg : lexLt (rd HI2.H (tq % (HI2.nu + HI2.nl))) (rd HI2.H c) :=
    hv2.lo_lt tq c hc1 hc2 htq
  have hw : lexLt (rd HI1.H (tl % (HI1.nu + HI1.nl))) (rd HI2.H (tq % (HI2.nu + HI2.nl))) :=
    hb.lower_lt hv1 hv2 hsep
  have hz : lexLe s (rd HI2.H (tq % (HI2.nu + HI2.nl))) :=
    lexLe_trans hs.2.2 (lexLe_trans hsep (hv2.first_le _ hqn))
  have c1 := hv2.cvx c (tq % (HI2.nu + HI2.nl)) hcn hqn
  have c2 := hb.lower_right hv1 hv2 hsep (hv2.vertex_inside c hcn)
  have c3 := hb.lower_left hv1 hv2 hsep hs
  have k1 := vc_trans he hg hw (by unfold AREA at c1; unfold vc cr; linarith)
    (by unfold AREA at c2; unfold vc cr; linarith)
  have k2 := vc_trans_r he hw hz k1 (by unfold AREA at c3; unfold vc cr; linarith)
  unfold vc cr at k2
  unfold AREA at *
  linarith

/-- Points inside the right hull are on the right of the kept lower edges of the left hull. -/
theorem Bridges.left_lower_edge (hb : Bridges HI1 HI2 pu qu tl tq) (hv1 : Valid HI1)
    (hv2 : Valid HI2) (hsep : lexLe (rd HI1.H HI1.nu) (rd HI2.H 0)) {c : Nat} (hc1 : tl ≤ c)
    (hc2 : c < HI1.nu + HI1.nl) {s : PointT} (hs : Inside HI2 s) :
    AREA (rd HI1.H c) (rd HI1.H ((c + 1) % (HI1.nu + HI1.nl))) s ≤ 0 := by
  have htl := hb.tl_ge
  have htn : tl < HI1.nu + HI1.nl := by omega
  have etl : tl % (HI1.nu + HI1.nl) = tl := Nat.mod_eq_of_lt htn
  have hn1 := Nat.mod_lt (c + 1) hv1.n_pos
  have he : lexLt (rd HI1.H ((c + 1) % (HI1.nu + HI1.nl))) (rd HI1.H c) :=
    hv1.lo c (by omega) hc2
  have hg : lexLt (rd HI1.H ((c + 1) % (HI1.nu + HI1.nl))) (rd HI1.H tl) :=
    hv1.lo_lt (c + 1) tl htl (by omega) (by omega)
  have hw : lexLt (rd HI1.H tl) (rd HI2.H (tq % (HI2.nu + HI2.nl))) := by
    have := hb.lower_lt hv1 hv2 hsep
    rwa [etl] at this
  have hz : lexLe (rd HI1.H tl) s :=
    lexLe_trans (sep_le hv1 hv2 hsep htn hv2.n_pos) hs.2.1
  have c1 := hv1.cvx c tl hc2 htn
  have c2 := hb.lower_left hv1 hv2 hsep (hv1.vertex_inside _ hn1)
  have c3 := hb.lower_right hv1 hv2 hsep hs
  rw [etl] at c2 c3
  have k1 := vc_trans_l hz hw hg (by unfold AREA at c3; unfold vc cr; linarith)
    (by unfold AREA at c2; unfold vc cr; linarith)
  have k2 := vc_trans_l hz hg he k1 (by unfold AREA at c1; unfold vc cr; linarith)
  unfold vc cr at k2
  unfold AREA at *
  linarith

end bridges

/-! ### The array written by `joinHulls` -/

theorem rd_append_left (l1 l2 : List PointT) (k : Nat) (h : k < l1.length) :
    rd (l1 ++ l2) k = rd l1 k := by
  unfold rd
  exact List.getD_append l1 l2 default k h

theorem rd_append_right (l1 l2 : List PointT) (k : Nat) (h : l1.length ≤ k) :
    rd (l1 ++ l2) k = rd l2 (k - l1.length) := by
  unfold rd
  exact List.getD_append_right l1 l2 default k h

theorem copyRange_length (H : List PointT) (a b : Nat) : (copyRange H a b).length = b - a := by
  unfold copyRange
  simp

theorem rd_copyRange (H : List PointT) (a b k : Nat) (h : k < b - a) :
    rd (copyRange H a b) k = rd H (a + k) := by
  unfold copyRange rd
  rw [List.getD_eq_getElem _ _ (by simpa using h)]
  simp

theorem rd_singleton (p : PointT) : rd [p] 0 = p := rfl

theorem assemble_eq (HI1 HI2 : HullT) (pu qu pl ql : Nat) :
    assemble HI1 HI2 pu qu pl ql =
      ⟨(copyRange HI1.H 0 (pu + 1) ++ copyRange HI2.H qu HI2.nu) ++
          (lower2 HI2 ql ++ lower1 HI1 pl),
        (pu + 1) + (HI2.nu - qu), (lower2 HI2 ql).length + (lower1 HI1 pl).length⟩ := by
  unfold assemble lower2 lower1
  simp [copyRange_length]

theorem lower2_length (HI2 : HullT) (tq : Nat) (h1 : 1 ≤ HI2.nu) (h2 : HI2.nu ≤ tq)
    (h3 : tq ≤ HI2.nu + HI2.nl) :
    (lower2 HI2 (tq % (HI2.nu + HI2.nl))).length = tq + 1 - HI2.nu := by
  unfold lower2
  rcases Nat.lt_or_ge tq (HI2.nu + HI2.nl) with h | h
  · rw [Nat.mod_eq_of_lt h, if_neg (by omega), copyRange_length]
  · have e : tq = HI2.nu + HI2.nl := by omega
    subst e
    rw [Nat.mod_self, if_pos rfl]
    simp [copyRange_length]
    omega

theorem rd_lower2 (HI2 : HullT) (tq k : Nat) (h1 : 1 ≤ HI2.nu) (h2 : HI2.nu ≤ tq)
    (h3 : tq ≤ HI2.nu + HI2.nl) (hk : k < tq + 1 - HI2.nu) :
    rd (lower2 HI2 (tq % (HI2.nu + HI2.nl))) k = rd HI2.H ((HI2.nu + k) % (HI2.nu + HI2.nl)) := by
  unfold lower2
  rcases Nat.lt_or_ge tq (HI2.nu + HI2.nl) with h | h
  · rw [Nat.mod_eq_of_lt h, if_neg (by omega), rd_copyRange _ _ _ _ (by omega),
      Nat.mod_eq_of_lt (by omega)]
  · have e : tq = HI2.nu + HI2.nl := by omega
    subst e
    rw [Nat.mod_self, if_pos rfl]
    rcases Nat.lt_or_ge k HI2.nl with hk2 | hk2
    · rw [rd_append_left _ _ _ (by rw [copyRange_length]; omega),
        rd_copyRange _ _ _ _ (by omega), Nat.mod_eq_of_lt (by omega)]
    · have ek : k = HI2.nl := by omega
      subst ek
      rw [rd_append_right _ _ _ (by rw [copyRange_length]; omega), copyRange_length,
        Nat.mod_self]
      simp [rd_singleton]

theorem lower1_length (HI1 : HullT) (tl : Nat) (h1 : 1 ≤ HI1.nu) (h2 : HI1.nu ≤ tl)
    (h3 : tl ≤ HI1.nu + HI1.nl) :
    (lower1 HI1 (tl % (HI1.nu + HI1.nl))).length = HI1.nu + HI1.nl - tl := by
  unfold lower1
  rcases Nat.lt_or_ge tl (HI1.nu + HI1.nl) with h | h
  · rw [Nat.mod_eq_of_lt h, if_pos (by omega), copyRange_length]
  · have e : tl = HI1.nu + HI1.nl := by omega
    subst e
    rw [Nat.mod_self]
    simp

theorem rd_lower1 (HI1 : HullT) (tl k : Nat) (h1 : 1 ≤ HI1.nu) (h2 : HI1.nu ≤ tl)
    (hk : k < HI1.nu + HI1.nl - tl) :
    rd (lower1 HI1 (tl % (HI1.nu + HI1.nl))) k = rd HI1.H (tl + k) := by
  unfold lower1
  rw [Nat.mod_eq_of_lt (by omega), if_pos (by omega), rd_copyRange _ _ _ _ hk]

section assemble

variable {HI1 HI2 : HullT} {pu qu tl tq : Nat}

theorem asm_nu (HI1 HI2 : HullT) (pu qu pl ql : Nat) :
    (assemble HI1 HI2 pu qu pl ql).nu = pu + 1 + (HI2.nu - qu) := by
  rw [assemble_eq]

theorem asm_nl (hb : Bridges HI1 HI2 pu qu tl tq) (hv1 : Valid HI1) (hv2 : Valid HI2) :
    (assemble HI1 HI2 pu qu (tl % (HI1.nu + HI1.nl)) (tq % (HI2.nu + HI2.nl))).nl
      = (tq + 1 - HI2.nu) + (HI1.nu + HI1.nl - tl) := by
  rw [assemble_eq]
  simp only
  rw [lower2_length _ _ hv2.nu_pos hb.tq_ge hb.tq_le, lower1_length _ _ hv1.nu_pos hb.tl_ge hb.tl_le]

theorem asm_len (hb : Bridges HI1 HI2 pu qu tl tq) (hv1 : Valid HI1) (hv2 : Valid HI2) :
    (assemble HI1 HI2 pu qu (tl % (HI1.nu + HI1.nl)) (tq % (HI2.nu + HI2.nl))).H.length
      = (pu + 1 + (HI2.nu - qu)) + ((tq + 1 - HI2.nu) + (HI1.nu + HI1.nl - tl)) := by
  rw [assemble_eq]
  simp only [List.length_append, copyRange_length]
  rw [lower2_length _ _ hv2.nu_pos hb.tq_ge hb.tq_le, lower1_length _ _ hv1.nu_pos hb.tl_ge hb.tl_le]
  omega

/-- Entries copied from the upper chain of the left hull. -/
theorem asm_rd1 (HI1 HI2 : HullT) (pu qu pl ql : Nat) {k : Nat} (hk : k ≤ pu) :
    rd (assemble HI1 HI2 pu qu pl ql).H k = rd HI1.H k := by
  rw [assemble_eq]
  simp only
  rw [rd_append_left _ _ _ (by simp [copyRange_length]; omega),
    rd_append_left _ _ _ (by simp [copyRange_length]; omega),
    rd_copyRange _ _ _ _ (by omega), Nat.zero_add]

/-- Entries copied from the right hull. -/
theorem asm_rd2 (hb : Bridges HI1 HI2 pu qu tl tq) (_hv1 : Valid HI1) (hv2 : Valid HI2)
    {k : Nat} (hk1 : pu < k) (hk2 : k ≤ pu + (tq + 1 - qu)) :
    rd (assemble HI1 HI2 pu qu (tl % (HI1.nu + HI1.nl)) (tq % (HI2.nu + HI2.nl))).H k
      = rd HI2.H ((qu + (k - pu - 1)) % (HI2.nu + HI2.nl)) := by
  have hq := hb.qu_le
  have hq2 := hb.tq_ge
  have hq3 := hb.tq_le
  have hnl := hv2.nl_pos
  rw [assemble_eq]
  simp only
  rcases Nat.lt_or_ge k (pu + 1 + (HI2.nu - qu)) with h | h
  · rw [rd_append_left _ _ _ (by simp [copyRange_length]; omega),
      rd_append_right _ _ _ (by simp [copyRange_length]; omega), copyRange_length,
      rd_copyRange _ _ _ _ (by omega), Nat.mod_eq_of_lt (by omega),
      show pu + 1 - 0 = pu + 1 by omega, Nat.sub_sub]
  · rw [rd_append_right _ _ _ (by simp [copyRange_length]; omega),
      rd_append_left _ _ _ (by
        rw [lower2_length _ _ hv2.nu_pos hb.tq_ge hb.tq_le]
        simp [copyRange_length]; omega),
      rd_lower2 _ _ _ hv2.nu_pos hb.tq_ge hb.tq_le (by simp [copyRange_length]; omega)]
    congr 2
    simp [copyRange_length]
    omega

/-- Entries copied from the lower chain of the left hull. -/
theorem asm_rd3 (hb : Bridges HI1 HI2 pu qu tl tq) (hv1 : Valid HI1) (hv2 : Valid HI2)
    {k : Nat} (hk1 : pu + (tq + 1 - qu) < k)
    (hk2 : k < (pu + 1 + (HI2.nu - qu)) + ((tq + 1 - HI2.nu) + (HI1.nu + HI1.nl - tl))) :
    rd (assemble HI1 HI2 pu qu (tl % (HI1.nu + HI1.nl)) (tq % (HI2.nu + HI2.nl))).H k
      = rd HI1.H (tl + (k - (pu + 1 + (tq + 1 - qu)))) := by
  have hq := hb.qu_le
  have hq2 := hb.tq_ge
  have hq3 := hb.tq_le
  have hnl := hv2.nl_pos
  rw [assemble_eq]
  simp only
  rw [rd_append_right _ _ _ (by simp [copyRange_length]; omega),
    rd_append_right _ _ _ (by
      rw [lower2_length _ _ hv2.nu_pos hb.tq_ge hb.tq_le]
      simp [copyRange_length]; omega),
    lower2_length _ _ hv2.nu_pos hb.tq_ge hb.tq_le,
    rd_lower1 _ _ _ hv1.nu_pos hb.tl_ge (by simp [copyRange_length]; omega)]
  congr 2
  simp [copyRange_length]
  omega

end assemble

namespace Valid

variable {HI : HullT}

theorem left_fan_strict (hv : Valid HI) (h3 : 3 ≤ HI.nu + HI.nl) :
    vc (rd HI.H 0) (rd HI.H 1) (rd HI.H 0) (rd HI.H (HI.nu + HI.nl - 1)) < 0 := by
  have hc := hv.turn h3 (HI.nu + HI.nl - 1) (by omega)
  rw [show HI.nu + HI.nl - 1 + 1 = HI.nu + HI.nl by omega, Nat.mod_self,
    show HI.nu + HI.nl - 1 + 2 = 1 + (HI.nu + HI.nl) by omega, Nat.add_mod_right,
    Nat.mod_eq_of_lt (by omega : 1 < HI.nu + HI.nl)] at hc
  unfold AREA at hc
  unfold vc cr
  linarith

theorem right_fan_strict (hv : Valid HI) (h3 : 3 ≤ HI.nu + HI.nl) :
    vc (rd HI.H ((HI.nu + 1) % (HI.nu + HI.nl))) (rd HI.H HI.nu)
      (rd HI.H (HI.nu - 1)) (rd HI.H HI.nu) < 0 := by
  have hnu := hv.nu_pos
  have hnl := hv.nl_pos
  have hc := hv.turn h3 (HI.nu - 1) (by omega)
  rw [show HI.nu - 1 + 1 = HI.nu by omega, show HI.nu - 1 + 2 = HI.nu + 1 by omega,
    Nat.mod_eq_of_lt (by omega : HI.nu < HI.nu + HI.nl)] at hc
  unfold AREA at hc
  unfold vc cr
  linarith

end Valid

section corners

variable {HI1 HI2 : HullT} {pu qu tl tq : Nat}

/-- The rightmost point of the left hull is never both tangent points. -/
theorem Bridges.no_dup_left (hb : Bridges HI1 HI2 pu qu tl tq) (hv1 : Valid HI1)
    (hv2 : Valid HI2) (hsep : lexLe (rd HI1.H HI1.nu) (rd HI2.H 0)) (h1 : pu = HI1.nu)
    (h2 : tl = HI1.nu) : False := by
  have hnu := hv1.nu_pos
  have hnl := hv1.nl_pos
  obtain ⟨r1, r2, r3⟩ := hv1.right_fan
  have hTQ : lexLt (rd HI1.H HI1.nu) (rd HI2.H qu) := by
    have := hb.upper_lt hv1 hv2 hsep
    rwa [h1] at this
  have hqln := Nat.mod_lt tq hv2.n_pos
  have hTQl : lexLt (rd HI1.H HI1.nu) (rd HI2.H (tq % (HI2.nu + HI2.nl))) := by
    have := hb.lower_lt hv1 hv2 hsep
    rwa [h2, Nat.mod_eq_of_lt (by omega)] at this
  have c1 := hb.pu_l
  have c2 := hb.tl_r
  have c3 := hb.upper_right hv1 hv2 hsep (hv2.vertex_inside _ hqln)
  subst h1
  rw [h2] at c2
  have c1' : RIGHT (rd HI1.H (HI1.nu - 1)) (rd HI1.H HI1.nu) (rd HI2.H qu) := by
    rcases c1 with h | h
    · omega
    · exact h
  have c2' : LEFT (rd HI1.H ((HI1.nu + 1) % (HI1.nu + HI1.nl))) (rd HI1.H HI1.nu)
      (rd HI2.H (tq % (HI2.nu + HI2.nl))) := by
    rcases c2 with h | h
    · omega
    · exact h
  unfold RIGHT at c1'
  unfold LEFT at c2'
  have k1 := vc_trans_lt_le hTQl r2 r1
    (by unfold AREA at c2'; unfold vc cr; linarith) r3
  have k2 := vc_trans_lt_le hTQl r1 hTQ k1
    (by unfold AREA at c1'; unfold vc cr; linarith)
  unfold vc cr at k2
  unfold AREA at c3
  linarith

/-- The leftmost point of the right hull is never both tangent points. -/
theorem Bridges.no_dup_right (hb : Bridges HI1 HI2 pu qu tl tq) (hv1 : Valid HI1)
    (hv2 : Valid HI2) (hsep : lexLe (rd HI1.H HI1.nu) (rd HI2.H 0)) (h1 : qu = 0)
    (h2 : tq = HI2.nu + HI2.nl) : False := by
  have hnu := hv2.nu_pos
  have hnl := hv2.nl_pos
  obtain ⟨l1, l2, l3⟩ := hv2.left_fan
  have hpn := hb.pu_lt hv1
  have hpln := Nat.mod_lt tl hv1.n_pos
  have hPT : lexLt (rd HI1.H pu) (rd HI2.H 0) := by
    have := hb.upper_lt hv1 hv2 hsep
    rwa [h1] at this
  have hPlT : lexLt (rd HI1.H (tl % (HI1.nu + HI1.nl))) (rd HI2.H 0) := by
    have := hb.lower_lt hv1 hv2 hsep
    rwa [h2, Nat.mod_self] at this
  have c1 := hb.qu_r
  have c2 := hb.tq_l
  have c3 := hb.upper_left hv1 hv2 hsep (hv1.vertex_inside _ hpln)
  subst h1
  rw [h2, Nat.mod_self] at c2
  have c1' : RIGHT (rd HI1.H pu) (rd HI2.H 0) (rd HI2.H (0 + 1)) := by
    rcases c1 with h | h
    · omega
    · exact h
  have c2' : LEFT (rd HI1.H (tl % (HI1.nu + HI1.nl))) (rd HI2.H 0)
      (rd HI2.H (HI2.nu + HI2.nl - 1)) := by
    rcases c2 with h | h
    · omega
    · exact h
  unfold RIGHT at c1'
  unfold LEFT at c2'
  have k1 := vc_trans_lt_le hPT l1 l2
    (by unfold AREA at c1'; unfold vc cr; simp only [Nat.zero_add] at c1'; linarith) l3
  have k2 := vc_trans_lt_le hPT l2 hPlT k1
    (by unfold AREA at c2'; unfold vc cr; linarith)
  unfold vc cr at k2
  unfold AREA at c3
  linarith

end corners

/-! ### Strict turns at the four tangent points -/

section corners

variable {HI1 HI2 : HullT} {pu qu tl tq : Nat}

theorem Bridges.corner_P (hb : Bridges HI1 HI2 pu qu tl tq) (h : 0 < pu) :
    AREA (rd HI1.H (pu - 1)) (rd HI1.H pu) (rd HI2.H qu) < 0 := by
  rcases hb.pu_l with h0 | h0
  · omega
  · exact h0

theorem Bridges.corner_Q (hb : Bridges HI1 HI2 pu qu tl tq) (h : qu < HI2.nu) :
    AREA (rd HI1.H pu) (rd HI2.H qu) (rd HI2.H (qu + 1)) < 0 := by
  rcases hb.qu_r with h0 | h0
  · omega
  · exact h0

theorem Bridges.corner_Ql (hb : Bridges HI1 HI2 pu qu tl tq) (h : HI2.nu < tq) :
    AREA (rd HI2.H (tq - 1)) (rd HI2.H (tq % (HI2.nu + HI2.nl)))
      (rd HI1.H (tl % (HI1.nu + HI1.nl))) < 0 := by
  rcases hb.tq_l with h0 | h0
  · omega
  · unfold LEFT at h0
    unfold AREA at *
    linarith

theorem Bridges.corner_Pl (hb : Bridges HI1 HI2 pu qu tl tq) (h : tl < HI1.nu + HI1.nl) :
    AREA (rd HI2.H (tq % (HI2.nu + HI2.nl))) (rd HI1.H tl)
      (rd HI1.H ((tl + 1) % (HI1.nu + HI1.nl))) < 0 := by
  rcases hb.tl_r with h0 | h0
  · omega
  · unfold LEFT at h0
    unfold AREA at *
    linarith

theorem Bridges.corner_P_wrap (hb : Bridges HI1 HI2 pu qu tl tq) (hv1 : Valid HI1)
    (hv2 : Valid HI2) (hsep : lexLe (rd HI1.H HI1.nu) (rd HI2.H 0)) (h1 : pu = 0)
    (h2 : tl < HI1.nu + HI1.nl) :
    AREA (rd HI1.H (HI1.nu + HI1.nl - 1)) (rd HI1.H 0) (rd HI2.H qu) < 0 := by
  have hnu := hv1.nu_pos
  have hnl := hv1.nl_pos
  have htl := hb.tl_ge
  obtain ⟨l1, l2, l3⟩ := hv1.left_fan
  have hqln := Nat.mod_lt tq hv2.n_pos
  have hTQ : lexLt (rd HI1.H 0) (rd HI2.H qu) :=
    sep_lt hv1 hv2 hsep hv1.n_pos (hb.qu_lt hv2) (Or.inl (by omega))
  have hTQl : lexLt (rd HI1.H 0) (rd HI2.H (tq % (HI2.nu + HI2.nl))) :=
    sep_lt hv1 hv2 hsep hv1.n_pos hqln (Or.inl (by omega))
  have c1 := hb.pu_r
  subst h1
  have c1' : ¬ RIGHT (rd HI1.H 0) (rd HI1.H (0 + 1)) (rd HI2.H qu) := by
    rcases c1 with h | h
    · omega
    · exact h
  unfold RIGHT at c1'
  push_neg at c1'
  simp only [Nat.zero_add] at c1'
  have k0 : vc (rd HI1.H 0) (rd HI2.H qu) (rd HI1.H 0) (rd HI1.H 1) ≤ 0 := by
    unfold AREA at c1'; unfold vc cr; linarith
  have key : vc (rd HI1.H 0) (rd HI2.H qu) (rd HI1.H 0) (rd HI1.H (HI1.nu + HI1.nl - 1)) < 0 := by
    rcases Nat.lt_or_ge (HI1.nu + HI1.nl) 3 with h3 | h3
    · have e1 : HI1.nu = 1 := by omega
      have e2 : HI1.nl = 1 := by omega
      have etl : tl = 1 := by omega
      have c2 := hb.tl_r
      have c3 := hb.upper_right hv1 hv2 hsep (hv2.vertex_inside _ hqln)
      rw [etl, e1, e2] at c2
      norm_num at c2
      rw [e1, e2]
      norm_num
      unfold LEFT at c2
      exact vc_trans_le_lt hTQ hTQl l1
        (by unfold AREA at c3; unfold vc cr; linarith)
        (by unfold AREA at c2; unfold vc cr; linarith)
    · exact vc_trans_le_lt hTQ l1 l2 k0 (hv1.left_fan_strict h3)
  unfold vc cr at key
  unfold AREA
  linarith

theorem Bridges.corner_Pl_wrap (hb : Bridges HI1 HI2 pu qu tl tq) (hv1 : Valid HI1)
    (hv2 : Valid HI2) (hsep : lexLe (rd HI1.H HI1.nu) (rd HI2.H 0))
    (h1 : tl = HI1.nu + HI1.nl) (h2 : 0 < pu) :
    AREA (rd HI2.H (tq % (HI2.nu + HI2.nl))) (rd HI1.H 0) (rd HI1.H 1) < 0 := by
  have hnu := hv1.nu_pos
  have hnl := hv1.nl_pos
  have hpu := hb.pu_le
  obtain ⟨l1, l2, l3⟩ := hv1.left_fan
  have hqln := Nat.mod_lt tq hv2.n_pos
  have hqn := hb.qu_lt hv2
  have hTQ : lexLt (rd HI1.H 0) (rd HI2.H qu) := sep_lt hv1 hv2 hsep hv1.n_pos hqn (Or.inl (by omega))
  have hTQl : lexLt (rd HI1.H 0) (rd HI2.H (tq % (HI2.nu + HI2.nl))) :=
    sep_lt hv1 hv2 hsep hv1.n_pos hqln (Or.inl (by omega))
  have c1 := hb.tl_l
  rw [h1, Nat.mod_self] at c1
  have c1' : ¬ LEFT (rd HI1.H 0) (rd HI1.H (HI1.nu + HI1.nl - 1))
      (rd HI2.H (tq % (HI2.nu + HI2.nl))) := by
    rcases c1 with h | h
    · omega
    · exact h
  unfold LEFT at c1'
  push_neg at c1'
  have k0 : vc (rd HI1.H 0) (rd HI1.H (HI1.nu + HI1.nl - 1)) (rd HI1.H 0)
      (rd HI2.H (tq % (HI2.nu + HI2.nl))) ≤ 0 := by
    unfold AREA at c1'; unfold vc cr; linarith
  have key : vc (rd HI1.H 0) (rd HI1.H 1) (rd HI1.H 0)
      (rd HI2.H (tq % (HI2.nu + HI2.nl))) < 0 := by
    rcases Nat.lt_or_ge (HI1.nu + HI1.nl) 3 with h3 | h3
    · have e1 : HI1.nu = 1 := by omega
      have e2 : HI1.nl = 1 := by omega
      have epu : pu = 1 := by omega
      have c2 := hb.corner_P h2
      have c3 := hb.lower_right hv1 hv2 hsep (hv2.vertex_inside _ hqn)
      rw [h1, Nat.mod_self] at c3
      rw [epu] at c2
      norm_num at c2
      exact vc_trans_lt_le l1 hTQ hTQl
        (by unfold AREA at c2; unfold vc cr; linarith)
        (by unfold AREA at c3; unfold vc cr; linarith)
    · exact vc_trans_lt_le l1 l2 hTQl (hv1.left_fan_strict h3) k0
  unfold vc cr at key
  unfold AREA
  linarith

theorem Bridges.corner_Q_wrap (hb : Bridges HI1 HI2 pu qu tl tq) (hv1 : Valid HI1)
    (hv2 : Valid HI2) (hsep : lexLe (rd HI1.H HI1.nu) (rd HI2.H 0)) (h1 : qu = HI2.nu)
    (h2 : HI2.nu < tq) :
    AREA (rd HI1.H pu) (rd HI2.H HI2.nu) (rd HI2.H ((HI2.nu + 1) % (HI2.nu + HI2.nl))) < 0 := by
  have hnu := hv2.nu_pos
  have hnl := hv2.nl_pos
  have htq := hb.tq_le
  obtain ⟨r1, r2, r3⟩ := hv2.right_fan
  have hpn := hb.pu_lt hv1
  have hpln := Nat.mod_lt tl hv1.n_pos
  have hPT : lexLt (rd HI1.H pu) (rd HI2.H HI2.nu) := sep_lt hv1 hv2 hsep hpn (by omega) (Or.inr (by omega))
  have hPlT : lexLt (rd HI1.H (tl % (HI1.nu + HI1.nl))) (rd HI2.H HI2.nu) :=
    sep_lt hv1 hv2 hsep hpln (by omega) (Or.inr (by omega))
  have c1 := hb.qu_l
  rw [h1] at c1
  have c1' : ¬ RIGHT (rd HI1.H pu) (rd HI2.H (HI2.nu - 1)) (rd HI2.H HI2.nu) := by
    rcases c1 with h | h
    · omega
    · exact h
  unfold RIGHT at c1'
  push_neg at c1'
  have k0 : vc (rd HI2.H (HI2.nu - 1)) (rd HI2.H HI2.nu) (rd HI1.H pu) (rd HI2.H HI2.nu) ≤ 0 := by
    unfold AREA at c1'; unfold vc cr; linarith
  have key : vc (rd HI2.H ((HI2.nu + 1) % (HI2.nu + HI2.nl))) (rd HI2.H HI2.nu)
      (rd HI1.H pu) (rd HI2.H HI2.nu) < 0 := by
    rcases Nat.lt_or_ge (HI2.nu + HI2.nl) 3 with h3 | h3
    · have e1 : HI2.nu = 1 := by omega
      have e2 : HI2.nl = 1 := by omega
      have etq : tq = 2 := by omega
      have c2 := hb.corner_Ql h2
      have c3 := hb.upper_left hv1 hv2 hsep (hv1.vertex_inside _ hpln)
      rw [etq, e1, e2] at c2
      norm_num at c2
      rw [h1, e1] at c3
      simp only [e1, e2] at hPlT hPT r2 ⊢
      norm_num at r2 ⊢
      exact vc_trans_lt_le r2 hPlT hPT
        (by unfold AREA at c2; unfold vc cr; linarith)
        (by unfold AREA at c3; unfold vc cr; linarith)
    · exact vc_trans_lt_le r2 r1 hPT (hv2.right_fan_strict h3) k0
  unfold vc cr at key
  unfold AREA
  linarith

theorem Bridges.corner_Ql_wrap (hb : Bridges HI1 HI2 pu qu tl tq) (hv1 : Valid HI1)
    (hv2 : Valid HI2) (hsep : lexLe (rd HI1.H HI1.nu) (rd HI2.H 0)) (h1 : tq = HI2.nu)
    (h2 : qu < HI2.nu) :
    AREA (rd HI2.H (HI2.nu - 1)) (rd HI2.H HI2.nu) (rd HI1.H (tl % (HI1.nu + HI1.nl))) < 0 := by
  have hnu := hv2.nu_pos
  have hnl := hv2.nl_pos
  obtain ⟨r1, r2, r3⟩ := hv2.right_fan
  have hpn := hb.pu_lt hv1
  have hpln := Nat.mod_lt tl hv1.n_pos
  have hPT : lexLt (rd HI1.H pu) (rd HI2.H HI2.nu) := sep_lt hv1 hv2 hsep hpn (by omega) (Or.inr (by omega))
  have hPlT : lexLt (rd HI1.H (tl % (HI1.nu + HI1.nl))) (rd HI2.H HI2.nu) :=
    sep_lt hv1 hv2 hsep hpln (by omega) (Or.inr (by omega))
  have enu : HI2.nu % (HI2.nu + HI2.nl) = HI2.nu := Nat.mod_eq_of_lt (by omega)
  have c1 := hb.tq_r
  rw [h1] at c1
  have c1' : ¬ LEFT (rd HI1.H (tl % (HI1.nu + HI1.nl)))
      (rd HI2.H ((HI2.nu + 1) % (HI2.nu + HI2.nl))) (rd HI2.H HI2.nu) := by
    rcases c1 with h | h
    · omega
    · exact h
  unfold LEFT at c1'
  push_neg at c1'
  have k0 : vc (rd HI1.H (tl % (HI1.nu + HI1.nl))) (rd HI2.H HI2.nu)
      (rd HI2.H ((HI2.nu + 1) % (HI2.nu + HI2.nl))) (rd HI2.H HI2.nu) ≤ 0 := by
    unfold AREA at c1'; unfold vc cr; linarith
  have key : vc (rd HI1.H (tl % (HI1.nu + HI1.nl))) (rd HI2.H HI2.nu)
      (rd HI2.H (HI2.nu - 1)) (rd HI2.H HI2.nu) < 0 := by
    rcases Nat.lt_or_ge (HI2.nu + HI2.nl) 3 with h3 | h3
    · have e1 : HI2.nu = 1 := by omega
      have e2 : HI2.nl = 1 := by omega
      have equ : qu = 0 := by omega
      have c2 := hb.corner_Q h2
      have c3 := hb.lower_left hv1 hv2 hsep (hv1.vertex_inside _ hpn)
      rw [equ, Nat.zero_add] at c2
      rw [h1, enu] at c3
      simp only [e1] at c3 hPlT hPT r1 ⊢
      norm_num at r1 ⊢
      exact vc_trans_le_lt hPlT hPT r1
        (by unfold AREA at c3; unfold vc cr; linarith)
        (by unfold AREA at c2; unfold vc cr; linarith)
    · exact vc_trans_le_lt hPlT r2 r1 k0 (hv2.right_fan_strict h3)
  unfold vc cr at key
  unfold AREA
  linarith

end corners

section corners

variable {HI1 HI2 : HullT} {pu qu tl tq : Nat}

theorem Bridges.corner_P_single (hb : Bridges HI1 HI2 pu qu tl tq) (hv1 : Valid HI1)
    (hv2 : Valid HI2) (hsep : lexLe (rd HI1.H HI1.nu) (rd HI2.H 0)) (h1 : pu = 0)
    (h2 : tl = HI1.nu + HI1.nl) (h3 : qu < tq) :
    AREA (rd HI2.H (tq % (HI2.nu + HI2.nl))) (rd HI1.H 0) (rd HI2.H qu) < 0 := by
  have hnl := hv2.nl_pos
  have hqu := hb.qu_le
  have htq := hb.tq_le
  have hqn := hb.qu_lt hv2
  have hqln := Nat.mod_lt tq hv2.n_pos
  have hTQ : lexLt (rd HI1.H 0) (rd HI2.H qu) := sep_lt hv1 hv2 hsep hv1.n_pos hqn
    (Or.inl (by have := hv1.nu_pos; omega))
  have hTQl : lexLt (rd HI1.H 0) (rd HI2.H (tq % (HI2.nu + HI2.nl))) :=
    sep_lt hv1 hv2 hsep hv1.n_pos hqln (Or.inl (by have := hv1.nu_pos; omega))
  have key : vc (rd HI1.H 0) (rd HI2.H qu) (rd HI1.H 0)
      (rd HI2.H (tq % (HI2.nu + HI2.nl))) < 0 := by
    rcases Nat.lt_or_ge qu HI2.nu with h | h
    · have c1 := hb.corner_Q h
      have c2 := hb.lower_right hv1 hv2 hsep (hv2.vertex_inside (qu + 1) (by omega))
      rw [h2, Nat.mod_self] at c2
      rw [h1] at c1
      have hT : lexLt (rd HI1.H 0) (rd HI2.H (qu + 1)) :=
        sep_lt hv1 hv2 hsep hv1.n_pos (by omega) (Or.inl (by have := hv1.nu_pos; omega))
      exact vc_trans_lt_le hTQ hT hTQl
        (by unfold AREA at c1; unfold vc cr; linarith)
        (by unfold AREA at c2; unfold vc cr; linarith)
    · have c1 := hb.corner_Ql (by omega : HI2.nu < tq)
      have c2 := hb.upper_right hv1 hv2 hsep (hv2.vertex_inside (tq - 1) (by omega))
      rw [h2, Nat.mod_self] at c1
      rw [h1] at c2
      have hT : lexLt (rd HI1.H 0) (rd HI2.H (tq - 1)) :=
        sep_lt hv1 hv2 hsep hv1.n_pos (by omega) (Or.inl (by have := hv1.nu_pos; omega))
      exact vc_trans_le_lt hTQ hT hTQl
        (by unfold AREA at c2; unfold vc cr; linarith)
        (by unfold AREA at c1; unfold vc cr; linarith)
  unfold vc cr at key
  unfold AREA
  linarith

theorem Bridges.corner_Q_single (hb : Bridges HI1 HI2 pu qu tl tq) (hv1 : Valid HI1)
    (hv2 : Valid HI2) (hsep : lexLe (rd HI1.H HI1.nu) (rd HI2.H 0)) (h1 : qu = HI2.nu)
    (h2 : tq = HI2.nu) (h3 : 0 < pu ∨ tl < HI1.nu + HI1.nl) :
    AREA (rd HI1.H pu) (rd HI2.H HI2.nu) (rd HI1.H (tl % (HI1.nu + HI1.nl))) < 0 := by
  have hnl1 := hv1.nl_pos
  have hnl := hv2.nl_pos
  have hpu := hb.pu_le
  have hpn := hb.pu_lt hv1
  have hpln := Nat.mod_lt tl hv1.n_pos
  have enu : HI2.nu % (HI2.nu + HI2.nl) = HI2.nu := Nat.mod_eq_of_lt (by omega)
  have hPT : lexLt (rd HI1.H pu) (rd HI2.H HI2.nu) := sep_lt hv1 hv2 hsep hpn (by omega)
    (Or.inr (by have := hv2.nu_pos; omega))
  have hPlT : lexLt (rd HI1.H (tl % (HI1.nu + HI1.nl))) (rd HI2.H HI2.nu) :=
    sep_lt hv1 hv2 hsep hpln (by omega) (Or.inr (by have := hv2.nu_pos; omega))
  have key : vc (rd HI1.H (tl % (HI1.nu + HI1.nl))) (rd HI2.H HI2.nu) (rd HI1.H pu)
      (rd HI2.H HI2.nu) < 0 := by
    rcases h3 with h | h
    · have c1 := hb.corner_P h
      have c2 := hb.lower_left hv1 hv2 hsep (hv1.vertex_inside (pu - 1) (by omega))
      rw [h1] at c1
      rw [h2, enu] at c2
      have hT : lexLt (rd HI1.H (pu - 1)) (rd HI2.H HI2.nu) :=
        sep_lt hv1 hv2 hsep (by omega) (by omega) (Or.inr (by have := hv2.nu_pos; omega))
      exact vc_trans_le_lt hPlT hT hPT
        (by unfold AREA at c2; unfold vc cr; linarith)
        (by unfold AREA at c1; unfold vc cr; linarith)
    · have c1 := hb.corner_Pl h
      have hn1 := Nat.mod_lt (tl + 1) hv1.n_pos
      have c2 := hb.upper_left hv1 hv2 hsep (hv1.vertex_inside _ hn1)
      rw [h2, enu] at c1
      rw [h1] at c2
      rw [Nat.mod_eq_of_lt h] at hPlT ⊢
      have hT : lexLt (rd HI1.H ((tl + 1) % (HI1.nu + HI1.nl))) (rd HI2.H HI2.nu) :=
        sep_lt hv1 hv2 hsep hn1 (by omega) (Or.inr (by have := hv2.nu_pos; omega))
      exact vc_trans_lt_le hPlT hT hPT
        (by unfold AREA at c1; unfold vc cr; linarith)
        (by unfold AREA at c2; unfold vc cr; linarith)
  unfold vc cr at key
  unfold AREA
  linarith

end corners

/-! ### The edges of the merged chain -/

section merged

variable {HI1 HI2 : HullT} {pu qu tl tq : Nat}

/-- Number of entries of the merged chain. -/
theorem asm_size (hb : Bridges HI1 HI2 pu qu tl tq) (hv1 : Valid HI1) (hv2 : Valid HI2) :
    (assemble HI1 HI2 pu qu (tl % (HI1.nu + HI1.nl)) (tq % (HI2.nu + HI2.nl))).nu
      + (assemble HI1 HI2 pu qu (tl % (HI1.nu + HI1.nl)) (tq % (HI2.nu + HI2.nl))).nl
      = pu + (tq + 1 - qu) + 1 + (HI1.nu + HI1.nl - tl) := by
  rw [asm_nu, asm_nl hb hv1 hv2]
  have := hb.qu_le
  have := hb.tq_ge
  omega

/-- Entries of the merged chain, by position. -/
theorem asm_rd (hb : Bridges HI1 HI2 pu qu tl tq) (hv1 : Valid HI1) (hv2 : Valid HI2)
    (k : Nat) (hk : k < pu + (tq + 1 - qu) + 1 + (HI1.nu + HI1.nl - tl)) :
    rd (assemble HI1 HI2 pu qu (tl % (HI1.nu + HI1.nl)) (tq % (HI2.nu + HI2.nl))).H k
      = if k ≤ pu then rd HI1.H k
        else if k ≤ pu + (tq + 1 - qu) then rd HI2.H ((qu + (k - pu - 1)) % (HI2.nu + HI2.nl))
        else rd HI1.H (tl + (k - (pu + 1 + (tq + 1 - qu)))) := by
  have := hb.qu_le
  have := hb.tq_ge
  split_ifs with h1 h2
  · exact asm_rd1 _ _ _ _ _ _ h1
  · exact asm_rd2 hb hv1 hv2 (by omega) h2
  · exact asm_rd3 hb hv1 hv2 (by omega) (by omega)

theorem asm_edge (hb : Bridges HI1 HI2 pu qu tl tq) (hv1 : Valid HI1) (hv2 : Valid HI2)
    (k : Nat) (hk : k < pu + (tq + 1 - qu) + 1 + (HI1.nu + HI1.nl - tl)) :
    (k < pu ∧
      rd (assemble HI1 HI2 pu qu (tl % (HI1.nu + HI1.nl)) (tq % (HI2.nu + HI2.nl))).H k
        = rd HI1.H k ∧
      rd (assemble HI1 HI2 pu qu (tl % (HI1.nu + HI1.nl)) (tq % (HI2.nu + HI2.nl))).H
        ((k + 1) % (pu + (tq + 1 - qu) + 1 + (HI1.nu + HI1.nl - tl))) = rd HI1.H (k + 1)) ∨
    (k = pu ∧
      rd (assemble HI1 HI2 pu qu (tl % (HI1.nu + HI1.nl)) (tq % (HI2.nu + HI2.nl))).H k
        = rd HI1.H pu ∧
      rd (assemble HI1 HI2 pu qu (tl % (HI1.nu + HI1.nl)) (tq % (HI2.nu + HI2.nl))).H
        ((k + 1) % (pu + (tq + 1 - qu) + 1 + (HI1.nu + HI1.nl - tl))) = rd HI2.H qu) ∨
    (∃ c, qu ≤ c ∧ c < tq ∧ k = pu + 1 + (c - qu) ∧
      rd (assemble HI1 HI2 pu qu (tl % (HI1.nu + HI1.nl)) (tq % (HI2.nu + HI2.nl))).H k
        = rd HI2.H c ∧
      rd (assemble HI1 HI2 pu qu (tl % (HI1.nu + HI1.nl)) (tq % (HI2.nu + HI2.nl))).H
        ((k + 1) % (pu + (tq + 1 - qu) + 1 + (HI1.nu + HI1.nl - tl)))
        = rd HI2.H ((c + 1) % (HI2.nu + HI2.nl))) ∨
    (k = pu + (tq + 1 - qu) ∧
      rd (assemble HI1 HI2 pu qu (tl % (HI1.nu + HI1.nl)) (tq % (HI2.nu + HI2.nl))).H k
        = rd HI2.H (tq % (HI2.nu + HI2.nl)) ∧
      rd (assemble HI1 HI2 pu qu (tl % (HI1.nu + HI1.nl)) (tq % (HI2.nu + HI2.nl))).H
        ((k + 1) % (pu + (tq + 1 - qu) + 1 + (HI1.nu + HI1.nl - tl)))
        = rd HI1.H (tl % (HI1.nu + HI1.nl))) ∨
    (∃ c, tl ≤ c ∧ c < HI1.nu + HI1.nl ∧ k = pu + (tq + 1 - qu) + 1 + (c - tl) ∧
      rd (assemble HI1 HI2 pu qu (tl % (HI1.nu + HI1.nl)) (tq % (HI2.nu + HI2.nl))).H k
        = rd HI1.H c ∧
      rd (assemble HI1 HI2 pu qu (tl % (HI1.nu + HI1.nl)) (tq % (HI2.nu + HI2.nl))).H
        ((k + 1) % (pu + (tq + 1 - qu) + 1 + (HI1.nu + HI1.nl - tl)))
        = rd HI1.H ((c + 1) % (HI1.nu + HI1.nl))) := by
  have hqu := hb.qu_le
  have htq1 := hb.tq_ge
  have htq2 := hb.tq_le
  have htl1 := hb.tl_ge
  have htl2 := hb.tl_le
  have hnu1 := hv1.nu_pos
  have hnl2 := hv2.nl_pos
  have hnu2 := hv2.nu_pos
  -- the successor position
  have hnext : (k + 1) % (pu + (tq + 1 - qu) + 1 + (HI1.nu + HI1.nl - tl))
      = if k + 1 < pu + (tq + 1 - qu) + 1 + (HI1.nu + HI1.nl - tl) then k + 1 else 0 := by
    split_ifs with h
    · exact Nat.mod_eq_of_lt h
    · have : k + 1 = pu + (tq + 1 - qu) + 1 + (HI1.nu + HI1.nl - tl) := by omega
      rw [this, Nat.mod_self]
  have hR0 := asm_rd hb hv1 hv2 0 (by omega)
  simp only [Nat.zero_le, if_true] at hR0
  rcases Nat.lt_trichotomy k pu with h | h | h
  · left
    refine ⟨h, ?_, ?_⟩
    · rw [asm_rd hb hv1 hv2 k hk, if_pos (by omega)]
    · rw [hnext, if_pos (by omega), asm_rd hb hv1 hv2 (k + 1) (by omega), if_pos (by omega)]
  · right; left
    refine ⟨h, ?_, ?_⟩
    · rw [asm_rd hb hv1 hv2 k hk, if_pos (by omega), h]
    · rw [hnext, if_pos (by omega), asm_rd hb hv1 hv2 (k + 1) (by omega), if_neg (by omega),
        if_pos (by omega), show qu + (k + 1 - pu - 1) = qu by omega,
        Nat.mod_eq_of_lt (by omega)]
  · rcases Nat.lt_trichotomy k (pu + (tq + 1 - qu)) with h' | h' | h'
    · right; right; left
      refine ⟨qu + (k - pu - 1), by omega, by omega, by omega, ?_, ?_⟩
      · rw [asm_rd hb hv1 hv2 k hk, if_neg (by omega), if_pos (by omega),
          Nat.mod_eq_of_lt (by omega)]
      · rw [hnext, if_pos (by omega), asm_rd hb hv1 hv2 (k + 1) (by omega), if_neg (by omega),
          if_pos (by omega), show qu + (k + 1 - pu - 1) = qu + (k - pu - 1) + 1 by omega]
    · right; right; right; left
      refine ⟨h', ?_, ?_⟩
      · rw [asm_rd hb hv1 hv2 k hk, if_neg (by omega), if_pos (by omega),
          show qu + (k - pu - 1) = tq by omega]
      · rw [hnext]
        split_ifs with h2
        · rw [asm_rd hb hv1 hv2 (k + 1) (by omega), if_neg (by omega), if_neg (by omega),
            show tl + (k + 1 - (pu + 1 + (tq + 1 - qu))) = tl by omega,
            Nat.mod_eq_of_lt (by omega)]
        · rw [hR0, show tl = HI1.nu + HI1.nl by omega, Nat.mod_self]
    · right; right; right; right
      refine ⟨tl + (k - (pu + 1 + (tq + 1 - qu))), by omega, by omega, by omega, ?_, ?_⟩
      · rw [asm_rd hb hv1 hv2 k hk, if_neg (by omega), if_neg (by omega)]
      · rw [hnext]
        split_ifs with h2
        · rw [asm_rd hb hv1 hv2 (k + 1) (by omega), if_neg (by omega), if_neg (by omega),
            Nat.mod_eq_of_lt (by omega)]
          congr 1
          omega
        · rw [hR0, show tl + (k - (pu + 1 + (tq + 1 - qu))) + 1 = HI1.nu + HI1.nl by omega,
            Nat.mod_self]

end merged

section merged

variable {HI1 HI2 : HullT} {pu qu tl tq : Nat}

/-- Every point inside one of the two hulls is on or to the right of every edge of the merged
chain. -/
theorem asm_support (hb : Bridges HI1 HI2 pu qu tl tq) (hv1 : Valid HI1) (hv2 : Valid HI2)
    (hsep : lexLe (rd HI1.H HI1.nu) (rd HI2.H 0))
    (k : Nat) (hk : k < pu + (tq + 1 - qu) + 1 + (HI1.nu + HI1.nl - tl)) {s : PointT}
    (hs : Inside HI1 s ∨ Inside HI2 s) :
    AREA (rd (assemble HI1 HI2 pu qu (tl % (HI1.nu + HI1.nl)) (tq % (HI2.nu + HI2.nl))).H k)
      (rd (assemble HI1 HI2 pu qu (tl % (HI1.nu + HI1.nl)) (tq % (HI2.nu + HI2.nl))).H
        ((k + 1) % (pu + (tq + 1 - qu) + 1 + (HI1.nu + HI1.nl - tl)))) s ≤ 0 := by
  have hpu := hb.pu_le
  have hqu := hb.qu_le
  have htq2 := hb.tq_le
  have hnl1 := hv1.nl_pos
  have hnl2 := hv2.nl_pos
  rcases asm_edge hb hv1 hv2 k hk with ⟨h, e1, e2⟩ | ⟨h, e1, e2⟩ | ⟨c, c1, c2, h, e1, e2⟩ |
    ⟨h, e1, e2⟩ | ⟨c, c1, c2, h, e1, e2⟩
  · rw [e1, e2]
    rcases hs with hs | hs
    · have := hs.1 k (by omega)
      rwa [Nat.mod_eq_of_lt (by omega)] at this
    · exact hb.left_upper_edge hv1 hv2 hsep h hs
  · rw [e1, e2]
    rcases hs with hs | hs
    · exact hb.upper_left hv1 hv2 hsep hs
    · exact hb.upper_right hv1 hv2 hsep hs
  · rw [e1, e2]
    rcases hs with hs | hs
    · rcases Nat.lt_or_ge c HI2.nu with h' | h'
      · rw [Nat.mod_eq_of_lt (by omega)]
        exact hb.right_upper_edge hv1 hv2 hsep c1 h' hs
      · exact hb.right_lower_edge hv1 hv2 hsep h' c2 hs
    · exact hs.1 c (by omega)
  · rw [e1, e2]
    have : 0 ≤ AREA (rd HI1.H (tl % (HI1.nu + HI1.nl)))
        (rd HI2.H (tq % (HI2.nu + HI2.nl))) s := by
      rcases hs with hs | hs
      · exact hb.lower_left hv1 hv2 hsep hs
      · exact hb.lower_right hv1 hv2 hsep hs
    unfold AREA at *
    linarith
  · rw [e1, e2]
    rcases hs with hs | hs
    · exact hs.1 c c2
    · exact hb.left_lower_edge hv1 hv2 hsep c1 c2 hs

/-- Every entry of the merged chain is a vertex of one of the two hulls. -/
theorem asm_mem (hb : Bridges HI1 HI2 pu qu tl tq) (hv1 : Valid HI1) (hv2 : Valid HI2)
    (k : Nat) (hk : k < pu + (tq + 1 - qu) + 1 + (HI1.nu + HI1.nl - tl)) :
    (∃ i, i < HI1.nu + HI1.nl ∧
      rd (assemble HI1 HI2 pu qu (tl % (HI1.nu + HI1.nl)) (tq % (HI2.nu + HI2.nl))).H k
        = rd HI1.H i) ∨
    (∃ j, j < HI2.nu + HI2.nl ∧
      rd (assemble HI1 HI2 pu qu (tl % (HI1.nu + HI1.nl)) (tq % (HI2.nu + HI2.nl))).H k
        = rd HI2.H j) := by
  have hpu := hb.pu_le
  have hnl1 := hv1.nl_pos
  rw [asm_rd hb hv1 hv2 k hk]
  split_ifs with h1 h2
  · exact Or.inl ⟨k, by omega, rfl⟩
  · exact Or.inr ⟨_, Nat.mod_lt _ hv2.n_pos, rfl⟩
  · exact Or.inl ⟨_, by omega, rfl⟩

theorem asm_up (hb : Bridges HI1 HI2 pu qu tl tq) (hv1 : Valid HI1) (hv2 : Valid HI2)
    (hsep : lexLe (rd HI1.H HI1.nu) (rd HI2.H 0)) (k : Nat) (hk : k < pu + 1 + (HI2.nu - qu)) :
    lexLt
      (rd (assemble HI1 HI2 pu qu (tl % (HI1.nu + HI1.nl)) (tq % (HI2.nu + HI2.nl))).H k)
      (rd (assemble HI1 HI2 pu qu (tl % (HI1.nu + HI1.nl)) (tq % (HI2.nu + HI2.nl))).H
        (k + 1)) := by
  have hpu := hb.pu_le
  have hqu := hb.qu_le
  have htq1 := hb.tq_ge
  have htq2 := hb.tq_le
  have hnl1 := hv1.nl_pos
  have hnl2 := hv2.nl_pos
  have hk' : k < pu + (tq + 1 - qu) + 1 + (HI1.nu + HI1.nl - tl) := by omega
  have hn : (k + 1) % (pu + (tq + 1 - qu) + 1 + (HI1.nu + HI1.nl - tl)) = k + 1 :=
    Nat.mod_eq_of_lt (by omega)
  rcases asm_edge hb hv1 hv2 k hk' with ⟨h, e1, e2⟩ | ⟨h, e1, e2⟩ | ⟨c, c1, c2, h, e1, e2⟩ |
    ⟨h, e1, e2⟩ | ⟨c, c1, c2, h, e1, e2⟩
  · rw [hn] at e2
    rw [e1, e2]
    exact hv1.up k (by omega)
  · rw [hn] at e2
    rw [e1, e2]
    exact hb.upper_lt hv1 hv2 hsep
  · rw [hn] at e2
    rw [e1, e2, Nat.mod_eq_of_lt (by omega)]
    exact hv2.up c (by omega)
  · omega
  · omega

theorem asm_lo (hb : Bridges HI1 HI2 pu qu tl tq) (hv1 : Valid HI1) (hv2 : Valid HI2)
    (hsep : lexLe (rd HI1.H HI1.nu) (rd HI2.H 0)) (k : Nat) (hk1 : pu + 1 + (HI2.nu - qu) ≤ k)
    (hk : k < pu + (tq + 1 - qu) + 1 + (HI1.nu + HI1.nl - tl)) :
    lexLt
      (rd (assemble HI1 HI2 pu qu (tl % (HI1.nu + HI1.nl)) (tq % (HI2.nu + HI2.nl))).H
        ((k + 1) % (pu + (tq + 1 - qu) + 1 + (HI1.nu + HI1.nl - tl))))
      (rd (assemble HI1 HI2 pu qu (tl % (HI1.nu + HI1.nl)) (tq % (HI2.nu + HI2.nl))).H k) := by
  have hpu := hb.pu_le
  have hqu := hb.qu_le
  have htq1 := hb.tq_ge
  have htq2 := hb.tq_le
  have htl1 := hb.tl_ge
  have hnl1 := hv1.nl_pos
  have hnl2 := hv2.nl_pos
  rcases asm_edge hb hv1 hv2 k hk with ⟨h, e1, e2⟩ | ⟨h, e1, e2⟩ | ⟨c, c1, c2, h, e1, e2⟩ |
    ⟨h, e1, e2⟩ | ⟨c, c1, c2, h, e1, e2⟩
  · omega
  · omega
  · rw [e1, e2]
    exact hv2.lo c (by omega) (by omega)
  · rw [e1, e2]
    exact hb.lower_lt hv1 hv2 hsep
  · rw [e1, e2]
    exact hv1.lo c (by omega) c2

/-- Points inside one of the two hulls are inside the merged chain. -/
theorem asm_inside (hb : Bridges HI1 HI2 pu qu tl tq) (hv1 : Valid HI1) (hv2 : Valid HI2)
    (hsep : lexLe (rd HI1.H HI1.nu) (rd HI2.H 0)) {s : PointT}
    (hs : Inside HI1 s ∨ Inside HI2 s) :
    Inside (assemble HI1 HI2 pu qu (tl % (HI1.nu + HI1.nl)) (tq % (HI2.nu + HI2.nl))) s := by
  have hpu := hb.pu_le
  have hqu := hb.qu_le
  have htq1 := hb.tq_ge
  have htq2 := hb.tq_le
  have hnl2 := hv2.nl_pos
  unfold Inside
  rw [asm_size hb hv1 hv2]
  refine ⟨fun i hi => asm_support hb hv1 hv2 hsep i hi hs, ?_, ?_⟩
  · rw [asm_rd hb hv1 hv2 0 (by omega), if_pos (Nat.zero_le _)]
    rcases hs with hs | hs
    · exact hs.2.1
    · exact lexLe_of_lt (lexLt_of_lt_of_le (sep_lt hv1 hv2 hsep hv1.n_pos hv2.n_pos
        (Or.inl (by have := hv1.nu_pos; omega))) hs.2.1)
  · rw [asm_nu, asm_rd hb hv1 hv2 _ (by omega)]
    have e : qu + (pu + 1 + (HI2.nu - qu) - pu - 1) = HI2.nu := by omega
    rcases Nat.lt_or_ge qu HI2.nu with h | h
    · rw [if_neg (by omega), if_pos (by omega), e, Nat.mod_eq_of_lt (by omega)]
      rcases hs with hs | hs
      · have hnl1 := hv1.nl_pos
        exact lexLe_trans hs.2.2 (sep_le hv1 hv2 hsep (by omega) (by omega))
      · exact hs.2.2
    · rw [if_neg (by omega), if_pos (by omega), e, Nat.mod_eq_of_lt (by omega)]
      rcases hs with hs | hs
      · have hnl1 := hv1.nl_pos
        exact lexLe_trans hs.2.2 (sep_le hv1 hv2 hsep (by omega) (by omega))
      · exact hs.2.2

end merged

section merged

variable {HI1 HI2 : HullT} {pu qu tl tq : Nat}

theorem asm_at1 (HI1 HI2 : HullT) (pu qu pl ql : Nat) (k : Nat) (hk : k ≤ pu) :
    rd (assemble HI1 HI2 pu qu pl ql).H k = rd HI1.H k :=
  asm_rd1 _ _ _ _ _ _ hk

theorem asm_at2 (hb : Bridges HI1 HI2 pu qu tl tq) (hv1 : Valid HI1) (hv2 : Valid HI2)
    (k c : Nat) (hc1 : qu ≤ c) (hc2 : c ≤ tq) (hk : k = pu + 1 + (c - qu)) :
    rd (assemble HI1 HI2 pu qu (tl % (HI1.nu + HI1.nl)) (tq % (HI2.nu + HI2.nl))).H k
      = rd HI2.H (c % (HI2.nu + HI2.nl)) := by
  rw [asm_rd2 hb hv1 hv2 (by omega) (by omega), show qu + (k - pu - 1) = c by omega]

theorem asm_at3 (hb : Bridges HI1 HI2 pu qu tl tq) (hv1 : Valid HI1) (hv2 : Valid HI2)
    (k c : Nat) (hc1 : tl ≤ c) (hc2 : c < HI1.nu + HI1.nl)
    (hk : k = pu + (tq + 1 - qu) + 1 + (c - tl)) :
    rd (assemble HI1 HI2 pu qu (tl % (HI1.nu + HI1.nl)) (tq % (HI2.nu + HI2.nl))).H k
      = rd HI1.H c := by
  have := hb.qu_le
  have := hb.tq_ge
  rw [asm_rd3 hb hv1 hv2 (by omega) (by omega),
    show tl + (k - (pu + 1 + (tq + 1 - qu))) = c by omega]

/-- The turn at the first entry of the merged chain (predecessor: the last entry). -/
theorem asm_turn_first (hb : Bridges HI1 HI2 pu qu tl tq) (hv1 : Valid HI1) (hv2 : Valid HI2)
    (hsep : lexLe (rd HI1.H HI1.nu) (rd HI2.H 0))
    (hM : 3 ≤ pu + (tq + 1 - qu) + 1 + (HI1.nu + HI1.nl - tl)) :
    AREA
      (rd (assemble HI1 HI2 pu qu (tl % (HI1.nu + HI1.nl)) (tq % (HI2.nu + HI2.nl))).H
        (pu + (tq + 1 - qu) + 1 + (HI1.nu + HI1.nl - tl) - 1))
      (rd (assemble HI1 HI2 pu qu (tl % (HI1.nu + HI1.nl)) (tq % (HI2.nu + HI2.nl))).H 0)
      (rd (assemble HI1 HI2 pu qu (tl % (HI1.nu + HI1.nl)) (tq % (HI2.nu + HI2.nl))).H 1)
      < 0 := by
  have hpu := hb.pu_le
  have hqu := hb.qu_le
  have htq1 := hb.tq_ge
  have htq2 := hb.tq_le
  have htl1 := hb.tl_ge
  have htl2 := hb.tl_le
  have hnu1 := hv1.nu_pos
  have hnl1 := hv1.nl_pos
  have hnu2 := hv2.nu_pos
  have hnl2 := hv2.nl_pos
  rw [asm_at1 _ _ _ _ _ _ 0 (Nat.zero_le _)]
  rcases Nat.lt_or_ge tl (HI1.nu + HI1.nl) with h1 | h1
  · rw [asm_at3 hb hv1 hv2 (pu + (tq + 1 - qu) + 1 + (HI1.nu + HI1.nl - tl) - 1)
      (HI1.nu + HI1.nl - 1) (by omega) (by omega) (by omega)]
    rcases Nat.eq_zero_or_pos pu with h2 | h2
    · rw [asm_at2 hb hv1 hv2 1 qu (le_refl _) (by omega) (by omega),
        Nat.mod_eq_of_lt (by omega)]
      exact hb.corner_P_wrap hv1 hv2 hsep h2 h1
    · rw [asm_at1 _ _ _ _ _ _ 1 (by omega)]
      rcases Nat.lt_or_ge (HI1.nu + HI1.nl) 3 with h3 | h3
      · exact (hb.no_dup_left hv1 hv2 hsep (by omega) (by omega)).elim
      · have := hv1.turn h3 (HI1.nu + HI1.nl - 1) (by omega)
        rwa [show HI1.nu + HI1.nl - 1 + 1 = HI1.nu + HI1.nl by omega, Nat.mod_self,
          show HI1.nu + HI1.nl - 1 + 2 = 1 + (HI1.nu + HI1.nl) by omega, Nat.add_mod_right,
          Nat.mod_eq_of_lt (by omega : 1 < HI1.nu + HI1.nl)] at this
  · have e : tl = HI1.nu + HI1.nl := by omega
    rw [asm_at2 hb hv1 hv2 (pu + (tq + 1 - qu) + 1 + (HI1.nu + HI1.nl - tl) - 1) tq
      (by omega) (le_refl _) (by omega)]
    rcases Nat.eq_zero_or_pos pu with h2 | h2
    · rw [asm_at2 hb hv1 hv2 1 qu (le_refl _) (by omega) (by omega),
        Nat.mod_eq_of_lt (by omega : qu < HI2.nu + HI2.nl)]
      exact hb.corner_P_single hv1 hv2 hsep h2 e (by omega)
    · rw [asm_at1 _ _ _ _ _ _ 1 (by omega)]
      exact hb.corner_Pl_wrap hv1 hv2 hsep e h2

/-- The turn at the last entry of the merged chain (successor: the first entry). -/
theorem asm_turn_last (hb : Bridges HI1 HI2 pu qu tl tq) (hv1 : Valid HI1) (hv2 : Valid HI2)
    (hsep : lexLe (rd HI1.H HI1.nu) (rd HI2.H 0))
    (hM : 3 ≤ pu + (tq + 1 - qu) + 1 + (HI1.nu + HI1.nl - tl)) :
    AREA
      (rd (assemble HI1 HI2 pu qu (tl % (HI1.nu + HI1.nl)) (tq % (HI2.nu + HI2.nl))).H
        (pu + (tq + 1 - qu) + 1 + (HI1.nu + HI1.nl - tl) - 2))
      (rd (assemble HI1 HI2 pu qu (tl % (HI1.nu + HI1.nl)) (tq % (HI2.nu + HI2.nl))).H
        (pu + (tq + 1 - qu) + 1 + (HI1.nu + HI1.nl - tl) - 1))
      (rd (assemble HI1 HI2 pu qu (tl % (HI1.nu + HI1.nl)) (tq % (HI2.nu + HI2.nl))).H 0)
      < 0 := by
  have hpu := hb.pu_le
  have hqu := hb.qu_le
  have htq1 := hb.tq_ge
  have htq2 := hb.tq_le
  have htl1 := hb.tl_ge
  have htl2 := hb.tl_le
  have hnu1 := hv1.nu_pos
  have hnl1 := hv1.nl_pos
  have hnu2 := hv2.nu_pos
  have hnl2 := hv2.nl_pos
  rw [asm_at1 _ _ _ _ _ _ 0 (Nat.zero_le _)]
  rcases Nat.lt_trichotomy (tl + 1) (HI1.nu + HI1.nl) with h1 | h1 | h1
  · -- two entries of the left lower chain, then the first entry
    rw [asm_at3 hb hv1 hv2 (pu + (tq + 1 - qu) + 1 + (HI1.nu + HI1.nl - tl) - 2)
        (HI1.nu + HI1.nl - 2) (by omega) (by omega) (by omega),
      asm_at3 hb hv1 hv2 (pu + (tq + 1 - qu) + 1 + (HI1.nu + HI1.nl - tl) - 1)
        (HI1.nu + HI1.nl - 1) (by omega) (by omega) (by omega)]
    have := hv1.turn (by omega) (HI1.nu + HI1.nl - 2) (by omega)
    rwa [show HI1.nu + HI1.nl - 2 + 1 = HI1.nu + HI1.nl - 1 by omega,
      Nat.mod_eq_of_lt (by omega : HI1.nu + HI1.nl - 1 < HI1.nu + HI1.nl),
      show HI1.nu + HI1.nl - 2 + 2 = HI1.nu + HI1.nl by omega, Nat.mod_self] at this
  · -- lower tangent point of the right hull, last entry of the left hull, first entry
    rw [asm_at2 hb hv1 hv2 (pu + (tq + 1 - qu) + 1 + (HI1.nu + HI1.nl - tl) - 2) tq
        (by omega) (le_refl _) (by omega),
      asm_at3 hb hv1 hv2 (pu + (tq + 1 - qu) + 1 + (HI1.nu + HI1.nl - tl) - 1) tl
        (le_refl _) (by omega) (by omega)]
    have := hb.corner_Pl (by omega : tl < HI1.nu + HI1.nl)
    rwa [h1, Nat.mod_self] at this
  · have e : tl = HI1.nu + HI1.nl := by omega
    have e0 : tl % (HI1.nu + HI1.nl) = 0 := by rw [e, Nat.mod_self]
    rw [asm_at2 hb hv1 hv2 (pu + (tq + 1 - qu) + 1 + (HI1.nu + HI1.nl - tl) - 1) tq
        (by omega) (le_refl _) (by omega)]
    rcases Nat.lt_or_ge qu tq with h2 | h2
    · rw [asm_at2 hb hv1 hv2 (pu + (tq + 1 - qu) + 1 + (HI1.nu + HI1.nl - tl) - 2) (tq - 1)
        (by omega) (by omega) (by omega),
        Nat.mod_eq_of_lt (by omega : tq - 1 < HI2.nu + HI2.nl)]
      rcases Nat.lt_or_ge HI2.nu tq with h3 | h3
      · have := hb.corner_Ql h3
        rwa [e0] at this
      · have e3 : tq = HI2.nu := by omega
        have := hb.corner_Ql_wrap hv1 hv2 hsep e3 (by omega)
        rw [e0] at this
        rw [e3, Nat.mod_eq_of_lt (by omega : HI2.nu < HI2.nu + HI2.nl)]
        exact this
    · have e3 : tq = HI2.nu := by omega
      have e4 : qu = HI2.nu := by omega
      rw [asm_at1 _ _ _ _ _ _ (pu + (tq + 1 - qu) + 1 + (HI1.nu + HI1.nl - tl) - 2)
        (by omega), show pu + (tq + 1 - qu) + 1 + (HI1.nu + HI1.nl - tl) - 2 = pu by omega]
      have := hb.corner_Q_single hv1 hv2 hsep e4 e3 (Or.inl (by omega))
      rw [e0] at this
      rw [e3, Nat.mod_eq_of_lt (by omega : HI2.nu < HI2.nu + HI2.nl)]
      exact this

end merged

section merged

variable {HI1 HI2 : HullT} {pu qu tl tq : Nat}

/-- The turn at an entry of the merged chain whose neighbours are its array neighbours. -/
theorem asm_turn_mid (hb : Bridges HI1 HI2 pu qu tl tq) (hv1 : Valid HI1) (hv2 : Valid HI2)
    (hsep : lexLe (rd HI1.H HI1.nu) (rd HI2.H 0)) (k : Nat)
    (hk : k + 2 < pu + (tq + 1 - qu) + 1 + (HI1.nu + HI1.nl - tl)) :
    AREA
      (rd (assemble HI1 HI2 pu qu (tl % (HI1.nu + HI1.nl)) (tq % (HI2.nu + HI2.nl))).H k)
      (rd (assemble HI1 HI2 pu qu (tl % (HI1.nu + HI1.nl)) (tq % (HI2.nu + HI2.nl))).H (k + 1))
      (rd (assemble HI1 HI2 pu qu (tl % (HI1.nu + HI1.nl)) (tq % (HI2.nu + HI2.nl))).H (k + 2))
      < 0 := by
  have hpu := hb.pu_le
  have hqu := hb.qu_le
  have htq1 := hb.tq_ge
  have htq2 := hb.tq_le
  have htl1 := hb.tl_ge
  have htl2 := hb.tl_le
  have hnu1 := hv1.nu_pos
  have hnl1 := hv1.nl_pos
  have hnu2 := hv2.nu_pos
  have hnl2 := hv2.nl_pos
  rcases Nat.lt_or_ge (k + 1) pu with hA | hA
  · -- three entries of the upper chain of the left hull
    rw [asm_at1 _ _ _ _ _ _ k (by omega), asm_at1 _ _ _ _ _ _ (k + 1) (by omega),
      asm_at1 _ _ _ _ _ _ (k + 2) (by omega)]
    have := hv1.turn (by omega) k (by omega)
    rwa [Nat.mod_eq_of_lt (by omega : k + 1 < HI1.nu + HI1.nl),
      Nat.mod_eq_of_lt (by omega : k + 2 < HI1.nu + HI1.nl)] at this
  rcases Nat.lt_or_ge k pu with hB | hB
  · -- the upper tangent point of the left hull
    have e : k + 1 = pu := by omega
    rw [asm_at1 _ _ _ _ _ _ k (by omega), asm_at1 _ _ _ _ _ _ (k + 1) (by omega),
      asm_at2 hb hv1 hv2 (k + 2) qu (le_refl _) (by omega) (by omega),
      Nat.mod_eq_of_lt (by omega : qu < HI2.nu + HI2.nl), e]
    have := hb.corner_P (by omega : 0 < pu)
    rwa [show pu - 1 = k by omega] at this
  rcases Nat.lt_or_ge pu k with hC | hC
  swap
  · -- the upper tangent point of the right hull
    have e : k = pu := by omega
    subst e
    rw [asm_at1 _ _ _ _ _ _ k (le_refl _),
      asm_at2 hb hv1 hv2 (k + 1) qu (le_refl _) (by omega) (by omega),
      Nat.mod_eq_of_lt (by omega : qu < HI2.nu + HI2.nl)]
    rcases Nat.lt_or_ge qu tq with h1 | h1
    · rw [asm_at2 hb hv1 hv2 (k + 2) (qu + 1) (by omega) (by omega) (by omega)]
      rcases Nat.lt_or_ge qu HI2.nu with h2 | h2
      · rw [Nat.mod_eq_of_lt (by omega : qu + 1 < HI2.nu + HI2.nl)]
        exact hb.corner_Q h2
      · have e2 : qu = HI2.nu := by omega
        have := hb.corner_Q_wrap hv1 hv2 hsep e2 (by omega)
        rw [e2]
        exact this
    · have e1 : tq = HI2.nu := by omega
      have e2 : qu = HI2.nu := by omega
      rw [asm_at3 hb hv1 hv2 (k + 2) tl (le_refl _) (by omega) (by omega)]
      have := hb.corner_Q_single hv1 hv2 hsep e2 e1 (Or.inr (by omega))
      rw [Nat.mod_eq_of_lt (by omega : tl < HI1.nu + HI1.nl)] at this
      rw [e2]
      exact this
  rcases Nat.lt_or_ge (k + 1) (pu + (tq + 1 - qu)) with hD | hD
  · -- three entries of the right hull
    rw [asm_at2 hb hv1 hv2 k (qu + (k - pu - 1)) (by omega) (by omega) (by omega),
      asm_at2 hb hv1 hv2 (k + 1) (qu + (k - pu - 1) + 1) (by omega) (by omega) (by omega),
      asm_at2 hb hv1 hv2 (k + 2) (qu + (k - pu - 1) + 2) (by omega) (by omega) (by omega)]
    rcases Nat.lt_or_ge (HI2.nu + HI2.nl) 3 with h3 | h3
    · exact (hb.no_dup_right hv1 hv2 hsep (by omega) (by omega)).elim
    · exact hv2.turn_cyc h3 _
  rcases Nat.lt_or_ge k (pu + (tq + 1 - qu)) with hE | hE
  · -- the lower tangent point of the right hull
    have e : k + 1 = pu + (tq + 1 - qu) := by omega
    rw [asm_at2 hb hv1 hv2 k (tq - 1) (by omega) (by omega) (by omega),
      asm_at2 hb hv1 hv2 (k + 1) tq (by omega) (le_refl _) (by omega),
      asm_at3 hb hv1 hv2 (k + 2) tl (le_refl _) (by omega) (by omega),
      Nat.mod_eq_of_lt (by omega : tq - 1 < HI2.nu + HI2.nl)]
    have etl : tl % (HI1.nu + HI1.nl) = tl := Nat.mod_eq_of_lt (by omega)
    rcases Nat.lt_or_ge HI2.nu tq with h3 | h3
    · have := hb.corner_Ql h3
      rwa [etl] at this
    · have e3 : tq = HI2.nu := by omega
      have := hb.corner_Ql_wrap hv1 hv2 hsep e3 (by omega)
      rw [etl] at this
      rw [e3, Nat.mod_eq_of_lt (by omega : HI2.nu < HI2.nu + HI2.nl)]
      exact this
  rcases Nat.lt_or_ge (pu + (tq + 1 - qu)) k with hF | hF
  swap
  · -- the lower tangent point of the left hull
    have e : k = pu + (tq + 1 - qu) := by omega
    rw [asm_at2 hb hv1 hv2 k tq (by omega) (le_refl _) (by omega),
      asm_at3 hb hv1 hv2 (k + 1) tl (le_refl _) (by omega) (by omega),
      asm_at3 hb hv1 hv2 (k + 2) (tl + 1) (by omega) (by omega) (by omega)]
    have := hb.corner_Pl (by omega : tl < HI1.nu + HI1.nl)
    rwa [Nat.mod_eq_of_lt (by omega : tl + 1 < HI1.nu + HI1.nl)] at this
  · -- three entries of the lower chain of the left hull
    rw [asm_at3 hb hv1 hv2 k (tl + (k - (pu + (tq + 1 - qu) + 1))) (by omega) (by omega)
        (by omega),
      asm_at3 hb hv1 hv2 (k + 1) (tl + (k - (pu + (tq + 1 - qu) + 1)) + 1) (by omega)
        (by omega) (by omega),
      asm_at3 hb hv1 hv2 (k + 2) (tl + (k - (pu + (tq + 1 - qu) + 1)) + 2) (by omega)
        (by omega) (by omega)]
    have := hv1.turn (by omega) (tl + (k - (pu + (tq + 1 - qu) + 1))) (by omega)
    rwa [Nat.mod_eq_of_lt (by omega), Nat.mod_eq_of_lt (by omega)] at this

/-- Every cyclic consecutive triple of the merged chain is a strict right turn. -/
theorem asm_turn (hb : Bridges HI1 HI2 pu qu tl tq) (hv1 : Valid HI1) (hv2 : Valid HI2)
    (hsep : lexLe (rd HI1.H HI1.nu) (rd HI2.H 0))
    (hM : 3 ≤ pu + (tq + 1 - qu) + 1 + (HI1.nu + HI1.nl - tl)) (k : Nat)
    (hk : k < pu + (tq + 1 - qu) + 1 + (HI1.nu + HI1.nl - tl)) :
    AREA
      (rd (assemble HI1 HI2 pu qu (tl % (HI1.nu + HI1.nl)) (tq % (HI2.nu + HI2.nl))).H k)
      (rd (assemble HI1 HI2 pu qu (tl % (HI1.nu + HI1.nl)) (tq % (HI2.nu + HI2.nl))).H
        ((k + 1) % (pu + (tq + 1 - qu) + 1 + (HI1.nu + HI1.nl - tl))))
      (rd (assemble HI1 HI2 pu qu (tl % (HI1.nu + HI1.nl)) (tq % (HI2.nu + HI2.nl))).H
        ((k + 2) % (pu + (tq + 1 - qu) + 1 + (HI1.nu + HI1.nl - tl))))
      < 0 := by
  rcases Nat.lt_or_ge (k + 2) (pu + (tq + 1 - qu) + 1 + (HI1.nu + HI1.nl - tl)) with h | h
  · rw [Nat.mod_eq_of_lt (by omega : k + 1 < _), Nat.mod_eq_of_lt h]
    exact asm_turn_mid hb hv1 hv2 hsep k h
  rcases Nat.lt_or_ge (k + 1) (pu + (tq + 1 - qu) + 1 + (HI1.nu + HI1.nl - tl)) with h' | h'
  · have e : k + 2 = pu + (tq + 1 - qu) + 1 + (HI1.nu + HI1.nl - tl) := by omega
    rw [Nat.mod_eq_of_lt h', e, Nat.mod_self,
      show k = pu + (tq + 1 - qu) + 1 + (HI1.nu + HI1.nl - tl) - 2 by omega,
      show pu + (tq + 1 - qu) + 1 + (HI1.nu + HI1.nl - tl) - 2 + 1
        = pu + (tq + 1 - qu) + 1 + (HI1.nu + HI1.nl - tl) - 1 by omega]
    exact asm_turn_last hb hv1 hv2 hsep hM
  · have e : k + 1 = pu + (tq + 1 - qu) + 1 + (HI1.nu + HI1.nl - tl) := by omega
    rw [show k + 2 = 1 + (k + 1) by omega, e, Nat.mod_self, Nat.add_mod_right,
      Nat.mod_eq_of_lt (by omega : 1 < pu + (tq + 1 - qu) + 1 + (HI1.nu + HI1.nl - tl)),
      show k = pu + (tq + 1 - qu) + 1 + (HI1.nu + HI1.nl - tl) - 1 by omega]
    exact asm_turn_first hb hv1 hv2 hsep hM

/-- The merged chain of two valid, lexicographically separated hulls is valid. -/
theorem asm_valid (hb : Bridges HI1 HI2 pu qu tl tq) (hv1 : Valid HI1) (hv2 : Valid HI2)
    (hsep : lexLe (rd HI1.H HI1.nu) (rd HI2.H 0)) :
    Valid (assemble HI1 HI2 pu qu (tl % (HI1.nu + HI1.nl)) (tq % (HI2.nu + HI2.nl))) := by
  have hqu := hb.qu_le
  have htq1 := hb.tq_ge
  have hsz := asm_size hb hv1 hv2
  refine ⟨?_, ?_, ?_, ?_, ?_, ?_, ?_⟩
  · rw [asm_nu]; omega
  · rw [asm_nl hb hv1 hv2]; omega
  · rw [asm_len hb hv1 hv2, asm_nu, asm_nl hb hv1 hv2]
  · intro i hi
    rw [asm_nu] at hi
    exact asm_up hb hv1 hv2 hsep i hi
  · intro i hi1 hi2
    rw [hsz] at hi2 ⊢
    rw [asm_nu] at hi1
    exact asm_lo hb hv1 hv2 hsep i hi1 hi2
  · intro i j hi hj
    rw [hsz] at hi hj ⊢
    have hin : Inside HI1 (rd (assemble HI1 HI2 pu qu (tl % (HI1.nu + HI1.nl))
        (tq % (HI2.nu + HI2.nl))).H j) ∨ Inside HI2 (rd (assemble HI1 HI2 pu qu
        (tl % (HI1.nu + HI1.nl)) (tq % (HI2.nu + HI2.nl))).H j) := by
      rcases asm_mem hb hv1 hv2 j hj with ⟨a, ha, e⟩ | ⟨a, ha, e⟩
      · rw [e]; exact Or.inl (hv1.vertex_inside a ha)
      · rw [e]; exact Or.inr (hv2.vertex_inside a ha)
    exact asm_support hb hv1 hv2 hsep i hi hin
  · intro h3 i hi
    rw [hsz] at h3 hi ⊢
    exact asm_turn hb hv1 hv2 hsep h3 i hi

end merged

/-! ### The contract of `joinHulls` -/

section join

variable {HI1 HI2 : HullT}

theorem joinHulls_valid (hv1 : Valid HI1) (hv2 : Valid HI2)
    (hsep : lexLe (rd HI1.H HI1.nu) (rd HI2.H 0)) : Valid (joinHulls HI1 HI2) := by
  obtain ⟨pu, qu, tl, tq, hb, e⟩ := joinHulls_bridges hv1 hv2 hsep
  rw [e]
  exact asm_valid hb hv1 hv2 hsep

theorem joinHulls_inside (hv1 : Valid HI1) (hv2 : Valid HI2)
    (hsep : lexLe (rd HI1.H HI1.nu) (rd HI2.H 0)) {s : PointT}
    (hs : Inside HI1 s ∨ Inside HI2 s) : Inside (joinHulls HI1 HI2) s := by
  obtain ⟨pu, qu, tl, tq, hb, e⟩ := joinHulls_bridges hv1 hv2 hsep
  rw [e]
  exact asm_inside hb hv1 hv2 hsep hs

theorem joinHulls_first (hv1 : Valid HI1) (hv2 : Valid HI2)
    (hsep : lexLe (rd HI1.H HI1.nu) (rd HI2.H 0)) :
    rd (joinHulls HI1 HI2).H 0 = rd HI1.H 0 := by
  obtain ⟨pu, qu, tl, tq, hb, e⟩ := joinHulls_bridges hv1 hv2 hsep
  rw [e]
  exact asm_at1 _ _ _ _ _ _ 0 (Nat.zero_le _)

theorem joinHulls_last (hv1 : Valid HI1) (hv2 : Valid HI2)
    (hsep : lexLe (rd HI1.H HI1.nu) (rd HI2.H 0)) :
    rd (joinHulls HI1 HI2).H (joinHulls HI1 HI2).nu = rd HI2.H HI2.nu := by
  obtain ⟨pu, qu, tl, tq, hb, e⟩ := joinHulls_bridges hv1 hv2 hsep
  have hqu := hb.qu_le
  have htq := hb.tq_ge
  have hnl := hv2.nl_pos
  rw [e, asm_nu, asm_at2 hb hv1 hv2 (pu + 1 + (HI2.nu - qu)) HI2.nu hqu htq rfl,
    Nat.mod_eq_of_lt (by omega)]

theorem joinHulls_mem (hv1 : Valid HI1) (hv2 : Valid HI2)
    (hsep : lexLe (rd HI1.H HI1.nu) (rd HI2.H 0)) (k : Nat)
    (hk : k < (joinHulls HI1 HI2).nu + (joinHulls HI1 HI2).nl) :
    (∃ i, i < HI1.nu + HI1.nl ∧ rd (joinHulls HI1 HI2).H k = rd HI1.H i) ∨
    (∃ j, j < HI2.nu + HI2.nl ∧ rd (joinHulls HI1 HI2).H k = rd HI2.H j) := by
  obtain ⟨pu, qu, tl, tq, hb, e⟩ := joinHulls_bridges hv1 hv2 hsep
  rw [e] at hk ⊢
  rw [asm_size hb hv1 hv2] at hk
  exact asm_mem hb hv1 hv2 k hk

theorem joinHulls_size (hv1 : Valid HI1) (hv2 : Valid HI2)
    (hsep : lexLe (rd HI1.H HI1.nu) (rd HI2.H 0)) :
    (joinHulls HI1 HI2).nu + (joinHulls HI1 HI2).nl ≤ (HI1.nu + HI1.nl) + (HI2.nu + HI2.nl) := by
  obtain ⟨pu, qu, tl, tq, hb, e⟩ := joinHulls_bridges hv1 hv2 hsep
  rw [e, asm_size hb hv1 hv2]
  have hpu := hb.pu_le
  have hqu := hb.qu_le
  have htq1 := hb.tq_ge
  have htq2 := hb.tq_le
  have htl1 := hb.tl_ge
  have htl2 := hb.tl_le
  have h1 : ¬ (pu = HI1.nu ∧ tl = HI1.nu) := fun h => hb.no_dup_left hv1 hv2 hsep h.1 h.2
  have h2 : ¬ (qu = 0 ∧ tq = HI2.nu + HI2.nl) := fun h => hb.no_dup_right hv1 hv2 hsep h.1 h.2
  omega

end join

/-! ### Vertices of a valid chain are pairwise distinct -/

theorem cr_antiparallel_absurd {a1 a2 b1 b2 c1 c2 : Int} (ha : lexPos (-a1) (-a2))
    (hc : lexPos c1 c2) (hac : cr a1 a2 c1 c2 = 0) (hab : 0 < cr a1 a2 b1 b2)
    (hbc : cr b1 b2 c1 c2 ≤ 0) : False := by
  unfold cr at *
  have key : c1 * (a1 * b2 - a2 * b1) = -a1 * (b1 * c2 - b2 * c1) + b1 * (a1 * c2 - a2 * c1) := by
    ring
  rw [hac] at key
  rcases hc with hc | ⟨hc1, hc2⟩
  · have ha1 : 0 ≤ -a1 := by rcases ha with h | h <;> omega
    have h1 := mul_pos hc hab
    have h2 := mul_nonpos_of_nonneg_of_nonpos ha1 hbc
    linarith
  · subst hc1
    simp only [zero_mul, sub_zero, mul_zero] at *
    have ha0 : a1 = 0 := by
      rcases mul_eq_zero.1 hac with h | h
      · exact h
      · omega
    subst ha0
    have ha2 : 0 < -a2 := by rcases ha with h | h <;> omega
    simp only [zero_mul, zero_sub] at hab
    have hb1 : 0 < b1 := by
      by_contra hcon
      push_neg at hcon
      have := mul_nonneg_of_nonpos_of_nonpos (by omega : a2 ≤ 0) hcon
      linarith
    have := mul_pos hb1 hc2
    linarith

theorem Valid.distinct {HI : HullT} (hv : Valid HI) {i j : Nat} (hij : i < j)
    (hj : j < HI.nu + HI.nl) :
    ¬ ((rd HI.H i).x = (rd HI.H j).x ∧ (rd HI.H i).y = (rd HI.H j).y) := by
  have hnu := hv.nu_pos
  have hnl := hv.nl_pos
  rintro ⟨hx, hy⟩
  have ne_of_lt : ∀ {a b : PointT}, lexLt a b → a.x = b.x → a.y = b.y → False := by
    intro a b h h1 h2
    unfold lexLt at h
    omega
  rcases Nat.lt_or_ge HI.nu j with h1 | h1
  swap
  · exact ne_of_lt (hv.up_lt j i hij h1) hx hy
  rcases Nat.lt_or_ge i HI.nu with h2 | h2
  swap
  · have := hv.lo_lt j i h2 hij (by omega)
    rw [Nat.mod_eq_of_lt hj] at this
    exact ne_of_lt this hx.symm hy.symm
  rcases Nat.eq_zero_or_pos i with h3 | h3
  · subst h3
    have := hv.lo_lt (HI.nu + HI.nl) j (by omega) hj (le_refl _)
    rw [Nat.mod_self] at this
    exact ne_of_lt this hx hy
  -- an inner vertex of the upper chain against an inner vertex of the lower chain
  have hA : lexLt (rd HI.H (i - 1)) (rd HI.H i) := hv.up_lt i (i - 1) (by omega) (by omega)
  have hC : lexLt (rd HI.H j) (rd HI.H (j - 1)) := by
    have := hv.lo_lt j (j - 1) (by omega) (by omega) (by omega)
    rwa [Nat.mod_eq_of_lt hj] at this
  have t := hv.turn (by omega) (i - 1) (by omega)
  rw [show i - 1 + 1 = i by omega, show i - 1 + 2 = i + 1 by omega,
    Nat.mod_eq_of_lt (by omega : i < HI.nu + HI.nl),
    Nat.mod_eq_of_lt (by omega : i + 1 < HI.nu + HI.nl)] at t
  have c1 := hv.cvx (i - 1) (j - 1) (by omega) (by omega)
  rw [show i - 1 + 1 = i by omega, Nat.mod_eq_of_lt (by omega : i < HI.nu + HI.nl)] at c1
  have c2 := hv.cvx (j - 1) (i - 1) (by omega) (by omega)
  rw [show j - 1 + 1 = j by omega, Nat.mod_eq_of_lt hj] at c2
  have c3 := hv.cvx i (j - 1) (by omega) (by omega)
  rw [Nat.mod_eq_of_lt (by omega : i + 1 < HI.nu + HI.nl)] at c3
  unfold AREA at t c1 c2 c3
  rw [← hx, ← hy] at c2
  unfold lexLt at hA hC
  rw [← hx, ← hy] at hC
  exact @cr_antiparallel_absurd
    ((rd HI.H (i - 1)).x - (rd HI.H i).x) ((rd HI.H (i - 1)).y - (rd HI.H i).y)
    ((rd HI.H (i + 1)).x - (rd HI.H i).x) ((rd HI.H (i + 1)).y - (rd HI.H i).y)
    ((rd HI.H (j - 1)).x - (rd HI.H i).x) ((rd HI.H (j - 1)).y - (rd HI.H i).y)
    (by unfold lexPos; omega) (by unfold lexPos; omega)
    (by unfold cr; linarith) (by unfold cr; linarith) (by unfold cr; linarith)

/-! ### The base cases of `mergeHull` -/

theorem valid_two {a b : PointT} (h : lexLt a b) : Valid ⟨[a, b], 1, 1⟩ := by
  refine ⟨le_refl _, le_refl _, rfl, ?_, ?_, ?_, ?_⟩
  · intro i hi
    simp only at hi
    interval_cases i
    simpa [rd] using h
  · intro i hi1 hi2
    simp only at hi1 hi2
    interval_cases i
    simpa [rd] using h
  · intro i j hi hj
    simp only at hi hj
    interval_cases i <;> interval_cases j <;> simp [rd, AREA]
  · intro h3
    simp only at h3
    omega

theorem valid_right {a b c : PointT} (hab : lexLt a b) (hbc : lexLt b c)
    (h : AREA a b c < 0) : Valid ⟨[a, b, c], 2, 1⟩ := by
  refine ⟨by simp, le_refl _, rfl, ?_, ?_, ?_, ?_⟩
  · intro i hi
    simp only at hi
    interval_cases i
    · simpa [rd] using hab
    · simpa [rd] using hbc
  · intro i hi1 hi2
    simp only at hi1 hi2
    interval_cases i
    simpa [rd] using lexLt_trans hab hbc
  · intro i j hi hj
    simp only at hi hj
    unfold AREA at h
    interval_cases i <;> interval_cases j <;> simp [rd, AREA] <;> linarith
  · intro _ i hi
    simp only at hi
    unfold AREA at h
    interval_cases i <;> simp [rd, AREA] <;> linarith

theorem valid_left {a b c : PointT} (hab : lexLt a b) (hbc : lexLt b c)
    (h : 0 < AREA a b c) : Valid ⟨[a, c, b], 1, 2⟩ := by
  refine ⟨le_refl _, by simp, rfl, ?_, ?_, ?_, ?_⟩
  · intro i hi
    simp only at hi
    interval_cases i
    simpa [rd] using lexLt_trans hab hbc
  · intro i hi1 hi2
    simp only at hi1 hi2
    interval_cases i
    · simpa [rd] using hbc
    · simpa [rd] using hab
  · intro i j hi hj
    simp only at hi hj
    unfold AREA at h
    interval_cases i <;> interval_cases j <;> simp [rd, AREA] <;> linarith
  · intro _ i hi
    simp only at hi
    unfold AREA at h
    interval_cases i <;> simp [rd, AREA] <;> linarith

/-! ### The contract of `mergeHull` -/

theorem rd_drop (S : List PointT) (m i : Nat) : rd (S.drop m) i = rd S (m + i) := by
  unfold rd
  simp [List.getD_eq_getElem?_getD, List.getElem?_drop]

theorem inside_collinear {a b c : PointT} (hab : lexLt a b) (hbc : lexLt b c)
    (hcol : AREA a b c = 0) : Inside ⟨[a, c], 1, 1⟩ b := by
  refine ⟨?_, lexLe_of_lt hab, lexLe_of_lt hbc⟩
  intro k hk
  simp only at hk
  unfold AREA at hcol
  interval_cases k <;> simp [rd, AREA] <;> linarith

theorem mergeHullBase_spec (S : List PointT) (n : Nat) (h2 : 2 ≤ n) (h3 : n ≤ 3)
    (hS : ∀ i j, i < j → j < n → lexLt (rd S i) (rd S j)) :
    HullOf S n (mergeHullBase S n) := by
  unfold mergeHullBase
  have h01 : lexLt (rd S 0) (rd S 1) := hS 0 1 (by omega) (by omega)
  split_ifs with e2 hr hl
  · subst e2
    refine ⟨valid_two h01, rfl, rfl, ?_, ?_, le_refl _⟩
    · intro i hi
      refine ⟨?_, ?_, ?_⟩
      · intro k hk
        simp only at hk
        interval_cases i <;> interval_cases k <;> simp [rd, AREA]
      · interval_cases i
        · exact lexLe_refl _
        · exact lexLe_of_lt h01
      · interval_cases i
        · exact lexLe_of_lt h01
        · exact lexLe_refl _
    · intro k hk
      simp only at hk
      interval_cases k
      · exact ⟨0, by omega, rfl⟩
      · exact ⟨1, by omega, rfl⟩
  · have e3 : n = 3 := by omega
    subst e3
    have h12 : lexLt (rd S 1) (rd S 2) := hS 1 2 (by omega) (by omega)
    have hv := valid_right h01 h12 hr
    refine ⟨hv, rfl, rfl, ?_, ?_, le_refl _⟩
    · intro i hi
      interval_cases i
      · exact hv.vertex_inside 0 (by simp)
      · exact hv.vertex_inside 1 (by simp)
      · exact hv.vertex_inside 2 (by simp)
    · intro k hk
      simp only at hk
      interval_cases k
      · exact ⟨0, by omega, rfl⟩
      · exact ⟨1, by omega, rfl⟩
      · exact ⟨2, by omega, rfl⟩
  · have e3 : n = 3 := by omega
    subst e3
    have h12 : lexLt (rd S 1) (rd S 2) := hS 1 2 (by omega) (by omega)
    have hv := valid_left h01 h12 hl
    refine ⟨hv, rfl, rfl, ?_, ?_, le_refl _⟩
    · intro i hi
      interval_cases i
      · exact hv.vertex_inside 0 (by simp)
      · exact hv.vertex_inside 2 (by simp)
      · exact hv.vertex_inside 1 (by simp)
    · intro k hk
      simp only at hk
      interval_cases k
      · exact ⟨0, by omega, rfl⟩
      · exact ⟨2, by omega, rfl⟩
      · exact ⟨1, by omega, rfl⟩
  · have e3 : n = 3 := by omega
    subst e3
    have h12 : lexLt (rd S 1) (rd S 2) := hS 1 2 (by omega) (by omega)
    have h02 := lexLt_trans h01 h12
    have hv := valid_two h02
    unfold RIGHT at hr
    unfold LEFT at hl
    have hcol : AREA (rd S 0) (rd S 1) (rd S 2) = 0 := by omega
    refine ⟨hv, rfl, rfl, ?_, ?_, by simp⟩
    · intro i hi
      interval_cases i
      · exact hv.vertex_inside 0 (by simp)
      · exact inside_collinear h01 h12 hcol
      · exact hv.vertex_inside 1 (by simp)
    · intro k hk
      simp only at hk
      interval_cases k
      · exact ⟨0, by omega, rfl⟩
      · exact ⟨2, by omega, rfl⟩

theorem mergeHullAux_spec : ∀ (fuel : Nat) (S : List PointT) (n : Nat), n ≤ fuel → 2 ≤ n →
    (∀ i j, i < j → j < n → lexLt (rd S i) (rd S j)) → HullOf S n (mergeHullAux fuel S n) := by
  intro fuel
  induction fuel with
  | zero => intro S n hf h2; omega
  | succ fuel ih =>
    intro S n hf h2 hS
    rw [mergeHullAux]
    split_ifs with h3
    · exact mergeHullBase_spec S n h2 h3 hS
    · show HullOf S n (joinHulls (mergeHullAux fuel S (n / 2))
        (mergeHullAux fuel (S.drop (n / 2)) (n - n / 2)))
      have hmid1 : 2 ≤ n / 2 := by omega
      have hmid2 : n / 2 < n := by omega
      obtain ⟨v1, f1, l1, i1, m1, s1⟩ := ih S (n / 2) (by omega) hmid1
        (fun i j hij hj => hS i j hij (by omega))
      obtain ⟨v2, f2, l2, i2, m2, s2⟩ := ih (S.drop (n / 2)) (n - n / 2) (by omega) (by omega)
        (fun i j hij hj => by
          rw [rd_drop, rd_drop]
          exact hS _ _ (by omega) (by omega))
      have hsep : lexLe (rd (mergeHullAux fuel S (n / 2)).H (mergeHullAux fuel S (n / 2)).nu)
          (rd (mergeHullAux fuel (S.drop (n / 2)) (n - n / 2)).H 0) := by
        rw [l1, f2, rd_drop]
        exact lexLe_of_lt (hS _ _ (by omega) (by omega))
      refine ⟨joinHulls_valid v1 v2 hsep, ?_, ?_, ?_, ?_, ?_⟩
      · rw [joinHulls_first v1 v2 hsep, f1]
      · rw [joinHulls_last v1 v2 hsep, l2, rd_drop]
        congr 1
        omega
      · intro i hi
        apply joinHulls_inside v1 v2 hsep
        rcases Nat.lt_or_ge i (n / 2) with h | h
        · exact Or.inl (i1 i h)
        · right
          have := i2 (i - n / 2) (by omega)
          rwa [rd_drop, show n / 2 + (i - n / 2) = i by omega] at this
      · intro k hk
        rcases joinHulls_mem v1 v2 hsep k hk with ⟨a, ha, e⟩ | ⟨a, ha, e⟩
        · obtain ⟨i, hi, e'⟩ := m1 a ha
          exact ⟨i, by omega, by rw [e, e']⟩
        · obtain ⟨i, hi, e'⟩ := m2 a ha
          exact ⟨n / 2 + i, by omega, by rw [e, e', rd_drop]⟩
      · have := joinHulls_size v1 v2 hsep
        omega

theorem mergeHull_spec (S : List PointT) (n : Nat) (h2 : 2 ≤ n)
    (hS : ∀ i j, i < j → j < n → lexLt (rd S i) (rd S j)) : HullOf S n (mergeHull S n) :=
  mergeHullAux_spec n S n (le_refl _) h2 hS

/-! ### Sorted inputs -/

theorem rd_eq_getElem (S : List PointT) (i : Nat) (h : i < S.length) : rd S i = S[i] := by
  unfold rd
  exact List.getD_eq_getElem _ _ h

theorem rd_mem (S : List PointT) (i : Nat) (h : i < S.length) : rd S i ∈ S := by
  rw [rd_eq_getElem S i h]
  exact List.getElem_mem _

theorem mem_rd {S : List PointT} {s : PointT} (h : s ∈ S) : ∃ i, i < S.length ∧ s = rd S i := by
  obtain ⟨i, hi, e⟩ := List.mem_iff_getElem.1 h
  exact ⟨i, hi, by rw [rd_eq_getElem S i hi, e]⟩

theorem sorted_rd {S : List PointT} (hs : SortedLex S) (i j : Nat) (hij : i < j)
    (hj : j < S.length) : lexLt (rd S i) (rd S j) := by
  rw [rd_eq_getElem S i (by omega), rd_eq_getElem S j hj]
  exact List.pairwise_iff_getElem.1 hs i j (by omega) hj hij

theorem mergeHull_hullOf {S : List PointT} (hn : 2 ≤ S.length) (hs : SortedLex S) :
    HullOf S S.length (mergeHull S S.length) :=
  mergeHull_spec S S.length hn (sorted_rd hs)

/-- A chain of size two with `nu = nl = 1` is determined by its two entries. -/
theorem hull_two_eq {HI : HullT} (hlen : HI.H.length = 2) (hnu : HI.nu = 1) (hnl : HI.nl = 1) :
    HI = ⟨[rd HI.H 0, rd HI.H 1], 1, 1⟩ := by
  rcases HI with ⟨H, nu, nl⟩
  simp only at hlen hnu hnl
  subst hnu hnl
  match H, hlen with
  | [a, b], _ => rfl

/-! ### The contract of `mergeHull` on sorted inputs -/

/-- Convexity of the hull computed on exact integers: on a sorted input of at least two points with pairwise distinct
coordinates, the hull has size `nu + nl` and every cyclic consecutive triple of the hull is
a non-left turn. -/
theorem mergeHull_convexity (S : List PointT) (hn : 2 ≤ S.length) (hs : SortedLex S) :
    (mergeHull S S.length).H.length = (mergeHull S S.length).nu + (mergeHull S S.length).nl ∧
    ∀ i, i < (mergeHull S S.length).nu + (mergeHull S S.length).nl →
      AREA (rd (mergeHull S S.length).H i)
        (rd (mergeHull S S.length).H
          ((i + 1) % ((mergeHull S S.length).nu + (mergeHull S S.length).nl)))
        (rd (mergeHull S S.length).H
          ((i + 2) % ((mergeHull S S.length).nu + (mergeHull S S.length).nl))) ≤ 0 := by
  obtain ⟨hv, -⟩ := mergeHull_hullOf hn hs
  exact ⟨hv.len, fun i hi => hv.cvx i _ hi (Nat.mod_lt _ hv.n_pos)⟩

theorem mergeHull_convexity_witness :
    2 ≤ [pt 0 0, pt 1 3, pt 2 1, pt 3 4, pt 4 0].length ∧
    SortedLex [pt 0 0, pt 1 3, pt 2 1, pt 3 4, pt 4 0] ∧
    ∀ i, i < (mergeHull [pt 0 0, pt 1 3, pt 2 1, pt 3 4, pt 4 0] 5).nu
        + (mergeHull [pt 0 0, pt 1 3, pt 2 1, pt 3 4, pt 4 0] 5).nl →
      AREA (rd (mergeHull [pt 0 0, pt 1 3, pt 2 1, pt 3 4, pt 4 0] 5).H i)
        (rd (mergeHull [pt 0 0, pt 1 3, pt 2 1, pt 3 4, pt 4 0] 5).H
          ((i + 1) % ((mergeHull [pt 0 0, pt 1 3, pt 2 1, pt 3 4, pt 4 0] 5).nu
            + (mergeHull [pt 0 0, pt 1 3, pt 2 1, pt 3 4, pt 4 0] 5).nl)))
        (rd (mergeHull [pt 0 0, pt 1 3, pt 2 1, pt 3 4, pt 4 0] 5).H
          ((i + 2) % ((mergeHull [pt 0 0, pt 1 3, pt 2 1, pt 3 4, pt 4 0] 5).nu
            + (mergeHull [pt 0 0, pt 1 3, pt 2 1, pt 3 4, pt 4 0] 5).nl))) ≤ 0 :=
  ⟨by decide, by decide,
    (mergeHull_convexity [pt 0 0, pt 1 3, pt 2 1, pt 3 4, pt 4 0] (by decide) (by decide)).2⟩

/-- Containment for the hull computed on exact integers: on a sorted input of at least two points with pairwise distinct
coordinates, no input point lies strictly to the left of a directed boundary edge of the
hull. -/
theorem mergeHull_containment (S : List PointT) (hn : 2 ≤ S.length) (hs : SortedLex S) :
    ∀ s ∈ S, ∀ i, i < (mergeHull S S.length).nu + (mergeHull S S.length).nl →
      AREA (rd (mergeHull S S.length).H i)
        (rd (mergeHull S S.length).H
          ((i + 1) % ((mergeHull S S.length).nu + (mergeHull S S.length).nl))) s ≤ 0 := by
  obtain ⟨-, -, -, hin, -⟩ := mergeHull_hullOf hn hs
  intro s hs' i hi
  obtain ⟨k, hk, e⟩ := mem_rd hs'
  rw [e]
  exact (hin k hk).1 i hi

theorem mergeHull_containment_witness :
    2 ≤ [pt 0 0, pt 1 1, pt 1 3, pt 2 2, pt 3 1, pt 4 4].length ∧
    SortedLex [pt 0 0, pt 1 1, pt 1 3, pt 2 2, pt 3 1, pt 4 4] ∧
    ∀ s ∈ [pt 0 0, pt 1 1, pt 1 3, pt 2 2, pt 3 1, pt 4 4],
      ∀ i, i < (mergeHull [pt 0 0, pt 1 1, pt 1 3, pt 2 2, pt 3 1, pt 4 4] 6).nu
          + (mergeHull [pt 0 0, pt 1 1, pt 1 3, pt 2 2, pt 3 1, pt 4 4] 6).nl →
        AREA (rd (mergeHull [pt 0 0, pt 1 1, pt 1 3, pt 2 2, pt 3 1, pt 4 4] 6).H i)
          (rd (mergeHull [pt 0 0, pt 1 1, pt 1 3, pt 2 2, pt 3 1, pt 4 4] 6).H
            ((i + 1) % ((mergeHull [pt 0 0, pt 1 1, pt 1 3, pt 2 2, pt 3 1, pt 4 4] 6).nu
              + (mergeHull [pt 0 0, pt 1 1, pt 1 3, pt 2 2, pt 3 1, pt 4 4] 6).nl))) s ≤ 0 :=
  ⟨by decide, by decide,
    mergeHull_containment [pt 0 0, pt 1 1, pt 1 3, pt 2 2, pt 3 1, pt 4 4] (by decide)
      (by decide)⟩

/-- Hull vertices are input points, each at most once (tests on exact integers): on a sorted
input of at
least two points with pairwise distinct coordinates, every entry of the hull is an element of
the input, and no two entries at different indices are equal. -/
theorem mergeHull_vertices (S : List PointT) (hn : 2 ≤ S.length) (hs : SortedLex S) :
    (∀ p ∈ (mergeHull S S.length).H, p ∈ S) ∧
    (∀ k, k < (mergeHull S S.length).nu + (mergeHull S S.length).nl →
      rd (mergeHull S S.length).H k ∈ S) ∧
    (∀ i j, i < (mergeHull S S.length).nu + (mergeHull S S.length).nl →
      j < (mergeHull S S.length).nu + (mergeHull S S.length).nl → i ≠ j →
      rd (mergeHull S S.length).H i ≠ rd (mergeHull S S.length).H j) ∧
    (mergeHull S S.length).H.Nodup := by
  obtain ⟨hv, -, -, -, hmem, -⟩ := mergeHull_hullOf hn hs
  have hd : ∀ i j, i < (mergeHull S S.length).nu + (mergeHull S S.length).nl →
      j < (mergeHull S S.length).nu + (mergeHull S S.length).nl → i ≠ j →
      rd (mergeHull S S.length).H i ≠ rd (mergeHull S S.length).H j := by
    intro i j hi hj hij e
    rcases Nat.lt_or_gt_of_ne hij with h | h
    · exact hv.distinct h hj ⟨by rw [e], by rw [e]⟩
    · exact hv.distinct h hi ⟨by rw [e], by rw [e]⟩
  have hk : ∀ k, k < (mergeHull S S.length).nu + (mergeHull S S.length).nl →
      rd (mergeHull S S.length).H k ∈ S := by
    intro k hk
    obtain ⟨i, hi, e⟩ := hmem k hk
    rw [e]
    exact rd_mem S i hi
  refine ⟨?_, hk, hd, ?_⟩
  · intro p hp
    obtain ⟨k, hk', e⟩ := mem_rd hp
    rw [e]
    exact hk k (by rw [← hv.len]; exact hk')
  · rw [List.nodup_iff_injective_getElem]
    rintro ⟨i, hi⟩ ⟨j, hj⟩ e
    simp only at e
    by_contra hne
    have hij : i ≠ j := fun h => hne (by simp [h])
    rw [hv.len] at hi hj
    refine hd i j hi hj hij ?_
    rw [rd_eq_getElem _ i (by rw [hv.len]; exact hi), rd_eq_getElem _ j (by rw [hv.len]; exact hj)]
    exact e

theorem mergeHull_vertices_witness :
    2 ≤ [pt 0 0, pt 1 2, pt 2 0, pt 3 0, pt 4 2, pt 5 0].length ∧
    SortedLex [pt 0 0, pt 1 2, pt 2 0, pt 3 0, pt 4 2, pt 5 0] ∧
    (mergeHull [pt 0 0, pt 1 2, pt 2 0, pt 3 0, pt 4 2, pt 5 0] 6).H.Nodup :=
  ⟨by decide, by decide,
    (mergeHull_vertices [pt 0 0, pt 1 2, pt 2 0, pt 3 0, pt 4 2, pt 5 0] (by decide)
      (by decide)).2.2.2⟩

/-- Minimality of the hull computed on exact integers: on a sorted input of at least two points with pairwise distinct
coordinates whose hull has at least three vertices, every cyclic consecutive triple of the
hull is a strict right turn. -/
theorem mergeHull_minimality (S : List PointT) (hn : 2 ≤ S.length) (hs : SortedLex S)
    (h3 : 3 ≤ (mergeHull S S.length).nu + (mergeHull S S.length).nl) :
    ∀ i, i < (mergeHull S S.length).nu + (mergeHull S S.length).nl →
      AREA (rd (mergeHull S S.length).H i)
        (rd (mergeHull S S.length).H
          ((i + 1) % ((mergeHull S S.length).nu + (mergeHull S S.length).nl)))
        (rd (mergeHull S S.length).H
          ((i + 2) % ((mergeHull S S.length).nu + (mergeHull S S.length).nl))) < 0 := by
  obtain ⟨hv, -⟩ := mergeHull_hullOf hn hs
  exact hv.turn h3

theorem mergeHull_minimality_witness :
    2 ≤ [pt 0 0, pt 0 2, pt 1 1, pt 2 0, pt 2 2].length ∧
    SortedLex [pt 0 0, pt 0 2, pt 1 1, pt 2 0, pt 2 2] ∧
    3 ≤ (mergeHull [pt 0 0, pt 0 2, pt 1 1, pt 2 0, pt 2 2] 5).nu
      + (mergeHull [pt 0 0, pt 0 2, pt 1 1, pt 2 0, pt 2 2] 5).nl ∧
    ∀ i, i < (mergeHull [pt 0 0, pt 0 2, pt 1 1, pt 2 0, pt 2 2] 5).nu
        + (mergeHull [pt 0 0, pt 0 2, pt 1 1, pt 2 0, pt 2 2] 5).nl →
      AREA (rd (mergeHull [pt 0 0, pt 0 2, pt 1 1, pt 2 0, pt 2 2] 5).H i)
        (rd (mergeHull [pt 0 0, pt 0 2, pt 1 1, pt 2 0, pt 2 2] 5).H
          ((i + 1) % ((mergeHull [pt 0 0, pt 0 2, pt 1 1, pt 2 0, pt 2 2] 5).nu
            + (mergeHull [pt 0 0, pt 0 2, pt 1 1, pt 2 0, pt 2 2] 5).nl)))
        (rd (mergeHull [pt 0 0, pt 0 2, pt 1 1, pt 2 0, pt 2 2] 5).H
          ((i + 2) % ((mergeHull [pt 0 0, pt 0 2, pt 1 1, pt 2 0, pt 2 2] 5).nu
            + (mergeHull [pt 0 0, pt 0 2, pt 1 1, pt 2 0, pt 2 2] 5).nl))) < 0 :=
  ⟨by decide, by decide, by decide,
    mergeHull_minimality [pt 0 0, pt 0 2, pt 1 1, pt 2 0, pt 2 2] (by decide) (by decide)
      (by decide)⟩

/-- Size bound for the hull computed on exact integers: on a sorted input of `n ≥ 2` points with pairwise distinct
coordinates, the hull has between `2` and `n` vertices. -/
theorem mergeHull_size (S : List PointT) (hn : 2 ≤ S.length) (hs : SortedLex S) :
    2 ≤ (mergeHull S S.length).nu + (mergeHull S S.length).nl ∧
    (mergeHull S S.length).nu + (mergeHull S S.length).nl ≤ S.length := by
  obtain ⟨hv, -, -, -, -, hsz⟩ := mergeHull_hullOf hn hs
  have := hv.nu_pos
  have := hv.nl_pos
  exact ⟨by omega, hsz⟩

theorem mergeHull_size_witness :
    2 ≤ [pt 0 0, pt 1 1, pt 2 5, pt 3 1, pt 4 0].length ∧
    SortedLex [pt 0 0, pt 1 1, pt 2 5, pt 3 1, pt 4 0] ∧
    2 ≤ (mergeHull [pt 0 0, pt 1 1, pt 2 5, pt 3 1, pt 4 0] 5).nu
      + (mergeHull [pt 0 0, pt 1 1, pt 2 5, pt 3 1, pt 4 0] 5).nl ∧
    (mergeHull [pt 0 0, pt 1 1, pt 2 5, pt 3 1, pt 4 0] 5).nu
      + (mergeHull [pt 0 0, pt 1 1, pt 2 5, pt 3 1, pt 4 0] 5).nl ≤ 5 :=
  ⟨by decide, by decide,
    mergeHull_size [pt 0 0, pt 1 1, pt 2 5, pt 3 1, pt 4 0] (by decide) (by decide)⟩

/-- Claim C7 (all-collinear input): on a sorted input of at least two points with pairwise
distinct coordinates in which every triple is collinear, the hull is exactly the two-point
chain of the first and the last input point, with `nu = nl = 1`. -/
theorem mergeHull_collinear (S : List PointT) (hn : 2 ≤ S.length) (hs : SortedLex S)
    (hcol : ∀ a ∈ S, ∀ b ∈ S, ∀ c ∈ S, AREA a b c = 0) :
    mergeHull S S.length = ⟨[rd S 0, rd S (S.length - 1)], 1, 1⟩ := by
  obtain ⟨hv, hfirst, hlast, -, hmem, -⟩ := mergeHull_hullOf hn hs
  have hnu := hv.nu_pos
  have hnl := hv.nl_pos
  have hin : ∀ k, k < (mergeHull S S.length).nu + (mergeHull S S.length).nl →
      rd (mergeHull S S.length).H k ∈ S := by
    intro k hk
    obtain ⟨i, hi, e⟩ := hmem k hk
    rw [e]
    exact rd_mem S i hi
  have h2 : (mergeHull S S.length).nu + (mergeHull S S.length).nl = 2 := by
    by_contra hne
    have h3 : 3 ≤ (mergeHull S S.length).nu + (mergeHull S S.length).nl := by omega
    have t := hv.turn h3 0 (by omega)
    have z := hcol _ (hin 0 (by omega)) _ (hin _ (Nat.mod_lt (0 + 1) hv.n_pos)) _
      (hin _ (Nat.mod_lt (0 + 2) hv.n_pos))
    omega
  have e1 : (mergeHull S S.length).nu = 1 := by omega
  have e2 : (mergeHull S S.length).nl = 1 := by omega
  have e := hull_two_eq (by rw [hv.len, h2]) e1 e2
  rw [e1] at hlast
  rw [hfirst, hlast] at e
  exact e

theorem mergeHull_collinear_witness :
    2 ≤ [pt 0 0, pt 1 1, pt 2 2, pt 3 3].length ∧
    SortedLex [pt 0 0, pt 1 1, pt 2 2, pt 3 3] ∧
    (∀ a ∈ [pt 0 0, pt 1 1, pt 2 2, pt 3 3], ∀ b ∈ [pt 0 0, pt 1 1, pt 2 2, pt 3 3],
      ∀ c ∈ [pt 0 0, pt 1 1, pt 2 2, pt 3 3], AREA a b c = 0) ∧
    mergeHull [pt 0 0, pt 1 1, pt 2 2, pt 3 3] 4 = ⟨[pt 0 0, pt 3 3], 1, 1⟩ :=
  ⟨by decide, by decide, by decide,
    mergeHull_collinear [pt 0 0, pt 1 1, pt 2 2, pt 3 3] (by decide) (by decide) (by decide)⟩

/-- Upper tangent with the tests on exact integers: for the hull `HI` of a sorted input with pairwise distinct
coordinates and a point `p` lexicographically smaller than every point of `HI`, the upper
search of `findTangent` returns an index in `[0, nu]` whose point `t` has every hull point on
or to the right of the directed line `p → t`. -/
theorem findTangent_upper_spec (S : List PointT) (hn : 2 ≤ S.length) (hs : SortedLex S)
    (p : PointT)
    (hp : ∀ k, k < (mergeHull S S.length).nu + (mergeHull S S.length).nl →
      lexLt p (rd (mergeHull S S.length).H k)) :
    findTangent p (mergeHull S S.length) 1 ≤ (mergeHull S S.length).nu ∧
    ∀ k, k < (mergeHull S S.length).nu + (mergeHull S S.length).nl →
      AREA p (rd (mergeHull S S.length).H (findTangent p (mergeHull S S.length) 1))
        (rd (mergeHull S S.length).H k) ≤ 0 := by
  obtain ⟨hv, -⟩ := mergeHull_hullOf hn hs
  refine ⟨(findTangent_upper_local p _ hv.nl_pos).1, fun k hk => ?_⟩
  exact findTangent_upper_tangent hv (lexLe_of_lt (hp 0 hv.n_pos)) (hv.vertex_inside k hk)

theorem findTangent_upper_spec_witness :
    2 ≤ [pt 3 0, pt 4 2, pt 5 3, pt 6 2, pt 7 0].length ∧
    SortedLex [pt 3 0, pt 4 2, pt 5 3, pt 6 2, pt 7 0] ∧
    (∀ k, k < (mergeHull [pt 3 0, pt 4 2, pt 5 3, pt 6 2, pt 7 0] 5).nu
        + (mergeHull [pt 3 0, pt 4 2, pt 5 3, pt 6 2, pt 7 0] 5).nl →
      lexLt (pt 0 0) (rd (mergeHull [pt 3 0, pt 4 2, pt 5 3, pt 6 2, pt 7 0] 5).H k)) ∧
    findTangent (pt 0 0) (mergeHull [pt 3 0, pt 4 2, pt 5 3, pt 6 2, pt 7 0] 5) 1
      ≤ (mergeHull [pt 3 0, pt 4 2, pt 5 3, pt 6 2, pt 7 0] 5).nu ∧
    ∀ k, k < (mergeHull [pt 3 0, pt 4 2, pt 5 3, pt 6 2, pt 7 0] 5).nu
        + (mergeHull [pt 3 0, pt 4 2, pt 5 3, pt 6 2, pt 7 0] 5).nl →
      AREA (pt 0 0)
        (rd (mergeHull [pt 3 0, pt 4 2, pt 5 3, pt 6 2, pt 7 0] 5).H
          (findTangent (pt 0 0) (mergeHull [pt 3 0, pt 4 2, pt 5 3, pt 6 2, pt 7 0] 5) 1))
        (rd (mergeHull [pt 3 0, pt 4 2, pt 5 3, pt 6 2, pt 7 0] 5).H k) ≤ 0 :=
  ⟨by decide, by decide, by decide,
    findTangent_upper_spec [pt 3 0, pt 4 2, pt 5 3, pt 6 2, pt 7 0] (by decide) (by decide)
      (pt 0 0) (by decide)⟩

/-- Lower tangent with the tests on exact integers: for the hull `HI` of a sorted input with pairwise distinct
coordinates and a point `p` lexicographically smaller than every point of `HI`, the lower
search of `findTangent` returns index `0` or an index in `[nu, nu + nl - 1]` whose point `t`
has every hull point on or to the left of the directed line `p → t`. -/
theorem findTangent_lower_spec (S : List PointT) (hn : 2 ≤ S.length) (hs : SortedLex S)
    (p : PointT)
    (hp : ∀ k, k < (mergeHull S S.length).nu + (mergeHull S S.length).nl →
      lexLt p (rd (mergeHull S S.length).H k)) :
    (findTangent p (mergeHull S S.length) 0 = 0 ∨
      ((mergeHull S S.length).nu ≤ findTangent p (mergeHull S S.length) 0 ∧
        findTangent p (mergeHull S S.length) 0
          ≤ (mergeHull S S.length).nu + (mergeHull S S.length).nl - 1)) ∧
    ∀ k, k < (mergeHull S S.length).nu + (mergeHull S S.length).nl →
      0 ≤ AREA p (rd (mergeHull S S.length).H (findTangent p (mergeHull S S.length) 0))
        (rd (mergeHull S S.length).H k) := by
  obtain ⟨hv, -⟩ := mergeHull_hullOf hn hs
  refine ⟨?_, fun k hk => ?_⟩
  · obtain ⟨t, h0, h0', e, -⟩ := findTangent_lower_local p (mergeHull S S.length)
    rw [e]
    rcases Nat.lt_or_ge t ((mergeHull S S.length).nu + (mergeHull S S.length).nl) with h | h
    · right
      rw [Nat.mod_eq_of_lt h]
      omega
    · left
      have : t = (mergeHull S S.length).nu + (mergeHull S S.length).nl := by omega
      rw [this, Nat.mod_self]
  · exact findTangent_lower_tangent hv (lexLe_of_lt (hp 0 hv.n_pos)) (hv.vertex_inside k hk)

theorem findTangent_lower_spec_witness :
    2 ≤ [pt 3 0, pt 4 (-2), pt 5 (-3), pt 6 (-2), pt 7 0].length ∧
    SortedLex [pt 3 0, pt 4 (-2), pt 5 (-3), pt 6 (-2), pt 7 0] ∧
    (∀ k, k < (mergeHull [pt 3 0, pt 4 (-2), pt 5 (-3), pt 6 (-2), pt 7 0] 5).nu
        + (mergeHull [pt 3 0, pt 4 (-2), pt 5 (-3), pt 6 (-2), pt 7 0] 5).nl →
      lexLt (pt 0 0) (rd (mergeHull [pt 3 0, pt 4 (-2), pt 5 (-3), pt 6 (-2), pt 7 0] 5).H k)) ∧
    ∀ k, k < (mergeHull [pt 3 0, pt 4 (-2), pt 5 (-3), pt 6 (-2), pt 7 0] 5).nu
        + (mergeHull [pt 3 0, pt 4 (-2), pt 5 (-3), pt 6 (-2), pt 7 0] 5).nl →
      0 ≤ AREA (pt 0 0)
        (rd (mergeHull [pt 3 0, pt 4 (-2), pt 5 (-3), pt 6 (-2), pt 7 0] 5).H
          (findTangent (pt 0 0)
            (mergeHull [pt 3 0, pt 4 (-2), pt 5 (-3), pt 6 (-2), pt 7 0] 5) 0))
        (rd (mergeHull [pt 3 0, pt 4 (-2), pt 5 (-3), pt 6 (-2), pt 7 0] 5).H k) :=
  ⟨by decide, by decide, by decide,
    (findTangent_lower_spec [pt 3 0, pt 4 (-2), pt 5 (-3), pt 6 (-2), pt 7 0] (by decide)
      (by decide) (pt 0 0) (by decide)).2⟩

/-! ### Chain layout, for arbitrary inputs -/

theorem joinLowerLoop_snd (HI1 HI2 : HullT) :
    ∀ fuel min max s0, ((0 < fuel ∧ min ≤ max) ∨ ∃ p, s0.2 = findTangent p HI2 0) →
      ∃ p, (joinLowerLoop HI1 HI2 fuel min max s0).2 = findTangent p HI2 0 := by
  intro fuel
  induction fuel with
  | zero =>
    intro min max s0 h
    rcases h with h | h
    · omega
    · simpa [joinLowerLoop] using h
  | succ fuel ih =>
    intro min max s0 h
    rw [joinLowerLoop]
    simp only
    split_ifs with h0 h1 h2 h3
    · exact ih _ _ _ (Or.inr ⟨_, rfl⟩)
    · exact ⟨_, rfl⟩
    · exact ⟨_, rfl⟩
    · exact ih _ _ _ (Or.inr ⟨_, rfl⟩)
    · rcases h with h | h
      · omega
      · exact h

theorem joinHulls_layout (HI1 HI2 : HullT) (h2 : 1 ≤ HI2.nu) (h2' : 1 ≤ HI2.nl) :
    1 ≤ (joinHulls HI1 HI2).nu ∧ 1 ≤ (joinHulls HI1 HI2).nl ∧
    rd (joinHulls HI1 HI2).H 0 = rd HI1.H 0 ∧
    rd (joinHulls HI1 HI2).H (joinHulls HI1 HI2).nu = rd HI2.H HI2.nu := by
  obtain ⟨p, hp⟩ := joinLowerLoop_snd HI1 HI2 (HI1.nl + 1) HI1.nu (HI1.nu + HI1.nl) (0, 0)
    (Or.inl ⟨by omega, by omega⟩)
  obtain ⟨t, ht1, ht2, et, -⟩ := findTangent_lower_local p HI2
  unfold joinHulls
  simp only
  rw [hp, et, assemble_eq]
  simp only
  have hlen : 1 ≤ (lower2 HI2 (t % (HI2.nu + HI2.nl))).length := by
    rw [lower2_length _ _ h2 ht1 ht2]; omega
  refine ⟨by omega, by omega, ?_, ?_⟩
  · rw [rd_append_left _ _ _ (by simp [copyRange_length]),
      rd_append_left _ _ _ (by simp [copyRange_length]), rd_copyRange _ _ _ _ (by omega)]
  · rw [rd_append_right _ _ _ (by simp [copyRange_length]),
      rd_append_left _ _ _ (by simp [copyRange_length]; omega)]
    simp only [List.length_append, copyRange_length]
    rw [show (joinUpperLoop HI1 HI2 (HI1.nu + 1) 0 HI1.nu (0, 0)).1 + 1
        + (HI2.nu - (joinUpperLoop HI1 HI2 (HI1.nu + 1) 0 HI1.nu (0, 0)).2)
        - ((joinUpperLoop HI1 HI2 (HI1.nu + 1) 0 HI1.nu (0, 0)).1 + 1 - 0
          + (HI2.nu - (joinUpperLoop HI1 HI2 (HI1.nu + 1) 0 HI1.nu (0, 0)).2)) = 0 by omega,
      rd_lower2 _ _ _ h2 ht1 ht2 (by omega), Nat.add_zero, Nat.mod_eq_of_lt (by omega)]

theorem mergeHullBase_layout (S : List PointT) (n : Nat) (h2 : 2 ≤ n) (h3 : n ≤ 3) :
    1 ≤ (mergeHullBase S n).nu ∧ 1 ≤ (mergeHullBase S n).nl ∧
    rd (mergeHullBase S n).H 0 = rd S 0 ∧
    rd (mergeHullBase S n).H (mergeHullBase S n).nu = rd S (n - 1) := by
  unfold mergeHullBase
  split_ifs with e2 hr hl
  · subst e2
    exact ⟨le_refl _, le_refl _, rfl, rfl⟩
  · have e3 : n = 3 := by omega
    subst e3
    exact ⟨by simp, le_refl _, rfl, rfl⟩
  · have e3 : n = 3 := by omega
    subst e3
    exact ⟨le_refl _, by simp, rfl, rfl⟩
  · have e3 : n = 3 := by omega
    subst e3
    exact ⟨le_refl _, le_refl _, rfl, rfl⟩

theorem mergeHullAux_layout : ∀ (fuel : Nat) (S : List PointT) (n : Nat), n ≤ fuel → 2 ≤ n →
    1 ≤ (mergeHullAux fuel S n).nu ∧ 1 ≤ (mergeHullAux fuel S n).nl ∧
    rd (mergeHullAux fuel S n).H 0 = rd S 0 ∧
    rd (mergeHullAux fuel S n).H (mergeHullAux fuel S n).nu = rd S (n - 1) := by
  intro fuel
  induction fuel with
  | zero => intro S n hf h2; omega
  | succ fuel ih =>
    intro S n hf h2
    rw [mergeHullAux]
    split_ifs with h3
    · exact mergeHullBase_layout S n h2 h3
    · show 1 ≤ (joinHulls (mergeHullAux fuel S (n / 2))
          (mergeHullAux fuel (S.drop (n / 2)) (n - n / 2))).nu ∧ _
      obtain ⟨-, -, f1, -⟩ := ih S (n / 2) (by omega) (by omega)
      obtain ⟨a2, b2, -, l2⟩ := ih (S.drop (n / 2)) (n - n / 2) (by omega) (by omega)
      obtain ⟨j1, j2, j3, j4⟩ := joinHulls_layout (mergeHullAux fuel S (n / 2))
        (mergeHullAux fuel (S.drop (n / 2)) (n - n / 2)) a2 b2
      refine ⟨j1, j2, by rw [j3, f1], ?_⟩
      rw [j4, l2, rd_drop]
      congr 1
      omega

/-- Claim C6 (chain layout invariant): for every input of at least two points the hull of
`mergeHull` has `nu ≥ 1`, `nl ≥ 1`, the first input point at index `0` and the last input
point at index `nu`; and `joinHulls` applied to chains with `nu, nl ≥ 1` returns a chain whose
index `0` is `HI1.H[0]` and whose index `nu` is `HI2.H[HI2.nu]`. -/
theorem chain_layout (S : List PointT) (hn : 2 ≤ S.length) (HI1 HI2 : HullT)
    (_h1 : 1 ≤ HI1.nu) (_h1' : 1 ≤ HI1.nl) (h2 : 1 ≤ HI2.nu) (h2' : 1 ≤ HI2.nl) :
    (1 ≤ (mergeHull S S.length).nu ∧ 1 ≤ (mergeHull S S.length).nl ∧
      rd (mergeHull S S.length).H 0 = rd S 0 ∧
      rd (mergeHull S S.length).H (mergeHull S S.length).nu = rd S (S.length - 1)) ∧
    (rd (joinHulls HI1 HI2).H 0 = rd HI1.H 0 ∧
      rd (joinHulls HI1 HI2).H (joinHulls HI1 HI2).nu = rd HI2.H HI2.nu) :=
  ⟨mergeHullAux_layout S.length S S.length (le_refl _) hn,
    (joinHulls_layout HI1 HI2 h2 h2').2.2⟩

theorem chain_layout_witness :
    2 ≤ [pt 5 5, pt 1 0, pt 3 7, pt 1 0, pt 2 2].length ∧
    (1 : Nat) ≤ 2 ∧ (1 : Nat) ≤ 1 ∧ (1 : Nat) ≤ 1 ∧ (1 : Nat) ≤ 2 ∧
    rd (mergeHull [pt 5 5, pt 1 0, pt 3 7, pt 1 0, pt 2 2] 5).H 0 = pt 5 5 ∧
    rd (mergeHull [pt 5 5, pt 1 0, pt 3 7, pt 1 0, pt 2 2] 5).H
      (mergeHull [pt 5 5, pt 1 0, pt 3 7, pt 1 0, pt 2 2] 5).nu = pt 2 2 ∧
    rd (joinHulls ⟨[pt 0 0, pt 1 2, pt 2 0], 2, 1⟩ ⟨[pt 3 0, pt 5 0, pt 4 (-2)], 1, 2⟩).H
      (joinHulls ⟨[pt 0 0, pt 1 2, pt 2 0], 2, 1⟩ ⟨[pt 3 0, pt 5 0, pt 4 (-2)], 1, 2⟩).nu
      = pt 5 0 := by
  have h := chain_layout [pt 5 5, pt 1 0, pt 3 7, pt 1 0, pt 2 2] (by decide)
    ⟨[pt 0 0, pt 1 2, pt 2 0], 2, 1⟩ ⟨[pt 3 0, pt 5 0, pt 4 (-2)], 1, 2⟩ (by decide)
    (by decide) (by decide) (by decide)
  exact ⟨by decide, by decide, by decide, by decide, by decide, h.1.2.2.1, h.1.2.2.2, h.2.2⟩

/-! ### Validity in the sense of the `joinHulls` claim -/

theorem cr_cone_lexneg {a1 a2 b1 b2 h1 h2 : Int} (ha : lexPos (-a1) (-a2))
    (hb : lexPos (-b1) (-b2)) (hab : 0 < cr a1 a2 b1 b2) (hah : 0 ≤ cr a1 a2 h1 h2)
    (hhb : 0 ≤ cr h1 h2 b1 b2) : ¬ lexPos h1 h2 := by
  unfold cr at *
  have k1 : (a1 * b2 - a2 * b1) * h1 = (h1 * b2 - h2 * b1) * a1 + (a1 * h2 - a2 * h1) * b1 := by
    ring
  have ha1 : a1 ≤ 0 := by rcases ha with h | h <;> omega
  have hb1 : b1 ≤ 0 := by rcases hb with h | h <;> omega
  have e1 := mul_nonpos_of_nonneg_of_nonpos hhb ha1
  have e2 := mul_nonpos_of_nonneg_of_nonpos hah hb1
  rintro (hp | ⟨hp1, hp2⟩)
  · have := mul_pos hab hp
    linarith
  · subst hp1
    simp only [zero_mul, mul_zero, sub_zero, zero_sub] at *
    have ha0 : a1 = 0 := by
      by_contra hne
      have : a1 < 0 := lt_of_le_of_ne ha1 hne
      have := mul_neg_of_neg_of_pos this hp2
      linarith
    subst ha0
    have ha2 : a2 < 0 := by rcases ha with h | h <;> omega
    simp only [zero_mul, zero_sub] at hab
    have := mul_nonneg_of_nonpos_of_nonpos ha2.le hb1
    linarith

theorem lex_total (a b : PointT) : lexLt a b ∨ (a.x = b.x ∧ a.y = b.y) ∨ lexLt b a := by
  unfold lexLt
  omega

/-- A vertex whose two neighbours are lexicographically smaller dominates every point of its
wedge. -/
theorem cone_max {A T B v : PointT} (hA : lexLt A T) (hB : lexLt B T) (ht : AREA A T B < 0)
    (h1 : AREA A T v ≤ 0) (h2 : AREA T B v ≤ 0) : lexLe v T := by
  have h := @cr_cone_lexneg (A.x - T.x) (A.y - T.y) (B.x - T.x) (B.y - T.y) (v.x - T.x)
    (v.y - T.y)
    (by unfold lexLt at hA; unfold lexPos; omega)
    (by unfold lexLt at hB; unfold lexPos; omega)
    (by unfold cr; unfold AREA at ht; linarith)
    (by unfold cr; unfold AREA at h1; linarith)
    (by unfold cr; unfold AREA at h2; linarith)
  unfold lexPos at h
  unfold lexLe lexLt
  omega

/-- A vertex whose two neighbours are lexicographically larger is dominated by every point of
its wedge. -/
theorem cone_min {A T B v : PointT} (hA : lexLt T A) (hB : lexLt T B) (ht : AREA A T B < 0)
    (h1 : AREA A T v ≤ 0) (h2 : AREA T B v ≤ 0) : lexLe T v := by
  have h := @cr_cone_lexneg (T.x - A.x) (T.y - A.y) (T.x - B.x) (T.y - B.y) (T.x - v.x)
    (T.y - v.y)
    (by unfold lexLt at hA; unfold lexPos; omega)
    (by unfold lexLt at hB; unfold lexPos; omega)
    (by unfold cr; unfold AREA at ht; linarith)
    (by unfold cr; unfold AREA at h1; linarith)
    (by unfold cr; unfold AREA at h2; linarith)
  unfold lexPos at h
  unfold lexLe lexLt
  omega

theorem chainOK_up {HI : HullT} (hc : ChainOK HI) (hx : Cvx HI) :
    ∀ i, i < HI.nu → lexLt (rd HI.H i) (rd HI.H (i + 1)) := by
  obtain ⟨hnu, hnl, -, hd, hmin, hmax, ht⟩ := hc
  intro i
  induction i with
  | zero =>
    intro _
    rcases hmin 1 (by omega) with h | h
    · exact h
    · exact (hd 0 (by omega) 1 (by omega) (by omega) h).elim
  | succ i ih =>
    intro hi
    have ih' := ih (by omega)
    rcases lex_total (rd HI.H (i + 1)) (rd HI.H (i + 1 + 1)) with h | h | h
    · exact h
    · exact (hd (i + 1) (by omega) (i + 1 + 1) (by omega) (by omega) h).elim
    · exfalso
      have ht' : ∀ k, k < HI.nu + HI.nl →
          AREA (rd HI.H k) (rd HI.H ((k + 1) % (HI.nu + HI.nl)))
            (rd HI.H ((k + 2) % (HI.nu + HI.nl))) < 0 := by
        rcases ht with h2 | h2
        · omega
        · exact h2
      have t := ht' i (by omega)
      have c1 := hx i (by omega) HI.nu (by omega)
      have c2 := hx (i + 1) (by omega) HI.nu (by omega)
      rw [Nat.mod_eq_of_lt (by omega : i + 1 < HI.nu + HI.nl)] at t c1
      rw [Nat.mod_eq_of_lt (by omega : i + 2 < HI.nu + HI.nl)] at t
      rw [Nat.mod_eq_of_lt (by omega : i + 1 + 1 < HI.nu + HI.nl)] at c2
      have k := cone_max ih' h t c1 c2
      have k' := hmax (i + 1) (by omega)
      refine hd (i + 1) (by omega) HI.nu (by omega) (by omega) ?_
      unfold lexLe lexLt at k k'
      omega

theorem chainOK_lo {HI : HullT} (hc : ChainOK HI) (hx : Cvx HI) :
    ∀ d, HI.nu + d < HI.nu + HI.nl →
      lexLt (rd HI.H ((HI.nu + d + 1) % (HI.nu + HI.nl))) (rd HI.H (HI.nu + d)) := by
  obtain ⟨hnu, hnl, -, hd, hmin, hmax, ht⟩ := hc
  have hn : 0 < HI.nu + HI.nl := by omega
  have hne : ∀ i, i < HI.nu + HI.nl → (i + 1) % (HI.nu + HI.nl) ≠ i := by
    intro i hi
    rcases Nat.lt_or_ge (i + 1) (HI.nu + HI.nl) with h | h
    · rw [Nat.mod_eq_of_lt h]; omega
    · rw [show i + 1 = HI.nu + HI.nl by omega, Nat.mod_self]; omega
  intro d
  induction d with
  | zero =>
    intro _
    rcases hmax ((HI.nu + 0 + 1) % (HI.nu + HI.nl)) (Nat.mod_lt _ hn) with h | h
    · exact h
    · exact (hd _ (Nat.mod_lt _ hn) HI.nu (by omega) (hne HI.nu (by omega)) h).elim
  | succ d ih =>
    intro hi
    have ih' := ih (by omega)
    rw [Nat.mod_eq_of_lt (by omega : HI.nu + d + 1 < HI.nu + HI.nl)] at ih'
    have e : HI.nu + (d + 1) = HI.nu + d + 1 := by omega
    rw [e] at hi ⊢
    rcases lex_total (rd HI.H ((HI.nu + d + 1 + 1) % (HI.nu + HI.nl)))
        (rd HI.H (HI.nu + d + 1)) with h | h | h
    · exact h
    · exact (hd _ (Nat.mod_lt _ hn) _ hi (hne _ hi) h).elim
    · exfalso
      have ht' : ∀ k, k < HI.nu + HI.nl →
          AREA (rd HI.H k) (rd HI.H ((k + 1) % (HI.nu + HI.nl)))
            (rd HI.H ((k + 2) % (HI.nu + HI.nl))) < 0 := by
        rcases ht with h2 | h2
        · omega
        · exact h2
      have t := ht' (HI.nu + d) (by omega)
      have c1 := hx (HI.nu + d) (by omega) 0 hn
      have c2 := hx (HI.nu + d + 1) hi 0 hn
      rw [Nat.mod_eq_of_lt (by omega : HI.nu + d + 1 < HI.nu + HI.nl)] at t c1
      rw [show HI.nu + d + 2 = HI.nu + d + 1 + 1 by omega] at t
      have k := cone_min ih' h t c1 c2
      have k' := hmin (HI.nu + d + 1) hi
      refine hd (HI.nu + d + 1) hi 0 hn (by omega) ?_
      unfold lexLe lexLt at k k'
      omega

theorem chainOK_valid {HI : HullT} (hc : ChainOK HI) (hx : Cvx HI) : Valid HI := by
  have hup := chainOK_up hc hx
  have hlo := chainOK_lo hc hx
  obtain ⟨hnu, hnl, hlen, hd, hmin, hmax, ht⟩ := hc
  refine ⟨hnu, hnl, hlen, hup, ?_, fun i j hi hj => hx i hi j hj, ?_⟩
  · intro i hi1 hi2
    have := hlo (i - HI.nu) (by omega)
    rwa [show HI.nu + (i - HI.nu) = i by omega] at this
  · intro h3 i hi
    rcases ht with h2 | h2
    · omega
    · exact h2 i hi

theorem valid_chainOK {HI : HullT} (hv : Valid HI) : ChainOK HI ∧ Cvx HI := by
  have hnu := hv.nu_pos
  have hnl := hv.nl_pos
  refine ⟨⟨hnu, hnl, hv.len, ?_, hv.first_le, hv.le_last, ?_⟩, fun i hi j hj => hv.cvx i j hi hj⟩
  · intro i hi j hj hij
    rcases Nat.lt_or_gt_of_ne hij with h | h
    · exact hv.distinct h hj
    · intro e
      exact hv.distinct h hi ⟨e.1.symm, e.2.symm⟩
  · rcases Nat.lt_or_ge (HI.nu + HI.nl) 3 with h | h
    · left; omega
    · right; exact hv.turn h

/-- Validity without convexity does not suffice for `joinHulls`: the chains `[(0,0),(0,1)]` and
`[(3,0),(3,2),(4,0),(3,1),(4,1)]` (`nu = 4`, `nl = 1`) are valid in the sense of the claim
(the second one winds twice around), the first lies to the left of the second, and the point
`(3,2)` of the second chain is strictly to the left of the edge `(3,1) → (4,1)` of the result. -/
theorem joinHulls_contract_counterexample :
    ChainOK ⟨[pt 0 0, pt 0 1], 1, 1⟩ ∧
    ChainOK ⟨[pt 3 0, pt 3 2, pt 4 0, pt 3 1, pt 4 1], 4, 1⟩ ∧
    LeftOf ⟨[pt 0 0, pt 0 1], 1, 1⟩ ⟨[pt 3 0, pt 3 2, pt 4 0, pt 3 1, pt 4 1], 4, 1⟩ ∧
    joinHulls ⟨[pt 0 0, pt 0 1], 1, 1⟩ ⟨[pt 3 0, pt 3 2, pt 4 0, pt 3 1, pt 4 1], 4, 1⟩
      = ⟨[pt 0 0, pt 0 1, pt 3 2, pt 4 0, pt 3 1, pt 4 1, pt 3 0], 5, 2⟩ ∧
    ¬ (ChainOK (joinHulls ⟨[pt 0 0, pt 0 1], 1, 1⟩
          ⟨[pt 3 0, pt 3 2, pt 4 0, pt 3 1, pt 4 1], 4, 1⟩) ∧
        Covers (joinHulls ⟨[pt 0 0, pt 0 1], 1, 1⟩
          ⟨[pt 3 0, pt 3 2, pt 4 0, pt 3 1, pt 4 1], 4, 1⟩) ⟨[pt 0 0, pt 0 1], 1, 1⟩ ∧
        Covers (joinHulls ⟨[pt 0 0, pt 0 1], 1, 1⟩
          ⟨[pt 3 0, pt 3 2, pt 4 0, pt 3 1, pt 4 1], 4, 1⟩)
          ⟨[pt 3 0, pt 3 2, pt 4 0, pt 3 1, pt 4 1], 4, 1⟩) := by
  have e : joinHulls ⟨[pt 0 0, pt 0 1], 1, 1⟩ ⟨[pt 3 0, pt 3 2, pt 4 0, pt 3 1, pt 4 1], 4, 1⟩
      = ⟨[pt 0 0, pt 0 1, pt 3 2, pt 4 0, pt 3 1, pt 4 1, pt 3 0], 5, 2⟩ := by decide
  refine ⟨by decide, by decide, by decide, e, ?_⟩
  rw [e]
  intro h
  have := h.2.2 4 (by decide) 1 (by decide)
  revert this
  decide

/-- The contract of `joinHulls` with the tests on exact integers: if `HI1` and `HI2` are valid in the sense of the claim and in addition
convex (every point of the chain on or to the right of every directed edge of the chain), and
every point of `HI1` is lexicographically smaller than every point of `HI2`, then `joinHulls`
returns a chain that is valid in the sense of the claim and convex, and every point of `HI1`
and of `HI2` lies on or to the right of every directed boundary edge of the result. -/
theorem joinHulls_contract (HI1 HI2 : HullT) (h1 : ChainOK HI1) (c1 : Cvx HI1)
    (h2 : ChainOK HI2) (c2 : Cvx HI2) (hsep : LeftOf HI1 HI2) :
    ChainOK (joinHulls HI1 HI2) ∧ Cvx (joinHulls HI1 HI2) ∧
    Covers (joinHulls HI1 HI2) HI1 ∧ Covers (joinHulls HI1 HI2) HI2 := by
  have hv1 := chainOK_valid h1 c1
  have hv2 := chainOK_valid h2 c2
  have hs : lexLe (rd HI1.H HI1.nu) (rd HI2.H 0) :=
    lexLe_of_lt (hsep HI1.nu (by have := hv1.nl_pos; omega) 0 hv2.n_pos)
  obtain ⟨r1, r2⟩ := valid_chainOK (joinHulls_valid hv1 hv2 hs)
  refine ⟨r1, r2, ?_, ?_⟩
  · intro i hi j hj
    exact (joinHulls_inside hv1 hv2 hs (Or.inl (hv1.vertex_inside j hj))).1 i hi
  · intro i hi j hj
    exact (joinHulls_inside hv1 hv2 hs (Or.inr (hv2.vertex_inside j hj))).1 i hi

theorem joinHulls_contract_witness :
    ChainOK ⟨[pt 0 0, pt 1 2, pt 2 0], 2, 1⟩ ∧ Cvx ⟨[pt 0 0, pt 1 2, pt 2 0], 2, 1⟩ ∧
    ChainOK ⟨[pt 3 0, pt 4 2, pt 5 0], 2, 1⟩ ∧ Cvx ⟨[pt 3 0, pt 4 2, pt 5 0], 2, 1⟩ ∧
    LeftOf ⟨[pt 0 0, pt 1 2, pt 2 0], 2, 1⟩ ⟨[pt 3 0, pt 4 2, pt 5 0], 2, 1⟩ ∧
    ChainOK (joinHulls ⟨[pt 0 0, pt 1 2, pt 2 0], 2, 1⟩ ⟨[pt 3 0, pt 4 2, pt 5 0], 2, 1⟩) ∧
    Cvx (joinHulls ⟨[pt 0 0, pt 1 2, pt 2 0], 2, 1⟩ ⟨[pt 3 0, pt 4 2, pt 5 0], 2, 1⟩) ∧
    Covers (joinHulls ⟨[pt 0 0, pt 1 2, pt 2 0], 2, 1⟩ ⟨[pt 3 0, pt 4 2, pt 5 0], 2, 1⟩)
      ⟨[pt 0 0, pt 1 2, pt 2 0], 2, 1⟩ ∧
    Covers (joinHulls ⟨[pt 0 0, pt 1 2, pt 2 0], 2, 1⟩ ⟨[pt 3 0, pt 4 2, pt 5 0], 2, 1⟩)
      ⟨[pt 3 0, pt 4 2, pt 5 0], 2, 1⟩ :=
  ⟨by decide, by decide, by decide, by decide, by decide,
    joinHulls_contract ⟨[pt 0 0, pt 1 2, pt 2 0], 2, 1⟩ ⟨[pt 3 0, pt 4 2, pt 5 0], 2, 1⟩
      (by decide) (by decide) (by decide) (by decide) (by decide)⟩

/-! ### The recursion budgets are sufficient

Each loop returns the same state for every budget that is at least the length of the
searched interval, and `mergeHullAux` returns the same hull for every budget that is at least
`n`: the budgets chosen in `findTangent`, `joinHulls` and `mergeHull` never run out. -/

theorem tangentUpperLoop_fuel (p : PointT) (H : List PointT) (nu : Nat) :
    ∀ f g min max mid, max + 1 - min ≤ f → max + 1 - min ≤ g →
      tangentUpperLoop p H nu f min max mid = tangentUpperLoop p H nu g min max mid := by
  intro f
  induction f with
  | zero =>
    intro g min max mid hf _
    cases g with
    | zero => rfl
    | succ g => rw [tangentUpperLoop, tangentUpperLoop, if_neg (by omega)]
  | succ f ih =>
    intro g min max mid hf hg
    cases g with
    | zero => rw [tangentUpperLoop, tangentUpperLoop, if_neg (by omega)]
    | succ g =>
      rw [tangentUpperLoop, tangentUpperLoop]
      dsimp only
      split_ifs <;> first | rfl | (apply ih <;> omega)

theorem tangentLowerLoop_fuel (p : PointT) (H : List PointT) (nu n : Nat) :
    ∀ f g min max mid, max + 1 - min ≤ f → max + 1 - min ≤ g →
      tangentLowerLoop p H nu n f min max mid = tangentLowerLoop p H nu n g min max mid := by
  intro f
  induction f with
  | zero =>
    intro g min max mid hf _
    cases g with
    | zero => rfl
    | succ g => rw [tangentLowerLoop, tangentLowerLoop, if_neg (by omega)]
  | succ f ih =>
    intro g min max mid hf hg
    cases g with
    | zero => rw [tangentLowerLoop, tangentLowerLoop, if_neg (by omega)]
    | succ g =>
      rw [tangentLowerLoop, tangentLowerLoop]
      dsimp only
      split_ifs <;> first | rfl | (apply ih <;> omega)

theorem joinUpperLoop_fuel (HI1 HI2 : HullT) :
    ∀ f g min max s, max + 1 - min ≤ f → max + 1 - min ≤ g →
      joinUpperLoop HI1 HI2 f min max s = joinUpperLoop HI1 HI2 g min max s := by
  intro f
  induction f with
  | zero =>
    intro g min max s hf _
    cases g with
    | zero => rfl
    | succ g => rw [joinUpperLoop, joinUpperLoop, if_neg (by omega)]
  | succ f ih =>
    intro g min max s hf hg
    cases g with
    | zero => rw [joinUpperLoop, joinUpperLoop, if_neg (by omega)]
    | succ g =>
      rw [joinUpperLoop, joinUpperLoop]
      dsimp only
      split_ifs <;> first | rfl | (apply ih <;> omega)

theorem joinLowerLoop_fuel (HI1 HI2 : HullT) :
    ∀ f g min max s, max + 1 - min ≤ f → max + 1 - min ≤ g →
      joinLowerLoop HI1 HI2 f min max s = joinLowerLoop HI1 HI2 g min max s := by
  intro f
  induction f with
  | zero =>
    intro g min max s hf _
    cases g with
    | zero => rfl
    | succ g => rw [joinLowerLoop, joinLowerLoop]; simp only; rw [if_neg (by omega)]
  | succ f ih =>
    intro g min max s hf hg
    cases g with
    | zero => rw [joinLowerLoop, joinLowerLoop]; simp only; rw [if_neg (by omega)]
    | succ g =>
      rw [joinLowerLoop, joinLowerLoop]
      dsimp only
      split_ifs <;> first | rfl | (apply ih <;> omega)

theorem mergeHullAux_fuel : ∀ (f g : Nat) (S : List PointT) (n : Nat), n ≤ f → n ≤ g →
    mergeHullAux f S n = mergeHullAux g S n := by
  intro f
  induction f with
  | zero =>
    intro g S n hf _
    cases g with
    | zero => rfl
    | succ g => rw [mergeHullAux, mergeHullAux, if_pos (by omega), if_pos (by omega)]
  | succ f ih =>
    intro g S n hf hg
    cases g with
    | zero => rw [mergeHullAux, mergeHullAux, if_pos (by omega), if_pos (by omega)]
    | succ g =>
      rw [mergeHullAux, mergeHullAux]
      split_ifs with h3
      · rfl
      · simp only
        rw [ih g S (n / 2) (by omega) (by omega),
          ih g (S.drop (n / 2)) (n - n / 2) (by omega) (by omega)]

/-! ### The base cases, as written -/

/-- Claim C11 (base case `n = 2`): whatever the coordinates, `mergeHull` on two points returns
the chain of these two points in input order with `nu = 1` and `nl = 1`; the same holds for the
first two entries of any longer array when `n = 2`. -/
theorem mergeHull_two (p0 p1 : PointT) (rest S : List PointT) :
    mergeHull [p0, p1] 2 = ⟨[p0, p1], 1, 1⟩ ∧
    mergeHull (p0 :: p1 :: rest) 2 = ⟨[p0, p1], 1, 1⟩ ∧
    mergeHull S 2 = ⟨[rd S 0, rd S 1], 1, 1⟩ :=
  ⟨rfl, rfl, rfl⟩

theorem AREA_rot2 (a b c : PointT) : AREA c a b = AREA a b c := by
  unfold AREA; ring

theorem mergeHull_three_eq (p0 p1 p2 : PointT) :
    mergeHull [p0, p1, p2] 3 = mergeHullBase [p0, p1, p2] 3 := rfl

/-- Base case `n = 3` with the tests on exact integers: for three points in input order, `mergeHull` returns
`[p0, p1, p2]` with `nu = 2`, `nl = 1` when `AREA p0 p1 p2 < 0`, `[p0, p2, p1]` with `nu = 1`,
`nl = 2` when `AREA p0 p1 p2 > 0`, and `[p0, p2]` with `nu = nl = 1` when `AREA p0 p1 p2 = 0`;
in the first two cases each of the three cyclic consecutive triples of the result is a strict
right turn. -/
theorem mergeHull_three (p0 p1 p2 : PointT) :
    (AREA p0 p1 p2 < 0 →
      mergeHull [p0, p1, p2] 3 = ⟨[p0, p1, p2], 2, 1⟩ ∧
      ∀ i, i < 3 → AREA (rd (mergeHull [p0, p1, p2] 3).H i)
        (rd (mergeHull [p0, p1, p2] 3).H ((i + 1) % 3))
        (rd (mergeHull [p0, p1, p2] 3).H ((i + 2) % 3)) < 0) ∧
    (AREA p0 p1 p2 > 0 →
      mergeHull [p0, p1, p2] 3 = ⟨[p0, p2, p1], 1, 2⟩ ∧
      ∀ i, i < 3 → AREA (rd (mergeHull [p0, p1, p2] 3).H i)
        (rd (mergeHull [p0, p1, p2] 3).H ((i + 1) % 3))
        (rd (mergeHull [p0, p1, p2] 3).H ((i + 2) % 3)) < 0) ∧
    (AREA p0 p1 p2 = 0 → mergeHull [p0, p1, p2] 3 = ⟨[p0, p2], 1, 1⟩) := by
  have hr : rd [p0, p1, p2] 0 = p0 ∧ rd [p0, p1, p2] 1 = p1 ∧ rd [p0, p1, p2] 2 = p2 :=
    ⟨rfl, rfl, rfl⟩
  refine ⟨fun h => ?_, fun h => ?_, fun h => ?_⟩
  · have e : mergeHull [p0, p1, p2] 3 = ⟨[p0, p1, p2], 2, 1⟩ := by
      rw [mergeHull_three_eq, mergeHullBase, if_neg (by decide), hr.1, hr.2.1, hr.2.2,
        if_pos (show RIGHT p0 p1 p2 from h)]
    refine ⟨e, ?_⟩
    rw [e]
    intro i hi
    have h1 := AREA_rot p0 p1 p2
    have h2 := AREA_rot2 p0 p1 p2
    interval_cases i
    · exact h
    · show AREA p1 p2 p0 < 0
      omega
    · show AREA p2 p0 p1 < 0
      omega
  · have e : mergeHull [p0, p1, p2] 3 = ⟨[p0, p2, p1], 1, 2⟩ := by
      rw [mergeHull_three_eq, mergeHullBase, if_neg (by decide), hr.1, hr.2.1, hr.2.2,
        if_neg (show ¬ RIGHT p0 p1 p2 from by unfold RIGHT; omega),
        if_pos (show LEFT p0 p1 p2 from h)]
    refine ⟨e, ?_⟩
    rw [e]
    intro i hi
    have h0 := AREA_swap p0 p1 p2
    have h1 := AREA_rot p0 p2 p1
    have h2 := AREA_rot2 p0 p2 p1
    interval_cases i
    · show AREA p0 p2 p1 < 0
      omega
    · show AREA p2 p1 p0 < 0
      omega
    · show AREA p1 p0 p2 < 0
      omega
  · rw [mergeHull_three_eq, mergeHullBase, if_neg (by decide), hr.1, hr.2.1, hr.2.2,
      if_neg (show ¬ RIGHT p0 p1 p2 from by unfold RIGHT; omega),
      if_neg (show ¬ LEFT p0 p1 p2 from by unfold LEFT; omega)]

theorem mergeHull_three_witness :
    (AREA (pt 0 0) (pt 1 2) (pt 2 0) < 0 ∧
      mergeHull [pt 0 0, pt 1 2, pt 2 0] 3 = ⟨[pt 0 0, pt 1 2, pt 2 0], 2, 1⟩) ∧
    (AREA (pt 0 0) (pt 1 (-2)) (pt 2 0) > 0 ∧
      mergeHull [pt 0 0, pt 1 (-2), pt 2 0] 3 = ⟨[pt 0 0, pt 2 0, pt 1 (-2)], 1, 2⟩) ∧
    (AREA (pt 0 0) (pt 1 1) (pt 2 2) = 0 ∧
      mergeHull [pt 0 0, pt 1 1, pt 2 2] 3 = ⟨[pt 0 0, pt 2 2], 1, 1⟩) :=
  ⟨⟨by decide, ((mergeHull_three (pt 0 0) (pt 1 2) (pt 2 0)).1 (by decide)).1⟩,
    ⟨by decide, ((mergeHull_three (pt 0 0) (pt 1 (-2)) (pt 2 0)).2.1 (by decide)).1⟩,
    ⟨by decide, (mergeHull_three (pt 0 0) (pt 1 1) (pt 2 2)).2.2 (by decide)⟩⟩

/-! ### Inputs of fewer than two points -/

/-- Claim C14, as stated, fails: called with `n = 1` (or `n = 0`) on an array holding
`(0,0), (1,5), (2,0)`, `mergeHull` reports nothing and returns the three-entry chain of the
first three array entries. -/
theorem mergeHull_small_counterexample :
    mergeHull [pt 0 0, pt 1 5, pt 2 0] 1 = ⟨[pt 0 0, pt 1 5, pt 2 0], 2, 1⟩ ∧
    mergeHull [pt 0 0, pt 1 5, pt 2 0] 0 = ⟨[pt 0 0, pt 1 5, pt 2 0], 2, 1⟩ ∧
    (mergeHull [pt 0 0, pt 1 5, pt 2 0] 1).nu + (mergeHull [pt 0 0, pt 1 5, pt 2 0] 1).nl = 3 := by
  decide

theorem mergeHullBase_not_two (S : List PointT) (n : Nat) (h : n ≠ 2) :
    mergeHullBase S n = mergeHullBase S 3 := by
  unfold mergeHullBase
  rw [if_neg h, if_neg (show ¬ (3 = 2) by decide)]

theorem mergeHullBase_three_entries (S : List PointT) :
    2 ≤ (mergeHullBase S 3).H.length ∧ (mergeHullBase S 3).H.length ≤ 3 ∧
    (mergeHullBase S 3).H.length = (mergeHullBase S 3).nu + (mergeHullBase S 3).nl ∧
    ∀ k, k < (mergeHullBase S 3).H.length → ∃ i, i < 3 ∧ rd (mergeHullBase S 3).H k = rd S i := by
  unfold mergeHullBase
  rw [if_neg (show ¬ (3 = 2) by decide)]
  split_ifs
  · refine ⟨by simp, by simp, by simp, fun k hk => ?_⟩
    have hk3 : k < 3 := by simpa using hk
    interval_cases k
    · exact ⟨0, by decide, rfl⟩
    · exact ⟨1, by decide, rfl⟩
    · exact ⟨2, by decide, rfl⟩
  · refine ⟨by simp, by simp, by simp, fun k hk => ?_⟩
    have hk3 : k < 3 := by simpa using hk
    interval_cases k
    · exact ⟨0, by decide, rfl⟩
    · exact ⟨2, by decide, rfl⟩
    · exact ⟨1, by decide, rfl⟩
  · refine ⟨by simp, by simp, by simp, fun k hk => ?_⟩
    have hk3 : k < 2 := by simpa using hk
    interval_cases k
    · exact ⟨0, by decide, rfl⟩
    · exact ⟨2, by decide, rfl⟩

/-- Claim C14, amended: for `n = 0` or `n = 1` the function detects nothing and does not fail.
The test `n ≤ 3` sends it to the base case without any recursion (the result does not depend on
the recursion budget), and since `n` is not `2` the base case treats the array entries `S[0]`,
`S[1]`, `S[2]` as three points: it returns a chain of two or three entries, each of them one of
these three array entries. -/
theorem mergeHull_small (S : List PointT) (n : Nat) (hn : n < 2) :
    mergeHull S n = mergeHullBase S 3 ∧
    (∀ fuel, mergeHullAux fuel S n = mergeHullBase S 3) ∧
    2 ≤ (mergeHull S n).H.length ∧ (mergeHull S n).H.length ≤ 3 ∧
    (mergeHull S n).H.length = (mergeHull S n).nu + (mergeHull S n).nl ∧
    ∀ k, k < (mergeHull S n).H.length → ∃ i, i < 3 ∧ rd (mergeHull S n).H k = rd S i := by
  have hf : ∀ fuel, mergeHullAux fuel S n = mergeHullBase S 3 := by
    intro fuel
    cases fuel with
    | zero => rw [mergeHullAux, if_pos (by omega), mergeHullBase_not_two S n (by omega)]
    | succ f => rw [mergeHullAux, if_pos (by omega), mergeHullBase_not_two S n (by omega)]
  have e : mergeHull S n = mergeHullBase S 3 := hf n
  rw [e]
  obtain ⟨h1, h2, h3, h4⟩ := mergeHullBase_three_entries S
  exact ⟨rfl, hf, h1, h2, h3, h4⟩

theorem mergeHull_small_witness :
    (1 : Nat) < 2 ∧ mergeHull [pt 0 0, pt 1 1, pt 2 2] 1 = mergeHullBase [pt 0 0, pt 1 1, pt 2 2] 3 :=
  ⟨by decide, (mergeHull_small [pt 0 0, pt 1 1, pt 2 2] 1 (by decide)).1⟩

/-! ### Termination of the recursion -/

theorem mergeHullWF_eq_aux : ∀ (fuel : Nat) (S : List PointT) (n : Nat), n ≤ fuel →
    mergeHullWF S n = mergeHullAux fuel S n := by
  intro fuel
  induction fuel with
  | zero =>
    intro S n h
    rw [mergeHullWF, mergeHullAux, if_pos (by omega), if_pos (by omega)]
  | succ f ih =>
    intro S n h
    rw [mergeHullWF, mergeHullAux]
    split_ifs with h3
    · rfl
    · simp only
      rw [ih S (n / 2) (by omega), ih (S.drop (n / 2)) (n - n / 2) (by omega)]

theorem mergeHullCalls_ge : ∀ (b n : Nat), n ≤ b → 2 ≤ n →
    ∀ k, k ∈ mergeHullCalls n → 2 ≤ k ∧ k ≤ n := by
  intro b
  induction b with
  | zero => intro n h h2; omega
  | succ b ih =>
    intro n h h2 k hk
    rw [mergeHullCalls] at hk
    split_ifs at hk with h3
    · simp only [List.mem_singleton] at hk
      omega
    · simp only [List.mem_cons, List.mem_append] at hk
      rcases hk with hk | hk | hk
      · omega
      · have := ih (n / 2) (by omega) (by omega) k hk
        omega
      · have := ih (n - n / 2) (by omega) (by omega) k hk
        omega

/-- Claim C17 (termination): for `n > 3` the split point `mid = n / 2` satisfies
`2 ≤ mid < n` and `2 ≤ n - mid < n`; hence the well-founded recursion on `n` defines
`mergeHull` on every input, it agrees with the budgeted recursion for every budget of at least
`n`, and for `n ≥ 2` every call in the recursion is on at least two points. -/
theorem mergeHull_terminates (S : List PointT) (n : Nat) (hn : 2 ≤ n) :
    (3 < n → 2 ≤ n / 2 ∧ n / 2 < n ∧ 2 ≤ n - n / 2 ∧ n - n / 2 < n) ∧
    mergeHullWF S n = mergeHull S n ∧
    (∀ fuel, n ≤ fuel → mergeHullAux fuel S n = mergeHull S n) ∧
    (∀ k, k ∈ mergeHullCalls n → 2 ≤ k ∧ k ≤ n) := by
  refine ⟨fun h => by omega, mergeHullWF_eq_aux n S n (le_refl _), fun fuel hf => ?_,
    mergeHullCalls_ge n n (le_refl _) hn⟩
  exact mergeHullAux_fuel fuel n S n hf (le_refl _)

theorem mergeHull_terminates_witness :
    2 ≤ 5 ∧ (3 < 5 → 2 ≤ 5 / 2 ∧ 5 / 2 < 5 ∧ 2 ≤ 5 - 5 / 2 ∧ 5 - 5 / 2 < 5) ∧
    mergeHullWF [pt 0 0, pt 1 3, pt 2 4, pt 3 3, pt 4 0] 5
      = mergeHull [pt 0 0, pt 1 3, pt 2 4, pt 3 3, pt 4 0] 5 :=
  ⟨by decide, (mergeHull_terminates [pt 0 0, pt 1 3, pt 2 4, pt 3 3, pt 4 0] 5 (by decide)).1,
    (mergeHull_terminates [pt 0 0, pt 1 3, pt 2 4, pt 3 3, pt 4 0] 5 (by decide)).2.1⟩

/-! ### The square -/

/-- Claim C19 (square): on `(0,0), (0,10), (10,0), (10,10)` in sorted order, with any
identities `n0 .. n3`, `mergeHull` returns the chain `(0,0), (0,10), (10,10), (10,0)` with
`nu = 2` and `nl = 2`, every point carrying its own identity. -/
theorem mergeHull_square (n0 n1 n2 n3 : Int) :
    mergeHull [⟨n0, 0, 0⟩, ⟨n1, 0, 10⟩, ⟨n2, 10, 0⟩, ⟨n3, 10, 10⟩] 4
      = ⟨[⟨n0, 0, 0⟩, ⟨n1, 0, 10⟩, ⟨n3, 10, 10⟩, ⟨n2, 10, 0⟩], 2, 2⟩ ∧
    SortedLex [⟨n0, 0, 0⟩, ⟨n1, 0, 10⟩, ⟨n2, 10, 0⟩, ⟨n3, 10, 10⟩] := by
  constructor
  · simp [mergeHull, mergeHullAux, mergeHullBase, joinHulls, joinUpperLoop, joinLowerLoop,
      findTangent, tangentUpperLoop, tangentLowerLoop, assemble, copyRange, rd, RIGHT, LEFT,
      AREA, List.range, List.range.loop]
    rfl
  · simp [SortedLex, lexLt]

/-! ### The orientation test in 32-bit arithmetic -/

theorem wrap32_modEq (z : Int) : wrap32 z ≡ z [ZMOD 4294967296] := by
  unfold wrap32
  have h : (z + 2147483648) % 4294967296 ≡ z + 2147483648 [ZMOD 4294967296] :=
    Int.mod_modEq _ _
  have := h.sub_right 2147483648
  simpa using this

theorem wrap32_range (z : Int) : Int32 (wrap32 z) := by
  unfold Int32 wrap32
  omega

theorem AREA32_modEq (a b c : PointT) : AREA32 a b c ≡ AREA a b c [ZMOD 4294967296] := by
  unfold AREA32 AREA
  refine (wrap32_modEq _).trans ?_
  refine Int.ModEq.sub ?_ ?_
  · exact (wrap32_modEq _).trans ((wrap32_modEq _).mul (wrap32_modEq _))
  · exact (wrap32_modEq _).trans ((wrap32_modEq _).mul (wrap32_modEq _))

theorem AREA32_range (a b c : PointT) : Int32 (AREA32 a b c) := by
  unfold AREA32
  exact wrap32_range _

/-- Claim C18 (exact orientation) against the macro in `int` arithmetic: the points `(0,0)`,
`(65536,0)`, `(0,32768)` have 32-bit coordinates and make a left turn (exact cross product
`2^31`), but the product `65536 * 32768` overflows and the value computed with wrap-around is
`-2^31`, a right turn; with `(0,65536)` as third point the exact cross product is `2^32` and the
computed value is `0`, collinear. -/
theorem AREA32_counterexample :
    Int32Point (pt 0 0) ∧ Int32Point (pt 65536 0) ∧ Int32Point (pt 0 32768) ∧
    Int32Point (pt 0 65536) ∧
    AREA (pt 0 0) (pt 65536 0) (pt 0 32768) = 2147483648 ∧
    AREA32 (pt 0 0) (pt 65536 0) (pt 0 32768) = -2147483648 ∧
    ¬ SameSign (AREA32 (pt 0 0) (pt 65536 0) (pt 0 32768))
      (AREA (pt 0 0) (pt 65536 0) (pt 0 32768)) ∧
    AREA (pt 0 0) (pt 65536 0) (pt 0 65536) = 4294967296 ∧
    AREA32 (pt 0 0) (pt 65536 0) (pt 0 65536) = 0 ∧
    ¬ SameSign (AREA32 (pt 0 0) (pt 65536 0) (pt 0 65536))
      (AREA (pt 0 0) (pt 65536 0) (pt 0 65536)) := by
  decide

/-! ### The common upper tangent -/

/-- Common upper tangent with the tests on exact integers: for valid hull chains `HI1`, `HI2` (convex chains in the
sense of `Valid`, as `mergeHull` builds them) with every point of `HI1` lexicographically
smaller than every point of `HI2`, the upper search of `joinHulls` ends, within its budget and
the same for every larger one, with a pair `(pu, qu)` where `pu ≤ HI1.nu`,
`qu = findTangent (HI1[pu], HI2, 1)`, and every point of `HI1` and of `HI2` is on or to the
right of the directed line `HI1[pu] → HI2[qu]`. -/
theorem joinHulls_upper_tangent (HI1 HI2 : HullT) (hv1 : Valid HI1) (hv2 : Valid HI2)
    (hsep : LeftOf HI1 HI2) :
    (joinUpperLoop HI1 HI2 (HI1.nu + 1) 0 HI1.nu (0, 0)).1 ≤ HI1.nu ∧
    (joinUpperLoop HI1 HI2 (HI1.nu + 1) 0 HI1.nu (0, 0)).2
      = findTangent (rd HI1.H (joinUpperLoop HI1 HI2 (HI1.nu + 1) 0 HI1.nu (0, 0)).1) HI2 1 ∧
    (∀ i, i < HI1.nu + HI1.nl →
      AREA (rd HI1.H (joinUpperLoop HI1 HI2 (HI1.nu + 1) 0 HI1.nu (0, 0)).1)
        (rd HI2.H (joinUpperLoop HI1 HI2 (HI1.nu + 1) 0 HI1.nu (0, 0)).2) (rd HI1.H i) ≤ 0) ∧
    (∀ j, j < HI2.nu + HI2.nl →
      AREA (rd HI1.H (joinUpperLoop HI1 HI2 (HI1.nu + 1) 0 HI1.nu (0, 0)).1)
        (rd HI2.H (joinUpperLoop HI1 HI2 (HI1.nu + 1) 0 HI1.nu (0, 0)).2) (rd HI2.H j) ≤ 0) ∧
    (∀ fuel, HI1.nu + 1 ≤ fuel →
      joinUpperLoop HI1 HI2 fuel 0 HI1.nu (0, 0)
        = joinUpperLoop HI1 HI2 (HI1.nu + 1) 0 HI1.nu (0, 0)) := by
  have hnl1 := hv1.nl_pos
  have hs : lexLe (rd HI1.H HI1.nu) (rd HI2.H 0) :=
    lexLe_of_lt (hsep HI1.nu (by omega) 0 hv2.n_pos)
  obtain ⟨pu, eu, _, hpu, cu1, cu2⟩ := joinUpperLoop_spec HI1 HI2
    (join_upper_mono hv1 hv2 hs) (HI1.nu + 1) 0 HI1.nu (0, 0) (by omega) (by omega)
    (le_refl _) (Or.inl rfl) (Or.inl rfl)
  obtain ⟨q0, q1, q2⟩ := findTangent_upper_local (rd HI1.H pu) HI2 hv2.nl_pos
  rw [eu]
  refine ⟨hpu, rfl, fun i hi => ?_, fun j hj => ?_, fun fuel hf => ?_⟩
  · exact hv1.tangent_upper_right
      (sep_le hv1 hv2 hs (by omega) (by have := hv2.nl_pos; omega)) hpu cu1 cu2
      (hv1.vertex_inside i hi)
  · exact hv2.tangent_upper (sep_le hv1 hv2 hs (by omega) hv2.n_pos) q0 q1 q2
      (hv2.vertex_inside j hj)
  · rw [← eu]
    exact joinUpperLoop_fuel HI1 HI2 fuel (HI1.nu + 1) 0 HI1.nu (0, 0) (by omega) (by omega)

theorem joinHulls_upper_tangent_witness :
    LeftOf ⟨[pt 0 0, pt 1 2, pt 2 0], 2, 1⟩ ⟨[pt 3 0, pt 4 2, pt 5 0], 2, 1⟩ ∧
    joinUpperLoop ⟨[pt 0 0, pt 1 2, pt 2 0], 2, 1⟩ ⟨[pt 3 0, pt 4 2, pt 5 0], 2, 1⟩ 3 0 2 (0, 0)
      = (1, 1) ∧
    ∀ j, j < 3 →
      AREA (rd [pt 0 0, pt 1 2, pt 2 0]
          (joinUpperLoop ⟨[pt 0 0, pt 1 2, pt 2 0], 2, 1⟩ ⟨[pt 3 0, pt 4 2, pt 5 0], 2, 1⟩
            3 0 2 (0, 0)).1)
        (rd [pt 3 0, pt 4 2, pt 5 0]
          (joinUpperLoop ⟨[pt 0 0, pt 1 2, pt 2 0], 2, 1⟩ ⟨[pt 3 0, pt 4 2, pt 5 0], 2, 1⟩
            3 0 2 (0, 0)).2)
        (rd [pt 3 0, pt 4 2, pt 5 0] j) ≤ 0 :=
  ⟨by decide, by decide,
    (joinHulls_upper_tangent ⟨[pt 0 0, pt 1 2, pt 2 0], 2, 1⟩ ⟨[pt 3 0, pt 4 2, pt 5 0], 2, 1⟩
      (chainOK_valid (by decide) (by decide)) (chainOK_valid (by decide) (by decide))
      (by decide)).2.2.2.1⟩

/-! ### The searches look at coordinates only -/

theorem AREA_coord {a a' b b' c c' : PointT} (ha : CoordEq a a') (hb : CoordEq b b')
    (hc : CoordEq c c') : AREA a b c = AREA a' b' c' := by
  unfold AREA
  rw [ha.1, ha.2, hb.1, hb.2, hc.1, hc.2]

theorem RIGHT_coord {a a' b b' c c' : PointT} (ha : CoordEq a a') (hb : CoordEq b b')
    (hc : CoordEq c c') : RIGHT a b c ↔ RIGHT a' b' c' := by
  unfold RIGHT
  rw [AREA_coord ha hb hc]

theorem LEFT_coord {a a' b b' c c' : PointT} (ha : CoordEq a a') (hb : CoordEq b b')
    (hc : CoordEq c c') : LEFT a b c ↔ LEFT a' b' c' := by
  unfold LEFT
  rw [AREA_coord ha hb hc]

theorem tangentUpperLoop_coord {p p' : PointT} (hp : CoordEq p p') {H H' : List PointT}
    (hH : ∀ k, CoordEq (rd H k) (rd H' k)) (nu : Nat) :
    ∀ fuel min max mid, tangentUpperLoop p H nu fuel min max mid
      = tangentUpperLoop p' H' nu fuel min max mid := by
  intro fuel
  induction fuel with
  | zero => intro min max mid; rfl
  | succ f ih =>
    intro min max mid
    rw [tangentUpperLoop, tangentUpperLoop]
    have e : ∀ i j, RIGHT p (rd H i) (rd H j) ↔ RIGHT p' (rd H' i) (rd H' j) :=
      fun i j => RIGHT_coord hp (hH i) (hH j)
    simp only [e, ih]

theorem tangentLowerLoop_coord {p p' : PointT} (hp : CoordEq p p') {H H' : List PointT}
    (hH : ∀ k, CoordEq (rd H k) (rd H' k)) (nu n : Nat) :
    ∀ fuel min max mid, tangentLowerLoop p H nu n fuel min max mid
      = tangentLowerLoop p' H' nu n fuel min max mid := by
  intro fuel
  induction fuel with
  | zero => intro min max mid; rfl
  | succ f ih =>
    intro min max mid
    rw [tangentLowerLoop, tangentLowerLoop]
    have e : ∀ i j, LEFT p (rd H i) (rd H j) ↔ LEFT p' (rd H' i) (rd H' j) :=
      fun i j => LEFT_coord hp (hH i) (hH j)
    simp only [e, ih]

theorem findTangent_coord {p p' : PointT} (hp : CoordEq p p') {HI HI' : HullT}
    (hnu : HI.nu = HI'.nu) (hnl : HI.nl = HI'.nl)
    (hH : ∀ k, CoordEq (rd HI.H k) (rd HI'.H k)) (upper : Int) :
    findTangent p HI upper = findTangent p' HI' upper := by
  unfold findTangent
  simp only [hnu, hnl, tangentUpperLoop_coord hp hH, tangentLowerLoop_coord hp hH]

theorem joinUpperLoop_coord {HI1 HI1' HI2 HI2' : HullT}
    (hnu1 : HI1.nu = HI1'.nu) (h1 : ∀ k, CoordEq (rd HI1.H k) (rd HI1'.H k))
    (hnu2 : HI2.nu = HI2'.nu) (hnl2 : HI2.nl = HI2'.nl)
    (h2 : ∀ k, CoordEq (rd HI2.H k) (rd HI2'.H k)) :
    ∀ fuel min max s, joinUpperLoop HI1 HI2 fuel min max s
      = joinUpperLoop HI1' HI2' fuel min max s := by
  intro fuel
  induction fuel with
  | zero => intro min max s; rfl
  | succ f ih =>
    intro min max s
    rw [joinUpperLoop, joinUpperLoop]
    have eq : ∀ i, findTangent (rd HI1.H i) HI2 1 = findTangent (rd HI1'.H i) HI2' 1 :=
      fun i => findTangent_coord (h1 i) hnu2 hnl2 h2 1
    have e : ∀ i j k, RIGHT (rd HI1.H i) (rd HI1.H j) (rd HI2.H k)
        ↔ RIGHT (rd HI1'.H i) (rd HI1'.H j) (rd HI2'.H k) :=
      fun i j k => RIGHT_coord (h1 i) (h1 j) (h2 k)
    simp only [eq, e, ih, hnu1]

theorem joinLowerLoop_coord {HI1 HI1' HI2 HI2' : HullT}
    (hnu1 : HI1.nu = HI1'.nu) (hnl1 : HI1.nl = HI1'.nl)
    (h1 : ∀ k, CoordEq (rd HI1.H k) (rd HI1'.H k))
    (hnu2 : HI2.nu = HI2'.nu) (hnl2 : HI2.nl = HI2'.nl)
    (h2 : ∀ k, CoordEq (rd HI2.H k) (rd HI2'.H k)) :
    ∀ fuel min max s, joinLowerLoop HI1 HI2 fuel min max s
      = joinLowerLoop HI1' HI2' fuel min max s := by
  intro fuel
  induction fuel with
  | zero => intro min max s; rfl
  | succ f ih =>
    intro min max s
    rw [joinLowerLoop, joinLowerLoop]
    have eq : ∀ i, findTangent (rd HI1.H i) HI2 0 = findTangent (rd HI1'.H i) HI2' 0 :=
      fun i => findTangent_coord (h1 i) hnu2 hnl2 h2 0
    have e : ∀ i j k, LEFT (rd HI1.H i) (rd HI1.H j) (rd HI2.H k)
        ↔ LEFT (rd HI1'.H i) (rd HI1'.H j) (rd HI2'.H k) :=
      fun i j k => LEFT_coord (h1 i) (h1 j) (h2 k)
    simp only [eq, e, ih, hnu1, hnl1]

/-! ### Related inputs give related hulls -/

section rel

variable {R : PointT → PointT → Prop}

theorem rd_rel {H H' : List PointT} (h : List.Forall₂ R H H') (k : Nat) (hk : k < H.length) :
    R (rd H k) (rd H' k) := by
  have hl := h.length_eq
  rw [rd_eq_getElem H k hk, rd_eq_getElem H' k (by omega)]
  exact (List.forall₂_iff_get.1 h).2 k hk (by omega)

theorem rd_default (H : List PointT) (k : Nat) (hk : H.length ≤ k) : rd H k = default := by
  unfold rd
  exact List.getD_eq_default _ _ hk

theorem coord_of_rel (hR : ∀ p q, R p q → CoordEq p q) {H H' : List PointT}
    (h : List.Forall₂ R H H') (k : Nat) : CoordEq (rd H k) (rd H' k) := by
  rcases Nat.lt_or_ge k H.length with hk | hk
  · exact hR _ _ (rd_rel h k hk)
  · rw [rd_default H k hk, rd_default H' k (by rw [← h.length_eq]; exact hk)]
    exact ⟨rfl, rfl⟩

theorem copyRange_rel {H H' : List PointT} (h : List.Forall₂ R H H') (a b : Nat)
    (hb : b ≤ H.length) : List.Forall₂ R (copyRange H a b) (copyRange H' a b) := by
  unfold copyRange
  rw [List.forall₂_map_left_iff, List.forall₂_map_right_iff, List.forall₂_same]
  intro k hk
  rw [List.mem_range] at hk
  exact rd_rel h (a + k) (by omega)

theorem lower2_rel {HI2 HI2' : HullT} (hnu : HI2.nu = HI2'.nu) (hnl : HI2.nl = HI2'.nl)
    (h : List.Forall₂ R HI2.H HI2'.H) (hlen : HI2.H.length = HI2.nu + HI2.nl)
    (ql : Nat) (hql : ql < HI2.nu + HI2.nl) :
    List.Forall₂ R (lower2 HI2 ql) (lower2 HI2' ql) := by
  unfold lower2
  rw [← hnu, ← hnl]
  split_ifs with h0
  · refine List.rel_append (copyRange_rel h _ _ (by omega)) ?_
    exact List.Forall₂.cons (rd_rel h 0 (by omega)) List.Forall₂.nil
  · exact copyRange_rel h _ _ (by omega)

theorem lower1_rel {HI1 HI1' : HullT} (hnu : HI1.nu = HI1'.nu) (hnl : HI1.nl = HI1'.nl)
    (h : List.Forall₂ R HI1.H HI1'.H) (hlen : HI1.H.length = HI1.nu + HI1.nl) (pl : Nat) :
    List.Forall₂ R (lower1 HI1 pl) (lower1 HI1' pl) := by
  unfold lower1
  rw [← hnu, ← hnl]
  split_ifs with h0
  · exact copyRange_rel h _ _ (by omega)
  · exact List.Forall₂.nil

theorem assemble_rel {HI1 HI1' HI2 HI2' : HullT}
    (hnu1 : HI1.nu = HI1'.nu) (hnl1 : HI1.nl = HI1'.nl) (h1 : List.Forall₂ R HI1.H HI1'.H)
    (hlen1 : HI1.H.length = HI1.nu + HI1.nl) (hp1 : 1 ≤ HI1.nl)
    (hnu2 : HI2.nu = HI2'.nu) (hnl2 : HI2.nl = HI2'.nl) (h2 : List.Forall₂ R HI2.H HI2'.H)
    (hlen2 : HI2.H.length = HI2.nu + HI2.nl)
    (pu qu pl ql : Nat) (hpu : pu ≤ HI1.nu) (hql : ql < HI2.nu + HI2.nl) :
    (assemble HI1 HI2 pu qu pl ql).nu = (assemble HI1' HI2' pu qu pl ql).nu ∧
    (assemble HI1 HI2 pu qu pl ql).nl = (assemble HI1' HI2' pu qu pl ql).nl ∧
    List.Forall₂ R (assemble HI1 HI2 pu qu pl ql).H (assemble HI1' HI2' pu qu pl ql).H := by
  have hl2 := lower2_rel hnu2 hnl2 h2 hlen2 ql hql
  have hl1 := lower1_rel hnu1 hnl1 h1 hlen1 pl
  rw [assemble_eq, assemble_eq]
  refine ⟨by simp only [hnu2], ?_, ?_⟩
  · simp only [hl2.length_eq, hl1.length_eq]
  · simp only
    refine List.rel_append (List.rel_append (copyRange_rel h1 _ _ (by omega)) ?_)
      (List.rel_append hl2 hl1)
    rw [← hnu2]
    exact copyRange_rel h2 _ _ (by omega)

end rel

theorem joinUpperLoop_fst_le (HI1 HI2 : HullT) :
    ∀ fuel min max s, max ≤ HI1.nu → s.1 ≤ HI1.nu →
      (joinUpperLoop HI1 HI2 fuel min max s).1 ≤ HI1.nu := by
  intro fuel
  induction fuel with
  | zero => intro min max s _ hs; exact hs
  | succ f ih =>
    intro min max s hmax hs
    rw [joinUpperLoop]
    simp only
    split_ifs with h0 h1 h2 h3
    · exact ih _ _ _ (by omega) (by show (min + max) / 2 ≤ HI1.nu; omega)
    · show (min + max) / 2 ≤ HI1.nu; omega
    · exact ih _ _ _ hmax (by show (min + max) / 2 ≤ HI1.nu; omega)
    · show (min + max) / 2 ≤ HI1.nu; omega
    · exact hs

theorem joinLowerLoop_snd_lt (HI1 HI2 : HullT) (h2 : 1 ≤ HI2.nu) :
    (joinLowerLoop HI1 HI2 (HI1.nl + 1) HI1.nu (HI1.nu + HI1.nl) (0, 0)).2
      < HI2.nu + HI2.nl := by
  obtain ⟨p, hp⟩ := joinLowerLoop_snd HI1 HI2 (HI1.nl + 1) HI1.nu (HI1.nu + HI1.nl) (0, 0)
    (Or.inl ⟨by omega, by omega⟩)
  obtain ⟨t, -, -, et, -⟩ := findTangent_lower_local p HI2
  rw [hp, et]
  exact Nat.mod_lt _ (by omega)

section rel

variable {R : PointT → PointT → Prop}

theorem joinHulls_length (HI1 HI2 : HullT) :
    (joinHulls HI1 HI2).H.length = (joinHulls HI1 HI2).nu + (joinHulls HI1 HI2).nl := by
  unfold joinHulls assemble
  simp only [List.length_append]

theorem joinHulls_rel (hR : ∀ p q, R p q → CoordEq p q) {HI1 HI1' HI2 HI2' : HullT}
    (hnu1 : HI1.nu = HI1'.nu) (hnl1 : HI1.nl = HI1'.nl) (h1 : List.Forall₂ R HI1.H HI1'.H)
    (hlen1 : HI1.H.length = HI1.nu + HI1.nl) (hp1 : 1 ≤ HI1.nl)
    (hnu2 : HI2.nu = HI2'.nu) (hnl2 : HI2.nl = HI2'.nl) (h2 : List.Forall₂ R HI2.H HI2'.H)
    (hlen2 : HI2.H.length = HI2.nu + HI2.nl) (hp2 : 1 ≤ HI2.nu) :
    (joinHulls HI1 HI2).nu = (joinHulls HI1' HI2').nu ∧
    (joinHulls HI1 HI2).nl = (joinHulls HI1' HI2').nl ∧
    List.Forall₂ R (joinHulls HI1 HI2).H (joinHulls HI1' HI2').H := by
  have c1 := coord_of_rel hR h1
  have c2 := coord_of_rel hR h2
  have eu := joinUpperLoop_coord hnu1 c1 hnu2 hnl2 c2 (HI1.nu + 1) 0 HI1.nu (0, 0)
  have el := joinLowerLoop_coord hnu1 hnl1 c1 hnu2 hnl2 c2 (HI1.nl + 1) HI1.nu
    (HI1.nu + HI1.nl) (0, 0)
  have e : joinHulls HI1' HI2' = assemble HI1' HI2'
      (joinUpperLoop HI1 HI2 (HI1.nu + 1) 0 HI1.nu (0, 0)).1
      (joinUpperLoop HI1 HI2 (HI1.nu + 1) 0 HI1.nu (0, 0)).2
      ((joinLowerLoop HI1 HI2 (HI1.nl + 1) HI1.nu (HI1.nu + HI1.nl) (0, 0)).1
        % (HI1.nu + HI1.nl))
      (joinLowerLoop HI1 HI2 (HI1.nl + 1) HI1.nu (HI1.nu + HI1.nl) (0, 0)).2 := by
    rw [eu, el]
    unfold joinHulls
    simp only [hnu1, hnl1]
  rw [e]
  exact assemble_rel hnu1 hnl1 h1 hlen1 hp1 hnu2 hnl2 h2 hlen2 _ _ _ _
    (joinUpperLoop_fst_le HI1 HI2 _ _ _ _ (le_refl _) (Nat.zero_le _))
    (joinLowerLoop_snd_lt HI1 HI2 hp2)

theorem mergeHullBase_rel {S S' : List PointT} (h : List.Forall₂ R S S')
    (hR : ∀ p q, R p q → CoordEq p q) (n : Nat) (h2 : 2 ≤ n) (h3 : n ≤ 3)
    (hn : n ≤ S.length) :
    (mergeHullBase S n).nu = (mergeHullBase S' n).nu ∧
    (mergeHullBase S n).nl = (mergeHullBase S' n).nl ∧
    List.Forall₂ R (mergeHullBase S n).H (mergeHullBase S' n).H ∧
    (mergeHullBase S n).H.length = (mergeHullBase S n).nu + (mergeHullBase S n).nl := by
  have c := coord_of_rel hR h
  unfold mergeHullBase
  by_cases e2 : n = 2
  · rw [if_pos e2, if_pos e2]
    exact ⟨rfl, rfl, List.Forall₂.cons (rd_rel h 0 (by omega))
      (List.Forall₂.cons (rd_rel h 1 (by omega)) List.Forall₂.nil), rfl⟩
  · rw [if_neg e2, if_neg e2]
    have r0 := rd_rel h 0 (by omega)
    have r1 := rd_rel h 1 (by omega)
    have r2 := rd_rel h 2 (by omega)
    have er : RIGHT (rd S 0) (rd S 1) (rd S 2) ↔ RIGHT (rd S' 0) (rd S' 1) (rd S' 2) :=
      RIGHT_coord (c 0) (c 1) (c 2)
    have el : LEFT (rd S 0) (rd S 1) (rd S 2) ↔ LEFT (rd S' 0) (rd S' 1) (rd S' 2) :=
      LEFT_coord (c 0) (c 1) (c 2)
    by_cases hr : RIGHT (rd S 0) (rd S 1) (rd S 2)
    · rw [if_pos hr, if_pos (er.1 hr)]
      exact ⟨rfl, rfl, List.Forall₂.cons r0 (List.Forall₂.cons r1
        (List.Forall₂.cons r2 List.Forall₂.nil)), rfl⟩
    · rw [if_neg hr, if_neg (fun x => hr (er.2 x))]
      by_cases hl : LEFT (rd S 0) (rd S 1) (rd S 2)
      · rw [if_pos hl, if_pos (el.1 hl)]
        exact ⟨rfl, rfl, List.Forall₂.cons r0 (List.Forall₂.cons r2
          (List.Forall₂.cons r1 List.Forall₂.nil)), rfl⟩
      · rw [if_neg hl, if_neg (fun x => hl (el.2 x))]
        exact ⟨rfl, rfl, List.Forall₂.cons r0 (List.Forall₂.cons r2 List.Forall₂.nil), rfl⟩

theorem mergeHullAux_rel (hR : ∀ p q, R p q → CoordEq p q) :
    ∀ (fuel : Nat) (S S' : List PointT) (n : Nat), List.Forall₂ R S S' → n ≤ fuel → 2 ≤ n →
      n ≤ S.length →
      (mergeHullAux fuel S n).nu = (mergeHullAux fuel S' n).nu ∧
      (mergeHullAux fuel S n).nl = (mergeHullAux fuel S' n).nl ∧
      List.Forall₂ R (mergeHullAux fuel S n).H (mergeHullAux fuel S' n).H ∧
      (mergeHullAux fuel S n).H.length
        = (mergeHullAux fuel S n).nu + (mergeHullAux fuel S n).nl := by
  intro fuel
  induction fuel with
  | zero => intro S S' n _ hf h2; omega
  | succ fuel ih =>
    intro S S' n h hf h2 hn
    rw [mergeHullAux, mergeHullAux]
    split_ifs with h3
    · exact mergeHullBase_rel h hR n h2 h3 hn
    · obtain ⟨a1, a2, a3, a4⟩ := ih S S' (n / 2) h (by omega) (by omega) (by omega)
      obtain ⟨b1, b2, b3, b4⟩ := ih (S.drop (n / 2)) (S'.drop (n / 2)) (n - n / 2)
        (List.forall₂_drop _ h) (by omega) (by omega) (by rw [List.length_drop]; omega)
      obtain ⟨-, l1, -, -⟩ := mergeHullAux_layout fuel S (n / 2) (by omega) (by omega)
      obtain ⟨l2, -, -, -⟩ := mergeHullAux_layout fuel (S.drop (n / 2)) (n - n / 2) (by omega)
        (by omega)
      obtain ⟨j1, j2, j3⟩ := joinHulls_rel hR a1 a2 a3 a4 l1 b1 b2 b3 b4 l2
      exact ⟨j1, j2, j3, joinHulls_length _ _⟩

end rel

/-! ### Identities play no role -/

theorem idx_of_rel (S S' : List PointT) (n : Nat) {H H' : List PointT}
    (h : List.Forall₂ (fun p q => ∃ i, i < n ∧ p = rd S i ∧ q = rd S' i) H H') :
    ∃ idx : List Nat, (∀ i, i ∈ idx → i < n) ∧ H = idx.map (rd S) ∧ H' = idx.map (rd S') := by
  induction h with
  | nil => exact ⟨[], by simp, rfl, rfl⟩
  | cons hab _ ih =>
    obtain ⟨i, hi, ea, eb⟩ := hab
    obtain ⟨idx, h1, h2, h3⟩ := ih
    refine ⟨i :: idx, ?_, ?_, ?_⟩
    · intro j hj
      rcases List.mem_cons.1 hj with e | e
      · rw [e]; exact hi
      · exact h1 j e
    · rw [List.map_cons, ← ea, ← h2]
    · rw [List.map_cons, ← eb, ← h3]

/-- Claim C16 (identities play no role): if `S` and `S'` have the same length `n ≥ 2` and agree
on the coordinates at every position, then `mergeHull` returns the same `nu` and the same `nl`
for both, and the two hull arrays are read off the two inputs at one and the same list of
positions: at every index the two results hold the points that stood at the same input
position, each with its own `num`. -/
theorem mergeHull_num_irrelevant (S S' : List PointT) (n : Nat) (hS : S.length = n)
    (hS' : S'.length = n) (hn : 2 ≤ n) (hxy : ∀ i, i < n → CoordEq (rd S i) (rd S' i)) :
    (mergeHull S n).nu = (mergeHull S' n).nu ∧ (mergeHull S n).nl = (mergeHull S' n).nl ∧
    ∃ idx : List Nat, (∀ i, i ∈ idx → i < n) ∧
      (mergeHull S n).H = idx.map (rd S) ∧ (mergeHull S' n).H = idx.map (rd S') := by
  have hR : ∀ p q, (∃ i, i < n ∧ p = rd S i ∧ q = rd S' i) → CoordEq p q := by
    rintro p q ⟨i, hi, e1, e2⟩
    rw [e1, e2]
    exact hxy i hi
  have h0 : List.Forall₂ (fun p q => ∃ i, i < n ∧ p = rd S i ∧ q = rd S' i) S S' := by
    rw [List.forall₂_iff_get]
    refine ⟨by rw [hS, hS'], fun i h1 h2 => ⟨i, by omega, ?_, ?_⟩⟩
    · rw [rd_eq_getElem S i h1]; rfl
    · rw [rd_eq_getElem S' i h2]; rfl
  obtain ⟨a1, a2, a3, -⟩ := mergeHullAux_rel hR n S S' n h0 (le_refl _) hn (by omega)
  exact ⟨a1, a2, idx_of_rel S S' n a3⟩

theorem mergeHull_num_irrelevant_witness :
    (∀ i, i < 5 →
      CoordEq (rd [⟨0, 0, 0⟩, ⟨1, 1, 3⟩, ⟨2, 2, 1⟩, ⟨3, 3, 4⟩, ⟨4, 5, 0⟩] i)
        (rd [⟨7, 0, 0⟩, ⟨7, 1, 3⟩, ⟨9, 2, 1⟩, ⟨-4, 3, 4⟩, ⟨0, 5, 0⟩] i)) ∧
    (mergeHull [⟨0, 0, 0⟩, ⟨1, 1, 3⟩, ⟨2, 2, 1⟩, ⟨3, 3, 4⟩, ⟨4, 5, 0⟩] 5).nu
      = (mergeHull [⟨7, 0, 0⟩, ⟨7, 1, 3⟩, ⟨9, 2, 1⟩, ⟨-4, 3, 4⟩, ⟨0, 5, 0⟩] 5).nu ∧
    (mergeHull [⟨0, 0, 0⟩, ⟨1, 1, 3⟩, ⟨2, 2, 1⟩, ⟨3, 3, 4⟩, ⟨4, 5, 0⟩] 5).nl
      = (mergeHull [⟨7, 0, 0⟩, ⟨7, 1, 3⟩, ⟨9, 2, 1⟩, ⟨-4, 3, 4⟩, ⟨0, 5, 0⟩] 5).nl :=
  ⟨by decide,
    (mergeHull_num_irrelevant [⟨0, 0, 0⟩, ⟨1, 1, 3⟩, ⟨2, 2, 1⟩, ⟨3, 3, 4⟩, ⟨4, 5, 0⟩]
      [⟨7, 0, 0⟩, ⟨7, 1, 3⟩, ⟨9, 2, 1⟩, ⟨-4, 3, 4⟩, ⟨0, 5, 0⟩] 5 rfl rfl (by decide)
      (by decide)).1,
    (mergeHull_num_irrelevant [⟨0, 0, 0⟩, ⟨1, 1, 3⟩, ⟨2, 2, 1⟩, ⟨3, 3, 4⟩, ⟨4, 5, 0⟩]
      [⟨7, 0, 0⟩, ⟨7, 1, 3⟩, ⟨9, 2, 1⟩, ⟨-4, 3, 4⟩, ⟨0, 5, 0⟩] 5 rfl rfl (by decide)
      (by decide)).2.1⟩

/-! ### Orientation lemmas for the scan -/

/-- Popping keeps the new point above the old points behind the new top. -/
theorem pop_keep {t' tt p s : PointT} (h1 : lexLt t' tt) (h2 : lexLt t' p) (h3 : lexLe t' s)
    (hp : 0 ≤ AREA t' tt p) (hs : AREA t' tt s ≤ 0) : AREA t' p s ≤ 0 := by
  rcases h3 with h3 | ⟨hx, hy⟩
  · have a : vc t' p t' tt ≤ 0 := by unfold AREA at hp; unfold vc cr; linarith
    have b : vc t' tt t' s ≤ 0 := by unfold AREA at hs; unfold vc cr; linarith
    have c := vc_trans h2 h1 h3 a b
    unfold vc cr at c; unfold AREA; linarith
  · unfold AREA
    rw [← hx, ← hy]
    ring_nf
    exact le_refl _

/-- At the end of the inner loop the old points before the top are below the new edge. -/
theorem exit_left {t' tt p s : PointT} (h1 : lexLt s tt) (h2 : lexLt t' tt) (h3 : lexLt tt p)
    (hs : AREA t' tt s ≤ 0) (hp : AREA t' tt p < 0) : AREA tt p s ≤ 0 := by
  have a : vc s tt t' tt ≤ 0 := by unfold AREA at hs; unfold vc cr; linarith
  have b : vc t' tt tt p < 0 := by unfold AREA at hp; unfold vc cr; linarith
  have c := vc_trans_le_lt h1 h2 h3 a b
  unfold vc cr at c; unfold AREA; linarith

/-- A point to the right of an edge of a right-turning ascending chain is to the right of the
edge before it. -/
theorem chain_down {a b c p : PointT} (h1 : lexLt a b) (h2 : lexLt b c) (h3 : lexLt b p)
    (ht : AREA a b c < 0) (hp : AREA b c p ≤ 0) : AREA a b p < 0 := by
  have x : vc a b b c < 0 := by unfold AREA at ht; unfold vc cr; linarith
  have y : vc b c b p ≤ 0 := by unfold AREA at hp; unfold vc cr; linarith
  have z := vc_trans_lt_le h1 h2 h3 x y
  unfold vc cr at z; unfold AREA; linarith

/-- Two upper hulls cannot leave a common vertex towards different next vertices. -/
theorem uniq_step {a l1 m1 l2 : PointT} (h1 : lexLt a l1) (h2 : lexLt l1 m1)
    (h3 : lexLt l1 l2) (hc : AREA a l1 m1 = 0) (ht : AREA a l1 l2 < 0)
    (hs : AREA l1 l2 m1 ≤ 0) : False := by
  have x : vc a l1 l1 l2 < 0 := by unfold AREA at ht; unfold vc cr; linarith
  have y : vc l1 l2 l1 m1 ≤ 0 := by unfold AREA at hs; unfold vc cr; linarith
  have z := vc_trans_lt_le h1 h3 h2 x y
  unfold vc cr at z; unfold AREA at hc; linarith

/-! ### The upper hull is unique -/

theorem sorted_le_last {S : List PointT} (hs : SortedLex S) {i k : Nat} (hi : i ≤ S.length)
    (hk : k < i) : lexLe (rd S k) (rd S (i - 1)) := by
  rcases Nat.lt_or_ge k (i - 1) with h | h
  · exact lexLe_of_lt (sorted_rd hs k (i - 1) h (by omega))
  · have e : k = i - 1 := by omega
    rw [e]
    exact lexLe_refl _

theorem sorted_coord_eq {S : List PointT} (hs : SortedLex S) {k1 k2 : Nat}
    (h1 : k1 < S.length) (h2 : k2 < S.length)
    (e : (rd S k1).x = (rd S k2).x ∧ (rd S k1).y = (rd S k2).y) : rd S k1 = rd S k2 := by
  rcases Nat.lt_trichotomy k1 k2 with h | h | h
  · have := sorted_rd hs k1 k2 h h2
    unfold lexLt at this
    omega
  · rw [h]
  · have := sorted_rd hs k2 k1 h h1
    unfold lexLt at this
    omega

section uniq

variable {S : List PointT} {i : Nat} {L M : List PointT}

/-- If two upper hulls agree at index `j`, the first does not end before the second. -/
theorem UHull.longer (hs : SortedLex S) (hi : i ≤ S.length) (hL : UHull S i L)
    (hM : UHull S i M) {j : Nat} (hjL : j < L.length) (e : rd L j = rd M j)
    (hjM : j + 1 < M.length) : j + 1 < L.length := by
  by_contra hcon
  have hj : j = L.length - 1 := by omega
  have h1 := hM.inc j hjM
  obtain ⟨k, hk, ek⟩ := hM.mem (j + 1) hjM
  have h2 := sorted_le_last hs hi hk
  have e3 : rd M j = rd S (i - 1) := by rw [← e, hj, hL.last]
  rw [e3, ek] at h1
  exact lexLt_irrefl _ (lexLt_of_lt_of_le h1 h2)

/-- The next vertex of one upper hull is not lexicographically before that of the other. -/
theorem UHull.next_not_lt (hs : SortedLex S) (hi : i ≤ S.length) (hL : UHull S i L)
    (hM : UHull S i M) {j : Nat} (e : rd L j = rd M j) (hjL : j + 1 < L.length)
    (hjM : j + 1 < M.length) : ¬ lexLt (rd L (j + 1)) (rd M (j + 1)) := by
  intro hlt
  obtain ⟨k1, hk1, e1⟩ := hL.mem (j + 1) hjL
  obtain ⟨k2, hk2, e2⟩ := hM.mem (j + 1) hjM
  have s1 := hL.sup j hjL k2 hk2
  have s2 := hM.sup j hjM k1 hk1
  rw [← e2] at s1
  rw [← e1, ← e] at s2
  have hc : AREA (rd L j) (rd L (j + 1)) (rd M (j + 1)) = 0 := by
    have := AREA_swap (rd L j) (rd L (j + 1)) (rd M (j + 1))
    omega
  have hj2 : j + 2 < L.length := by
    by_contra hcon
    have hj : j + 1 = L.length - 1 := by omega
    have h2 := sorted_le_last hs hi hk2
    rw [← e2, ← hL.last, ← hj] at h2
    exact lexLt_irrefl _ (lexLt_of_lt_of_le hlt h2)
  have s3 := hL.sup (j + 1) hj2 k2 hk2
  rw [← e2] at s3
  exact uniq_step (hL.inc j hjL) hlt (hL.inc (j + 1) hj2) hc (hL.turn j hj2) s3

theorem UHull.agree (hs : SortedLex S) (hi : i ≤ S.length) (hL : UHull S i L)
    (hM : UHull S i M) :
    ∀ j, (j < L.length ↔ j < M.length) ∧ (j < L.length → rd L j = rd M j) := by
  intro j
  induction j with
  | zero =>
    have := hL.len
    have := hM.len
    exact ⟨⟨fun _ => by omega, fun _ => by omega⟩, fun _ => by rw [hL.first, hM.first]⟩
  | succ j ih =>
    obtain ⟨ih1, ih2⟩ := ih
    have hiff : j + 1 < L.length ↔ j + 1 < M.length := by
      constructor
      · intro h
        exact UHull.longer hs hi hM hL (ih1.1 (by omega)) (ih2 (by omega)).symm h
      · intro h
        have hjL : j < L.length := ih1.2 (by omega)
        exact UHull.longer hs hi hL hM hjL (ih2 hjL) h
    refine ⟨hiff, fun hjL => ?_⟩
    have hjM := hiff.1 hjL
    have e := ih2 (by omega)
    have n1 := UHull.next_not_lt hs hi hL hM e hjL hjM
    have n2 := UHull.next_not_lt hs hi hM hL e.symm hjM hjL
    obtain ⟨k1, hk1, e1⟩ := hL.mem (j + 1) hjL
    obtain ⟨k2, hk2, e2⟩ := hM.mem (j + 1) hjM
    rcases lex_total (rd L (j + 1)) (rd M (j + 1)) with h | h | h
    · exact absurd h n1
    · rw [e1, e2] at h ⊢
      exact sorted_coord_eq hs (by omega) (by omega) h
    · exact absurd h n2

/-- The upper hull of the first `i` points of a sorted input is unique. -/
theorem UHull.unique (hs : SortedLex S) (hi : i ≤ S.length) (hL : UHull S i L)
    (hM : UHull S i M) : L = M := by
  have h := UHull.agree hs hi hL hM
  have hlen : L.length = M.length := by
    rcases Nat.lt_trichotomy L.length M.length with c | c | c
    · exact absurd ((h L.length).1.2 c) (lt_irrefl _)
    · exact c
    · exact absurd ((h M.length).1.1 c) (lt_irrefl _)
  refine List.ext_getElem hlen (fun j h1 h2 => ?_)
  have := (h j).2 h1
  rwa [rd_eq_getElem L j h1, rd_eq_getElem M j h2] at this

end uniq

/-! ### Reading prefixes and updated arrays -/

theorem rd_take (H : List PointT) (m j : Nat) (h : j < m) : rd (H.take m) j = rd H j := by
  unfold rd
  rw [List.getD_eq_getElem?_getD, List.getD_eq_getElem?_getD, List.getElem?_take_of_lt h]

theorem rd_set_eq (H : List PointT) (m : Nat) (x : PointT) (h : m < H.length) :
    rd (H.set m x) m = x := by
  unfold rd
  rw [List.getD_eq_getElem?_getD, List.getElem?_set_self (by simpa using h)]
  rfl

theorem rd_set_ne (H : List PointT) (m j : Nat) (x : PointT) (h : m ≠ j) :
    rd (H.set m x) j = rd H j := by
  unfold rd
  rw [List.getD_eq_getElem?_getD, List.getD_eq_getElem?_getD, List.getElem?_set_ne h]

theorem list_eq_of_rd {L M : List PointT} (hlen : L.length = M.length)
    (h : ∀ j, j < L.length → rd L j = rd M j) : L = M := by
  refine List.ext_getElem hlen (fun j h1 h2 => ?_)
  have := h j h1
  rwa [rd_eq_getElem L j h1, rd_eq_getElem M j h2] at this

theorem rd_snoc_lt (L : List PointT) (p : PointT) (j : Nat) (h : j < L.length) :
    rd (L ++ [p]) j = rd L j := rd_append_left L [p] j h

theorem rd_snoc_eq (L : List PointT) (p : PointT) : rd (L ++ [p]) L.length = p := by
  rw [rd_append_right L [p] L.length (le_refl _), Nat.sub_self]
  rfl

/-! ### The upper chain of `mergeHull` is an upper hull -/

theorem HullOf.uhull {S : List PointT} {n : Nat} {HI : HullT} (h : HullOf S n HI) :
    UHull S n (HI.H.take (HI.nu + 1)) := by
  obtain ⟨hv, hfirst, hlast, hin, hmem, -⟩ := h
  have hnu := hv.nu_pos
  have hnl := hv.nl_pos
  have hlen : (HI.H.take (HI.nu + 1)).length = HI.nu + 1 := by
    rw [List.length_take, hv.len]
    omega
  refine ⟨by omega, ?_, ?_, ?_, ?_, ?_, ?_⟩
  · rw [rd_take _ _ _ (by omega), hfirst]
  · rw [hlen, Nat.add_sub_cancel, rd_take _ _ _ (by omega), hlast]
  · intro j hj
    rw [hlen] at hj
    rw [rd_take _ _ _ (by omega), rd_take _ _ _ (by omega)]
    exact hv.up j (by omega)
  · intro j hj
    rw [hlen] at hj
    rw [rd_take _ _ _ (by omega), rd_take _ _ _ (by omega), rd_take _ _ _ (by omega)]
    have := hv.turn (by omega) j (by omega)
    rwa [Nat.mod_eq_of_lt (show j + 1 < HI.nu + HI.nl by omega),
      Nat.mod_eq_of_lt (show j + 2 < HI.nu + HI.nl by omega)] at this
  · intro j hj k hk
    rw [hlen] at hj
    rw [rd_take _ _ _ (by omega), rd_take _ _ _ (by omega)]
    have := (hin k hk).1 j (by omega)
    rwa [Nat.mod_eq_of_lt (show j + 1 < HI.nu + HI.nl by omega)] at this
  · intro j hj
    rw [hlen] at hj
    rw [rd_take _ _ _ (by omega)]
    exact hmem j (by omega)

/-! ### The inner loop of the scan -/

/-- One run of the inner loop: starting from the live entries `L[0..t-1], p` it stops with live
entries `L[0..t'-1], p` where the last removal (if any) was justified and the stop is due to a
right turn (or to only two live entries). -/
theorem grahamPop_spec (L : List PointT) (p : PointT) :
    ∀ (fuel : Nat) (H : List PointT) (t : Nat), t ≤ fuel → 1 ≤ t → t ≤ L.length →
      t + 1 ≤ H.length → H.take (t + 1) = L.take t ++ [p] →
      (t = L.length ∨ ¬ RIGHT (rd L (t - 1)) (rd L t) p) →
      ∃ t', 1 ≤ t' ∧ t' ≤ t ∧ (grahamPop fuel H (t + 1)).2 = t' + 1 ∧
        (grahamPop fuel H (t + 1)).1.length = H.length ∧
        (grahamPop fuel H (t + 1)).1.take (t' + 1) = L.take t' ++ [p] ∧
        (t' = L.length ∨ ¬ RIGHT (rd L (t' - 1)) (rd L t') p) ∧
        (t' = 1 ∨ RIGHT (rd L (t' - 2)) (rd L (t' - 1)) p) := by
  intro fuel
  induction fuel with
  | zero => intro H t hf ht; omega
  | succ fuel ih =>
    intro H t hf ht htL hH hlive hlast
    have hlt : (L.take t).length = t := by rw [List.length_take]; omega
    have r : ∀ j, j < t → rd H j = rd L j := by
      intro j hj
      rw [← rd_take H (t + 1) j (by omega), hlive, rd_snoc_lt _ _ _ (by omega),
        rd_take _ _ _ hj]
    have rp : rd H t = p := by
      rw [← rd_take H (t + 1) t (by omega), hlive]
      have := rd_snoc_eq (L.take t) p
      rwa [hlt] at this
    rw [grahamPop]
    simp only [Nat.add_sub_cancel]
    split_ifs with hc
    · obtain ⟨hc1, hc2⟩ := hc
      have ht2 : 2 ≤ t := by omega
      rw [show t + 1 - 3 = t - 2 by omega, show t + 1 - 2 = t - 1 by omega, r _ (by omega),
        r _ (by omega), rp] at hc2
      have hlive2 : (H.set (t - 1) p).take (t - 1 + 1) = L.take (t - 1) ++ [p] := by
        have hl1 : (L.take (t - 1)).length = t - 1 := by rw [List.length_take]; omega
        refine list_eq_of_rd ?_ (fun j hj => ?_)
        · rw [List.length_take, List.length_set, List.length_append, hl1]
          simp only [List.length_singleton]
          omega
        · rw [List.length_take, List.length_set] at hj
          have hj' : j < t := by omega
          rw [rd_take _ _ _ (by omega)]
          rcases Nat.lt_or_ge j (t - 1) with c | c
          · rw [rd_set_ne _ _ _ _ (by omega), r j hj', rd_snoc_lt _ _ _ (by omega),
              rd_take _ _ _ c]
          · have e : j = t - 1 := by omega
            rw [e, rd_set_eq _ _ _ (by omega)]
            have := rd_snoc_eq (L.take (t - 1)) p
            rw [hl1] at this
            exact this.symm
      obtain ⟨t', h1, h2, h3, h4, h5, h6, h7⟩ := ih (H.set (t - 1) p) (t - 1) (by omega)
        (by omega) (by omega) (by rw [List.length_set]; omega) hlive2
        (Or.inr (by rwa [show t - 1 - 1 = t - 2 by omega]))
      rw [show t + 1 - 2 = t - 1 by omega, rp, show t - 1 + 1 = t by omega] at *
      refine ⟨t', h1, by omega, h3, ?_, h5, h6, h7⟩
      rw [h4, List.length_set]
    · refine ⟨t, ht, le_refl _, rfl, rfl, hlive, hlast, ?_⟩
      rcases Nat.lt_or_ge t 2 with c | c
      · left; omega
      · right
        have : ¬ ¬ RIGHT (rd H (t + 1 - 3)) (rd H (t + 1 - 2)) (rd H t) := by
          intro hn
          exact hc ⟨by omega, hn⟩
        rw [show t + 1 - 3 = t - 2 by omega, show t + 1 - 2 = t - 1 by omega, r _ (by omega),
          r _ (by omega), rp] at this
        exact not_not.1 this

/-! ### One step of the scan keeps the upper hull -/

section step

variable {S : List PointT} {i : Nat} {L : List PointT}

/-- The new point is strictly to the right of every kept edge. -/
theorem UHull.new_right (hs : SortedLex S) (hi : i < S.length) (hL : UHull S i L) {t : Nat}
    (ht : t ≤ L.length) (hr : RIGHT (rd L (t - 2)) (rd L (t - 1)) (rd S i)) :
    ∀ d, d + 2 ≤ t → AREA (rd L (t - 2 - d)) (rd L (t - 1 - d)) (rd S i) < 0 := by
  have hp : ∀ j, j < L.length → lexLt (rd L j) (rd S i) := by
    intro j hj
    obtain ⟨k, hk, e⟩ := hL.mem j hj
    rw [e]
    exact sorted_rd hs k i hk hi
  intro d
  induction d with
  | zero => intro _; exact hr
  | succ d ih =>
    intro hd
    have h := ih (by omega)
    have e1 : t - 2 - (d + 1) + 1 = t - 2 - d := by omega
    have e2 : t - 2 - (d + 1) + 2 = t - 1 - d := by omega
    have e3 : t - 1 - (d + 1) = t - 2 - d := by omega
    have i1 := hL.inc (t - 2 - (d + 1)) (by omega)
    have i2 := hL.inc (t - 2 - d) (by omega)
    have tn := hL.turn (t - 2 - (d + 1)) (by omega)
    rw [e1] at i1 tn
    rw [e2] at tn
    rw [show t - 2 - d + 1 = t - 1 - d by omega] at i2
    rw [e3]
    exact chain_down i1 i2 (hp _ (by omega)) tn (le_of_lt h)

/-- After the inner loop has stopped, the live entries are the upper hull of the first `i + 1`
points. -/
theorem UHull.step (hs : SortedLex S) (hi : i < S.length) (h2 : 2 ≤ i) (hL : UHull S i L)
    {t : Nat} (ht1 : 1 ≤ t) (ht : t ≤ L.length)
    (hlast : t = L.length ∨ ¬ RIGHT (rd L (t - 1)) (rd L t) (rd S i))
    (hstop : t = 1 ∨ RIGHT (rd L (t - 2)) (rd L (t - 1)) (rd S i)) :
    UHull S (i + 1) (L.take t ++ [rd S i]) := by
  have hlt : (L.take t).length = t := by rw [List.length_take]; omega
  have hlen : (L.take t ++ [rd S i]).length = t + 1 := by
    rw [List.length_append, hlt]; rfl
  have r : ∀ j, j < t → rd (L.take t ++ [rd S i]) j = rd L j := by
    intro j hj
    rw [rd_snoc_lt _ _ _ (by omega), rd_take _ _ _ hj]
  have rp : rd (L.take t ++ [rd S i]) t = rd S i := by
    have := rd_snoc_eq (L.take t) (rd S i)
    rwa [hlt] at this
  have hp : ∀ j, j < L.length → lexLt (rd L j) (rd S i) := by
    intro j hj
    obtain ⟨k, hk, e⟩ := hL.mem j hj
    rw [e]
    exact sorted_rd hs k i hk hi
  -- the old points behind the top are on or to the right of the new edge
  have hI : ∀ k, k < i → lexLe (rd L (t - 1)) (rd S k) →
      AREA (rd L (t - 1)) (rd S i) (rd S k) ≤ 0 := by
    intro k hk hle
    rcases Nat.lt_or_ge t L.length with htl | htl
    · have hnr : ¬ RIGHT (rd L (t - 1)) (rd L t) (rd S i) := by
        rcases hlast with e | e
        · omega
        · exact e
      have i1 := hL.inc (t - 1) (by omega)
      have s1 := hL.sup (t - 1) (by omega) k hk
      rw [show t - 1 + 1 = t by omega] at i1 s1
      exact pop_keep i1 (hp _ (by omega)) hle (by unfold RIGHT at hnr; omega) s1
    · have e : t = L.length := by omega
      have e1 : rd L (t - 1) = rd S (i - 1) := by rw [e, hL.last]
      rw [e1] at hle ⊢
      have hk' : k = i - 1 := by
        by_contra hne
        have := sorted_rd hs k (i - 1) (by omega) (by omega)
        exact lexLt_irrefl _ (lexLt_of_lt_of_le this hle)
      rw [hk']
      unfold AREA
      ring_nf
      exact le_refl _
  refine ⟨by omega, ?_, ?_, ?_, ?_, ?_, ?_⟩
  · rw [r 0 (by omega), hL.first]
  · rw [hlen, Nat.add_sub_cancel, rp, Nat.add_sub_cancel]
  · intro j hj
    rw [hlen] at hj
    rcases Nat.lt_or_ge (j + 1) t with c | c
    · rw [r j (by omega), r (j + 1) c]
      exact hL.inc j (by omega)
    · have e : j + 1 = t := by omega
      rw [r j (by omega), e, rp]
      exact hp j (by omega)
  · intro j hj
    rw [hlen] at hj
    rcases Nat.lt_or_ge (j + 2) t with c | c
    · rw [r j (by omega), r (j + 1) (by omega), r (j + 2) c]
      exact hL.turn j (by omega)
    · have e : j + 2 = t := by omega
      rw [r j (by omega), r (j + 1) (by omega), e, rp]
      rcases hstop with h1 | h1
      · omega
      · rwa [show t - 2 = j by omega, show t - 1 = j + 1 by omega] at h1
  · intro j hj k hk
    rw [hlen] at hj
    rcases Nat.lt_or_ge (j + 1) t with c | c
    · rw [r j (by omega), r (j + 1) c]
      rcases Nat.lt_or_ge k i with ck | ck
      · exact hL.sup j (by omega) k ck
      · have ek : k = i := by omega
        rw [ek]
        have hr : RIGHT (rd L (t - 2)) (rd L (t - 1)) (rd S i) := by
          rcases hstop with h1 | h1
          · omega
          · exact h1
        have := UHull.new_right hs hi hL ht hr (t - 2 - j) (by omega)
        rw [show t - 2 - (t - 2 - j) = j by omega,
          show t - 1 - (t - 2 - j) = j + 1 by omega] at this
        exact le_of_lt this
    · have e : j + 1 = t := by omega
      have ej : j = t - 1 := by omega
      rw [r j (by omega), e, rp, ej]
      rcases Nat.lt_or_ge k i with ck | ck
      · rcases lex_total (rd L (t - 1)) (rd S k) with c1 | c1 | c1
        · exact hI k ck (Or.inl c1)
        · exact hI k ck (Or.inr c1)
        · -- the old point is before the top: the stop was a right turn
          have ht2 : 2 ≤ t := by
            by_contra hcon
            have e1 : t - 1 = 0 := by omega
            rw [e1, hL.first] at c1
            rcases Nat.eq_zero_or_pos k with z | z
            · rw [z] at c1; exact lexLt_irrefl _ c1
            · exact lexLt_asymm c1 (sorted_rd hs 0 k z (by omega))
          have hr : RIGHT (rd L (t - 2)) (rd L (t - 1)) (rd S i) := by
            rcases hstop with h1 | h1
            · omega
            · exact h1
          have i1 := hL.inc (t - 2) (by omega)
          have s1 := hL.sup (t - 2) (by omega) k ck
          rw [show t - 2 + 1 = t - 1 by omega] at i1 s1
          exact exit_left c1 i1 (hp _ (by omega)) s1 hr
      · have ek : k = i := by omega
        rw [ek]
        unfold AREA
        ring_nf
        exact le_refl _
  · intro j hj
    rw [hlen] at hj
    rcases Nat.lt_or_ge j t with c | c
    · rw [r j c]
      obtain ⟨k, hk, e⟩ := hL.mem j (by omega)
      exact ⟨k, by omega, e⟩
    · have e : j = t := by omega
      rw [e, rp]
      exact ⟨i, by omega, rfl⟩

end step

/-! ### The scan computes the upper hull -/

theorem grahamLoop_spec {S : List PointT} (hs : SortedLex S) (n : Nat) (hn : n ≤ S.length) :
    ∀ (fuel i : Nat) (H : List PointT) (m : Nat), n - i ≤ fuel → 2 ≤ i → i ≤ n →
      H.length = n → m ≤ i → UHull S i (H.take m) →
      UHull S n ((grahamLoop S n fuel i H m).1.take (grahamLoop S n fuel i H m).2) := by
  intro fuel
  induction fuel with
  | zero =>
    intro i H m hf _ hi _ _ hU
    have e : i = n := by omega
    rw [grahamLoop, ← e]
    exact hU
  | succ fuel ih =>
    intro i H m hf h2 hi hH hm hU
    rw [grahamLoop]
    split_ifs with hlt
    · have hLlen : (H.take m).length = m := by rw [List.length_take, hH]; omega
      have hm2 : 2 ≤ m := by have := hU.len; omega
      have hlive : (H.set m (rd S i)).take (m + 1) = (H.take m).take m ++ [rd S i] := by
        have e : (H.take m).take m = H.take m := by rw [List.take_take, Nat.min_self]
        rw [e]
        refine list_eq_of_rd ?_ (fun j hj => ?_)
        · rw [List.length_take, List.length_set, List.length_append, hLlen, hH]
          simp only [List.length_singleton]
          omega
        · rw [List.length_take, List.length_set, hH] at hj
          have hj' : j < m + 1 := by omega
          rw [rd_take _ _ _ hj']
          rcases Nat.lt_or_ge j m with c | c
          · rw [rd_set_ne _ _ _ _ (by omega), rd_snoc_lt _ _ _ (by omega), rd_take _ _ _ c]
          · have ej : j = m := by omega
            rw [ej, rd_set_eq _ _ _ (by omega)]
            have := rd_snoc_eq (H.take m) (rd S i)
            rw [hLlen] at this
            exact this.symm
      obtain ⟨t', h1, h2', h3, h4, h5, h6, h7⟩ := grahamPop_spec (H.take m) (rd S i) (m + 1)
        (H.set m (rd S i)) m (by omega) (by omega) (by omega)
        (by rw [List.length_set]; omega) hlive (Or.inl hLlen.symm)
      have hstep := UHull.step hs (by omega) h2 hU h1 (by omega) h6 h7
      rw [← h5, ← h3] at hstep
      exact ih (i + 1) _ _ (by omega) (by omega) (by omega)
        (by rw [h4, List.length_set, hH]) (by omega) hstep
    · have e : i = n := by omega
      rw [← e]
      exact hU

theorem UHull.two {S : List PointT} (hs : SortedLex S) (h2 : 2 ≤ S.length) :
    UHull S 2 [rd S 0, rd S 1] := by
  refine ⟨le_refl _, rfl, rfl, ?_, ?_, ?_, ?_⟩
  · intro j hj
    have e : j = 0 := by simp only [List.length_cons, List.length_nil] at hj; omega
    rw [e]
    exact sorted_rd hs 0 1 (by omega) (by omega)
  · intro j hj
    simp only [List.length_cons, List.length_nil] at hj
    omega
  · intro j hj k hk
    have e : j = 0 := by simp only [List.length_cons, List.length_nil] at hj; omega
    rw [e]
    show AREA (rd S 0) (rd S 1) (rd S k) ≤ 0
    have hk' : k = 0 ∨ k = 1 := by omega
    rcases hk' with z | z <;> rw [z] <;> unfold AREA <;> ring_nf <;> exact le_refl _
  · intro j hj
    simp only [List.length_cons, List.length_nil] at hj
    have hj' : j = 0 ∨ j = 1 := by omega
    rcases hj' with z | z
    · exact ⟨0, by omega, by rw [z]; rfl⟩
    · exact ⟨1, by omega, by rw [z]; rfl⟩

theorem grahamScan_uhull {S : List PointT} (hs : SortedLex S) (h2 : 2 ≤ S.length) :
    UHull S S.length (grahamScan S S.length) := by
  unfold grahamScan
  refine grahamLoop_spec hs S.length (le_refl _) S.length 2 _ 2 (by omega) (le_refl _) h2
    (by simp) (le_refl _) ?_
  have e : (((List.replicate S.length default).set 0 (rd S 0)).set 1 (rd S 1)).take 2
      = [rd S 0, rd S 1] := by
    refine list_eq_of_rd ?_ (fun j hj => ?_)
    · simp only [List.length_take, List.length_set, List.length_replicate, List.length_cons,
        List.length_nil]
      omega
    · simp only [List.length_take, List.length_set, List.length_replicate] at hj
      have hj2 : j < 2 := by omega
      rw [rd_take _ _ _ hj2]
      have hj' : j = 0 ∨ j = 1 := by omega
      rcases hj' with z | z
      · rw [z, rd_set_ne _ _ _ _ (by omega), rd_set_eq _ _ _ (by simp; omega)]
        rfl
      · rw [z, rd_set_eq _ _ _ (by simp; omega)]
        rfl
  rw [e]
  exact UHull.two hs h2

/-- Agreement with the Graham scan, both on exact integers: for a sorted input of at least two points with
pairwise distinct coordinates, the entries at indices `0 .. nu` of the hull of `mergeHull` are
exactly the entries `H[0 .. m-1]` that the scan loop of grahamScan.c leaves on the same
input. -/
theorem mergeHull_eq_grahamScan (S : List PointT) (hn : 2 ≤ S.length) (hs : SortedLex S) :
    (mergeHull S S.length).H.take ((mergeHull S S.length).nu + 1) = grahamScan S S.length :=
  UHull.unique hs (le_refl _) (mergeHull_hullOf hn hs).uhull (grahamScan_uhull hs hn)

theorem mergeHull_eq_grahamScan_witness :
    2 ≤ [pt 0 0, pt 1 3, pt 2 1, pt 3 4, pt 4 4, pt 5 (-2), pt 6 0].length ∧
    SortedLex [pt 0 0, pt 1 3, pt 2 1, pt 3 4, pt 4 4, pt 5 (-2), pt 6 0] ∧
    (mergeHull [pt 0 0, pt 1 3, pt 2 1, pt 3 4, pt 4 4, pt 5 (-2), pt 6 0] 7).H.take
        ((mergeHull [pt 0 0, pt 1 3, pt 2 1, pt 3 4, pt 4 4, pt 5 (-2), pt 6 0] 7).nu + 1)
      = grahamScan [pt 0 0, pt 1 3, pt 2 1, pt 3 4, pt 4 4, pt 5 (-2), pt 6 0] 7 ∧
    grahamScan [pt 0 0, pt 1 3, pt 2 1, pt 3 4, pt 4 4, pt 5 (-2), pt 6 0] 7
      = [pt 0 0, pt 1 3, pt 3 4, pt 4 4, pt 6 0] :=
  ⟨by decide, by decide,
    mergeHull_eq_grahamScan [pt 0 0, pt 1 3, pt 2 1, pt 3 4, pt 4 4, pt 5 (-2), pt 6 0]
      (by decide) (by decide),
    by decide⟩

/-! ### Duplicate coordinates -/

/-- Coinciding points are kept: the two points `(0,0)` with identities `0` and `1` are sorted
and have unique identities, and `mergeHull` returns both of them. -/
theorem mergeHull_duplicates_counterexample :
    SortedLe [⟨0, 0, 0⟩, ⟨1, 0, 0⟩] ∧ UniqueNum [⟨0, 0, 0⟩, ⟨1, 0, 0⟩] ∧
    2 ≤ [(⟨0, 0, 0⟩ : PointT), ⟨1, 0, 0⟩].length ∧
    mergeHull [⟨0, 0, 0⟩, ⟨1, 0, 0⟩] 2 = ⟨[⟨0, 0, 0⟩, ⟨1, 0, 0⟩], 1, 1⟩ ∧
    ¬ NoDupCoords (mergeHull [⟨0, 0, 0⟩, ⟨1, 0, 0⟩] 2) := by
  decide

/-- Joining two chains that each consist of two coinciding points keeps the first point of the
left and the second point of the right chain. -/
theorem joinHulls_deg (a b c d : PointT) (hab : CoordEq a b) (hcd : CoordEq c d) :
    joinHulls ⟨[a, b], 1, 1⟩ ⟨[c, d], 1, 1⟩ = ⟨[a, d], 1, 1⟩ := by
  obtain ⟨na, ax, ay⟩ := a
  obtain ⟨nb, bx, bepsilon⟩ := b
  obtain ⟨nc, cx, cy⟩ := c
  obtain ⟨nd, dx, dy⟩ := d
  obtain ⟨h1, h2⟩ := hab
  obtain ⟨h3, h4⟩ := hcd
  simp only at h1 h2 h3 h4
  subst h1 h2 h3 h4
  simp [joinHulls, joinUpperLoop, joinLowerLoop, findTangent, tangentUpperLoop,
    tangentLowerLoop, assemble, copyRange, rd, RIGHT, LEFT, AREA, List.range, List.range.loop]

theorem AREA_coincide {a b c : PointT} (hab : CoordEq a b) : AREA a b c = 0 := by
  unfold AREA
  rw [hab.1, hab.2]
  ring

/-- When all of the first `n` points coincide, the hull consists of the first and the last of
them. -/
theorem mergeHullAux_coincide : ∀ (fuel : Nat) (S : List PointT) (n : Nat), n ≤ fuel → 2 ≤ n →
    (∀ i, i < n → CoordEq (rd S 0) (rd S i)) →
    mergeHullAux fuel S n = ⟨[rd S 0, rd S (n - 1)], 1, 1⟩ := by
  intro fuel
  induction fuel with
  | zero => intro S n hf h2; omega
  | succ fuel ih =>
    intro S n hf h2 hall
    rw [mergeHullAux]
    split_ifs with h3
    · unfold mergeHullBase
      split_ifs with e2 hr hl
      · rw [e2]
      · exfalso
        unfold RIGHT at hr
        rw [AREA_coincide (hall 1 (by omega))] at hr
        exact lt_irrefl _ hr
      · exfalso
        unfold LEFT at hl
        rw [AREA_coincide (hall 1 (by omega))] at hl
        exact lt_irrefl _ hl
      · rw [show n - 1 = 2 by omega]
    · have c0 : ∀ i, i < n → ∀ j, j < n → CoordEq (rd S i) (rd S j) := by
        intro i hi j hj
        have a := hall i hi
        have b := hall j hj
        exact ⟨a.1.symm.trans b.1, a.2.symm.trans b.2⟩
      have e1 := ih S (n / 2) (by omega) (by omega) (fun i hi => hall i (by omega))
      have e2 := ih (S.drop (n / 2)) (n - n / 2) (by omega) (by omega) (by
        intro i hi
        rw [rd_drop, rd_drop]
        exact c0 _ (by omega) _ (by omega))
      simp only [e1, e2]
      rw [rd_drop, rd_drop, joinHulls_deg _ _ _ _ (c0 _ (by omega) _ (by omega))
        (c0 _ (by omega) _ (by omega))]
      congr 3
      congr 1
      omega

/-! ### Strict convexity at the extreme vertices -/

namespace Valid

variable {HI : HullT}

/-- The first vertex is strictly to the right of every edge of the upper chain that does not
start at it. -/
theorem first_strict_upper (hv : Valid HI) (t : Nat) (h2 : 2 ≤ t) (ht : t ≤ HI.nu) :
    AREA (rd HI.H 0) (rd HI.H (t - 1)) (rd HI.H t) < 0 := by
  have hnl := hv.nl_pos
  have c0 := hv.cvx (t - 1) 0 (by omega) (by omega)
  rw [show t - 1 + 1 = t by omega, Nat.mod_eq_of_lt (by omega : t < HI.nu + HI.nl)] at c0
  rcases Nat.lt_or_ge t 3 with h3 | h3
  · have e : t = 2 := by omega
    subst e
    have := hv.turn (by omega) 0 (by omega)
    rwa [Nat.mod_eq_of_lt (by omega : 0 + 1 < HI.nu + HI.nl),
      Nat.mod_eq_of_lt (by omega : 0 + 2 < HI.nu + HI.nl)] at this
  · by_contra hcon
    push_neg at hcon
    have tn := hv.turn (by omega) (t - 2) (by omega)
    rw [show t - 2 + 1 = t - 1 by omega, show t - 2 + 2 = t by omega,
      Nat.mod_eq_of_lt (by omega : t - 1 < HI.nu + HI.nl),
      Nat.mod_eq_of_lt (by omega : t < HI.nu + HI.nl)] at tn
    have c1 := hv.cvx (t - 2) 0 (by omega) (by omega)
    rw [show t - 2 + 1 = t - 1 by omega,
      Nat.mod_eq_of_lt (by omega : t - 1 < HI.nu + HI.nl)] at c1
    have l1 : lexLt (rd HI.H (t - 2)) (rd HI.H (t - 1)) :=
      hv.up_lt (t - 1) (t - 2) (by omega) (by omega)
    have l2 : lexLt (rd HI.H (t - 1)) (rd HI.H t) := hv.up_lt t (t - 1) (by omega) ht
    have l3 : lexLt (rd HI.H 0) (rd HI.H (t - 1)) := hv.up_lt (t - 1) 0 (by omega) (by omega)
    have key := vc_trans_lt_le l1 l2 l3
      (by unfold AREA at tn; unfold vc cr; linarith)
      (by unfold AREA at hcon c0; unfold vc cr; linarith)
    unfold vc cr at key
    unfold AREA at c1
    linarith

/-- The first vertex is strictly to the right of every edge of the lower chain that does not
end at it. -/
theorem first_strict_lower (hv : Valid HI) (t : Nat) (h1 : HI.nu ≤ t)
    (ht : t + 1 < HI.nu + HI.nl) :
    0 < AREA (rd HI.H 0) (rd HI.H (t + 1)) (rd HI.H t) := by
  have hnu := hv.nu_pos
  have c0 := hv.cvx t 0 (by omega) (by omega)
  rw [Nat.mod_eq_of_lt ht] at c0
  rcases Nat.lt_or_ge (t + 2) (HI.nu + HI.nl) with h3 | h3
  · by_contra hcon
    push_neg at hcon
    have tn := hv.turn (by omega) t (by omega)
    rw [Nat.mod_eq_of_lt ht, Nat.mod_eq_of_lt h3] at tn
    have c1 := hv.cvx (t + 1) 0 (by omega) (by omega)
    rw [show t + 1 + 1 = t + 2 by omega, Nat.mod_eq_of_lt h3] at c1
    have l1 : lexLt (rd HI.H (t + 1)) (rd HI.H t) := by
      have := hv.lo_lt (t + 1) t h1 (by omega) (by omega)
      rwa [Nat.mod_eq_of_lt ht] at this
    have l2 : lexLt (rd HI.H (t + 2)) (rd HI.H (t + 1)) := by
      have := hv.lo_lt (t + 2) (t + 1) (by omega) (by omega) (by omega)
      rwa [Nat.mod_eq_of_lt h3] at this
    have l3 : lexLt (rd HI.H 0) (rd HI.H (t + 1)) := hv.first_lt (t + 1) (by omega) ht
    have key := vc_trans_le_lt l3 l1 l2
      (by unfold AREA at hcon c0; unfold vc cr; linarith)
      (by unfold AREA at tn; unfold vc cr; linarith)
    unfold vc cr at key
    unfold AREA at c1
    linarith
  · have tn := hv.turn (by omega) t (by omega)
    rw [Nat.mod_eq_of_lt ht, show t + 2 = HI.nu + HI.nl by omega, Nat.mod_self] at tn
    unfold AREA at tn ⊢
    linarith

/-- The last vertex of the upper chain is strictly to the right of every edge of the upper
chain that does not end at it. -/
theorem last_strict_upper (hv : Valid HI) (p : Nat) (hp : p + 1 < HI.nu) :
    AREA (rd HI.H p) (rd HI.H (p + 1)) (rd HI.H HI.nu) < 0 := by
  have hnl := hv.nl_pos
  have c0 := hv.cvx p HI.nu (by omega) (by omega)
  rw [Nat.mod_eq_of_lt (by omega : p + 1 < HI.nu + HI.nl)] at c0
  have tn := hv.turn (by omega) p (by omega)
  rw [Nat.mod_eq_of_lt (by omega : p + 1 < HI.nu + HI.nl),
    Nat.mod_eq_of_lt (by omega : p + 2 < HI.nu + HI.nl)] at tn
  rcases Nat.lt_or_ge (p + 2) HI.nu with h3 | h3
  · by_contra hcon
    push_neg at hcon
    have c1 := hv.cvx (p + 1) HI.nu (by omega) (by omega)
    rw [show p + 1 + 1 = p + 2 by omega,
      Nat.mod_eq_of_lt (by omega : p + 2 < HI.nu + HI.nl)] at c1
    have l1 : lexLt (rd HI.H p) (rd HI.H (p + 1)) := hv.up_lt (p + 1) p (by omega) (by omega)
    have l2 : lexLt (rd HI.H (p + 1)) (rd HI.H (p + 2)) :=
      hv.up_lt (p + 2) (p + 1) (by omega) (by omega)
    have l3 : lexLt (rd HI.H (p + 1)) (rd HI.H HI.nu) :=
      hv.up_lt HI.nu (p + 1) (by omega) (le_refl _)
    have key := vc_trans_le_lt l3 l1 l2
      (by unfold AREA at hcon c0; unfold vc cr; linarith)
      (by unfold AREA at tn; unfold vc cr; linarith)
    unfold vc cr at key
    unfold AREA at c1
    linarith
  · rwa [show p + 2 = HI.nu by omega] at tn

/-- The last vertex of the upper chain is strictly to the right of every edge of the lower
chain that does not start at it. -/
theorem last_strict_lower (hv : Valid HI) (t : Nat) (h1 : HI.nu + 1 < t)
    (ht : t ≤ HI.nu + HI.nl) :
    0 < AREA (rd HI.H (t % (HI.nu + HI.nl))) (rd HI.H (t - 1)) (rd HI.H HI.nu) := by
  have hnu := hv.nu_pos
  have c0 := hv.cvx (t - 1) HI.nu (by omega) (by omega)
  rw [show t - 1 + 1 = t by omega] at c0
  have tn := hv.turn (by omega) (t - 2) (by omega)
  rw [show t - 2 + 1 = t - 1 by omega, show t - 2 + 2 = t by omega,
    Nat.mod_eq_of_lt (by omega : t - 1 < HI.nu + HI.nl)] at tn
  rcases Nat.lt_or_ge (HI.nu + 2) t with h3 | h3
  · by_contra hcon
    push_neg at hcon
    have c1 := hv.cvx (t - 2) HI.nu (by omega) (by omega)
    rw [show t - 2 + 1 = t - 1 by omega,
      Nat.mod_eq_of_lt (by omega : t - 1 < HI.nu + HI.nl)] at c1
    have l1 : lexLt (rd HI.H (t - 1)) (rd HI.H (t - 2)) := by
      have := hv.lo_lt (t - 1) (t - 2) (by omega) (by omega) (by omega)
      rwa [Nat.mod_eq_of_lt (by omega : t - 1 < HI.nu + HI.nl)] at this
    have l2 : lexLt (rd HI.H (t % (HI.nu + HI.nl))) (rd HI.H (t - 1)) :=
      hv.lo_lt t (t - 1) (by omega) (by omega) ht
    have l3 : lexLt (rd HI.H (t - 1)) (rd HI.H HI.nu) :=
      hv.lt_last (t - 1) (by omega) (by omega)
    have key := vc_trans_lt_le l1 l2 l3
      (by unfold AREA at tn; unfold vc cr; linarith)
      (by unfold AREA at hcon c0; unfold vc cr; linarith)
    unfold vc cr at key
    unfold AREA at c1
    linarith
  · rw [show t - 2 = HI.nu by omega] at tn
    unfold AREA at tn ⊢
    linarith

end Valid

/-- Validity of a hull chain depends on the coordinates of its entries only. -/
theorem Valid.congr {HI HI' : HullT} (hv : Valid HI) (hnu : HI'.nu = HI.nu)
    (hnl : HI'.nl = HI.nl) (hlen : HI'.H.length = HI'.nu + HI'.nl)
    (h : ∀ k, k < HI.nu + HI.nl → CoordEq (rd HI.H k) (rd HI'.H k)) : Valid HI' := by
  have hn := hv.n_pos
  refine ⟨by rw [hnu]; exact hv.nu_pos, by rw [hnl]; exact hv.nl_pos, hlen, ?_, ?_, ?_, ?_⟩
  · intro i hi
    rw [hnu] at hi
    have hnl' := hv.nl_pos
    exact lexLt_congr_l (h i (by omega)) (lexLt_congr_r (h (i + 1) (by omega)) (hv.up i hi))
  · intro i hi1 hi2
    rw [hnu, hnl] at *
    exact lexLt_congr_l (h _ (Nat.mod_lt _ hn)) (lexLt_congr_r (h i hi2) (hv.lo i hi1 hi2))
  · intro i j hi hj
    rw [hnu, hnl] at *
    rw [← AREA_coord (h i hi) (h _ (Nat.mod_lt _ hn)) (h j hj)]
    exact hv.cvx i j hi hj
  · intro h3 i hi
    rw [hnu, hnl] at *
    rw [← AREA_coord (h i hi) (h _ (Nat.mod_lt _ hn)) (h _ (Nat.mod_lt _ hn))]
    exact hv.turn h3 i hi

/-! ### Joining a chain of two coinciding points with a hull on its right -/

/-- On a left chain of two coinciding points both searches of `joinHulls` end at its first
point. -/
theorem joinHulls_degL (a b : PointT) (hab : CoordEq a b) (HI2 : HullT) :
    joinHulls ⟨[a, b], 1, 1⟩ HI2
      = assemble ⟨[a, b], 1, 1⟩ HI2 0 (findTangent a HI2 1) 0 (findTangent a HI2 0) := by
  have e0 : ∀ q, AREA a b q = 0 := fun q => AREA_eq_left hab q
  simp [joinHulls, joinUpperLoop, joinLowerLoop, RIGHT, LEFT, rd, e0]

/-- With both tangent points of the left chain at its first entry, the merged chain reads the
left chain at that entry only. -/
theorem assemble_left_zero (X Y HI2 : HullT) (qu ql : Nat) (h : rd X.H 0 = rd Y.H 0) :
    assemble X HI2 0 qu 0 ql = assemble Y HI2 0 qu 0 ql := by
  simp [assemble, copyRange, h]

/-- The tangent indices found from a single point `a` on the left of a hull, together with a
second point `z` on the side of both tangent lines away from the hull, satisfy the stopping
conditions of the searches of `joinHulls` on the chain `a, z`. -/
theorem bridges_point_left {HI2 : HullT} (a z : PointT) (tq : Nat) (hnl : 1 ≤ HI2.nl)
    (h1 : ¬ RIGHT a z (rd HI2.H (findTangent a HI2 1)))
    (h2 : ¬ LEFT a z (rd HI2.H (tq % (HI2.nu + HI2.nl))))
    (t1 : HI2.nu ≤ tq) (t2 : tq ≤ HI2.nu + HI2.nl)
    (t3 : tq = HI2.nu ∨ LEFT a (rd HI2.H (tq % (HI2.nu + HI2.nl))) (rd HI2.H (tq - 1)))
    (t4 : tq = HI2.nu + HI2.nl ∨
      ¬ LEFT a (rd HI2.H ((tq + 1) % (HI2.nu + HI2.nl))) (rd HI2.H tq)) :
    Bridges ⟨[a, z], 1, 1⟩ HI2 0 (findTangent a HI2 1) 2 tq := by
  obtain ⟨q0, q1, q2⟩ := findTangent_upper_local a HI2 hnl
  have r0 : rd [a, z] 0 = a := rfl
  have r1 : rd [a, z] 1 = z := rfl
  refine ⟨Nat.zero_le _, Or.inl rfl, Or.inr ?_, q0, q1, q2, ?_, ?_, Or.inr ?_, Or.inl rfl,
    t1, t2, ?_, ?_⟩
  · simpa only [Nat.zero_add, r0, r1] using h1
  · show 1 ≤ 2
    omega
  · show 2 ≤ 1 + 1
    omega
  · simpa only [Nat.reduceAdd, Nat.mod_self, Nat.reduceSub, r0, r1] using h2
  · simpa only [Nat.reduceAdd, Nat.mod_self, r0] using t3
  · simpa only [Nat.reduceAdd, Nat.mod_self, r0] using t4

/-- The first entry and the last entry of the upper chain of a merged chain. -/
theorem asm_first_last {HI1 HI2 : HullT} {pu qu tl tq : Nat}
    (hb : Bridges HI1 HI2 pu qu tl tq) (hv1 : Valid HI1) (hv2 : Valid HI2) :
    rd (assemble HI1 HI2 pu qu (tl % (HI1.nu + HI1.nl)) (tq % (HI2.nu + HI2.nl))).H 0
      = rd HI1.H 0 ∧
    rd (assemble HI1 HI2 pu qu (tl % (HI1.nu + HI1.nl)) (tq % (HI2.nu + HI2.nl))).H
        (assemble HI1 HI2 pu qu (tl % (HI1.nu + HI1.nl)) (tq % (HI2.nu + HI2.nl))).nu
      = rd HI2.H HI2.nu := by
  have hqu := hb.qu_le
  have htq := hb.tq_ge
  have hnl := hv2.nl_pos
  refine ⟨asm_at1 _ _ _ _ _ _ 0 (Nat.zero_le _), ?_⟩
  rw [asm_nu, asm_at2 hb hv1 hv2 (pu + 1 + (HI2.nu - qu)) HI2.nu hqu htq rfl,
    Nat.mod_eq_of_lt (by omega)]

/-- Joining two coinciding points `a`, `b` with a valid hull on their right (whose first vertex
may coincide with them) gives a valid hull that starts at `a` and whose upper chain ends where
the upper chain of the right hull ends. -/
theorem joinHulls_degL_spec {a b : PointT} (hab : CoordEq a b) {HI2 : HullT} (hv2 : Valid HI2)
    (hsep : lexLe a (rd HI2.H 0)) :
    Valid (joinHulls ⟨[a, b], 1, 1⟩ HI2) ∧
    rd (joinHulls ⟨[a, b], 1, 1⟩ HI2).H 0 = a ∧
    rd (joinHulls ⟨[a, b], 1, 1⟩ HI2).H (joinHulls ⟨[a, b], 1, 1⟩ HI2).nu
      = rd HI2.H HI2.nu := by
  have hnu := hv2.nu_pos
  have hnl := hv2.nl_pos
  obtain ⟨tq, t1, t2, e, t3, t4⟩ := findTangent_lower_local a HI2
  obtain ⟨q0, q1, q2⟩ := findTangent_upper_local a HI2 hnl
  have key : ∀ z, joinHulls ⟨[a, b], 1, 1⟩ HI2
      = assemble ⟨[a, z], 1, 1⟩ HI2 0 (findTangent a HI2 1)
          (2 % ((⟨[a, z], 1, 1⟩ : HullT).nu + (⟨[a, z], 1, 1⟩ : HullT).nl))
          (tq % (HI2.nu + HI2.nl)) := by
    intro z
    have e2 : 2 % ((⟨[a, z], 1, 1⟩ : HullT).nu + (⟨[a, z], 1, 1⟩ : HullT).nl) = 0 := by
      show 2 % (1 + 1) = 0
      rfl
    rw [joinHulls_degL a b hab HI2, e, e2]
    exact assemble_left_zero ⟨[a, b], 1, 1⟩ ⟨[a, z], 1, 1⟩ HI2 _ _ rfl
  rcases hsep with hlt | heq
  · -- the points are strictly on the left of the hull
    have s1 := findTangent_upper_tangent hv2 (lexLe_of_lt hlt) (hv2.vertex_inside 0 hv2.n_pos)
    have s2 := hv2.tangent_lower (lexLe_of_lt hlt) t1 t2 t3 t4 (hv2.vertex_inside 0 hv2.n_pos)
    have hb := bridges_point_left a (rd HI2.H 0) tq hnl
      (by unfold RIGHT; rw [AREA_swap]; omega) (by unfold LEFT; rw [AREA_swap]; omega)
      t1 t2 t3 t4
    have hvV : Valid ⟨[a, rd HI2.H 0], 1, 1⟩ := valid_two hlt
    rw [key (rd HI2.H 0)]
    obtain ⟨f, l⟩ := asm_first_last hb hvV hv2
    exact ⟨asm_valid hb hvV hv2 (lexLe_refl _), f, l⟩
  · -- the points coincide with the first vertex of the hull
    have hz : lexLt a (rd HI2.H 1) := lexLt_congr_l ⟨heq.1.symm, heq.2.symm⟩
      (hv2.first_lt 1 (by omega) (by omega))
    have equ : findTangent a HI2 1 = 1 := by
      rcases Nat.lt_or_ge (findTangent a HI2 1) 2 with h | h
      · rcases Nat.eq_zero_or_pos (findTangent a HI2 1) with h0 | h0
        · exfalso
          rw [h0] at q2
          rcases q2 with h' | h'
          · omega
          · unfold RIGHT at h'
            rw [AREA_eq_left heq] at h'
            exact lt_irrefl _ h'
        · omega
      · exfalso
        rcases q1 with h' | h'
        · omega
        · apply h'
          unfold RIGHT
          rw [AREA_congr_1 heq]
          exact hv2.first_strict_upper _ h q0
    have etq : tq + 1 = HI2.nu + HI2.nl := by
      rcases Nat.lt_or_ge (tq + 1) (HI2.nu + HI2.nl) with h | h
      · exfalso
        rcases t4 with h' | h'
        · omega
        · apply h'
          unfold LEFT
          rw [Nat.mod_eq_of_lt h, AREA_congr_1 heq]
          exact hv2.first_strict_lower tq t1 h
      · rcases Nat.lt_or_ge tq (HI2.nu + HI2.nl) with h2 | h2
        · omega
        · exfalso
          have e2 : tq = HI2.nu + HI2.nl := by omega
          rw [e2, Nat.mod_self] at t3
          rcases t3 with h' | h'
          · omega
          · unfold LEFT at h'
            rw [AREA_eq_left heq] at h'
            exact lt_irrefl _ h'
    have c1 := hv2.cvx 0 tq (by omega) (by omega)
    rw [Nat.mod_eq_of_lt (by omega : 0 + 1 < HI2.nu + HI2.nl)] at c1
    have hb := bridges_point_left a (rd HI2.H 1) tq hnl
      (by rw [equ]; unfold RIGHT; rw [AREA_self_right]; exact lt_irrefl _)
      (by
        unfold LEFT
        rw [Nat.mod_eq_of_lt (by omega), AREA_congr_1 heq]
        simpa using c1)
      t1 t2 t3 t4
    have hvV : Valid ⟨[a, rd HI2.H 1], 1, 1⟩ := valid_two hz
    rw [key (rd HI2.H 1)]
    obtain ⟨f, l⟩ := asm_first_last hb hvV hv2
    refine ⟨hv2.congr ?_ ?_ ?_ ?_, f, l⟩
    · rw [asm_nu, equ]
      omega
    · rw [asm_nl hb hvV hv2]
      show tq + 1 - HI2.nu + (1 + 1 - 2) = HI2.nl
      omega
    · rw [asm_len hb hvV hv2, asm_nu, asm_nl hb hvV hv2]
    · intro k hk
      rw [asm_rd hb hvV hv2 k (by
        show k < 0 + (tq + 1 - findTangent a HI2 1) + 1 + (1 + 1 - 2)
        rw [equ]
        omega)]
      rcases Nat.eq_zero_or_pos k with h0 | h0
      · subst h0
        rw [if_pos (le_refl _)]
        exact ⟨heq.1.symm, heq.2.symm⟩
      · rw [if_neg (by omega), if_pos (by rw [equ]; omega), equ,
          show 1 + (k - 0 - 1) = k by omega, Nat.mod_eq_of_lt hk]
        exact ⟨rfl, rfl⟩

/-! ### Joining a hull with a chain of two coinciding points on its right -/

/-- On a chain of two coinciding points both branches of `findTangent` return its second
point. -/
theorem findTangent_degR (c d : PointT) (hcd : CoordEq c d) (p : PointT) :
    findTangent p ⟨[c, d], 1, 1⟩ 1 = 1 ∧ findTangent p ⟨[c, d], 1, 1⟩ 0 = 1 := by
  have e0 : AREA p c d = 0 := AREA_eq_right p hcd
  constructor <;>
    simp [findTangent, tangentUpperLoop, tangentLowerLoop, RIGHT, LEFT, rd, e0]

/-- With both tangent points of the right chain at its entry `1`, where its upper chain ends,
the merged chain reads the right chain at that entry only. -/
theorem assemble_right_one (HI1 : HullT) (c z d : PointT) (pu pl : Nat) :
    assemble HI1 ⟨[c, d], 1, 1⟩ pu 1 pl 1 = assemble HI1 ⟨[z, d], 1, 1⟩ pu 1 pl 1 := by
  simp [assemble, copyRange, rd]

/-- The searches of `joinHulls` against a right chain of two coinciding points `c`, `d` end at
indices of the left hull that satisfy the stopping conditions with respect to `d`. -/
theorem joinHulls_degR (HI1 : HullT) (hnu : 1 ≤ HI1.nu) (hnl : 1 ≤ HI1.nl) (c d : PointT)
    (hcd : CoordEq c d) :
    ∃ pu tl, pu ≤ HI1.nu ∧
      (pu = 0 ∨ RIGHT (rd HI1.H (pu - 1)) (rd HI1.H pu) d) ∧
      (pu = HI1.nu ∨ ¬ RIGHT (rd HI1.H pu) (rd HI1.H (pu + 1)) d) ∧
      HI1.nu ≤ tl ∧ tl ≤ HI1.nu + HI1.nl ∧
      (tl = HI1.nu ∨ ¬ LEFT (rd HI1.H (tl % (HI1.nu + HI1.nl))) (rd HI1.H (tl - 1)) d) ∧
      (tl = HI1.nu + HI1.nl ∨
        LEFT (rd HI1.H ((tl + 1) % (HI1.nu + HI1.nl))) (rd HI1.H tl) d) ∧
      joinHulls HI1 ⟨[c, d], 1, 1⟩
        = assemble HI1 ⟨[c, d], 1, 1⟩ pu 1 (tl % (HI1.nu + HI1.nl)) 1 := by
  have f1 : ∀ p, findTangent p ⟨[c, d], 1, 1⟩ 1 = 1 := fun p => (findTangent_degR c d hcd p).1
  have f0 : ∀ p, findTangent p ⟨[c, d], 1, 1⟩ 0 = 1 := fun p => (findTangent_degR c d hcd p).2
  have r1 : rd (⟨[c, d], 1, 1⟩ : HullT).H 1 = d := rfl
  obtain ⟨pu, eu, _, hpu, cu1, cu2⟩ := joinUpperLoop_spec HI1 ⟨[c, d], 1, 1⟩
    (by intro m _ _ h; rw [f1] at h ⊢; exact h)
    (HI1.nu + 1) 0 HI1.nu (0, 0) (by omega) (by omega)
    (le_refl _) (Or.inl rfl) (Or.inl rfl)
  obtain ⟨tl, el, htl1, htl2, cl1, cl2⟩ := joinLowerLoop_spec HI1 ⟨[c, d], 1, 1⟩
    (by intro m _ _ h; rw [f0] at h ⊢; exact h)
    (HI1.nl + 1) HI1.nu (HI1.nu + HI1.nl) (0, 0) (by omega)
    (by omega) (le_refl _) (le_refl _) (Or.inl rfl) (Or.inl rfl)
  rw [f1, r1] at cu1 cu2
  rw [f0, r1] at cl1 cl2
  rw [f1] at eu
  rw [f0] at el
  refine ⟨pu, tl, hpu, cu1, cu2, htl1, htl2, cl1, cl2, ?_⟩
  unfold joinHulls
  simp only [eu, el]

/-- The stopping conditions of the searches of `joinHulls` on a left hull, against a point `d`
on its right, together with a point `z` on the side of both tangent lines away from the hull,
hold for the right chain `z, d`. -/
theorem bridges_point_right {HI1 : HullT} (z d : PointT) (pu tl : Nat) (hpu : pu ≤ HI1.nu)
    (p1 : pu = 0 ∨ RIGHT (rd HI1.H (pu - 1)) (rd HI1.H pu) d)
    (p2 : pu = HI1.nu ∨ ¬ RIGHT (rd HI1.H pu) (rd HI1.H (pu + 1)) d)
    (l0 : HI1.nu ≤ tl) (l0' : tl ≤ HI1.nu + HI1.nl)
    (l1 : tl = HI1.nu ∨ ¬ LEFT (rd HI1.H (tl % (HI1.nu + HI1.nl))) (rd HI1.H (tl - 1)) d)
    (l2 : tl = HI1.nu + HI1.nl ∨
      LEFT (rd HI1.H ((tl + 1) % (HI1.nu + HI1.nl))) (rd HI1.H tl) d)
    (h1 : ¬ RIGHT (rd HI1.H pu) z d)
    (h2 : ¬ LEFT (rd HI1.H (tl % (HI1.nu + HI1.nl))) z d) :
    Bridges HI1 ⟨[z, d], 1, 1⟩ pu 1 tl 1 := by
  have r0 : rd [z, d] 0 = z := rfl
  have r1 : rd [z, d] 1 = d := rfl
  refine ⟨hpu, ?_, ?_, le_refl _, Or.inr ?_, Or.inl rfl, l0, l0', ?_, ?_, le_refl _, ?_,
    Or.inl rfl, Or.inr ?_⟩
  · simpa only [r1] using p1
  · simpa only [r1] using p2
  · simpa only [Nat.sub_self, r0, r1] using h1
  · simpa only [Nat.reduceAdd, Nat.reduceMod, r1] using l1
  · simpa only [Nat.reduceAdd, Nat.reduceMod, r1] using l2
  · show 1 ≤ 1 + 1
    omega
  · simpa only [Nat.reduceAdd, Nat.reduceMod, Nat.mod_self, r0, r1] using h2

/-- Joining a valid hull with two coinciding points `c`, `d` on its right (with which the last
vertex of its upper chain may coincide) gives a valid hull that starts where the left hull
starts and whose upper chain ends at `d`. -/
theorem joinHulls_degR_spec {HI1 : HullT} (hv1 : Valid HI1) {c d : PointT} (hcd : CoordEq c d)
    (hsep : lexLe (rd HI1.H HI1.nu) d) :
    Valid (joinHulls HI1 ⟨[c, d], 1, 1⟩) ∧
    rd (joinHulls HI1 ⟨[c, d], 1, 1⟩).H 0 = rd HI1.H 0 ∧
    rd (joinHulls HI1 ⟨[c, d], 1, 1⟩).H (joinHulls HI1 ⟨[c, d], 1, 1⟩).nu = d := by
  have hnu := hv1.nu_pos
  have hnl := hv1.nl_pos
  obtain ⟨pu, tl, hpu, p1, p2, l0, l0', l1, l2, e⟩ := joinHulls_degR HI1 hnu hnl c d hcd
  have key : ∀ z, joinHulls HI1 ⟨[c, d], 1, 1⟩
      = assemble HI1 ⟨[z, d], 1, 1⟩ pu 1 (tl % (HI1.nu + HI1.nl))
          (1 % ((⟨[z, d], 1, 1⟩ : HullT).nu + (⟨[z, d], 1, 1⟩ : HullT).nl)) := by
    intro z
    have e2 : 1 % ((⟨[z, d], 1, 1⟩ : HullT).nu + (⟨[z, d], 1, 1⟩ : HullT).nl) = 1 := by
      show 1 % (1 + 1) = 1
      rfl
    rw [e, e2]
    exact assemble_right_one HI1 c z d pu _
  rcases hsep with hlt | heq
  · -- the points are strictly on the right of the hull
    have s1 := hv1.tangent_upper_right (lexLe_of_lt hlt) hpu p1 p2
      (hv1.vertex_inside HI1.nu (by omega))
    have s2 := hv1.tangent_lower_right (lexLe_of_lt hlt) l0 l0' l1 l2
      (hv1.vertex_inside HI1.nu (by omega))
    have hb := bridges_point_right (rd HI1.H HI1.nu) d pu tl hpu p1 p2 l0 l0' l1 l2
      (by unfold RIGHT; rw [AREA_swap]; omega) (by unfold LEFT; rw [AREA_swap]; omega)
    have hvW : Valid ⟨[rd HI1.H HI1.nu, d], 1, 1⟩ := valid_two hlt
    rw [key (rd HI1.H HI1.nu)]
    obtain ⟨f, l⟩ := asm_first_last hb hv1 hvW
    exact ⟨asm_valid hb hv1 hvW (lexLe_refl _), f, l⟩
  · -- the points coincide with the last vertex of the upper chain
    have hz : lexLt (rd HI1.H (HI1.nu - 1)) d := lexLt_congr_r heq
      (hv1.up_lt HI1.nu (HI1.nu - 1) (by omega) (le_refl _))
    have epu : pu + 1 = HI1.nu := by
      rcases Nat.lt_or_ge (pu + 1) HI1.nu with h | h
      · exfalso
        rcases p2 with h' | h'
        · omega
        · apply h'
          unfold RIGHT
          rw [← AREA_congr_3 heq]
          exact hv1.last_strict_upper pu h
      · rcases Nat.lt_or_ge pu HI1.nu with h2 | h2
        · omega
        · exfalso
          have e2 : pu = HI1.nu := by omega
          rw [e2] at p1
          rcases p1 with h' | h'
          · omega
          · unfold RIGHT at h'
            rw [AREA_eq_right _ heq] at h'
            exact lt_irrefl _ h'
    have etl : tl = HI1.nu + 1 := by
      rcases Nat.lt_or_ge (HI1.nu + 1) tl with h | h
      · exfalso
        rcases l1 with h' | h'
        · omega
        · apply h'
          unfold LEFT
          rw [← AREA_congr_3 heq]
          exact hv1.last_strict_lower tl h l0'
      · rcases Nat.lt_or_ge HI1.nu tl with h2 | h2
        · omega
        · exfalso
          have e2 : tl = HI1.nu := by omega
          rw [e2] at l2
          rcases l2 with h' | h'
          · omega
          · unfold LEFT at h'
            rw [AREA_eq_right _ heq] at h'
            exact lt_irrefl _ h'
    have c1 := hv1.cvx (HI1.nu - 1) ((HI1.nu + 1) % (HI1.nu + HI1.nl)) (by omega)
      (Nat.mod_lt _ hv1.n_pos)
    rw [show HI1.nu - 1 + 1 = HI1.nu by omega,
      Nat.mod_eq_of_lt (by omega : HI1.nu < HI1.nu + HI1.nl)] at c1
    have hb := bridges_point_right (rd HI1.H (HI1.nu - 1)) d pu tl hpu p1 p2 l0 l0' l1 l2
      (by
        unfold RIGHT
        rw [show HI1.nu - 1 = pu by omega, AREA_self_left]
        exact lt_irrefl _)
      (by
        unfold LEFT
        rw [etl, ← AREA_congr_3 heq, AREA_rot2]
        omega)
    have hvW : Valid ⟨[rd HI1.H (HI1.nu - 1), d], 1, 1⟩ := valid_two hz
    rw [key (rd HI1.H (HI1.nu - 1))]
    obtain ⟨f, l⟩ := asm_first_last hb hv1 hvW
    refine ⟨hv1.congr ?_ ?_ ?_ ?_, f, l⟩
    · rw [asm_nu]
      show pu + 1 + (1 - 1) = HI1.nu
      omega
    · rw [asm_nl hb hv1 hvW]
      show 1 + 1 - 1 + (HI1.nu + HI1.nl - tl) = HI1.nl
      omega
    · rw [asm_len hb hv1 hvW, asm_nu, asm_nl hb hv1 hvW]
    · intro k hk
      rw [asm_rd hb hv1 hvW k (by omega)]
      rcases Nat.lt_or_ge k HI1.nu with h | h
      · rw [if_pos (by omega)]
        exact ⟨rfl, rfl⟩
      · rcases Nat.lt_or_ge HI1.nu k with h' | h'
        · rw [if_neg (by omega), if_neg (by omega),
            show tl + (k - (pu + 1 + (1 + 1 - 1))) = k by omega]
          exact ⟨rfl, rfl⟩
        · have ek : k = HI1.nu := by omega
          rw [if_neg (by omega), if_pos (by omega), ek,
            show 1 + (HI1.nu - pu - 1) = 1 by omega]
          exact heq

/-! ### Inputs with duplicate coordinates -/

/-- A strict right or left turn has three pairwise distinct positions. -/
theorem lexLt_of_turn {a b c : PointT} (hab : lexLe a b) (hbc : lexLe b c)
    (h : AREA a b c ≠ 0) : lexLt a b ∧ lexLt b c := by
  constructor
  · rcases hab with h' | h'
    · exact h'
    · exact absurd (AREA_eq_left h' c) h
  · rcases hbc with h' | h'
    · exact h'
    · exact absurd (AREA_eq_right a h') h

/-- Between two coinciding entries of a non-decreasing sequence all entries coincide. -/
theorem coincide_of_not_lt {a b c : PointT} (hab : lexLe a b) (hbc : lexLe b c)
    (h : ¬ lexLt a c) : CoordEq a b := by
  unfold lexLe lexLt at *
  unfold CoordEq
  omega

/-- The base case on a non-decreasing input whose first and last point differ. -/
theorem mergeHullBase_weak (S : List PointT) (n : Nat) (h2 : 2 ≤ n) (h3 : n ≤ 3)
    (hS : ∀ i j, i < j → j < n → lexLe (rd S i) (rd S j))
    (hne : lexLt (rd S 0) (rd S (n - 1))) :
    Valid (mergeHullBase S n) ∧ rd (mergeHullBase S n).H 0 = rd S 0 ∧
    rd (mergeHullBase S n).H (mergeHullBase S n).nu = rd S (n - 1) := by
  unfold mergeHullBase
  split_ifs with e2 hr hl
  · subst e2
    exact ⟨valid_two hne, rfl, rfl⟩
  · have e3 : n = 3 := by omega
    subst e3
    unfold RIGHT at hr
    obtain ⟨h01, h12⟩ := lexLt_of_turn (hS 0 1 (by omega) (by omega))
      (hS 1 2 (by omega) (by omega)) (ne_of_lt hr)
    exact ⟨valid_right h01 h12 hr, rfl, rfl⟩
  · have e3 : n = 3 := by omega
    subst e3
    unfold LEFT at hl
    obtain ⟨h01, h12⟩ := lexLt_of_turn (hS 0 1 (by omega) (by omega))
      (hS 1 2 (by omega) (by omega)) (ne_of_gt hl)
    exact ⟨valid_left h01 h12 hl, rfl, rfl⟩
  · have e3 : n = 3 := by omega
    subst e3
    exact ⟨valid_two hne, rfl, rfl⟩

/-- On a non-decreasing input whose first and last point differ, `mergeHull` returns a valid
hull chain that starts at the first point and whose upper chain ends at the last point. -/
theorem mergeHullAux_weak : ∀ (fuel : Nat) (S : List PointT) (n : Nat), n ≤ fuel → 2 ≤ n →
    (∀ i j, i < j → j < n → lexLe (rd S i) (rd S j)) → lexLt (rd S 0) (rd S (n - 1)) →
    Valid (mergeHullAux fuel S n) ∧ rd (mergeHullAux fuel S n).H 0 = rd S 0 ∧
    rd (mergeHullAux fuel S n).H (mergeHullAux fuel S n).nu = rd S (n - 1) := by
  intro fuel
  induction fuel with
  | zero => intro S n hf h2; omega
  | succ fuel ih =>
    intro S n hf h2 hS hne
    rw [mergeHullAux]
    split_ifs with h3
    · exact mergeHullBase_weak S n h2 h3 hS hne
    · show Valid (joinHulls (mergeHullAux fuel S (n / 2))
          (mergeHullAux fuel (S.drop (n / 2)) (n - n / 2))) ∧
        rd (joinHulls (mergeHullAux fuel S (n / 2))
          (mergeHullAux fuel (S.drop (n / 2)) (n - n / 2))).H 0 = rd S 0 ∧
        rd (joinHulls (mergeHullAux fuel S (n / 2))
          (mergeHullAux fuel (S.drop (n / 2)) (n - n / 2))).H
          (joinHulls (mergeHullAux fuel S (n / 2))
            (mergeHullAux fuel (S.drop (n / 2)) (n - n / 2))).nu = rd S (n - 1)
      have hmid1 : 2 ≤ n / 2 := by omega
      have hmid2 : n / 2 < n := by omega
      have hS1 : ∀ i j, i < j → j < n / 2 → lexLe (rd S i) (rd S j) :=
        fun i j hij hj => hS i j hij (by omega)
      have hS2 : ∀ i j, i < j → j < n - n / 2 →
          lexLe (rd (S.drop (n / 2)) i) (rd (S.drop (n / 2)) j) := by
        intro i j hij hj
        rw [rd_drop, rd_drop]
        exact hS _ _ (by omega) (by omega)
      have eL : rd (S.drop (n / 2)) (n - n / 2 - 1) = rd S (n - 1) := by
        rw [rd_drop]
        congr 1
        omega
      have e0 : rd (S.drop (n / 2)) 0 = rd S (n / 2) := by rw [rd_drop, Nat.add_zero]
      have hmm : lexLe (rd S (n / 2 - 1)) (rd S (n / 2)) := hS _ _ (by omega) (by omega)
      by_cases hL : lexLt (rd S 0) (rd S (n / 2 - 1))
      · obtain ⟨v1, f1, l1⟩ := ih S (n / 2) (by omega) hmid1 hS1 hL
        by_cases hR : lexLt (rd (S.drop (n / 2)) 0) (rd (S.drop (n / 2)) (n - n / 2 - 1))
        · obtain ⟨v2, f2, l2⟩ := ih (S.drop (n / 2)) (n - n / 2) (by omega) (by omega) hS2 hR
          have hsep : lexLe
              (rd (mergeHullAux fuel S (n / 2)).H (mergeHullAux fuel S (n / 2)).nu)
              (rd (mergeHullAux fuel (S.drop (n / 2)) (n - n / 2)).H 0) := by
            rw [l1, f2, e0]
            exact hmm
          refine ⟨joinHulls_valid v1 v2 hsep, ?_, ?_⟩
          · rw [joinHulls_first v1 v2 hsep, f1]
          · rw [joinHulls_last v1 v2 hsep, l2, eL]
        · have hall : ∀ i, i < n - n / 2 →
              CoordEq (rd (S.drop (n / 2)) 0) (rd (S.drop (n / 2)) i) := by
            intro i hi
            rcases Nat.eq_zero_or_pos i with h0 | h0
            · subst h0
              exact ⟨rfl, rfl⟩
            · rcases Nat.lt_or_ge i (n - n / 2 - 1) with h1 | h1
              · exact coincide_of_not_lt (hS2 0 i h0 hi) (hS2 i _ h1 (by omega)) hR
              · rw [show i = n - n / 2 - 1 by omega]
                exact coincide_of_not_lt (hS2 0 _ (by omega) (by omega)) (lexLe_refl _) hR
          rw [mergeHullAux_coincide fuel (S.drop (n / 2)) (n - n / 2) (by omega) (by omega)
            hall]
          obtain ⟨v, f, l⟩ := joinHulls_degR_spec v1 (hall (n - n / 2 - 1) (by omega)) (by
            rw [l1, eL]
            exact hS _ _ (by omega) (by omega))
          exact ⟨v, by rw [f, f1], by rw [l, eL]⟩
      · have hall : ∀ i, i < n / 2 → CoordEq (rd S 0) (rd S i) := by
          intro i hi
          rcases Nat.eq_zero_or_pos i with h0 | h0
          · subst h0
            exact ⟨rfl, rfl⟩
          · rcases Nat.lt_or_ge i (n / 2 - 1) with h1 | h1
            · exact coincide_of_not_lt (hS1 0 i h0 hi) (hS1 i _ h1 (by omega)) hL
            · rw [show i = n / 2 - 1 by omega]
              exact coincide_of_not_lt (hS1 0 _ (by omega) (by omega)) (lexLe_refl _) hL
        rw [mergeHullAux_coincide fuel S (n / 2) (by omega) hmid1 hall]
        by_cases hR : lexLt (rd (S.drop (n / 2)) 0) (rd (S.drop (n / 2)) (n - n / 2 - 1))
        · obtain ⟨v2, f2, l2⟩ := ih (S.drop (n / 2)) (n - n / 2) (by omega) (by omega) hS2 hR
          obtain ⟨v, f, l⟩ := joinHulls_degL_spec (hall (n / 2 - 1) (by omega)) v2 (by
            rw [f2, e0]
            exact hS _ _ (by omega) (by omega))
          exact ⟨v, f, by rw [l, l2, eL]⟩
        · have hall2 : ∀ i, i < n - n / 2 →
              CoordEq (rd (S.drop (n / 2)) 0) (rd (S.drop (n / 2)) i) := by
            intro i hi
            rcases Nat.eq_zero_or_pos i with h0 | h0
            · subst h0
              exact ⟨rfl, rfl⟩
            · rcases Nat.lt_or_ge i (n - n / 2 - 1) with h1 | h1
              · exact coincide_of_not_lt (hS2 0 i h0 hi) (hS2 i _ h1 (by omega)) hR
              · rw [show i = n - n / 2 - 1 by omega]
                exact coincide_of_not_lt (hS2 0 _ (by omega) (by omega)) (lexLe_refl _) hR
          rw [mergeHullAux_coincide fuel (S.drop (n / 2)) (n - n / 2) (by omega) (by omega)
            hall2, joinHulls_deg _ _ _ _ (hall (n / 2 - 1) (by omega))
            (hall2 (n - n / 2 - 1) (by omega)), eL]
          exact ⟨valid_two hne, rfl, rfl⟩

theorem sortedLe_rd {S : List PointT} (hs : SortedLe S) (i j : Nat) (hij : i < j)
    (hj : j < S.length) : lexLe (rd S i) (rd S j) := by
  rw [rd_eq_getElem S i (by omega), rd_eq_getElem S j hj]
  exact List.pairwise_iff_getElem.1 hs i j (by omega) hj hij

/-- Duplicate coordinates with the tests on exact integers: for an input of `n ≥ 2` points sorted by (x, then y) in which points
may share their coordinates, if the points do not all share one position then no two entries
of the hull of `mergeHull` have equal x and equal y; if on the contrary all points share one
position, the hull consists of the first and the last input point, two entries at the same
position with `nu = nl = 1`. -/
theorem mergeHull_duplicates (S : List PointT) (hn : 2 ≤ S.length) (hs : SortedLe S) :
    ((∃ i, i < S.length ∧ ¬ CoordEq (rd S 0) (rd S i)) → NoDupCoords (mergeHull S S.length)) ∧
    ((∀ i, i < S.length → CoordEq (rd S 0) (rd S i)) →
      mergeHull S S.length = ⟨[rd S 0, rd S (S.length - 1)], 1, 1⟩ ∧
      ¬ NoDupCoords (mergeHull S S.length)) := by
  refine ⟨fun hex j hj i hij => ?_, fun hall => ?_⟩
  · obtain ⟨k, hk, hne⟩ := hex
    have hlt : lexLt (rd S 0) (rd S (S.length - 1)) := by
      by_contra hcon
      apply hne
      rcases Nat.eq_zero_or_pos k with h0 | h0
      · subst h0
        exact ⟨rfl, rfl⟩
      · rcases Nat.lt_or_ge k (S.length - 1) with h1 | h1
        · exact coincide_of_not_lt (sortedLe_rd hs 0 k h0 hk)
            (sortedLe_rd hs k _ h1 (by omega)) hcon
        · rw [show k = S.length - 1 by omega]
          exact coincide_of_not_lt (sortedLe_rd hs 0 _ (by omega) (by omega))
            (lexLe_refl _) hcon
    exact (mergeHullAux_weak S.length S S.length (le_refl _) hn (sortedLe_rd hs) hlt).1.distinct
      hij hj
  · have e := mergeHullAux_coincide S.length S S.length (le_refl _) hn hall
    have e' : mergeHull S S.length = ⟨[rd S 0, rd S (S.length - 1)], 1, 1⟩ := e
    refine ⟨e', ?_⟩
    rw [e']
    intro h
    exact h 1 (by simp) 0 (by decide) (hall (S.length - 1) (by omega))

theorem mergeHull_duplicates_witness :
    2 ≤ [(⟨0, 0, 0⟩ : PointT), ⟨1, 0, 0⟩, ⟨2, 1, 2⟩, ⟨3, 1, 2⟩, ⟨4, 2, 0⟩, ⟨5, 2, 0⟩].length ∧
    SortedLe [⟨0, 0, 0⟩, ⟨1, 0, 0⟩, ⟨2, 1, 2⟩, ⟨3, 1, 2⟩, ⟨4, 2, 0⟩, ⟨5, 2, 0⟩] ∧
    NoDupCoords (mergeHull [⟨0, 0, 0⟩, ⟨1, 0, 0⟩, ⟨2, 1, 2⟩, ⟨3, 1, 2⟩, ⟨4, 2, 0⟩, ⟨5, 2, 0⟩] 6) ∧
    SortedLe [⟨0, 5, 5⟩, ⟨1, 5, 5⟩, ⟨2, 5, 5⟩] ∧
    mergeHull [⟨0, 5, 5⟩, ⟨1, 5, 5⟩, ⟨2, 5, 5⟩] 3 = ⟨[⟨0, 5, 5⟩, ⟨2, 5, 5⟩], 1, 1⟩ :=
  ⟨by decide, by decide,
    (mergeHull_duplicates [⟨0, 0, 0⟩, ⟨1, 0, 0⟩, ⟨2, 1, 2⟩, ⟨3, 1, 2⟩, ⟨4, 2, 0⟩, ⟨5, 2, 0⟩]
      (by decide) (by decide)).1 ⟨2, by decide, by decide⟩,
    by decide,
    ((mergeHull_duplicates [⟨0, 5, 5⟩, ⟨1, 5, 5⟩, ⟨2, 5, 5⟩] (by decide) (by decide)).2
      (by decide)).1⟩

/-! ### Orientation algebra -/

/-- Claim C30 (orientation algebra): over the integers `AREA` is invariant under cyclic
rotation of its arguments and changes sign when the last two are exchanged; `RIGHT (a, b, c)`
holds exactly when `LEFT (a, c, b)` does; exactly one of right turn, left turn and `AREA = 0`
holds; and `AREA` is `0` whenever two of the three points have equal coordinates. -/
theorem AREA_algebra (a b c : PointT) :
    AREA a b c = AREA b c a ∧ AREA a b c = AREA c a b ∧ AREA a b c = - AREA a c b ∧
    (RIGHT a b c ↔ LEFT a c b) ∧
    ((RIGHT a b c ∧ ¬ LEFT a b c ∧ AREA a b c ≠ 0) ∨
      (¬ RIGHT a b c ∧ LEFT a b c ∧ AREA a b c ≠ 0) ∨
      (¬ RIGHT a b c ∧ ¬ LEFT a b c ∧ AREA a b c = 0)) ∧
    (CoordEq a b → AREA a b c = 0) ∧ (CoordEq b c → AREA a b c = 0) ∧
    (CoordEq a c → AREA a b c = 0) := by
  have e1 : AREA a b c = AREA b c a := by unfold AREA; ring
  have e2 : AREA a b c = AREA c a b := by unfold AREA; ring
  have e3 : AREA a b c = - AREA a c b := by unfold AREA; ring
  refine ⟨e1, e2, e3, ?_, ?_, ?_, ?_, ?_⟩
  · unfold RIGHT LEFT
    rw [e3]
    omega
  · unfold RIGHT LEFT
    omega
  · rintro ⟨hx, hy⟩
    unfold AREA
    rw [hx, hy]
    ring
  · rintro ⟨hx, hy⟩
    unfold AREA
    rw [hx, hy]
    ring
  · rintro ⟨hx, hy⟩
    unfold AREA
    rw [hx, hy]
    ring

theorem AREA_algebra_witness :
    AREA (pt 0 0) (pt 4 1) (pt 2 5) = AREA (pt 4 1) (pt 2 5) (pt 0 0) ∧
    AREA (pt 0 0) (pt 4 1) (pt 2 5) = - AREA (pt 0 0) (pt 2 5) (pt 4 1) ∧
    CoordEq (⟨1, 2, 5⟩ : PointT) ⟨2, 2, 5⟩ ∧ AREA (pt 0 0) ⟨1, 2, 5⟩ ⟨2, 2, 5⟩ = 0 :=
  ⟨(AREA_algebra (pt 0 0) (pt 4 1) (pt 2 5)).1, (AREA_algebra (pt 0 0) (pt 4 1) (pt 2 5)).2.2.1,
    by decide, (AREA_algebra (pt 0 0) ⟨1, 2, 5⟩ ⟨2, 2, 5⟩).2.2.2.2.2.2.1 (by decide)⟩

/-! ### A coordinate range without overflow -/

theorem mul_range (u v : Int) (hu1 : -32766 ≤ u) (hu2 : u ≤ 32766) (hv1 : -32766 ≤ v)
    (hv2 : v ≤ 32766) : -1073610756 ≤ u * v ∧ u * v ≤ 1073610756 := by
  have h1 := mul_nonneg (sub_nonneg.2 hu2) (sub_nonneg.2 hv2)
  have h2 := mul_nonneg (sub_nonneg.2 hu1) (sub_nonneg.2 hv1)
  have h3 := mul_nonneg (sub_nonneg.2 hu2) (sub_nonneg.2 hv1)
  have h4 := mul_nonneg (sub_nonneg.2 hu1) (sub_nonneg.2 hv2)
  constructor <;> nlinarith

/-- Claim C29 (no overflow in a coordinate range): for points whose coordinates all have
absolute value at most `16383`, every difference, both products and the exact cross product
are values of a 32-bit `int`, and `AREA` computed in 32-bit arithmetic equals the exact cross
product. -/
theorem AREA32_no_overflow (a b c : PointT) (ha : SmallPoint a) (hb : SmallPoint b)
    (hc : SmallPoint c) :
    Int32 (b.x - a.x) ∧ Int32 (c.y - a.y) ∧ Int32 (c.x - a.x) ∧ Int32 (b.y - a.y) ∧
    Int32 ((b.x - a.x) * (c.y - a.y)) ∧ Int32 ((c.x - a.x) * (b.y - a.y)) ∧
    Int32 (AREA a b c) ∧ AREA32 a b c = AREA a b c := by
  obtain ⟨a1, a2, a3, a4⟩ := ha
  obtain ⟨b1, b2, b3, b4⟩ := hb
  obtain ⟨c1, c2, c3, c4⟩ := hc
  obtain ⟨p1, p2⟩ := mul_range (b.x - a.x) (c.y - a.y) (by omega) (by omega)
    (by omega) (by omega)
  obtain ⟨q1, q2⟩ := mul_range (c.x - a.x) (b.y - a.y) (by omega) (by omega)
    (by omega) (by omega)
  have hA : Int32 (AREA a b c) := by
    unfold Int32 AREA
    constructor <;> linarith
  refine ⟨?_, ?_, ?_, ?_, ?_, ?_, hA, ?_⟩
  · unfold Int32; omega
  · unfold Int32; omega
  · unfold Int32; omega
  · unfold Int32; omega
  · unfold Int32; constructor <;> linarith
  · unfold Int32; constructor <;> linarith
  · have h1 := AREA32_modEq a b c
    have h2 := AREA32_range a b c
    unfold Int32 at hA h2
    unfold Int.ModEq at h1
    omega

theorem AREA32_no_overflow_witness :
    SmallPoint (pt (-16383) (-16383)) ∧ SmallPoint (pt 16383 (-16383)) ∧
    SmallPoint (pt (-16383) 16383) ∧
    AREA (pt (-16383) (-16383)) (pt 16383 (-16383)) (pt (-16383) 16383) = 1073610756 ∧
    AREA32 (pt (-16383) (-16383)) (pt 16383 (-16383)) (pt (-16383) 16383)
      = AREA (pt (-16383) (-16383)) (pt 16383 (-16383)) (pt (-16383) 16383) :=
  ⟨by decide, by decide, by decide, by decide,
    (AREA32_no_overflow (pt (-16383) (-16383)) (pt 16383 (-16383)) (pt (-16383) 16383)
      (by decide) (by decide) (by decide)).2.2.2.2.2.2.2⟩

/-! ### The common lower tangent -/

/-- Common lower tangent with the tests on exact integers: for valid hull chains `HI1`, `HI2` (convex chains in the
sense of `Valid`, as `mergeHull` builds them) with every point of `HI1` lexicographically
smaller than every point of `HI2`, the lower search of `joinHulls` ends, within its budget and
the same for every larger one, with a final `mid` in `[HI1.nu, n1]`, so that `pl = mid % n1` is
an index in `[HI1.nu, n1 - 1]` or index `0`, with `ql = findTangent (HI1[pl], HI2, 0)`, and
every point of `HI1` and of `HI2` is on or to the left of the directed line
`HI1[pl] → HI2[ql]`. -/
theorem joinHulls_lower_tangent (HI1 HI2 : HullT) (hv1 : Valid HI1) (hv2 : Valid HI2)
    (hsep : LeftOf HI1 HI2) :
    (((joinLowerLoop HI1 HI2 (HI1.nl + 1) HI1.nu (HI1.nu + HI1.nl) (0, 0)).1
          % (HI1.nu + HI1.nl) = 0) ∨
      (HI1.nu ≤ (joinLowerLoop HI1 HI2 (HI1.nl + 1) HI1.nu (HI1.nu + HI1.nl) (0, 0)).1
          % (HI1.nu + HI1.nl) ∧
        (joinLowerLoop HI1 HI2 (HI1.nl + 1) HI1.nu (HI1.nu + HI1.nl) (0, 0)).1
          % (HI1.nu + HI1.nl) ≤ HI1.nu + HI1.nl - 1)) ∧
    (joinLowerLoop HI1 HI2 (HI1.nl + 1) HI1.nu (HI1.nu + HI1.nl) (0, 0)).2
      = findTangent (rd HI1.H
          ((joinLowerLoop HI1 HI2 (HI1.nl + 1) HI1.nu (HI1.nu + HI1.nl) (0, 0)).1
            % (HI1.nu + HI1.nl))) HI2 0 ∧
    (∀ i, i < HI1.nu + HI1.nl →
      0 ≤ AREA (rd HI1.H
          ((joinLowerLoop HI1 HI2 (HI1.nl + 1) HI1.nu (HI1.nu + HI1.nl) (0, 0)).1
            % (HI1.nu + HI1.nl)))
        (rd HI2.H (joinLowerLoop HI1 HI2 (HI1.nl + 1) HI1.nu (HI1.nu + HI1.nl) (0, 0)).2)
        (rd HI1.H i)) ∧
    (∀ j, j < HI2.nu + HI2.nl →
      0 ≤ AREA (rd HI1.H
          ((joinLowerLoop HI1 HI2 (HI1.nl + 1) HI1.nu (HI1.nu + HI1.nl) (0, 0)).1
            % (HI1.nu + HI1.nl)))
        (rd HI2.H (joinLowerLoop HI1 HI2 (HI1.nl + 1) HI1.nu (HI1.nu + HI1.nl) (0, 0)).2)
        (rd HI2.H j)) ∧
    (∀ fuel, HI1.nl + 1 ≤ fuel →
      joinLowerLoop HI1 HI2 fuel HI1.nu (HI1.nu + HI1.nl) (0, 0)
        = joinLowerLoop HI1 HI2 (HI1.nl + 1) HI1.nu (HI1.nu + HI1.nl) (0, 0)) := by
  have hnu1 := hv1.nu_pos
  have hnl1 := hv1.nl_pos
  have hs : lexLe (rd HI1.H HI1.nu) (rd HI2.H 0) :=
    lexLe_of_lt (hsep HI1.nu (by omega) 0 hv2.n_pos)
  obtain ⟨tl, el, htl1, htl2, cl1, cl2⟩ := joinLowerLoop_spec HI1 HI2
    (join_lower_mono hv1 hv2 hs) (HI1.nl + 1) HI1.nu (HI1.nu + HI1.nl) (0, 0) (by omega)
    (by omega) (le_refl _) (le_refl _) (Or.inl rfl) (Or.inl rfl)
  have hq := findTangent_lower_lt hv2 (rd HI1.H (tl % (HI1.nu + HI1.nl)))
  rw [el]
  refine ⟨?_, rfl, fun i hi => ?_, fun j hj => ?_, fun fuel hf => ?_⟩
  · show tl % (HI1.nu + HI1.nl) = 0 ∨ _
    rcases Nat.lt_or_ge tl (HI1.nu + HI1.nl) with h | h
    · right
      show HI1.nu ≤ tl % (HI1.nu + HI1.nl) ∧ tl % (HI1.nu + HI1.nl) ≤ HI1.nu + HI1.nl - 1
      rw [Nat.mod_eq_of_lt h]
      omega
    · left
      rw [show tl = HI1.nu + HI1.nl by omega, Nat.mod_self]
  · exact hv1.tangent_lower_right (sep_le hv1 hv2 hs (by omega) hq) htl1 htl2 cl1 cl2
      (hv1.vertex_inside i hi)
  · exact findTangent_lower_tangent hv2
      (sep_le hv1 hv2 hs (Nat.mod_lt _ hv1.n_pos) hv2.n_pos) (hv2.vertex_inside j hj)
  · rw [← el]
    exact joinLowerLoop_fuel HI1 HI2 fuel (HI1.nl + 1) HI1.nu (HI1.nu + HI1.nl) (0, 0)
      (by omega) (by omega)

theorem joinHulls_lower_tangent_witness :
    LeftOf ⟨[pt 0 0, pt 1 2, pt 2 0], 2, 1⟩ ⟨[pt 3 0, pt 4 2, pt 5 0], 2, 1⟩ ∧
    joinLowerLoop ⟨[pt 0 0, pt 1 2, pt 2 0], 2, 1⟩ ⟨[pt 3 0, pt 4 2, pt 5 0], 2, 1⟩ 2 2 3 (0, 0)
      = (3, 2) ∧
    ∀ j, j < 3 →
      0 ≤ AREA (rd [pt 0 0, pt 1 2, pt 2 0]
          ((joinLowerLoop ⟨[pt 0 0, pt 1 2, pt 2 0], 2, 1⟩ ⟨[pt 3 0, pt 4 2, pt 5 0], 2, 1⟩
            2 2 3 (0, 0)).1 % 3))
        (rd [pt 3 0, pt 4 2, pt 5 0]
          (joinLowerLoop ⟨[pt 0 0, pt 1 2, pt 2 0], 2, 1⟩ ⟨[pt 3 0, pt 4 2, pt 5 0], 2, 1⟩
            2 2 3 (0, 0)).2)
        (rd [pt 3 0, pt 4 2, pt 5 0] j) :=
  ⟨by decide, by decide,
    (joinHulls_lower_tangent ⟨[pt 0 0, pt 1 2, pt 2 0], 2, 1⟩ ⟨[pt 3 0, pt 4 2, pt 5 0], 2, 1⟩
      (chainOK_valid (by decide) (by decide)) (chainOK_valid (by decide) (by decide))
      (by decide)).2.2.2.1⟩

/-! ### The assembly of the merged chain -/

/-- A copy loop over indices inside the array copies a slice. -/
theorem copyRange_eq_slice (H : List PointT) (a b : Nat) (hb : b + 1 ≤ H.length) :
    copyRange H a (b + 1) = slice H a b := by
  unfold slice
  apply list_eq_of_rd
  · rw [copyRange_length, List.length_drop, List.length_take]
    omega
  · intro j hj
    rw [copyRange_length] at hj
    rw [rd_copyRange _ _ _ _ hj, rd_drop, rd_take _ _ _ (by omega)]

theorem joinUpperLoop_snd_le (HI1 HI2 : HullT) (h2 : 1 ≤ HI2.nl) :
    ∀ fuel min max s, s.2 ≤ HI2.nu → (joinUpperLoop HI1 HI2 fuel min max s).2 ≤ HI2.nu := by
  intro fuel
  induction fuel with
  | zero => intro min max s hs; exact hs
  | succ f ih =>
    intro min max s hs
    rw [joinUpperLoop]
    simp only
    split_ifs with h0 h1 h3 h4
    · exact ih _ _ _ (findTangent_upper_local _ HI2 h2).1
    · exact (findTangent_upper_local _ HI2 h2).1
    · exact ih _ _ _ (findTangent_upper_local _ HI2 h2).1
    · exact (findTangent_upper_local _ HI2 h2).1
    · exact hs

/-- Claim C22 (assembly of the merged chain): for two chains whose arrays hold exactly their
`nu + nl ≥ 2` entries, with `pu`, `qu` the pair on which the upper search of `joinHulls` ends
and `pl`, `ql` the pair on which the lower search ends (`pl` after the reduction modulo `n1`),
the chain returned by `joinHulls` is the one the claim describes, and the four indices lie in
their chains: `pu ≤ nu1`, `qu ≤ nu2`, `pl < n1`, `ql < n2`. -/
theorem joinHulls_assembly (HI1 HI2 : HullT) (hl1 : HI1.H.length = HI1.nu + HI1.nl)
    (hl2 : HI2.H.length = HI2.nu + HI2.nl) (hnu1 : 1 ≤ HI1.nu) (hnl1 : 1 ≤ HI1.nl)
    (hnu2 : 1 ≤ HI2.nu) (hnl2 : 1 ≤ HI2.nl) :
    joinHulls HI1 HI2
      = assembleSpec HI1 HI2 (joinUpperLoop HI1 HI2 (HI1.nu + 1) 0 HI1.nu (0, 0)).1
          (joinUpperLoop HI1 HI2 (HI1.nu + 1) 0 HI1.nu (0, 0)).2
          ((joinLowerLoop HI1 HI2 (HI1.nl + 1) HI1.nu (HI1.nu + HI1.nl) (0, 0)).1
            % (HI1.nu + HI1.nl))
          (joinLowerLoop HI1 HI2 (HI1.nl + 1) HI1.nu (HI1.nu + HI1.nl) (0, 0)).2 ∧
    (joinUpperLoop HI1 HI2 (HI1.nu + 1) 0 HI1.nu (0, 0)).1 ≤ HI1.nu ∧
    (joinUpperLoop HI1 HI2 (HI1.nu + 1) 0 HI1.nu (0, 0)).2 ≤ HI2.nu ∧
    (joinLowerLoop HI1 HI2 (HI1.nl + 1) HI1.nu (HI1.nu + HI1.nl) (0, 0)).1
      % (HI1.nu + HI1.nl) < HI1.nu + HI1.nl ∧
    (joinLowerLoop HI1 HI2 (HI1.nl + 1) HI1.nu (HI1.nu + HI1.nl) (0, 0)).2
      < HI2.nu + HI2.nl := by
  have hpu := joinUpperLoop_fst_le HI1 HI2 (HI1.nu + 1) 0 HI1.nu (0, 0) (le_refl _)
    (Nat.zero_le _)
  have hqu := joinUpperLoop_snd_le HI1 HI2 hnl2 (HI1.nu + 1) 0 HI1.nu (0, 0) (Nat.zero_le _)
  have hpl : (joinLowerLoop HI1 HI2 (HI1.nl + 1) HI1.nu (HI1.nu + HI1.nl) (0, 0)).1
      % (HI1.nu + HI1.nl) < HI1.nu + HI1.nl := Nat.mod_lt _ (by omega)
  have hql := joinLowerLoop_snd_lt HI1 HI2 hnu2
  refine ⟨?_, hpu, hqu, hpl, hql⟩
  unfold joinHulls
  simp only
  generalize (joinUpperLoop HI1 HI2 (HI1.nu + 1) 0 HI1.nu (0, 0)).1 = pu at *
  generalize (joinUpperLoop HI1 HI2 (HI1.nu + 1) 0 HI1.nu (0, 0)).2 = qu at *
  generalize (joinLowerLoop HI1 HI2 (HI1.nl + 1) HI1.nu (HI1.nu + HI1.nl) (0, 0)).1
    % (HI1.nu + HI1.nl) = pl at *
  generalize (joinLowerLoop HI1 HI2 (HI1.nl + 1) HI1.nu (HI1.nu + HI1.nl) (0, 0)).2 = ql at *
  rw [assemble_eq]
  unfold assembleSpec lower2 lower1
  simp only
  have e1 : copyRange HI1.H 0 (pu + 1) = slice HI1.H 0 pu :=
    copyRange_eq_slice _ _ _ (by omega)
  have e2 : copyRange HI2.H qu HI2.nu = slice HI2.H qu (HI2.nu - 1) := by
    have := copyRange_eq_slice HI2.H qu (HI2.nu - 1) (by omega)
    rwa [show HI2.nu - 1 + 1 = HI2.nu by omega] at this
  have e3 : copyRange HI2.H HI2.nu (HI2.nu + HI2.nl) = slice HI2.H HI2.nu (HI2.nu + HI2.nl - 1) := by
    have := copyRange_eq_slice HI2.H HI2.nu (HI2.nu + HI2.nl - 1) (by omega)
    rwa [show HI2.nu + HI2.nl - 1 + 1 = HI2.nu + HI2.nl by omega] at this
  have e4 : [rd HI2.H 0] = slice HI2.H 0 0 := by
    rw [← copyRange_eq_slice HI2.H 0 0 (by omega)]
    rfl
  have e5 : copyRange HI2.H HI2.nu (ql + 1) = slice HI2.H HI2.nu ql :=
    copyRange_eq_slice _ _ _ (by omega)
  have e6 : copyRange HI1.H pl (HI1.nu + HI1.nl) = slice HI1.H pl (HI1.nu + HI1.nl - 1) := by
    have := copyRange_eq_slice HI1.H pl (HI1.nu + HI1.nl - 1) (by omega)
    rwa [show HI1.nu + HI1.nl - 1 + 1 = HI1.nu + HI1.nl by omega] at this
  rw [e1, e2, e3, e4, e5, e6]
  by_cases hq : ql = 0 <;> by_cases hp : pl = 0 <;>
    simp [hq, hp, List.append_assoc, Nat.add_assoc]

theorem joinHulls_assembly_witness :
    joinHulls ⟨[pt 0 0, pt 1 2, pt 2 0], 2, 1⟩ ⟨[pt 3 0, pt 4 2, pt 5 0], 2, 1⟩
      = assembleSpec ⟨[pt 0 0, pt 1 2, pt 2 0], 2, 1⟩ ⟨[pt 3 0, pt 4 2, pt 5 0], 2, 1⟩
          1 1 0 2 ∧
    assembleSpec ⟨[pt 0 0, pt 1 2, pt 2 0], 2, 1⟩ ⟨[pt 3 0, pt 4 2, pt 5 0], 2, 1⟩ 1 1 0 2
      = ⟨[pt 0 0, pt 1 2, pt 4 2, pt 5 0], 3, 1⟩ :=
  ⟨(joinHulls_assembly ⟨[pt 0 0, pt 1 2, pt 2 0], 2, 1⟩ ⟨[pt 3 0, pt 4 2, pt 5 0], 2, 1⟩
      (by decide) (by decide) (by decide) (by decide) (by decide) (by decide)).1,
    by decide⟩

/-! ### The iterations of the search loops -/

theorem searchTrace_succ (body : Nat → MoveT × List Nat) (fuel min max : Nat) :
    searchTrace body (fuel + 1) min max =
      if min ≤ max then
        match (body ((min + max) / 2)).1 with
        | MoveT.left =>
          ⟨min, max, (min + max) / 2, (body ((min + max) / 2)).2, MoveT.left⟩ ::
            searchTrace body fuel min ((min + max) / 2 - 1)
        | MoveT.right =>
          ⟨min, max, (min + max) / 2, (body ((min + max) / 2)).2, MoveT.right⟩ ::
            searchTrace body fuel ((min + max) / 2 + 1) max
        | MoveT.stop => [⟨min, max, (min + max) / 2, (body ((min + max) / 2)).2, MoveT.stop⟩]
      else [] := rfl

theorem searchTrace_left {body : Nat → MoveT × List Nat} {fuel min max : Nat} (h : min ≤ max)
    (hm : (body ((min + max) / 2)).1 = MoveT.left) :
    searchTrace body (fuel + 1) min max =
      ⟨min, max, (min + max) / 2, (body ((min + max) / 2)).2, MoveT.left⟩ ::
        searchTrace body fuel min ((min + max) / 2 - 1) := by
  rw [searchTrace_succ, if_pos h, hm]

theorem searchTrace_right {body : Nat → MoveT × List Nat} {fuel min max : Nat} (h : min ≤ max)
    (hm : (body ((min + max) / 2)).1 = MoveT.right) :
    searchTrace body (fuel + 1) min max =
      ⟨min, max, (min + max) / 2, (body ((min + max) / 2)).2, MoveT.right⟩ ::
        searchTrace body fuel ((min + max) / 2 + 1) max := by
  rw [searchTrace_succ, if_pos h, hm]

theorem searchTrace_stop {body : Nat → MoveT × List Nat} {fuel min max : Nat} (h : min ≤ max)
    (hm : (body ((min + max) / 2)).1 = MoveT.stop) :
    searchTrace body (fuel + 1) min max =
      [⟨min, max, (min + max) / 2, (body ((min + max) / 2)).2, MoveT.stop⟩] := by
  rw [searchTrace_succ, if_pos h, hm]

theorem searchTrace_empty (body : Nat → MoveT × List Nat) (fuel min max : Nat) (h : max < min) :
    searchTrace body fuel min max = [] := by
  cases fuel with
  | zero => rfl
  | succ f => rw [searchTrace_succ, if_neg (by omega)]

theorem MoveT.cases3 (m : MoveT) : m = MoveT.left ∨ m = MoveT.right ∨ m = MoveT.stop := by
  cases m <;> simp

/-- Every recorded iteration probes the middle of its interval, which lies inside the interval
the search started from, and records what the body does at that probe. -/
theorem searchTrace_mem (body : Nat → MoveT × List Nat) :
    ∀ fuel min max s, s ∈ searchTrace body fuel min max →
      min ≤ s.min ∧ s.max ≤ max ∧ s.min ≤ s.mid ∧ s.mid ≤ s.max ∧
      s.mid = (s.min + s.max) / 2 ∧ s.move = (body s.mid).1 ∧ s.reads = (body s.mid).2 := by
  intro fuel
  induction fuel with
  | zero => intro min max s hs; simp [searchTrace] at hs
  | succ fuel ih =>
    intro min max s hs
    rcases Nat.lt_or_ge max min with hlt | hle
    · rw [searchTrace_empty _ _ _ _ hlt] at hs
      simp at hs
    · rcases MoveT.cases3 (body ((min + max) / 2)).1 with hm | hm | hm
      · rw [searchTrace_left hle hm, List.mem_cons] at hs
        rcases hs with rfl | hs
        · exact ⟨le_refl _, le_refl _, by show min ≤ (min + max) / 2; omega,
            by show (min + max) / 2 ≤ max; omega, rfl, hm.symm, rfl⟩
        · obtain ⟨h1, h2, h3⟩ := ih _ _ s hs
          exact ⟨h1, by omega, h3⟩
      · rw [searchTrace_right hle hm, List.mem_cons] at hs
        rcases hs with rfl | hs
        · exact ⟨le_refl _, le_refl _, by show min ≤ (min + max) / 2; omega,
            by show (min + max) / 2 ≤ max; omega, rfl, hm.symm, rfl⟩
        · obtain ⟨h1, h2, h3⟩ := ih _ _ s hs
          exact ⟨by omega, h2, h3⟩
      · rw [searchTrace_stop hle hm, List.mem_singleton] at hs
        subst hs
        exact ⟨le_refl _, le_refl _, by show min ≤ (min + max) / 2; omega,
          by show (min + max) / 2 ≤ max; omega, rfl, hm.symm, rfl⟩

/-- The interval of every iteration is bounded, on each side, by the end of the search range
or by a probe at which the body moved towards the interval. -/
theorem searchTrace_inv (body : Nat → MoveT × List Nat) (lo hi : Nat)
    (hL : ∀ m, (body m).1 = MoveT.left → lo < m) :
    ∀ fuel min max, (min = lo ∨ (body (min - 1)).1 = MoveT.right) →
      (max = hi ∨ (body (max + 1)).1 = MoveT.left) →
      ∀ s, s ∈ searchTrace body fuel min max →
        (s.min = lo ∨ (body (s.min - 1)).1 = MoveT.right) ∧
        (s.max = hi ∨ (body (s.max + 1)).1 = MoveT.left) := by
  intro fuel
  induction fuel with
  | zero => intro min max _ _ s hs; simp [searchTrace] at hs
  | succ fuel ih =>
    intro min max h1 h2 s hs
    rcases Nat.lt_or_ge max min with hlt | hle
    · rw [searchTrace_empty _ _ _ _ hlt] at hs
      simp at hs
    · rcases MoveT.cases3 (body ((min + max) / 2)).1 with hm | hm | hm
      · rw [searchTrace_left hle hm, List.mem_cons] at hs
        rcases hs with rfl | hs
        · exact ⟨h1, h2⟩
        · have := hL _ hm
          exact ih _ _ h1 (Or.inr (by
            rw [show (min + max) / 2 - 1 + 1 = (min + max) / 2 by omega]
            exact hm)) s hs
      · rw [searchTrace_right hle hm, List.mem_cons] at hs
        rcases hs with rfl | hs
        · exact ⟨h1, h2⟩
        · exact ih _ _ (Or.inr (by
            rw [show (min + max) / 2 + 1 - 1 = (min + max) / 2 by omega]
            exact hm)) h2 s hs
      · rw [searchTrace_stop hle hm, List.mem_singleton] at hs
        subst hs
        exact ⟨h1, h2⟩

/-- An iteration that ends in `stop` is the last one: its probe is the value of `mid` after
the loop. -/
theorem searchTrace_stop_last (body : Nat → MoveT × List Nat) :
    ∀ fuel min max m0 s, s ∈ searchTrace body fuel min max → s.move = MoveT.stop →
      lastMid (searchTrace body fuel min max) m0 = s.mid := by
  intro fuel
  induction fuel with
  | zero => intro min max m0 s hs; simp [searchTrace] at hs
  | succ fuel ih =>
    intro min max m0 s hs hst
    rcases Nat.lt_or_ge max min with hlt | hle
    · rw [searchTrace_empty _ _ _ _ hlt] at hs
      simp at hs
    · rcases MoveT.cases3 (body ((min + max) / 2)).1 with hm | hm | hm
      · rw [searchTrace_left hle hm] at hs ⊢
        rw [List.mem_cons] at hs
        rcases hs with rfl | hs
        · simp at hst
        · exact ih _ _ _ s hs hst
      · rw [searchTrace_right hle hm] at hs ⊢
        rw [List.mem_cons] at hs
        rcases hs with rfl | hs
        · simp at hst
        · exact ih _ _ _ s hs hst
      · rw [searchTrace_stop hle hm] at hs ⊢
        rw [List.mem_singleton] at hs
        subst hs
        rfl

theorem searchTrace_head (body : Nat → MoveT × List Nat) (fuel min max : Nat) :
    ∀ x ∈ (searchTrace body fuel min max).head?, x.min = min ∧ x.max = max := by
  intro x hx
  cases fuel with
  | zero => simp [searchTrace] at hx
  | succ fuel =>
    rcases Nat.lt_or_ge max min with hlt | hle
    · rw [searchTrace_empty _ _ _ _ hlt] at hx
      simp at hx
    · rcases MoveT.cases3 (body ((min + max) / 2)).1 with hm | hm | hm
      · rw [searchTrace_left hle hm] at hx
        simp at hx
        subst hx
        exact ⟨rfl, rfl⟩
      · rw [searchTrace_right hle hm] at hx
        simp at hx
        subst hx
        exact ⟨rfl, rfl⟩
      · rw [searchTrace_stop hle hm] at hx
        simp at hx
        subst hx
        exact ⟨rfl, rfl⟩

/-- Every iteration that does not leave the loop replaces the interval by one of at most half
its length. -/
theorem searchTrace_halving (body : Nat → MoveT × List Nat)
    (hL : ∀ m, (body m).1 = MoveT.left → 0 < m) :
    ∀ fuel min max,
      List.Chain' (fun s t : StepT => t.max + 1 - t.min ≤ (s.max + 1 - s.min) / 2)
        (searchTrace body fuel min max) := by
  intro fuel
  induction fuel with
  | zero => intro min max; simp [searchTrace]
  | succ fuel ih =>
    intro min max
    rcases Nat.lt_or_ge max min with hlt | hle
    · rw [searchTrace_empty _ _ _ _ hlt]
      exact List.chain'_nil
    · rcases MoveT.cases3 (body ((min + max) / 2)).1 with hm | hm | hm
      · have h0 := hL _ hm
        rw [searchTrace_left hle hm, List.chain'_cons']
        refine ⟨fun x hx => ?_, ih _ _⟩
        obtain ⟨e1, e2⟩ := searchTrace_head body fuel min ((min + max) / 2 - 1) x hx
        rw [e1, e2]
        show (min + max) / 2 - 1 + 1 - min ≤ (max + 1 - min) / 2
        omega
      · rw [searchTrace_right hle hm, List.chain'_cons']
        refine ⟨fun x hx => ?_, ih _ _⟩
        obtain ⟨e1, e2⟩ := searchTrace_head body fuel ((min + max) / 2 + 1) max x hx
        rw [e1, e2]
        show max + 1 - ((min + max) / 2 + 1) ≤ (max + 1 - min) / 2
        omega
      · rw [searchTrace_stop hle hm]
        exact List.chain'_singleton _

theorem log_half_step (k k' : Nat) (h1 : 1 ≤ k') (h2 : k' ≤ k / 2) :
    Nat.log 2 k' + 1 ≤ Nat.log 2 k := by
  have hk : 2 ≤ k := by omega
  have e := Nat.log_div_base 2 k
  have hpos : 0 < Nat.log 2 k := Nat.log_pos (by omega) hk
  have hm : Nat.log 2 k' ≤ Nat.log 2 (k / 2) := Nat.log_mono_right h2
  omega

/-- A search over `k = max + 1 - min` indices makes at most `⌊log₂ k⌋ + 1` probes. -/
theorem searchTrace_length (body : Nat → MoveT × List Nat)
    (hL : ∀ m, (body m).1 = MoveT.left → 0 < m) :
    ∀ fuel min max, (searchTrace body fuel min max).length ≤ Nat.log 2 (max + 1 - min) + 1 := by
  intro fuel
  induction fuel with
  | zero => intro min max; simp [searchTrace]
  | succ fuel ih =>
    intro min max
    rcases Nat.lt_or_ge max min with hlt | hle
    · rw [searchTrace_empty _ _ _ _ hlt]
      simp
    · rcases MoveT.cases3 (body ((min + max) / 2)).1 with hm | hm | hm
      · have h0 := hL _ hm
        rw [searchTrace_left hle hm, List.length_cons]
        rcases Nat.lt_or_ge min ((min + max) / 2) with h | h
        · have := ih min ((min + max) / 2 - 1)
          have := log_half_step (max + 1 - min) ((min + max) / 2 - 1 + 1 - min)
            (by omega) (by omega)
          omega
        · rw [searchTrace_empty _ _ _ _ (by omega)]
          simp
      · rw [searchTrace_right hle hm, List.length_cons]
        rcases Nat.lt_or_ge ((min + max) / 2) max with h | h
        · have := ih ((min + max) / 2 + 1) max
          have := log_half_step (max + 1 - min) (max + 1 - ((min + max) / 2 + 1))
            (by omega) (by omega)
          omega
        · rw [searchTrace_empty _ _ _ _ (by omega)]
          simp
      · rw [searchTrace_stop hle hm]
        simp

theorem tangentUpperLoop_trace (p : PointT) (H : List PointT) (nu : Nat) :
    ∀ fuel min max m0, tangentUpperLoop p H nu fuel min max m0
      = lastMid (searchTrace (tangentUpperBody p H nu) fuel min max) m0 := by
  intro fuel
  induction fuel with
  | zero => intro min max m0; rfl
  | succ fuel ih =>
    intro min max m0
    rw [tangentUpperLoop]
    rcases Nat.lt_or_ge max min with hlt | hle
    · rw [if_neg (by omega), searchTrace_empty _ _ _ _ hlt]
      rfl
    · rw [if_pos hle]
      simp only
      split_ifs with h1 h2 h3
      · rw [searchTrace_left hle (by unfold tangentUpperBody; rw [if_pos h1]), ih]
        rfl
      · rw [searchTrace_stop hle (by unfold tangentUpperBody; rw [if_neg h1, if_pos h2])]
        rfl
      · rw [searchTrace_stop hle (by
          unfold tangentUpperBody; rw [if_neg h1, if_neg h2, if_neg (not_not.2 h3)])]
        rfl
      · rw [searchTrace_right hle (by
          unfold tangentUpperBody; rw [if_neg h1, if_neg h2, if_pos h3]), ih]
        rfl

theorem tangentLowerLoop_trace (p : PointT) (H : List PointT) (nu n : Nat) :
    ∀ fuel min max m0, tangentLowerLoop p H nu n fuel min max m0
      = lastMid (searchTrace (tangentLowerBody p H nu n) fuel min max) m0 := by
  intro fuel
  induction fuel with
  | zero => intro min max m0; rfl
  | succ fuel ih =>
    intro min max m0
    rw [tangentLowerLoop]
    rcases Nat.lt_or_ge max min with hlt | hle
    · rw [if_neg (by omega), searchTrace_empty _ _ _ _ hlt]
      rfl
    · rw [if_pos hle]
      simp only
      split_ifs with h1 h2 h3
      · rw [searchTrace_left hle (by unfold tangentLowerBody; rw [if_pos h1]), ih]
        rfl
      · rw [searchTrace_stop hle (by unfold tangentLowerBody; rw [if_neg h1, if_pos h2])]
        rfl
      · rw [searchTrace_right hle (by
          unfold tangentLowerBody; rw [if_neg h1, if_neg h2, if_pos h3]), ih]
        rfl
      · rw [searchTrace_stop hle (by
          unfold tangentLowerBody; rw [if_neg h1, if_neg h2, if_neg h3])]
        rfl

theorem joinUpperLoop_trace (HI1 HI2 : HullT) :
    ∀ fuel min max s0,
      (searchTrace (joinUpperBody HI1 HI2) fuel min max = [] →
        joinUpperLoop HI1 HI2 fuel min max s0 = s0) ∧
      (searchTrace (joinUpperBody HI1 HI2) fuel min max ≠ [] →
        joinUpperLoop HI1 HI2 fuel min max s0
          = (lastMid (searchTrace (joinUpperBody HI1 HI2) fuel min max) s0.1,
            findTangent (rd HI1.H
              (lastMid (searchTrace (joinUpperBody HI1 HI2) fuel min max) s0.1)) HI2 1)) := by
  intro fuel
  induction fuel with
  | zero => intro min max s0; exact ⟨fun _ => rfl, fun h => absurd rfl h⟩
  | succ fuel ih =>
    intro min max s0
    rw [joinUpperLoop]
    rcases Nat.lt_or_ge max min with hlt | hle
    · rw [if_neg (by omega), searchTrace_empty _ _ _ _ hlt]
      exact ⟨fun _ => rfl, fun h => absurd rfl h⟩
    · rw [if_pos hle]
      simp only
      by_cases h1 : 0 < (min + max) / 2 ∧ ¬ RIGHT (rd HI1.H ((min + max) / 2 - 1))
          (rd HI1.H ((min + max) / 2))
          (rd HI2.H (findTangent (rd HI1.H ((min + max) / 2)) HI2 1))
      · rw [if_pos h1, searchTrace_left hle (by unfold joinUpperBody; rw [if_pos h1])]
        obtain ⟨e1, e2⟩ := ih min ((min + max) / 2 - 1)
          ((min + max) / 2, findTangent (rd HI1.H ((min + max) / 2)) HI2 1)
        refine ⟨fun h => absurd h (List.cons_ne_nil _ _), fun _ => ?_⟩
        by_cases he : searchTrace (joinUpperBody HI1 HI2) fuel min ((min + max) / 2 - 1) = []
        · rw [e1 he, he]
          rfl
        · rw [e2 he]
          rfl
      · rw [if_neg h1]
        by_cases h2 : (min + max) / 2 = HI1.nu
        · rw [if_pos h2,
            searchTrace_stop hle (by unfold joinUpperBody; rw [if_neg h1, if_pos h2])]
          exact ⟨fun h => absurd h (List.cons_ne_nil _ _), fun _ => rfl⟩
        · rw [if_neg h2]
          by_cases h3 : RIGHT (rd HI1.H ((min + max) / 2)) (rd HI1.H ((min + max) / 2 + 1))
              (rd HI2.H (findTangent (rd HI1.H ((min + max) / 2)) HI2 1))
          · rw [if_pos h3, searchTrace_right hle (by
              unfold joinUpperBody; rw [if_neg h1, if_neg h2, if_pos h3])]
            obtain ⟨e1, e2⟩ := ih ((min + max) / 2 + 1) max
              ((min + max) / 2, findTangent (rd HI1.H ((min + max) / 2)) HI2 1)
            refine ⟨fun h => absurd h (List.cons_ne_nil _ _), fun _ => ?_⟩
            by_cases he : searchTrace (joinUpperBody HI1 HI2) fuel ((min + max) / 2 + 1) max = []
            · rw [e1 he, he]
              rfl
            · rw [e2 he]
              rfl
          · rw [if_neg h3, searchTrace_stop hle (by
              unfold joinUpperBody; rw [if_neg h1, if_neg h2, if_neg h3])]
            exact ⟨fun h => absurd h (List.cons_ne_nil _ _), fun _ => rfl⟩

theorem joinLowerLoop_trace (HI1 HI2 : HullT) :
    ∀ fuel min max s0,
      (searchTrace (joinLowerBody HI1 HI2) fuel min max = [] →
        joinLowerLoop HI1 HI2 fuel min max s0 = s0) ∧
      (searchTrace (joinLowerBody HI1 HI2) fuel min max ≠ [] →
        joinLowerLoop HI1 HI2 fuel min max s0
          = (lastMid (searchTrace (joinLowerBody HI1 HI2) fuel min max) s0.1,
            findTangent (rd HI1.H
              (lastMid (searchTrace (joinLowerBody HI1 HI2) fuel min max) s0.1
                % (HI1.nu + HI1.nl))) HI2 0)) := by
  intro fuel
  induction fuel with
  | zero => intro min max s0; exact ⟨fun _ => rfl, fun h => absurd rfl h⟩
  | succ fuel ih =>
    intro min max s0
    rw [joinLowerLoop]
    simp only
    rcases Nat.lt_or_ge max min with hlt | hle
    · rw [if_neg (by omega), searchTrace_empty _ _ _ _ hlt]
      exact ⟨fun _ => rfl, fun h => absurd rfl h⟩
    · rw [if_pos hle]
      by_cases h1 : HI1.nu < (min + max) / 2 ∧
          LEFT (rd HI1.H ((min + max) / 2 % (HI1.nu + HI1.nl)))
            (rd HI1.H ((min + max) / 2 - 1))
            (rd HI2.H (findTangent (rd HI1.H ((min + max) / 2 % (HI1.nu + HI1.nl))) HI2 0))
      · rw [if_pos h1, searchTrace_left hle (by unfold joinLowerBody; rw [if_pos h1])]
        obtain ⟨e1, e2⟩ := ih min ((min + max) / 2 - 1)
          ((min + max) / 2,
            findTangent (rd HI1.H ((min + max) / 2 % (HI1.nu + HI1.nl))) HI2 0)
        refine ⟨fun h => absurd h (List.cons_ne_nil _ _), fun _ => ?_⟩
        by_cases he : searchTrace (joinLowerBody HI1 HI2) fuel min ((min + max) / 2 - 1) = []
        · rw [e1 he, he]
          rfl
        · rw [e2 he]
          rfl
      · rw [if_neg h1]
        by_cases h2 : (min + max) / 2 = HI1.nu + HI1.nl
        · rw [if_pos h2,
            searchTrace_stop hle (by unfold joinLowerBody; rw [if_neg h1, if_pos h2])]
          exact ⟨fun h => absurd h (List.cons_ne_nil _ _), fun _ => rfl⟩
        · rw [if_neg h2]
          by_cases h3 : ¬ LEFT (rd HI1.H (((min + max) / 2 + 1) % (HI1.nu + HI1.nl)))
              (rd HI1.H ((min + max) / 2))
              (rd HI2.H
                (findTangent (rd HI1.H ((min + max) / 2 % (HI1.nu + HI1.nl))) HI2 0))
          · rw [if_pos h3, searchTrace_right hle (by
              unfold joinLowerBody; rw [if_neg h1, if_neg h2, if_pos h3])]
            obtain ⟨e1, e2⟩ := ih ((min + max) / 2 + 1) max
              ((min + max) / 2,
                findTangent (rd HI1.H ((min + max) / 2 % (HI1.nu + HI1.nl))) HI2 0)
            refine ⟨fun h => absurd h (List.cons_ne_nil _ _), fun _ => ?_⟩
            by_cases he : searchTrace (joinLowerBody HI1 HI2) fuel ((min + max) / 2 + 1) max = []
            · rw [e1 he, he]
              rfl
            · rw [e2 he]
              rfl
          · rw [if_neg h3, searchTrace_stop hle (by
              unfold joinLowerBody; rw [if_neg h1, if_neg h2, if_neg h3])]
            exact ⟨fun h => absurd h (List.cons_ne_nil _ _), fun _ => rfl⟩

/-! ### What the loop bodies do -/

theorem tangentUpperBody_spec (p : PointT) (H : List PointT) (nu m : Nat) :
    ((tangentUpperBody p H nu m).1 = MoveT.left ↔
      (0 < m ∧ RIGHT p (rd H (m - 1)) (rd H m))) ∧
    ((tangentUpperBody p H nu m).1 = MoveT.right ↔
      (¬ (0 < m ∧ RIGHT p (rd H (m - 1)) (rd H m)) ∧ m ≠ nu ∧
        ¬ RIGHT p (rd H m) (rd H (m + 1)))) ∧
    ((tangentUpperBody p H nu m).1 = MoveT.stop ↔
      (¬ (0 < m ∧ RIGHT p (rd H (m - 1)) (rd H m)) ∧
        (m = nu ∨ RIGHT p (rd H m) (rd H (m + 1))))) := by
  unfold tangentUpperBody
  by_cases h1 : 0 < m ∧ RIGHT p (rd H (m - 1)) (rd H m)
  · simp only [if_pos h1]
    exact ⟨⟨fun _ => h1, fun _ => trivial⟩, ⟨fun h => by simp at h, fun h => absurd h1 h.1⟩,
      ⟨fun h => by simp at h, fun h => absurd h1 h.1⟩⟩
  · by_cases h2 : m = nu
    · simp only [if_neg h1, if_pos h2]
      exact ⟨⟨fun h => by simp at h, fun h => absurd h h1⟩,
        ⟨fun h => by simp at h, fun h => absurd h2 h.2.1⟩,
        ⟨fun _ => ⟨h1, Or.inl h2⟩, fun _ => trivial⟩⟩
    · by_cases h3 : RIGHT p (rd H m) (rd H (m + 1))
      · simp only [if_neg h1, if_neg h2, if_neg (not_not.2 h3)]
        exact ⟨⟨fun h => by simp at h, fun h => absurd h h1⟩,
          ⟨fun h => by simp at h, fun h => absurd h3 h.2.2⟩,
          ⟨fun _ => ⟨h1, Or.inr h3⟩, fun _ => trivial⟩⟩
      · simp only [if_neg h1, if_neg h2, if_pos h3]
        exact ⟨⟨fun h => by simp at h, fun h => absurd h h1⟩,
          ⟨fun _ => ⟨h1, h2, h3⟩, fun _ => trivial⟩,
          ⟨fun h => by simp at h, fun h => by
            rcases h.2 with h' | h'
            · exact absurd h' h2
            · exact absurd h' h3⟩⟩

theorem tangentUpperBody_reads (p : PointT) (H : List PointT) (nu nl m : Nat) (hm : m ≤ nu)
    (hnl : 1 ≤ nl) : ∀ i ∈ (tangentUpperBody p H nu m).2, i < nu + nl := by
  intro i hi
  unfold tangentUpperBody at hi
  split_ifs at hi with h1 h2 h3 h4 h5 <;> simp at hi <;> omega

theorem tangentLowerBody_spec (p : PointT) (H : List PointT) (nu n m : Nat) :
    ((tangentLowerBody p H nu n m).1 = MoveT.left ↔
      (nu < m ∧ ¬ LEFT p (rd H (m % n)) (rd H (m - 1)))) ∧
    ((tangentLowerBody p H nu n m).1 = MoveT.right ↔
      (¬ (nu < m ∧ ¬ LEFT p (rd H (m % n)) (rd H (m - 1))) ∧ m ≠ n ∧
        LEFT p (rd H ((m + 1) % n)) (rd H m))) ∧
    ((tangentLowerBody p H nu n m).1 = MoveT.stop ↔
      (¬ (nu < m ∧ ¬ LEFT p (rd H (m % n)) (rd H (m - 1))) ∧
        (m = n ∨ ¬ LEFT p (rd H ((m + 1) % n)) (rd H m)))) := by
  unfold tangentLowerBody
  by_cases h1 : nu < m ∧ ¬ LEFT p (rd H (m % n)) (rd H (m - 1))
  · simp only [if_pos h1]
    exact ⟨⟨fun _ => h1, fun _ => trivial⟩, ⟨fun h => by simp at h, fun h => absurd h1 h.1⟩,
      ⟨fun h => by simp at h, fun h => absurd h1 h.1⟩⟩
  · by_cases h2 : m = n
    · simp only [if_neg h1, if_pos h2]
      exact ⟨⟨fun h => by simp at h, fun h => absurd h h1⟩,
        ⟨fun h => by simp at h, fun h => absurd h2 h.2.1⟩,
        ⟨fun _ => ⟨h1, Or.inl h2⟩, fun _ => trivial⟩⟩
    · by_cases h3 : LEFT p (rd H ((m + 1) % n)) (rd H m)
      · simp only [if_neg h1, if_neg h2, if_pos h3]
        exact ⟨⟨fun h => by simp at h, fun h => absurd h h1⟩,
          ⟨fun _ => ⟨h1, h2, h3⟩, fun _ => trivial⟩,
          ⟨fun h => by simp at h, fun h => by
            rcases h.2 with h' | h'
            · exact absurd h' h2
            · exact absurd h3 h'⟩⟩
      · simp only [if_neg h1, if_neg h2, if_neg h3]
        exact ⟨⟨fun h => by simp at h, fun h => absurd h h1⟩,
          ⟨fun h => by simp at h, fun h => absurd h.2.2 h3⟩,
          ⟨fun _ => ⟨h1, Or.inr h3⟩, fun _ => trivial⟩⟩

theorem tangentLowerBody_reads (p : PointT) (H : List PointT) (nu nl m : Nat) (hnu : 1 ≤ nu)
    (hm : m ≤ nu + nl) : ∀ i ∈ (tangentLowerBody p H nu (nu + nl) m).2, i < nu + nl := by
  intro i hi
  have h0 : 0 < nu + nl := by omega
  have e1 := Nat.mod_lt m h0
  have e2 := Nat.mod_lt (m + 1) h0
  unfold tangentLowerBody at hi
  split_ifs at hi with h1 h2 h3 h4 h5 <;> simp at hi <;> omega

theorem joinUpperBody_spec (HI1 HI2 : HullT) (m : Nat) :
    ((joinUpperBody HI1 HI2 m).1 = MoveT.left ↔
      (0 < m ∧ ¬ RIGHT (rd HI1.H (m - 1)) (rd HI1.H m)
        (rd HI2.H (findTangent (rd HI1.H m) HI2 1)))) ∧
    ((joinUpperBody HI1 HI2 m).1 = MoveT.right ↔
      (¬ (0 < m ∧ ¬ RIGHT (rd HI1.H (m - 1)) (rd HI1.H m)
          (rd HI2.H (findTangent (rd HI1.H m) HI2 1))) ∧ m ≠ HI1.nu ∧
        RIGHT (rd HI1.H m) (rd HI1.H (m + 1)) (rd HI2.H (findTangent (rd HI1.H m) HI2 1)))) := by
  unfold joinUpperBody
  by_cases h1 : 0 < m ∧ ¬ RIGHT (rd HI1.H (m - 1)) (rd HI1.H m)
      (rd HI2.H (findTangent (rd HI1.H m) HI2 1))
  · simp only [if_pos h1]
    exact ⟨⟨fun _ => h1, fun _ => trivial⟩, ⟨fun h => by simp at h, fun h => absurd h1 h.1⟩⟩
  · by_cases h2 : m = HI1.nu
    · simp only [if_neg h1, if_pos h2]
      exact ⟨⟨fun h => by simp at h, fun h => absurd h h1⟩,
        ⟨fun h => by simp at h, fun h => absurd h2 h.2.1⟩⟩
    · by_cases h3 : RIGHT (rd HI1.H m) (rd HI1.H (m + 1))
          (rd HI2.H (findTangent (rd HI1.H m) HI2 1))
      · simp only [if_neg h1, if_neg h2, if_pos h3]
        exact ⟨⟨fun h => by simp at h, fun h => absurd h h1⟩,
          ⟨fun _ => ⟨h1, h2, h3⟩, fun _ => trivial⟩⟩
      · simp only [if_neg h1, if_neg h2, if_neg h3]
        exact ⟨⟨fun h => by simp at h, fun h => absurd h h1⟩,
          ⟨fun h => by simp at h, fun h => absurd h.2.2 h3⟩⟩

theorem joinUpperBody_reads (HI1 HI2 : HullT) (m : Nat) (hm : m ≤ HI1.nu) (hnl : 1 ≤ HI1.nl) :
    ∀ i ∈ (joinUpperBody HI1 HI2 m).2, i < HI1.nu + HI1.nl := by
  intro i hi
  unfold joinUpperBody at hi
  split_ifs at hi with h1 h2 h3 h4 h5 <;> simp at hi <;> omega

theorem joinLowerBody_spec (HI1 HI2 : HullT) (m : Nat) :
    ((joinLowerBody HI1 HI2 m).1 = MoveT.left ↔
      (HI1.nu < m ∧ LEFT (rd HI1.H (m % (HI1.nu + HI1.nl))) (rd HI1.H (m - 1))
        (rd HI2.H (findTangent (rd HI1.H (m % (HI1.nu + HI1.nl))) HI2 0)))) ∧
    ((joinLowerBody HI1 HI2 m).1 = MoveT.right ↔
      (¬ (HI1.nu < m ∧ LEFT (rd HI1.H (m % (HI1.nu + HI1.nl))) (rd HI1.H (m - 1))
          (rd HI2.H (findTangent (rd HI1.H (m % (HI1.nu + HI1.nl))) HI2 0))) ∧
        m ≠ HI1.nu + HI1.nl ∧
        ¬ LEFT (rd HI1.H ((m + 1) % (HI1.nu + HI1.nl))) (rd HI1.H m)
          (rd HI2.H (findTangent (rd HI1.H (m % (HI1.nu + HI1.nl))) HI2 0)))) := by
  unfold joinLowerBody
  by_cases h1 : HI1.nu < m ∧ LEFT (rd HI1.H (m % (HI1.nu + HI1.nl))) (rd HI1.H (m - 1))
      (rd HI2.H (findTangent (rd HI1.H (m % (HI1.nu + HI1.nl))) HI2 0))
  · simp only [if_pos h1]
    exact ⟨⟨fun _ => h1, fun _ => trivial⟩, ⟨fun h => by simp at h, fun h => absurd h1 h.1⟩⟩
  · by_cases h2 : m = HI1.nu + HI1.nl
    · simp only [if_neg h1, if_pos h2]
      exact ⟨⟨fun h => by simp at h, fun h => absurd h h1⟩,
        ⟨fun h => by simp at h, fun h => absurd h2 h.2.1⟩⟩
    · by_cases h3 : LEFT (rd HI1.H ((m + 1) % (HI1.nu + HI1.nl))) (rd HI1.H m)
          (rd HI2.H (findTangent (rd HI1.H (m % (HI1.nu + HI1.nl))) HI2 0))
      · simp only [if_neg h1, if_neg h2, if_neg (not_not.2 h3)]
        exact ⟨⟨fun h => by simp at h, fun h => absurd h h1⟩,
          ⟨fun h => by simp at h, fun h => absurd h3 h.2.2⟩⟩
      · simp only [if_neg h1, if_neg h2, if_pos h3]
        exact ⟨⟨fun h => by simp at h, fun h => absurd h h1⟩,
          ⟨fun _ => ⟨h1, h2, h3⟩, fun _ => trivial⟩⟩

theorem joinLowerBody_reads (HI1 HI2 : HullT) (m : Nat) (hnu : 1 ≤ HI1.nu)
    (hm : m ≤ HI1.nu + HI1.nl) : ∀ i ∈ (joinLowerBody HI1 HI2 m).2, i < HI1.nu + HI1.nl := by
  intro i hi
  have h0 : 0 < HI1.nu + HI1.nl := by omega
  have e1 := Nat.mod_lt m h0
  have e2 := Nat.mod_lt (m + 1) h0
  unfold joinLowerBody at hi
  split_ifs at hi with h1 h2 h3 h4 h5 <;> simp at hi <;> omega

/-! ### `findTangent` as a trace -/

theorem findTangent_upper_trace (p : PointT) (HI : HullT) :
    findTangent p HI 1
      = lastMid (searchTrace (tangentUpperBody p HI.H HI.nu) (HI.nu + 1) 0 HI.nu) 0
        % (HI.nu + HI.nl) := by
  unfold findTangent
  simp only [ne_eq, one_ne_zero, not_false_eq_true, if_true]
  rw [tangentUpperLoop_trace]

theorem findTangent_lower_trace (p : PointT) (HI : HullT) :
    findTangent p HI 0
      = lastMid (searchTrace (tangentLowerBody p HI.H HI.nu (HI.nu + HI.nl)) (HI.nl + 1) HI.nu
          (HI.nu + HI.nl)) 0 % (HI.nu + HI.nl) := by
  unfold findTangent
  simp only [ne_eq, not_true_eq_false, if_false]
  rw [tangentLowerLoop_trace]

theorem tangentUpperBody_adj (p : PointT) (H : List PointT) (nu : Nat) :
    ∀ m, (tangentUpperBody p H nu m).1 = MoveT.right →
      (tangentUpperBody p H nu (m + 1)).1 ≠ MoveT.left := by
  intro m h1 h2
  have a := ((tangentUpperBody_spec p H nu m).2.1.1 h1).2.2
  have b := ((tangentUpperBody_spec p H nu (m + 1)).1.1 h2).2
  rw [Nat.add_sub_cancel] at b
  exact a b

theorem tangentLowerBody_adj (p : PointT) (H : List PointT) (nu n : Nat) :
    ∀ m, (tangentLowerBody p H nu n m).1 = MoveT.right →
      (tangentLowerBody p H nu n (m + 1)).1 ≠ MoveT.left := by
  intro m h1 h2
  have a := ((tangentLowerBody_spec p H nu n m).2.1.1 h1).2.2
  have b := ((tangentLowerBody_spec p H nu n (m + 1)).1.1 h2).2
  rw [Nat.add_sub_cancel] at b
  exact b a

/-- Claim C23 (the boundary probe stops the search): on any chain with `nu ≥ 1` and `nl ≥ 1`
and for any point `p`, an iteration of the upper search of `findTangent` that probes
`mid = nu` ends in `break` and `findTangent` returns the index `nu`; an iteration of the lower
search that probes `mid = nu + nl` ends in `break` and `findTangent` returns the index `0`. -/
theorem findTangent_boundary_probe (p : PointT) (HI : HullT) (hnu : 1 ≤ HI.nu)
    (hnl : 1 ≤ HI.nl) :
    (∀ s ∈ searchTrace (tangentUpperBody p HI.H HI.nu) (HI.nu + 1) 0 HI.nu,
      s.mid = HI.nu → s.move = MoveT.stop ∧ findTangent p HI 1 = HI.nu) ∧
    (∀ s ∈ searchTrace (tangentLowerBody p HI.H HI.nu (HI.nu + HI.nl)) (HI.nl + 1) HI.nu
        (HI.nu + HI.nl),
      s.mid = HI.nu + HI.nl → s.move = MoveT.stop ∧ findTangent p HI 0 = 0) := by
  constructor
  · intro s hs hmid
    obtain ⟨m1, m2, m3, m4, m5, m6, -⟩ := searchTrace_mem _ _ _ _ s hs
    obtain ⟨i1, -⟩ := searchTrace_inv (tangentUpperBody p HI.H HI.nu) 0 HI.nu
      (fun m h => ((tangentUpperBody_spec p HI.H HI.nu m).1.1 h).1) _ _ _
      (Or.inl rfl) (Or.inl rfl) s hs
    have emin : s.min = HI.nu := by omega
    have hst : s.move = MoveT.stop := by
      rcases MoveT.cases3 s.move with h | h | h
      · exfalso
        rw [m6, hmid] at h
        rcases i1 with i1 | i1
        · omega
        · rw [emin] at i1
          have := tangentUpperBody_adj p HI.H HI.nu _ i1
          rw [show HI.nu - 1 + 1 = HI.nu by omega] at this
          exact this h
      · exfalso
        rw [m6, hmid] at h
        exact ((tangentUpperBody_spec p HI.H HI.nu HI.nu).2.1.1 h).2.1 rfl
      · exact h
    refine ⟨hst, ?_⟩
    rw [findTangent_upper_trace, searchTrace_stop_last _ _ _ _ 0 s hs hst, hmid]
    exact Nat.mod_eq_of_lt (by omega)
  · intro s hs hmid
    obtain ⟨m1, m2, m3, m4, m5, m6, -⟩ := searchTrace_mem _ _ _ _ s hs
    obtain ⟨i1, -⟩ := searchTrace_inv (tangentLowerBody p HI.H HI.nu (HI.nu + HI.nl)) HI.nu
      (HI.nu + HI.nl)
      (fun m h => ((tangentLowerBody_spec p HI.H HI.nu (HI.nu + HI.nl) m).1.1 h).1) _ _ _
      (Or.inl rfl) (Or.inl rfl) s hs
    have emin : s.min = HI.nu + HI.nl := by omega
    have hst : s.move = MoveT.stop := by
      rcases MoveT.cases3 s.move with h | h | h
      · exfalso
        rw [m6, hmid] at h
        rcases i1 with i1 | i1
        · omega
        · rw [emin] at i1
          have := tangentLowerBody_adj p HI.H HI.nu (HI.nu + HI.nl) _ i1
          rw [show HI.nu + HI.nl - 1 + 1 = HI.nu + HI.nl by omega] at this
          exact this h
      · exfalso
        rw [m6, hmid] at h
        exact ((tangentLowerBody_spec p HI.H HI.nu (HI.nu + HI.nl) _).2.1.1 h).2.1 rfl
      · exact h
    refine ⟨hst, ?_⟩
    rw [findTangent_lower_trace, searchTrace_stop_last _ _ _ _ 0 s hs hst, hmid]
    exact Nat.mod_self _

theorem findTangent_boundary_probe_witness :
    (1 ≤ (⟨[pt 3 0, pt 4 2, pt 5 3, pt 6 2, pt 7 0], 2, 3⟩ : HullT).nu) ∧
    (⟨2, 2, 2, [1, 2], MoveT.stop⟩ : StepT)
      ∈ searchTrace (tangentUpperBody (pt 0 9) [pt 3 0, pt 4 2, pt 5 3, pt 6 2, pt 7 0] 2) 3 0 2 ∧
    findTangent (pt 0 9) ⟨[pt 3 0, pt 4 2, pt 5 3, pt 6 2, pt 7 0], 2, 3⟩ 1 = 2 :=
  ⟨by decide, by decide,
    ((findTangent_boundary_probe (pt 0 9) ⟨[pt 3 0, pt 4 2, pt 5 3, pt 6 2, pt 7 0], 2, 3⟩
      (by decide) (by decide)).1 ⟨2, 2, 2, [1, 2], MoveT.stop⟩ (by decide) rfl).2⟩

/-- Claim C26 (index safety of the searches): for chains with `nu ≥ 1` and `nl ≥ 1`, in every
iteration of the two searches of `findTangent` on `HI2` and of the two searches of `joinHulls`
on `HI1` the interval stays inside the searched range (`[0, nu]` for an upper search,
`[nu, nu + nl]` for a lower search; `max` is lowered to `mid - 1` only when `mid` is above
the lower end and `min` raised to `mid + 1` only when `mid` is below the upper end), every
index at which the searched array is read is below `nu + nl`, and the index returned by
`findTangent` is in `[0, nu]` for the upper search and is `0` or in `[nu, nu + nl - 1]` for
the lower search. -/
theorem search_index_safety (p : PointT) (HI1 HI2 : HullT) (hnu1 : 1 ≤ HI1.nu)
    (hnl1 : 1 ≤ HI1.nl) (hnu2 : 1 ≤ HI2.nu) (hnl2 : 1 ≤ HI2.nl) :
    (∀ s ∈ searchTrace (tangentUpperBody p HI2.H HI2.nu) (HI2.nu + 1) 0 HI2.nu,
      s.min ≤ s.mid ∧ s.mid ≤ s.max ∧ s.max ≤ HI2.nu ∧
      (s.move = MoveT.left → 0 < s.mid) ∧ (s.move = MoveT.right → s.mid < HI2.nu) ∧
      ∀ i ∈ s.reads, i < HI2.nu + HI2.nl) ∧
    (∀ s ∈ searchTrace (tangentLowerBody p HI2.H HI2.nu (HI2.nu + HI2.nl)) (HI2.nl + 1) HI2.nu
        (HI2.nu + HI2.nl),
      HI2.nu ≤ s.min ∧ s.min ≤ s.mid ∧ s.mid ≤ s.max ∧ s.max ≤ HI2.nu + HI2.nl ∧
      (s.move = MoveT.left → HI2.nu < s.mid) ∧
      (s.move = MoveT.right → s.mid < HI2.nu + HI2.nl) ∧
      ∀ i ∈ s.reads, i < HI2.nu + HI2.nl) ∧
    findTangent p HI2 1 ≤ HI2.nu ∧
    (findTangent p HI2 0 = 0 ∨
      (HI2.nu ≤ findTangent p HI2 0 ∧ findTangent p HI2 0 ≤ HI2.nu + HI2.nl - 1)) ∧
    (∀ s ∈ searchTrace (joinUpperBody HI1 HI2) (HI1.nu + 1) 0 HI1.nu,
      s.min ≤ s.mid ∧ s.mid ≤ s.max ∧ s.max ≤ HI1.nu ∧
      (s.move = MoveT.left → 0 < s.mid) ∧ (s.move = MoveT.right → s.mid < HI1.nu) ∧
      ∀ i ∈ s.reads, i < HI1.nu + HI1.nl) ∧
    (∀ s ∈ searchTrace (joinLowerBody HI1 HI2) (HI1.nl + 1) HI1.nu (HI1.nu + HI1.nl),
      HI1.nu ≤ s.min ∧ s.min ≤ s.mid ∧ s.mid ≤ s.max ∧ s.max ≤ HI1.nu + HI1.nl ∧
      (s.move = MoveT.left → HI1.nu < s.mid) ∧
      (s.move = MoveT.right → s.mid < HI1.nu + HI1.nl) ∧
      ∀ i ∈ s.reads, i < HI1.nu + HI1.nl) := by
  refine ⟨fun s hs => ?_, fun s hs => ?_, (findTangent_upper_local p HI2 hnl2).1, ?_,
    fun s hs => ?_, fun s hs => ?_⟩
  · obtain ⟨m1, m2, m3, m4, m5, m6, m7⟩ := searchTrace_mem _ _ _ _ s hs
    refine ⟨m3, m4, m2, fun h => ?_, fun h => ?_, ?_⟩
    · rw [m6] at h
      exact ((tangentUpperBody_spec p HI2.H HI2.nu s.mid).1.1 h).1
    · rw [m6] at h
      have := ((tangentUpperBody_spec p HI2.H HI2.nu s.mid).2.1.1 h).2.1
      omega
    · rw [m7]
      exact tangentUpperBody_reads p HI2.H HI2.nu HI2.nl s.mid (by omega) hnl2
  · obtain ⟨m1, m2, m3, m4, m5, m6, m7⟩ := searchTrace_mem _ _ _ _ s hs
    refine ⟨m1, m3, m4, m2, fun h => ?_, fun h => ?_, ?_⟩
    · rw [m6] at h
      exact ((tangentLowerBody_spec p HI2.H HI2.nu _ s.mid).1.1 h).1
    · rw [m6] at h
      have := ((tangentLowerBody_spec p HI2.H HI2.nu _ s.mid).2.1.1 h).2.1
      omega
    · rw [m7]
      exact tangentLowerBody_reads p HI2.H HI2.nu HI2.nl s.mid hnu2 (by omega)
  · obtain ⟨t, h0, h0', e, -⟩ := findTangent_lower_local p HI2
    rw [e]
    rcases Nat.lt_or_ge t (HI2.nu + HI2.nl) with h | h
    · right
      rw [Nat.mod_eq_of_lt h]
      omega
    · left
      rw [show t = HI2.nu + HI2.nl by omega, Nat.mod_self]
  · obtain ⟨m1, m2, m3, m4, m5, m6, m7⟩ := searchTrace_mem _ _ _ _ s hs
    refine ⟨m3, m4, m2, fun h => ?_, fun h => ?_, ?_⟩
    · rw [m6] at h
      exact ((joinUpperBody_spec HI1 HI2 s.mid).1.1 h).1
    · rw [m6] at h
      have := ((joinUpperBody_spec HI1 HI2 s.mid).2.1 h).2.1
      omega
    · rw [m7]
      exact joinUpperBody_reads HI1 HI2 s.mid (by omega) hnl1
  · obtain ⟨m1, m2, m3, m4, m5, m6, m7⟩ := searchTrace_mem _ _ _ _ s hs
    refine ⟨m1, m3, m4, m2, fun h => ?_, fun h => ?_, ?_⟩
    · rw [m6] at h
      exact ((joinLowerBody_spec HI1 HI2 s.mid).1.1 h).1
    · rw [m6] at h
      have := ((joinLowerBody_spec HI1 HI2 s.mid).2.1 h).2.1
      omega
    · rw [m7]
      exact joinLowerBody_reads HI1 HI2 s.mid hnu1 (by omega)

theorem search_index_safety_witness :
    searchTrace (joinLowerBody ⟨[pt 0 0, pt 1 2, pt 2 0], 2, 1⟩ ⟨[pt 3 0, pt 4 2, pt 5 0], 2, 1⟩)
        2 2 3 = [⟨2, 3, 2, [2, 0, 2], MoveT.right⟩, ⟨3, 3, 3, [0, 0, 2], MoveT.stop⟩] ∧
    ∀ s ∈ searchTrace
        (joinLowerBody ⟨[pt 0 0, pt 1 2, pt 2 0], 2, 1⟩ ⟨[pt 3 0, pt 4 2, pt 5 0], 2, 1⟩) 2 2 3,
      2 ≤ s.min ∧ s.min ≤ s.mid ∧ s.mid ≤ s.max ∧ s.max ≤ 3 ∧
      (s.move = MoveT.left → 2 < s.mid) ∧ (s.move = MoveT.right → s.mid < 3) ∧
      ∀ i ∈ s.reads, i < 3 :=
  ⟨by decide,
    (search_index_safety (pt 0 0) ⟨[pt 0 0, pt 1 2, pt 2 0], 2, 1⟩
      ⟨[pt 3 0, pt 4 2, pt 5 0], 2, 1⟩ (by decide) (by decide) (by decide)
      (by decide)).2.2.2.2.2⟩

/-- Claim C27 (logarithmically many probes): in each of the two loops of `findTangent` and of
the two search loops of `joinHulls`, whatever the chains and the budget of iterations, every
iteration that does not leave the loop is followed by one whose interval has at most half the
length (`max - min + 1`, rounded down), and the number of iterations is at most
`⌊log₂ k⌋ + 1` for a search range of `k` indices (`k = nu + 1` for the upper and `k = nl + 1`
for the lower searches); the value of `mid` after the loop, which the functions return, is the
probe of the last iteration. -/
theorem search_probe_bound (p : PointT) (HI1 HI2 : HullT) (fuel : Nat) :
    (List.Chain' (fun s t : StepT => t.max + 1 - t.min ≤ (s.max + 1 - s.min) / 2)
        (searchTrace (tangentUpperBody p HI2.H HI2.nu) fuel 0 HI2.nu) ∧
      (searchTrace (tangentUpperBody p HI2.H HI2.nu) fuel 0 HI2.nu).length
        ≤ Nat.log 2 (HI2.nu + 1) + 1 ∧
      tangentUpperLoop p HI2.H HI2.nu fuel 0 HI2.nu 0
        = lastMid (searchTrace (tangentUpperBody p HI2.H HI2.nu) fuel 0 HI2.nu) 0) ∧
    (List.Chain' (fun s t : StepT => t.max + 1 - t.min ≤ (s.max + 1 - s.min) / 2)
        (searchTrace (tangentLowerBody p HI2.H HI2.nu (HI2.nu + HI2.nl)) fuel HI2.nu
          (HI2.nu + HI2.nl)) ∧
      (searchTrace (tangentLowerBody p HI2.H HI2.nu (HI2.nu + HI2.nl)) fuel HI2.nu
          (HI2.nu + HI2.nl)).length ≤ Nat.log 2 (HI2.nl + 1) + 1 ∧
      tangentLowerLoop p HI2.H HI2.nu (HI2.nu + HI2.nl) fuel HI2.nu (HI2.nu + HI2.nl) 0
        = lastMid (searchTrace (tangentLowerBody p HI2.H HI2.nu (HI2.nu + HI2.nl)) fuel HI2.nu
            (HI2.nu + HI2.nl)) 0) ∧
    (List.Chain' (fun s t : StepT => t.max + 1 - t.min ≤ (s.max + 1 - s.min) / 2)
        (searchTrace (joinUpperBody HI1 HI2) fuel 0 HI1.nu) ∧
      (searchTrace (joinUpperBody HI1 HI2) fuel 0 HI1.nu).length ≤ Nat.log 2 (HI1.nu + 1) + 1 ∧
      (joinUpperLoop HI1 HI2 fuel 0 HI1.nu (0, 0)).1
        = lastMid (searchTrace (joinUpperBody HI1 HI2) fuel 0 HI1.nu) 0) ∧
    (List.Chain' (fun s t : StepT => t.max + 1 - t.min ≤ (s.max + 1 - s.min) / 2)
        (searchTrace (joinLowerBody HI1 HI2) fuel HI1.nu (HI1.nu + HI1.nl)) ∧
      (searchTrace (joinLowerBody HI1 HI2) fuel HI1.nu (HI1.nu + HI1.nl)).length
        ≤ Nat.log 2 (HI1.nl + 1) + 1 ∧
      (joinLowerLoop HI1 HI2 fuel HI1.nu (HI1.nu + HI1.nl) (0, 0)).1
        = lastMid (searchTrace (joinLowerBody HI1 HI2) fuel HI1.nu (HI1.nu + HI1.nl)) 0) := by
  have hU : ∀ m, (tangentUpperBody p HI2.H HI2.nu m).1 = MoveT.left → 0 < m :=
    fun m h => ((tangentUpperBody_spec p HI2.H HI2.nu m).1.1 h).1
  have hL : ∀ m, (tangentLowerBody p HI2.H HI2.nu (HI2.nu + HI2.nl) m).1 = MoveT.left → 0 < m :=
    fun m h => by
      have := ((tangentLowerBody_spec p HI2.H HI2.nu (HI2.nu + HI2.nl) m).1.1 h).1
      omega
  have hJU : ∀ m, (joinUpperBody HI1 HI2 m).1 = MoveT.left → 0 < m :=
    fun m h => ((joinUpperBody_spec HI1 HI2 m).1.1 h).1
  have hJL : ∀ m, (joinLowerBody HI1 HI2 m).1 = MoveT.left → 0 < m :=
    fun m h => by
      have := ((joinLowerBody_spec HI1 HI2 m).1.1 h).1
      omega
  have fst : ∀ (b : Nat → MoveT × List Nat) (f lo hi : Nat) (x : Nat × Nat)
      (h1 : searchTrace b f lo hi = [] → x = (0, 0))
      (h2 : searchTrace b f lo hi ≠ [] → x.1 = lastMid (searchTrace b f lo hi) 0),
      x.1 = lastMid (searchTrace b f lo hi) 0 := by
    intro b f lo hi x h1 h2
    by_cases he : searchTrace b f lo hi = []
    · rw [h1 he, he]
      rfl
    · exact h2 he
  refine ⟨⟨searchTrace_halving _ hU _ _ _, ?_, tangentUpperLoop_trace _ _ _ _ _ _ _⟩,
    ⟨searchTrace_halving _ hL _ _ _, ?_, tangentLowerLoop_trace _ _ _ _ _ _ _ _⟩,
    ⟨searchTrace_halving _ hJU _ _ _, ?_, ?_⟩, ⟨searchTrace_halving _ hJL _ _ _, ?_, ?_⟩⟩
  · have := searchTrace_length _ hU fuel 0 HI2.nu
    simpa using this
  · have := searchTrace_length _ hL fuel HI2.nu (HI2.nu + HI2.nl)
    rwa [show HI2.nu + HI2.nl + 1 - HI2.nu = HI2.nl + 1 by omega] at this
  · have := searchTrace_length _ hJU fuel 0 HI1.nu
    simpa using this
  · obtain ⟨e1, e2⟩ := joinUpperLoop_trace HI1 HI2 fuel 0 HI1.nu (0, 0)
    exact fst _ _ _ _ _ e1 (fun h => by rw [e2 h])
  · have := searchTrace_length _ hJL fuel HI1.nu (HI1.nu + HI1.nl)
    rwa [show HI1.nu + HI1.nl + 1 - HI1.nu = HI1.nl + 1 by omega] at this
  · obtain ⟨e1, e2⟩ := joinLowerLoop_trace HI1 HI2 fuel HI1.nu (HI1.nu + HI1.nl) (0, 0)
    exact fst _ _ _ _ _ e1 (fun h => by rw [e2 h])

/-! ### The two hull arrays -/

theorem arr_store_same (M : MemT) (p : PtrT) (i : Nat) (v : PointT) :
    (M.store p i v).arr p.buff = (M.arr p.buff).set (p.off + i) v := by
  unfold MemT.store MemT.arr
  cases h : p.buff <;> simp

theorem arr_store_other (M : MemT) (p : PtrT) (i : Nat) (v : PointT) (b : Bool)
    (hb : b ≠ p.buff) : (M.store p i v).arr b = M.arr b := by
  unfold MemT.store MemT.arr
  cases h : p.buff <;> cases b <;> simp_all

theorem writes_store (M : MemT) (p : PtrT) (i : Nat) (v : PointT) :
    (M.store p i v).writes = M.writes ++ [(p.buff, p.off + i)] := by
  unfold MemT.store
  cases h : p.buff <;> simp

theorem load_view (M : MemT) (p : PtrT) (i : Nat) : M.load p i = rd (M.view p) i := by
  unfold MemT.load MemT.view
  rw [rd_drop]

theorem writeList_arr_other (out : PtrT) (b : Bool) (hb : b ≠ out.buff) :
    ∀ (L : List PointT) (M : MemT) (m : Nat), (writeList M out m L).arr b = M.arr b := by
  intro L
  induction L with
  | nil => intro M m; rfl
  | cons v L ih =>
    intro M m
    rw [writeList, ih, arr_store_other _ _ _ _ _ hb]

theorem writeList_view_other (out src : PtrT) (hb : src.buff ≠ out.buff) (L : List PointT)
    (M : MemT) (m : Nat) : (writeList M out m L).view src = M.view src := by
  unfold MemT.view
  rw [writeList_arr_other out src.buff hb]

theorem writeList_length (out : PtrT) (b : Bool) :
    ∀ (L : List PointT) (M : MemT) (m : Nat),
      ((writeList M out m L).arr b).length = (M.arr b).length := by
  intro L
  induction L with
  | nil => intro M m; rfl
  | cons v L ih =>
    intro M m
    rw [writeList, ih]
    by_cases hb : b = out.buff
    · rw [hb, arr_store_same, List.length_set]
    · rw [arr_store_other _ _ _ _ _ hb]

theorem writeList_writes (out : PtrT) :
    ∀ (L : List PointT) (M : MemT) (m : Nat),
      (writeList M out m L).writes
        = M.writes ++ (List.range L.length).map (fun j => (out.buff, out.off + m + j)) := by
  intro L
  induction L with
  | nil => intro M m; simp [writeList]
  | cons v L ih =>
    intro M m
    rw [writeList, ih, writes_store, List.length_cons, List.range_succ_eq_map, List.map_cons,
      List.map_map, List.append_assoc]
    congr 1
    rw [List.singleton_append, Nat.add_zero]
    congr 1
    apply List.map_congr_left
    intro j _
    simp only [Function.comp_apply, Prod.mk.injEq, true_and]
    omega

theorem writeList_rd (out : PtrT) :
    ∀ (L : List PointT) (M : MemT) (m : Nat),
      out.off + m + L.length ≤ (M.arr out.buff).length →
      ∀ j, rd ((writeList M out m L).arr out.buff) j
        = if out.off + m ≤ j ∧ j < out.off + m + L.length then rd L (j - (out.off + m))
          else rd (M.arr out.buff) j := by
  intro L
  induction L with
  | nil =>
    intro M m _ j
    rw [if_neg (by simp)]
    rfl
  | cons v L ih =>
    intro M m hlen j
    rw [List.length_cons] at hlen
    rw [writeList, ih _ _ (by rw [arr_store_same, List.length_set]; omega), arr_store_same]
    by_cases h1 : j = out.off + m
    · rw [if_neg (by omega), if_pos (by rw [List.length_cons]; omega), h1,
        rd_set_eq _ _ _ (by omega), Nat.sub_self]
      rfl
    · rw [rd_set_ne _ _ _ _ (fun h => h1 h.symm)]
      by_cases h2 : out.off + (m + 1) ≤ j ∧ j < out.off + (m + 1) + L.length
      · rw [if_pos h2, if_pos (by rw [List.length_cons]; omega),
          show j - (out.off + m) = (j - (out.off + (m + 1))) + 1 by omega]
        rfl
      · rw [if_neg h2, if_neg (by rw [List.length_cons]; omega)]

theorem writeList_append (out : PtrT) :
    ∀ (L1 L2 : List PointT) (M : MemT) (m : Nat),
      writeList M out m (L1 ++ L2) = writeList (writeList M out m L1) out (m + L1.length) L2 := by
  intro L1
  induction L1 with
  | nil => intro L2 M m; rfl
  | cons v L1 ih =>
    intro L2 M m
    rw [List.cons_append, writeList, writeList, ih, List.length_cons]
    congr 1
    omega

theorem copyRange_succ (V : List PointT) (a k : Nat) :
    copyRange V a (a + (k + 1)) = rd V a :: copyRange V (a + 1) (a + 1 + k) := by
  unfold copyRange
  rw [show a + (k + 1) - a = k + 1 by omega, show a + 1 + k - (a + 1) = k by omega,
    List.range_succ_eq_map, List.map_cons, List.map_map]
  congr 1
  apply List.map_congr_left
  intro j _
  simp only [Function.comp_apply]
  congr 1
  omega

theorem copyRange_len (V : List PointT) (a b : Nat) :
    copyRange V a (a + (b - a)) = copyRange V a b := by
  unfold copyRange
  rw [show a + (b - a) - a = b - a by omega]

/-- A copy loop between different arrays writes the entries that the source held before the
loop. -/
theorem copyMem_eq_writeList (src out : PtrT) (hb : src.buff ≠ out.buff) :
    ∀ (k : Nat) (M : MemT) (a m : Nat),
      copyMem M src a out m k = writeList M out m (copyRange (M.view src) a (a + k)) := by
  intro k
  induction k with
  | zero =>
    intro M a m
    rw [copyMem]
    unfold copyRange
    simp [writeList]
  | succ k ih =>
    intro M a m
    rw [copyMem, ih, copyRange_succ, writeList, load_view]
    congr 2
    unfold MemT.view
    rw [arr_store_other _ _ _ _ _ hb]

theorem copyMem_after (src out : PtrT) (hb : src.buff ≠ out.buff) (M : MemT)
    (L : List PointT) (a m k : Nat) (hm : m = L.length) :
    copyMem (writeList M out 0 L) src a out m k
      = writeList M out 0 (L ++ copyRange (M.view src) a (a + k)) := by
  rw [copyMem_eq_writeList _ _ hb, writeList_view_other _ _ hb, writeList_append, Nat.zero_add,
    hm]

theorem store_after (out : PtrT) (M : MemT) (L : List PointT) (m : Nat) (v : PointT)
    (hm : m = L.length) :
    (writeList M out 0 L).store out m v = writeList M out 0 (L ++ [v]) := by
  rw [writeList_append, Nat.zero_add, hm]
  rfl

/-- When neither input chain lies in the array written to, `joinHulls` on the memory computes
the chain that `joinHulls` computes from the two chains as read before the call, and writes
its entries to `Hbuff[0], Hbuff[1], ...`. -/
theorem joinHullsMem_eq (M : MemT) (HI1 HI2 : HullP) (out : PtrT) (h1 : HI1.H.buff ≠ out.buff)
    (h2 : HI2.H.buff ≠ out.buff) :
    joinHullsMem M HI1 HI2 out
      = (writeList M out 0 (joinHulls (M.hull HI1) (M.hull HI2)).H,
          ⟨out, (joinHulls (M.hull HI1) (M.hull HI2)).nu,
            (joinHulls (M.hull HI1) (M.hull HI2)).nl⟩) := by
  unfold joinHullsMem joinHulls
  simp only
  have eh1 : (M.hull HI1).H = M.view HI1.H := rfl
  have eh2 : (M.hull HI2).H = M.view HI2.H := rfl
  have en1 : (M.hull HI1).nu = HI1.nu := rfl
  have en2 : (M.hull HI1).nl = HI1.nl := rfl
  have en3 : (M.hull HI2).nu = HI2.nu := rfl
  have en4 : (M.hull HI2).nl = HI2.nl := rfl
  rw [en1, en2]
  generalize (joinUpperLoop (M.hull HI1) (M.hull HI2) (HI1.nu + 1) 0 HI1.nu (0, 0)).1 = pu
  generalize (joinUpperLoop (M.hull HI1) (M.hull HI2) (HI1.nu + 1) 0 HI1.nu (0, 0)).2 = qu
  generalize (joinLowerLoop (M.hull HI1) (M.hull HI2) (HI1.nl + 1) HI1.nu (HI1.nu + HI1.nl)
    (0, 0)).1 % (HI1.nu + HI1.nl) = pl
  generalize (joinLowerLoop (M.hull HI1) (M.hull HI2) (HI1.nl + 1) HI1.nu (HI1.nu + HI1.nl)
    (0, 0)).2 = ql
  rw [assemble_eq]
  simp only [en3]
  -- the copy loops as lists
  have c1 : copyMem M HI1.H 0 out 0 (pu + 1)
      = writeList M out 0 (copyRange (M.hull HI1).H 0 (pu + 1)) := by
    have := copyMem_after HI1.H out h1 M [] 0 0 (pu + 1) rfl
    rw [Nat.zero_add, List.nil_append] at this
    exact this
  have c2 : copyMem (copyMem M HI1.H 0 out 0 (pu + 1)) HI2.H qu out (pu + 1) (HI2.nu - qu)
      = writeList M out 0
          (copyRange (M.hull HI1).H 0 (pu + 1) ++ copyRange (M.hull HI2).H qu HI2.nu) := by
    rw [c1, copyMem_after HI2.H out h2 M _ qu (pu + 1) (HI2.nu - qu)
      (by rw [copyRange_length]; omega), copyRange_len]
    rfl
  have len2 : (copyRange (M.hull HI1).H 0 (pu + 1) ++ copyRange (M.hull HI2).H qu HI2.nu).length
      = pu + 1 + (HI2.nu - qu) := by
    rw [List.length_append, copyRange_length, copyRange_length]
    omega
  rw [c2]
  have c3 : (if ql = 0 then
        (copyMem (writeList M out 0
            (copyRange (M.hull HI1).H 0 (pu + 1) ++ copyRange (M.hull HI2).H qu HI2.nu))
          HI2.H HI2.nu out (pu + 1 + (HI2.nu - qu)) HI2.nl).store out
          (pu + 1 + (HI2.nu - qu) + HI2.nl)
          ((copyMem (writeList M out 0
              (copyRange (M.hull HI1).H 0 (pu + 1) ++ copyRange (M.hull HI2).H qu HI2.nu))
            HI2.H HI2.nu out (pu + 1 + (HI2.nu - qu)) HI2.nl).load HI2.H 0)
      else
        copyMem (writeList M out 0
            (copyRange (M.hull HI1).H 0 (pu + 1) ++ copyRange (M.hull HI2).H qu HI2.nu))
          HI2.H HI2.nu out (pu + 1 + (HI2.nu - qu)) (ql + 1 - HI2.nu))
      = writeList M out 0
          ((copyRange (M.hull HI1).H 0 (pu + 1) ++ copyRange (M.hull HI2).H qu HI2.nu)
            ++ lower2 (M.hull HI2) ql) := by
    unfold lower2
    rw [en3, en4]
    by_cases h : ql = 0
    · rw [if_pos h, if_pos h, copyMem_after HI2.H out h2 M _ HI2.nu _ HI2.nl len2.symm,
        load_view, writeList_view_other _ _ h2,
        store_after out M _ _ _ (by
          rw [List.length_append, len2, copyRange_length]
          omega), List.append_assoc]
      rfl
    · rw [if_neg h, if_neg h, copyMem_after HI2.H out h2 M _ HI2.nu _ _ len2.symm,
        copyRange_len]
      rfl
  rw [c3]
  have l2 : (lower2 (M.hull HI2) ql).length
      = if ql = 0 then HI2.nl + 1 else ql + 1 - HI2.nu := by
    unfold lower2
    by_cases h : ql = 0
    · rw [if_pos h, if_pos h, List.length_append, copyRange_length, en3, en4]
      simp
    · rw [if_neg h, if_neg h, copyRange_length, en3]
  have len3 : ((copyRange (M.hull HI1).H 0 (pu + 1) ++ copyRange (M.hull HI2).H qu HI2.nu)
      ++ lower2 (M.hull HI2) ql).length
      = pu + 1 + (HI2.nu - qu) + if ql = 0 then HI2.nl + 1 else ql + 1 - HI2.nu := by
    rw [List.length_append, len2, l2]
  have l1 : (lower1 (M.hull HI1) pl).length = if pl ≠ 0 then HI1.nu + HI1.nl - pl else 0 := by
    unfold lower1
    by_cases h : pl ≠ 0
    · rw [if_pos h, if_pos h, copyRange_length, en1, en2]
    · rw [if_neg h, if_neg h]
      rfl
  have c4 : (if pl ≠ 0 then
        copyMem (writeList M out 0
            ((copyRange (M.hull HI1).H 0 (pu + 1) ++ copyRange (M.hull HI2).H qu HI2.nu)
              ++ lower2 (M.hull HI2) ql)) HI1.H pl out
          (pu + 1 + (HI2.nu - qu) + if ql = 0 then HI2.nl + 1 else ql + 1 - HI2.nu)
          (HI1.nu + HI1.nl - pl)
      else writeList M out 0
          ((copyRange (M.hull HI1).H 0 (pu + 1) ++ copyRange (M.hull HI2).H qu HI2.nu)
            ++ lower2 (M.hull HI2) ql))
      = writeList M out 0
          ((copyRange (M.hull HI1).H 0 (pu + 1) ++ copyRange (M.hull HI2).H qu HI2.nu)
            ++ (lower2 (M.hull HI2) ql ++ lower1 (M.hull HI1) pl)) := by
    unfold lower1
    rw [en1, en2]
    by_cases h : pl ≠ 0
    · rw [if_pos h, if_pos h, copyMem_after HI1.H out h1 M _ pl _ _ len3.symm, copyRange_len,
        List.append_assoc]
      rfl
    · rw [if_neg h, if_neg h, List.append_nil]
  rw [c4]
  congr 2
  rw [l2, l1]
  omega

/-! ### The searches read the chains below `nu + nl` only -/

theorem searchTrace_congr (b b' : Nat → MoveT × List Nat) (lo hi : Nat)
    (h : ∀ m, lo ≤ m → m ≤ hi → b m = b' m) :
    ∀ fuel min max, lo ≤ min → max ≤ hi →
      searchTrace b fuel min max = searchTrace b' fuel min max := by
  intro fuel
  induction fuel with
  | zero => intro min max _ _; rfl
  | succ fuel ih =>
    intro min max h1 h2
    rcases Nat.lt_or_ge max min with hlt | hle
    · rw [searchTrace_empty _ _ _ _ hlt, searchTrace_empty _ _ _ _ hlt]
    · have e := h ((min + max) / 2) (by omega) (by omega)
      rcases MoveT.cases3 (b' ((min + max) / 2)).1 with hm | hm | hm
      · rw [searchTrace_left hle (by rw [e]; exact hm), searchTrace_left hle hm, e,
          ih _ _ h1 (by omega)]
      · rw [searchTrace_right hle (by rw [e]; exact hm), searchTrace_right hle hm, e,
          ih _ _ (by omega) h2]
      · rw [searchTrace_stop hle (by rw [e]; exact hm), searchTrace_stop hle hm, e]

theorem lastMid_mem : ∀ (T : List StepT) (m0 : Nat), T ≠ [] → ∃ s ∈ T, lastMid T m0 = s.mid := by
  intro T
  induction T with
  | nil => intro m0 h; exact absurd rfl h
  | cons a T ih =>
    intro m0 _
    by_cases hT : T = []
    · subst hT
      exact ⟨a, by simp, rfl⟩
    · obtain ⟨s, hs, e⟩ := ih a.mid hT
      exact ⟨s, List.mem_cons_of_mem _ hs, e⟩

theorem tangentUpperBody_ext (p : PointT) (H H' : List PointT) (nu nl m : Nat)
    (hA : ∀ i, i < nu + nl → rd H i = rd H' i) (hnl : 1 ≤ nl) (hm : m ≤ nu) :
    tangentUpperBody p H nu m = tangentUpperBody p H' nu m := by
  unfold tangentUpperBody
  rw [hA (m - 1) (by omega), hA m (by omega)]
  by_cases h2 : m = nu
  · simp only [if_pos h2]
  · rw [hA (m + 1) (by omega)]

theorem tangentLowerBody_ext (p : PointT) (H H' : List PointT) (nu nl m : Nat)
    (hA : ∀ i, i < nu + nl → rd H i = rd H' i) (hnu : 1 ≤ nu) (hm : m ≤ nu + nl) :
    tangentLowerBody p H nu (nu + nl) m = tangentLowerBody p H' nu (nu + nl) m := by
  unfold tangentLowerBody
  rw [hA (m % (nu + nl)) (Nat.mod_lt _ (by omega)), hA (m - 1) (by omega)]
  by_cases h2 : m = nu + nl
  · simp only [if_pos h2]
  · rw [hA ((m + 1) % (nu + nl)) (Nat.mod_lt _ (by omega)), hA m (by omega)]

theorem findTangent_ext (p : PointT) (H H' : List PointT) (nu nl : Nat)
    (hA : ∀ i, i < nu + nl → rd H i = rd H' i) (hnu : 1 ≤ nu) (hnl : 1 ≤ nl) (upper : Int) :
    findTangent p ⟨H, nu, nl⟩ upper = findTangent p ⟨H', nu, nl⟩ upper := by
  unfold findTangent
  simp only
  rw [tangentUpperLoop_trace, tangentUpperLoop_trace, tangentLowerLoop_trace,
    tangentLowerLoop_trace,
    searchTrace_congr _ _ 0 nu
      (fun m _ hm => tangentUpperBody_ext p H H' nu nl m hA hnl hm) _ _ _ (le_refl _)
      (le_refl _),
    searchTrace_congr _ _ nu (nu + nl)
      (fun m _ hm => tangentLowerBody_ext p H H' nu nl m hA hnu hm) _ _ _ (le_refl _)
      (le_refl _)]

theorem copyRange_ext (H H' : List PointT) (a b : Nat)
    (h : ∀ i, a ≤ i → i < b → rd H i = rd H' i) : copyRange H a b = copyRange H' a b := by
  unfold copyRange
  apply List.map_congr_left
  intro k hk
  rw [List.mem_range] at hk
  exact h _ (by omega) (by omega)

theorem joinUpperBody_ext (H1 H1' H2 H2' : List PointT) (nu1 nl1 nu2 nl2 m : Nat)
    (hA1 : ∀ i, i < nu1 + nl1 → rd H1 i = rd H1' i)
    (hA2 : ∀ i, i < nu2 + nl2 → rd H2 i = rd H2' i) (hnl1 : 1 ≤ nl1) (hnu2 : 1 ≤ nu2)
    (hnl2 : 1 ≤ nl2) (hm : m ≤ nu1) :
    joinUpperBody ⟨H1, nu1, nl1⟩ ⟨H2, nu2, nl2⟩ m
      = joinUpperBody ⟨H1', nu1, nl1⟩ ⟨H2', nu2, nl2⟩ m := by
  have hq := (findTangent_upper_local (rd H1' m) ⟨H2', nu2, nl2⟩ hnl2).1
  simp only at hq
  unfold joinUpperBody
  simp only
  rw [hA1 (m - 1) (by omega), hA1 m (by omega),
    findTangent_ext (rd H1' m) H2 H2' nu2 nl2 hA2 hnu2 hnl2 1, hA2 _ (by omega)]
  by_cases h2 : m = nu1
  · simp only [if_pos h2]
  · rw [hA1 (m + 1) (by omega)]

theorem joinLowerBody_ext (H1 H1' H2 H2' : List PointT) (nu1 nl1 nu2 nl2 m : Nat)
    (hA1 : ∀ i, i < nu1 + nl1 → rd H1 i = rd H1' i)
    (hA2 : ∀ i, i < nu2 + nl2 → rd H2 i = rd H2' i) (hnu1 : 1 ≤ nu1) (hnu2 : 1 ≤ nu2)
    (hnl2 : 1 ≤ nl2) (hm : m ≤ nu1 + nl1) :
    joinLowerBody ⟨H1, nu1, nl1⟩ ⟨H2, nu2, nl2⟩ m
      = joinLowerBody ⟨H1', nu1, nl1⟩ ⟨H2', nu2, nl2⟩ m := by
  have hq : findTangent (rd H1' (m % (nu1 + nl1))) ⟨H2', nu2, nl2⟩ 0 < nu2 + nl2 := by
    obtain ⟨t, -, -, e, -⟩ := findTangent_lower_local (rd H1' (m % (nu1 + nl1))) ⟨H2', nu2, nl2⟩
    rw [e]
    exact Nat.mod_lt _ (by simp only; omega)
  unfold joinLowerBody
  simp only
  rw [hA1 (m % (nu1 + nl1)) (Nat.mod_lt _ (by omega)), hA1 (m - 1) (by omega),
    findTangent_ext (rd H1' (m % (nu1 + nl1))) H2 H2' nu2 nl2 hA2 hnu2 hnl2 0, hA2 _ hq]
  by_cases h2 : m = nu1 + nl1
  · simp only [if_pos h2]
  · rw [hA1 ((m + 1) % (nu1 + nl1)) (Nat.mod_lt _ (by omega)), hA1 m (by omega)]

theorem joinUpperLoop_ext (H1 H1' H2 H2' : List PointT) (nu1 nl1 nu2 nl2 : Nat)
    (hA1 : ∀ i, i < nu1 + nl1 → rd H1 i = rd H1' i)
    (hA2 : ∀ i, i < nu2 + nl2 → rd H2 i = rd H2' i) (hnl1 : 1 ≤ nl1) (hnu2 : 1 ≤ nu2)
    (hnl2 : 1 ≤ nl2) (fuel : Nat) (s0 : Nat × Nat) :
    joinUpperLoop ⟨H1, nu1, nl1⟩ ⟨H2, nu2, nl2⟩ fuel 0 nu1 s0
      = joinUpperLoop ⟨H1', nu1, nl1⟩ ⟨H2', nu2, nl2⟩ fuel 0 nu1 s0 := by
  obtain ⟨a1, a2⟩ := joinUpperLoop_trace ⟨H1, nu1, nl1⟩ ⟨H2, nu2, nl2⟩ fuel 0 nu1 s0
  obtain ⟨b1, b2⟩ := joinUpperLoop_trace ⟨H1', nu1, nl1⟩ ⟨H2', nu2, nl2⟩ fuel 0 nu1 s0
  have eT := searchTrace_congr _ _ 0 nu1
    (fun m _ hm => joinUpperBody_ext H1 H1' H2 H2' nu1 nl1 nu2 nl2 m hA1 hA2 hnl1 hnu2 hnl2 hm)
    fuel 0 nu1 (le_refl _) (le_refl _)
  rw [eT] at a1 a2
  by_cases he : searchTrace (joinUpperBody ⟨H1', nu1, nl1⟩ ⟨H2', nu2, nl2⟩) fuel 0 nu1 = []
  · rw [a1 he, b1 he]
  · rw [a2 he, b2 he]
    obtain ⟨s, hs, e⟩ := lastMid_mem _ s0.1 he
    obtain ⟨m1, m2, m3, m4, -⟩ := searchTrace_mem _ _ _ _ s hs
    simp only
    rw [hA1 _ (by rw [e]; omega), findTangent_ext _ H2 H2' nu2 nl2 hA2 hnu2 hnl2 1]

theorem joinLowerLoop_ext (H1 H1' H2 H2' : List PointT) (nu1 nl1 nu2 nl2 : Nat)
    (hA1 : ∀ i, i < nu1 + nl1 → rd H1 i = rd H1' i)
    (hA2 : ∀ i, i < nu2 + nl2 → rd H2 i = rd H2' i) (hnu1 : 1 ≤ nu1) (hnu2 : 1 ≤ nu2)
    (hnl2 : 1 ≤ nl2) (fuel : Nat) (s0 : Nat × Nat) :
    joinLowerLoop ⟨H1, nu1, nl1⟩ ⟨H2, nu2, nl2⟩ fuel nu1 (nu1 + nl1) s0
      = joinLowerLoop ⟨H1', nu1, nl1⟩ ⟨H2', nu2, nl2⟩ fuel nu1 (nu1 + nl1) s0 := by
  obtain ⟨a1, a2⟩ := joinLowerLoop_trace ⟨H1, nu1, nl1⟩ ⟨H2, nu2, nl2⟩ fuel nu1 (nu1 + nl1) s0
  obtain ⟨b1, b2⟩ := joinLowerLoop_trace ⟨H1', nu1, nl1⟩ ⟨H2', nu2, nl2⟩ fuel nu1 (nu1 + nl1)
    s0
  have eT := searchTrace_congr _ _ nu1 (nu1 + nl1)
    (fun m _ hm => joinLowerBody_ext H1 H1' H2 H2' nu1 nl1 nu2 nl2 m hA1 hA2 hnu1 hnu2 hnl2 hm)
    fuel nu1 (nu1 + nl1) (le_refl _) (le_refl _)
  rw [eT] at a1 a2
  by_cases he : searchTrace (joinLowerBody ⟨H1', nu1, nl1⟩ ⟨H2', nu2, nl2⟩) fuel nu1
      (nu1 + nl1) = []
  · rw [a1 he, b1 he]
  · rw [a2 he, b2 he]
    simp only
    rw [hA1 _ (Nat.mod_lt _ (by omega)), findTangent_ext _ H2 H2' nu2 nl2 hA2 hnu2 hnl2 0]

/-- The chain computed by `joinHulls` depends on the entries below `nu + nl` of the two input
arrays only. -/
theorem joinHulls_ext (H1 H1' H2 H2' : List PointT) (nu1 nl1 nu2 nl2 : Nat)
    (hA1 : ∀ i, i < nu1 + nl1 → rd H1 i = rd H1' i)
    (hA2 : ∀ i, i < nu2 + nl2 → rd H2 i = rd H2' i) (hnu1 : 1 ≤ nu1) (hnl1 : 1 ≤ nl1)
    (hnu2 : 1 ≤ nu2) (hnl2 : 1 ≤ nl2) :
    joinHulls ⟨H1, nu1, nl1⟩ ⟨H2, nu2, nl2⟩ = joinHulls ⟨H1', nu1, nl1⟩ ⟨H2', nu2, nl2⟩ := by
  have hpu := joinUpperLoop_fst_le ⟨H1', nu1, nl1⟩ ⟨H2', nu2, nl2⟩ (nu1 + 1) 0 nu1 (0, 0)
    (le_refl _) (Nat.zero_le _)
  have hqu := joinUpperLoop_snd_le ⟨H1', nu1, nl1⟩ ⟨H2', nu2, nl2⟩ hnl2 (nu1 + 1) 0 nu1 (0, 0)
    (Nat.zero_le _)
  have hpl : (joinLowerLoop ⟨H1', nu1, nl1⟩ ⟨H2', nu2, nl2⟩ (nl1 + 1) nu1 (nu1 + nl1) (0, 0)).1
      % (nu1 + nl1) < nu1 + nl1 := Nat.mod_lt _ (by omega)
  have hql := joinLowerLoop_snd_lt ⟨H1', nu1, nl1⟩ ⟨H2', nu2, nl2⟩ hnu2
  unfold joinHulls
  simp only at hpu hqu hpl hql ⊢
  rw [joinUpperLoop_ext H1 H1' H2 H2' nu1 nl1 nu2 nl2 hA1 hA2 hnl1 hnu2 hnl2,
    joinLowerLoop_ext H1 H1' H2 H2' nu1 nl1 nu2 nl2 hA1 hA2 hnu1 hnu2 hnl2]
  generalize (joinUpperLoop ⟨H1', nu1, nl1⟩ ⟨H2', nu2, nl2⟩ (nu1 + 1) 0 nu1 (0, 0)).1 = pu at *
  generalize (joinUpperLoop ⟨H1', nu1, nl1⟩ ⟨H2', nu2, nl2⟩ (nu1 + 1) 0 nu1 (0, 0)).2 = qu at *
  generalize (joinLowerLoop ⟨H1', nu1, nl1⟩ ⟨H2', nu2, nl2⟩ (nl1 + 1) nu1 (nu1 + nl1) (0, 0)).1
    % (nu1 + nl1) = pl at *
  generalize (joinLowerLoop ⟨H1', nu1, nl1⟩ ⟨H2', nu2, nl2⟩ (nl1 + 1) nu1 (nu1 + nl1) (0, 0)).2
    = ql at *
  rw [assemble_eq, assemble_eq]
  unfold lower2 lower1
  simp only
  rw [copyRange_ext H1 H1' 0 (pu + 1) (fun i _ h => hA1 i (by omega)),
    copyRange_ext H2 H2' qu nu2 (fun i _ h => hA2 i (by omega)),
    copyRange_ext H2 H2' nu2 (nu2 + nl2) (fun i _ h => hA2 i h),
    copyRange_ext H2 H2' nu2 (ql + 1) (fun i _ h => hA2 i (by omega)),
    copyRange_ext H1 H1' pl (nu1 + nl1) (fun i _ h => hA1 i h), hA2 0 (by omega)]

theorem Frame.trans {M M2 M3 : MemT} {o n : Nat} (h1 : Frame M M2 o n) (h2 : Frame M2 M3 o n) :
    Frame M M3 o n := by
  obtain ⟨a1, a2, W1, a3, a4⟩ := h1
  obtain ⟨b1, b2, W2, b3, b4⟩ := h2
  refine ⟨fun b => (b1 b).trans (a1 b), fun b j hj => (b2 b j hj).trans (a2 b j hj),
    W1 ++ W2, by rw [b3, a3, List.append_assoc], fun w hw => ?_⟩
  rcases List.mem_append.1 hw with h | h
  · exact a4 w h
  · exact b4 w h

theorem Frame.mono {M M2 : MemT} {o n o2 n2 : Nat} (h : Frame M M2 o2 n2) (ho : o ≤ o2)
    (hn : o2 + n2 ≤ o + n) : Frame M M2 o n := by
  obtain ⟨a1, a2, W1, a3, a4⟩ := h
  refine ⟨a1, fun b j hj => a2 b j (by omega), W1, a3, fun w hw => ?_⟩
  have := a4 w hw
  omega

theorem writeList_post (M : MemT) (H : PtrT) (n : Nat) (T : HullT)
    (hlen : T.H.length = T.nu + T.nl) (hsz : T.nu + T.nl ≤ n)
    (hb : H.off + n ≤ (M.arr H.buff).length) :
    MemPost M H n T (writeList M H 0 T.H, ⟨H, T.nu, T.nl⟩) := by
  have hrd := writeList_rd H T.H M 0 (by omega)
  refine ⟨rfl, fun i hi => ?_, fun b => writeList_length H b T.H M 0, fun b j hj => ?_,
    (List.range T.H.length).map (fun j => (H.buff, H.off + 0 + j)),
    writeList_writes H T.H M 0, fun w hw => ?_⟩
  · show rd ((writeList M H 0 T.H).arr H.buff) (H.off + i) = rd T.H i
    rw [hrd (H.off + i), if_pos (by omega)]
    congr 1
    omega
  · show rd ((writeList M H 0 T.H).arr b) j = rd (M.arr b) j
    by_cases e : b = H.buff
    · rw [e, hrd j, if_neg (by omega)]
    · rw [writeList_arr_other H b e]
  · obtain ⟨j, hj, rfl⟩ := List.mem_map.1 hw
    have := List.mem_range.1 hj
    simp only
    omega

theorem mergeHullBaseMem_eq (S : List PointT) (n : Nat) (H : PtrT) (M : MemT) :
    mergeHullBaseMem S n H M
      = (writeList M H 0 (mergeHullBase S n).H,
          ⟨H, (mergeHullBase S n).nu, (mergeHullBase S n).nl⟩) := by
  unfold mergeHullBaseMem mergeHullBase
  split_ifs <;> rfl

theorem HullT.eta (T : HullT) : (⟨T.H, T.nu, T.nl⟩ : HullT) = T := rfl

/-- The call `mergeHull(S, n, H, Hbuff)` on the memory computes the hull of the pure function
and stores it from `H[0]` on; it changes the two arrays within the `n` entries from the common
offset of `H` and `Hbuff` only. -/
theorem mergeHullMem_spec : ∀ (fuel : Nat) (S : List PointT) (n : Nat) (H Hbuff : PtrT)
    (M : MemT), n ≤ fuel → 2 ≤ n → (∀ i j, i < j → j < n → lexLt (rd S i) (rd S j)) →
    H.buff ≠ Hbuff.buff → H.off = Hbuff.off → (∀ b, H.off + n ≤ (M.arr b).length) →
    MemPost M H n (mergeHullAux fuel S n) (mergeHullMem fuel S n H Hbuff M) := by
  intro fuel
  induction fuel with
  | zero => intro S n H Hbuff M hf h2; omega
  | succ fuel ih =>
    intro S n H Hbuff M hf h2 hS hne ho hb
    have hT := mergeHullAux_spec (fuel + 1) S n hf h2 hS
    rw [mergeHullAux] at hT ⊢
    rw [mergeHullMem]
    by_cases h3 : n ≤ 3
    · rw [if_pos h3] at hT ⊢
      rw [if_pos h3, mergeHullBaseMem_eq]
      exact writeList_post M H n _ hT.1.len hT.2.2.2.2.2 (hb _)
    · rw [if_neg h3] at hT ⊢
      rw [if_neg h3]
      dsimp only at hT ⊢
      have hS2 : ∀ i j, i < j → j < n - n / 2 →
          lexLt (rd (S.drop (n / 2)) i) (rd (S.drop (n / 2)) j) := by
        intro i j hij hj
        rw [rd_drop, rd_drop]
        exact hS _ _ (by omega) (by omega)
      have hT1 := mergeHullAux_spec fuel S (n / 2) (by omega) (by omega)
        (fun i j hij hj => hS i j hij (by omega))
      have hT2 := mergeHullAux_spec fuel (S.drop (n / 2)) (n - n / 2) (by omega) (by omega) hS2
      have i1 := ih S (n / 2) Hbuff H M (by omega) (by omega)
        (fun i j hij hj => hS i j hij (by omega)) (Ne.symm hne) ho.symm
        (fun b => by have := hb b; omega)
      generalize mergeHullAux fuel S (n / 2) = T1 at hT hT1 i1
      generalize mergeHullMem fuel S (n / 2) Hbuff H M = r1 at i1 ⊢
      obtain ⟨e1, l1, f1⟩ := i1
      have hn1 : T1.nu + T1.nl ≤ n / 2 := hT1.2.2.2.2.2
      have en1 : r1.2.nu + r1.2.nl = T1.nu + T1.nl := by rw [e1]
      rw [en1]
      have i2 := ih (S.drop (n / 2)) (n - n / 2) ⟨Hbuff.buff, Hbuff.off + (T1.nu + T1.nl)⟩
        ⟨H.buff, H.off + (T1.nu + T1.nl)⟩ r1.1 (by omega) (by omega) hS2 (Ne.symm hne)
        (by simp only; omega)
        (fun b => by have := hb b; have := f1.1 b; simp only; omega)
      generalize mergeHullAux fuel (S.drop (n / 2)) (n - n / 2) = T2 at hT hT2 i2
      generalize mergeHullMem fuel (S.drop (n / 2)) (n - n / 2)
        ⟨Hbuff.buff, Hbuff.off + (T1.nu + T1.nl)⟩ ⟨H.buff, H.off + (T1.nu + T1.nl)⟩ r1.1
        = r2 at i2 ⊢
      obtain ⟨e2, l2, f2⟩ := i2
      simp only at f2 l2
      rw [joinHullsMem_eq r2.1 r1.2 r2.2 H (by rw [e1]; exact Ne.symm hne)
        (by rw [e2]; exact Ne.symm hne)]
      have hh1 : r2.1.hull r1.2 = ⟨r2.1.view Hbuff, T1.nu, T1.nl⟩ := by
        unfold MemT.hull
        rw [e1]
      have hh2 : r2.1.hull r2.2
          = ⟨r2.1.view ⟨Hbuff.buff, Hbuff.off + (T1.nu + T1.nl)⟩, T2.nu, T2.nl⟩ := by
        unfold MemT.hull
        rw [e2]
      have hj : joinHulls (r2.1.hull r1.2) (r2.1.hull r2.2) = joinHulls T1 T2 := by
        rw [hh1, hh2]
        refine joinHulls_ext _ T1.H _ T2.H T1.nu T1.nl T2.nu T2.nl (fun i hi => ?_)
          (fun i hi => ?_) hT1.1.nu_pos hT1.1.nl_pos hT2.1.nu_pos hT2.1.nl_pos
        · rw [← load_view, ← l1 i hi]
          exact f2.2.1 Hbuff.buff (Hbuff.off + i) (Or.inl (by omega))
        · rw [← load_view]
          exact l2 i hi
      rw [hj]
      have f1n : Frame M r1.1 H.off n := Frame.mono f1 (by omega) (by omega)
      have f2n : Frame r1.1 r2.1 H.off n := Frame.mono f2 (by omega) (by omega)
      have f12 := Frame.trans f1n f2n
      obtain ⟨p1, p2, p3⟩ := writeList_post r2.1 H n (joinHulls T1 T2) hT.1.len hT.2.2.2.2.2
        (by rw [f12.1]; exact hb _)
      exact ⟨p1, p2, Frame.trans f12 p3⟩

theorem mergeHullMem_succ (fuel : Nat) (S : List PointT) (n : Nat) (H Hbuff : PtrT) (M : MemT)
    (h3 : ¬ n ≤ 3) :
    mergeHullMem (fuel + 1) S n H Hbuff M
      = joinHullsMem
          (mergeHullMem fuel (S.drop (n / 2)) (n - n / 2)
            ⟨Hbuff.buff, Hbuff.off + ((mergeHullMem fuel S (n / 2) Hbuff H M).2.nu
              + (mergeHullMem fuel S (n / 2) Hbuff H M).2.nl)⟩
            ⟨H.buff, H.off + ((mergeHullMem fuel S (n / 2) Hbuff H M).2.nu
              + (mergeHullMem fuel S (n / 2) Hbuff H M).2.nl)⟩
            (mergeHullMem fuel S (n / 2) Hbuff H M).1).1
          (mergeHullMem fuel S (n / 2) Hbuff H M).2
          (mergeHullMem fuel (S.drop (n / 2)) (n - n / 2)
            ⟨Hbuff.buff, Hbuff.off + ((mergeHullMem fuel S (n / 2) Hbuff H M).2.nu
              + (mergeHullMem fuel S (n / 2) Hbuff H M).2.nl)⟩
            ⟨H.buff, H.off + ((mergeHullMem fuel S (n / 2) Hbuff H M).2.nu
              + (mergeHullMem fuel S (n / 2) Hbuff H M).2.nl)⟩
            (mergeHullMem fuel S (n / 2) Hbuff H M).1).2 H := by
  rw [mergeHullMem, if_neg h3]

theorem mergeHullAux_succ (fuel : Nat) (S : List PointT) (n : Nat) (h3 : ¬ n ≤ 3) :
    mergeHullAux (fuel + 1) S n
      = joinHulls (mergeHullAux fuel S (n / 2)) (mergeHullAux fuel (S.drop (n / 2)) (n - n / 2)) := by
  rw [mergeHullAux, if_neg h3]

theorem hull_of_buff (A2 : List PointT) (M : MemT) (p : HullP) (hp : p.H.buff = true) :
    (⟨A2, M.Hbuff, M.writes⟩ : MemT).hull p = M.hull p := by
  unfold MemT.hull MemT.view MemT.arr
  rw [hp]
  rfl

/-- The three steps of the recursive case of `mergeHull(S, n, H, Hbuff)` started on arrays of
length `n`, with the hulls `T1`, `T2` of the two halves computed by the pure function. -/
theorem mergeHullMem_steps (S A B : List PointT) (n k : Nat) (hk : n = k + 1) (hn : 3 < n)
    (hS : ∀ i j, i < j → j < n → lexLt (rd S i) (rd S j)) (hA : A.length = n)
    (hB : B.length = n) :
    MemPost ⟨A, B, []⟩ ⟨true, 0⟩ (n / 2) (mergeHullAux k S (n / 2))
      (mergeHullMem k S (n / 2) ⟨true, 0⟩ ⟨false, 0⟩ ⟨A, B, []⟩) ∧
    MemPost (mergeHullMem k S (n / 2) ⟨true, 0⟩ ⟨false, 0⟩ ⟨A, B, []⟩).1
      ⟨true, (mergeHullAux k S (n / 2)).nu + (mergeHullAux k S (n / 2)).nl⟩ (n - n / 2)
      (mergeHullAux k (S.drop (n / 2)) (n - n / 2))
      (mergeHullMem k (S.drop (n / 2)) (n - n / 2)
        ⟨true, (mergeHullAux k S (n / 2)).nu + (mergeHullAux k S (n / 2)).nl⟩
        ⟨false, (mergeHullAux k S (n / 2)).nu + (mergeHullAux k S (n / 2)).nl⟩
        (mergeHullMem k S (n / 2) ⟨true, 0⟩ ⟨false, 0⟩ ⟨A, B, []⟩).1) ∧
    HullOf S (n / 2) (mergeHullAux k S (n / 2)) ∧
    HullOf (S.drop (n / 2)) (n - n / 2) (mergeHullAux k (S.drop (n / 2)) (n - n / 2)) ∧
    HullOf S n (mergeHullAux n S n) := by
  have hb : ∀ b, 0 + n ≤ ((⟨A, B, []⟩ : MemT).arr b).length := by
    intro b
    cases b
    · show 0 + n ≤ A.length
      omega
    · show 0 + n ≤ B.length
      omega
  have hS2 : ∀ i j, i < j → j < n - n / 2 →
      lexLt (rd (S.drop (n / 2)) i) (rd (S.drop (n / 2)) j) := by
    intro i j hij hj
    rw [rd_drop, rd_drop]
    exact hS _ _ (by omega) (by omega)
  have hT1 := mergeHullAux_spec k S (n / 2) (by omega) (by omega)
    (fun i j hij hj => hS i j hij (by omega))
  have hT2 := mergeHullAux_spec k (S.drop (n / 2)) (n - n / 2) (by omega) (by omega) hS2
  have s1 := mergeHullMem_spec k S (n / 2) ⟨true, 0⟩ ⟨false, 0⟩ ⟨A, B, []⟩ (by omega) (by omega)
    (fun i j hij hj => hS i j hij (by omega)) (by simp) rfl
    (fun b => by have := hb b; show 0 + n / 2 ≤ _; omega)
  have hn1 : (mergeHullAux k S (n / 2)).nu + (mergeHullAux k S (n / 2)).nl ≤ n / 2 :=
    hT1.2.2.2.2.2
  refine ⟨s1, ?_, hT1, hT2, mergeHullAux_spec n S n (le_refl _) (by omega) hS⟩
  exact mergeHullMem_spec k (S.drop (n / 2)) (n - n / 2) _ _ _ (by omega) (by omega) hS2
    (by simp) rfl (fun b => by have := hb b; have := s1.2.2.1 b; simp only; omega)

theorem joinHulls_hull (M : MemT) (P1 P2 : PtrT) (T1 T2 : HullT) (hv1 : Valid T1)
    (hv2 : Valid T2) (l1 : ∀ i, i < T1.nu + T1.nl → M.load P1 i = rd T1.H i)
    (l2 : ∀ i, i < T2.nu + T2.nl → M.load P2 i = rd T2.H i) :
    joinHulls (M.hull ⟨P1, T1.nu, T1.nl⟩) (M.hull ⟨P2, T2.nu, T2.nl⟩) = joinHulls T1 T2 := by
  unfold MemT.hull
  refine joinHulls_ext _ T1.H _ T2.H T1.nu T1.nl T2.nu T2.nl (fun i hi => ?_)
    (fun i hi => ?_) hv1.nu_pos hv1.nl_pos hv2.nu_pos hv2.nl_pos
  · rw [← load_view]
    exact l1 i hi
  · rw [← load_view]
    exact l2 i hi

/-- The recursive case on explicit results of the two recursive calls. -/
theorem buffers_core (A B : List PointT) (n : Nat) (hA : A.length = n) (hB : B.length = n)
    (T1 T2 : HullT) (r1 r2 : MemT × HullP) (hv1 : Valid T1) (hv2 : Valid T2)
    (hz1 : T1.nu + T1.nl ≤ n / 2) (hz2 : T2.nu + T2.nl ≤ n - n / 2)
    (hv : Valid (joinHulls T1 T2)) (hz : (joinHulls T1 T2).nu + (joinHulls T1 T2).nl ≤ n)
    (s1 : MemPost ⟨A, B, []⟩ ⟨true, 0⟩ (n / 2) T1 r1)
    (s2 : MemPost r1.1 ⟨true, T1.nu + T1.nl⟩ (n - n / 2) T2 r2) :
    (r1.2.H = ⟨true, 0⟩ ∧ r2.2.H = ⟨true, T1.nu + T1.nl⟩ ∧
      T1.nu + T1.nl + (r2.2.nu + r2.2.nl) ≤ n) ∧
    (∀ i, i < T1.nu + T1.nl → rd r2.1.Hbuff i = rd r1.1.Hbuff i) ∧
    (∀ A2 : List PointT, A2.length = n →
      (joinHullsMem ⟨A2, r2.1.Hbuff, r2.1.writes⟩ r1.2 r2.2 ⟨false, 0⟩).2
        = (joinHullsMem r2.1 r1.2 r2.2 ⟨false, 0⟩).2 ∧
      ∀ i, i < (joinHullsMem r2.1 r1.2 r2.2 ⟨false, 0⟩).2.nu
            + (joinHullsMem r2.1 r1.2 r2.2 ⟨false, 0⟩).2.nl →
        rd (joinHullsMem ⟨A2, r2.1.Hbuff, r2.1.writes⟩ r1.2 r2.2 ⟨false, 0⟩).1.H i
          = rd (joinHullsMem r2.1 r1.2 r2.2 ⟨false, 0⟩).1.H i) ∧
    ((joinHullsMem r2.1 r1.2 r2.2 ⟨false, 0⟩).2.H = ⟨false, 0⟩ ∧
      (joinHullsMem r2.1 r1.2 r2.2 ⟨false, 0⟩).1.Hbuff = r2.1.Hbuff ∧
      ∃ W, (joinHullsMem r2.1 r1.2 r2.2 ⟨false, 0⟩).1.writes = r2.1.writes ++ W ∧
        ∀ w, w ∈ W → w.1 = false ∧
          w.2 < (joinHullsMem r2.1 r1.2 r2.2 ⟨false, 0⟩).2.nu
            + (joinHullsMem r2.1 r1.2 r2.2 ⟨false, 0⟩).2.nl) ∧
    ((joinHullsMem r2.1 r1.2 r2.2 ⟨false, 0⟩).1.H.length = n ∧
      (joinHullsMem r2.1 r1.2 r2.2 ⟨false, 0⟩).1.Hbuff.length = n ∧
      ∀ w, w ∈ (joinHullsMem r2.1 r1.2 r2.2 ⟨false, 0⟩).1.writes → w.2 < n) ∧
    ((joinHullsMem r2.1 r1.2 r2.2 ⟨false, 0⟩).2.nu = (joinHulls T1 T2).nu ∧
      (joinHullsMem r2.1 r1.2 r2.2 ⟨false, 0⟩).2.nl = (joinHulls T1 T2).nl ∧
      (joinHullsMem r2.1 r1.2 r2.2 ⟨false, 0⟩).2.nu
        + (joinHullsMem r2.1 r1.2 r2.2 ⟨false, 0⟩).2.nl ≤ n ∧
      ∀ i, i < (joinHullsMem r2.1 r1.2 r2.2 ⟨false, 0⟩).2.nu
            + (joinHullsMem r2.1 r1.2 r2.2 ⟨false, 0⟩).2.nl →
        rd (joinHullsMem r2.1 r1.2 r2.2 ⟨false, 0⟩).1.H i = rd (joinHulls T1 T2).H i) := by
  obtain ⟨e1, l1, f1⟩ := s1
  obtain ⟨e2, l2, f2⟩ := s2
  simp only at f1 f2
  have l1b : ∀ i, i < T1.nu + T1.nl → r2.1.load ⟨true, 0⟩ i = rd T1.H i := by
    intro i hi
    rw [← l1 i hi]
    exact f2.2.1 true (0 + i) (Or.inl (by omega))
  have hh : ∀ M : MemT, (∀ i, i < T1.nu + T1.nl → M.load ⟨true, 0⟩ i = rd T1.H i) →
      (∀ i, i < T2.nu + T2.nl → M.load ⟨true, T1.nu + T1.nl⟩ i = rd T2.H i) →
      joinHullsMem M r1.2 r2.2 ⟨false, 0⟩
        = (writeList M ⟨false, 0⟩ 0 (joinHulls T1 T2).H,
            ⟨⟨false, 0⟩, (joinHulls T1 T2).nu, (joinHulls T1 T2).nl⟩) := by
    intro M a1 a2
    rw [joinHullsMem_eq M r1.2 r2.2 ⟨false, 0⟩ (by rw [e1]; simp) (by rw [e2]; simp), e1, e2,
      joinHulls_hull M _ _ T1 T2 hv1 hv2 a1 a2]
  have f12 : Frame ⟨A, B, []⟩ r2.1 0 n :=
    Frame.trans (Frame.mono f1 (le_refl _) (by omega)) (Frame.mono f2 (Nat.zero_le _) (by omega))
  have lenA : r2.1.H.length = n := (f12.1 false).trans hA
  have lenB : r2.1.Hbuff.length = n := (f12.1 true).trans hB
  have hlen := hv.len
  obtain ⟨-, p2, p3⟩ := writeList_post r2.1 ⟨false, 0⟩ n (joinHulls T1 T2) hlen hz
    (by show 0 + n ≤ r2.1.H.length; omega)
  have f3 := Frame.trans f12 p3
  rw [hh r2.1 l1b l2]
  simp only
  refine ⟨⟨by rw [e1], by rw [e2], by rw [e2]; simp only; omega⟩,
    fun i hi => f2.2.1 true i (Or.inl hi), fun A2 hA2 => ?_,
    ⟨trivial, writeList_arr_other ⟨false, 0⟩ true (by simp) _ _ _,
      _, writeList_writes ⟨false, 0⟩ _ r2.1 0, fun w hw => ?_⟩,
    ⟨(f3.1 false).trans hA, (f3.1 true).trans hB, fun w hw => ?_⟩,
    trivial, trivial, hz, fun i hi => ?_⟩
  · rw [hh ⟨A2, r2.1.Hbuff, r2.1.writes⟩ l1b l2]
    refine ⟨rfl, fun i hi => ?_⟩
    have q1 := writeList_rd ⟨false, 0⟩ (joinHulls T1 T2).H ⟨A2, r2.1.Hbuff, r2.1.writes⟩ 0
      (by show 0 + 0 + _ ≤ A2.length; omega) i
    have q2 := writeList_rd ⟨false, 0⟩ (joinHulls T1 T2).H r2.1 0
      (by show 0 + 0 + _ ≤ r2.1.H.length; omega) i
    rw [if_pos (by simp only; omega)] at q1 q2
    exact q1.trans q2.symm
  · obtain ⟨j, hj, rfl⟩ := List.mem_map.1 hw
    have := List.mem_range.1 hj
    simp only
    exact ⟨trivial, by omega⟩
  · obtain ⟨W, eW, hW⟩ := f3.2.2
    rw [eW, List.nil_append] at hw
    have := hW w hw
    omega
  · have := p2 i hi
    rw [← this]
    show _ = rd _ (0 + i)
    rw [Nat.zero_add]
    rfl

/-- Double buffering with the tests on exact integers: for a sorted input `S` of `n > 3` points
with pairwise distinct coordinates and two arrays `H = A`, `Hbuff = B` of length `n`, the call
`mergeHull(S, n, H, Hbuff)` is the sequence of the first recursive call (result `r1`), the
second recursive call (result `r2`) and `joinHulls` (result `r3`), where the recursive calls
run with the recursion budget `n - 1`. The two hulls given to `joinHulls` are stored in
`Hbuff`, the left one from index `0` and the right one from index `n1`, within the first `n`
entries. The second recursive call leaves `Hbuff[0..n1-1]` unchanged. `joinHulls` does not
depend on the contents of `H`: started with any other contents `A2` of `H` it returns the same
hull struct and the same chain. `joinHulls` returns the pointer `H`, leaves `Hbuff` as it is,
and each of its writes goes to `H`, at an index below the size of the hull. The two arrays keep
their length `n`, and every write performed during the whole call, to `H` or to `Hbuff`, is at
an index below `n`. The chain stored in `H` is the hull computed by the function `mergeHull` on
lists. -/
theorem mergeHull_buffers (S A B : List PointT) (hn : 3 < S.length) (hs : SortedLex S)
    (hA : A.length = S.length) (hB : B.length = S.length) :
    let n := S.length
    let r1 := mergeHullMem (n - 1) S (n / 2) ⟨true, 0⟩ ⟨false, 0⟩ ⟨A, B, []⟩
    let n1 := r1.2.nu + r1.2.nl
    let r2 := mergeHullMem (n - 1) (S.drop (n / 2)) (n - n / 2) ⟨true, n1⟩ ⟨false, n1⟩ r1.1
    let r3 := joinHullsMem r2.1 r1.2 r2.2 ⟨false, 0⟩
    mergeHullMem n S n ⟨false, 0⟩ ⟨true, 0⟩ ⟨A, B, []⟩ = r3 ∧
    (r1.2.H = ⟨true, 0⟩ ∧ r2.2.H = ⟨true, n1⟩ ∧ n1 + (r2.2.nu + r2.2.nl) ≤ n) ∧
    (∀ i, i < n1 → rd r2.1.Hbuff i = rd r1.1.Hbuff i) ∧
    (∀ A2 : List PointT, A2.length = n →
      (joinHullsMem ⟨A2, r2.1.Hbuff, r2.1.writes⟩ r1.2 r2.2 ⟨false, 0⟩).2 = r3.2 ∧
      ∀ i, i < r3.2.nu + r3.2.nl →
        rd (joinHullsMem ⟨A2, r2.1.Hbuff, r2.1.writes⟩ r1.2 r2.2 ⟨false, 0⟩).1.H i
          = rd r3.1.H i) ∧
    (r3.2.H = ⟨false, 0⟩ ∧ r3.1.Hbuff = r2.1.Hbuff ∧
      ∃ W, r3.1.writes = r2.1.writes ++ W ∧
        ∀ w, w ∈ W → w.1 = false ∧ w.2 < r3.2.nu + r3.2.nl) ∧
    (r3.1.H.length = n ∧ r3.1.Hbuff.length = n ∧ ∀ w, w ∈ r3.1.writes → w.2 < n) ∧
    (r3.2.nu = (mergeHull S n).nu ∧ r3.2.nl = (mergeHull S n).nl ∧ r3.2.nu + r3.2.nl ≤ n ∧
      ∀ i, i < r3.2.nu + r3.2.nl → rd r3.1.H i = rd (mergeHull S n).H i) := by
  obtain ⟨s1, s2, hT1, hT2, hT⟩ := mergeHullMem_steps S A B S.length (S.length - 1) (by omega)
    hn (sorted_rd hs) hA hB
  have eA := mergeHullAux_succ (S.length - 1) S S.length (by omega)
  rw [Nat.sub_add_cancel (by omega)] at eA
  rw [eA] at hT
  have key := mergeHullMem_succ (S.length - 1) S S.length ⟨false, 0⟩ ⟨true, 0⟩ ⟨A, B, []⟩
    (by omega)
  rw [Nat.sub_add_cancel (by omega)] at key
  simp only [Nat.zero_add] at key
  have en1 : (mergeHullMem (S.length - 1) S (S.length / 2) ⟨true, 0⟩ ⟨false, 0⟩ ⟨A, B, []⟩).2.nu
      + (mergeHullMem (S.length - 1) S (S.length / 2) ⟨true, 0⟩ ⟨false, 0⟩ ⟨A, B, []⟩).2.nl
      = (mergeHullAux (S.length - 1) S (S.length / 2)).nu
        + (mergeHullAux (S.length - 1) S (S.length / 2)).nl := by
    rw [s1.1]
  have core := buffers_core A B S.length hA hB _ _ _ _ hT1.1 hT2.1 hT1.2.2.2.2.2 hT2.2.2.2.2.2
    hT.1 hT.2.2.2.2.2 s1 s2
  dsimp only
  refine ⟨key, ?_⟩
  unfold mergeHull
  rw [eA, en1]
  exact core

theorem mergeHull_buffers_witness :
    SortedLex [pt 0 0, pt 1 3, pt 2 4, pt 3 1, pt 4 (-2), pt 5 5, pt 6 1, pt 7 0] ∧
    (mergeHullMem 8 [pt 0 0, pt 1 3, pt 2 4, pt 3 1, pt 4 (-2), pt 5 5, pt 6 1, pt 7 0] 8
        ⟨false, 0⟩ ⟨true, 0⟩ ⟨List.replicate 8 (pt 9 9), List.replicate 8 (pt 9 9), []⟩).1.writes
      = [(false, 0), (false, 1), (false, 2), (false, 3), (true, 0), (true, 1), (true, 2),
          (true, 3), (false, 4), (false, 5), (false, 6), (false, 7), (true, 4), (true, 5),
          (true, 6), (false, 0), (false, 1), (false, 2), (false, 3), (false, 4), (false, 5)] ∧
    ∀ w, w ∈ (mergeHullMem 8 [pt 0 0, pt 1 3, pt 2 4, pt 3 1, pt 4 (-2), pt 5 5, pt 6 1, pt 7 0]
        8 ⟨false, 0⟩ ⟨true, 0⟩
        ⟨List.replicate 8 (pt 9 9), List.replicate 8 (pt 9 9), []⟩).1.writes → w.2 < 8 := by
  obtain ⟨h1, -, -, -, -, ⟨-, -, h6⟩, -⟩ :=
    mergeHull_buffers [pt 0 0, pt 1 3, pt 2 4, pt 3 1, pt 4 (-2), pt 5 5, pt 6 1, pt 7 0]
      (List.replicate 8 (pt 9 9)) (List.replicate 8 (pt 9 9)) (by decide) (by decide) rfl rfl
  refine ⟨by decide, by decide, fun w hw => h6 w ?_⟩
  rw [← h1]
  exact hw

/-! ### The comparator of the sort -/

theorem wrap32_of_fits (z : Int) (h : Int32 z) : wrap32 z = z := by
  unfold Int32 at h
  unfold wrap32
  omega

/-- Claim C31 (`comparePoints` is the lexicographic order) against the function in `int`
arithmetic: the points `(2147483647, 0)` and `(-1, 0)` have 32-bit
coordinates, the first one is lexicographically greater, and `comparePoints` returns the
negative value `-2^31` (the difference `2^31` wraps around); the points `(-2147483648, 0)` and
`(1, 0)` are in ascending order and `comparePoints` returns the positive value `2^31 - 1`. -/
theorem comparePoints_counterexample :
    Int32Point (pt 2147483647 0) ∧ Int32Point (pt (-1) 0) ∧
    lexLt (pt (-1) 0) (pt 2147483647 0) ∧
    comparePoints (pt 2147483647 0) (pt (-1) 0) = -2147483648 ∧
    ¬ (comparePoints (pt 2147483647 0) (pt (-1) 0) < 0
        ↔ lexLt (pt 2147483647 0) (pt (-1) 0)) ∧
    ¬ (comparePoints (pt 2147483647 0) (pt (-1) 0) > 0
        ↔ lexLt (pt (-1) 0) (pt 2147483647 0)) ∧
    Int32Point (pt (-2147483648) 0) ∧ Int32Point (pt 1 0) ∧
    lexLt (pt (-2147483648) 0) (pt 1 0) ∧
    comparePoints (pt (-2147483648) 0) (pt 1 0) = 2147483647 ∧
    ¬ (comparePoints (pt (-2147483648) 0) (pt 1 0) < 0
        ↔ lexLt (pt (-2147483648) 0) (pt 1 0)) := by
  decide

/-- The subtraction of `comparePoints` cannot overflow when all four coordinates lie between
`-2^30` and `2^30 - 1`. -/
theorem compareFits_of_range (p1 p2 : PointT) (h1x : -1073741824 ≤ p1.x ∧ p1.x ≤ 1073741823)
    (h1y : -1073741824 ≤ p1.y ∧ p1.y ≤ 1073741823)
    (h2x : -1073741824 ≤ p2.x ∧ p2.x ≤ 1073741823)
    (h2y : -1073741824 ≤ p2.y ∧ p2.y ≤ 1073741823) : CompareFits p1 p2 := by
  unfold CompareFits Int32
  split_ifs <;> omega

/-- In wrap-around arithmetic, when the subtraction of `comparePoints` overflows on points
with 32-bit coordinates, the sign of the result is the opposite of the one the lexicographic
order asks for. -/
theorem comparePoints_overflow (p1 p2 : PointT) (h1 : Int32Point p1) (h2 : Int32Point p2)
    (hov : ¬ CompareFits p1 p2) :
    (comparePoints p1 p2 < 0 ↔ lexLt p2 p1) ∧ (comparePoints p1 p2 > 0 ↔ lexLt p1 p2) := by
  obtain ⟨⟨a1, a2⟩, a3, a4⟩ := h1
  obtain ⟨⟨b1, b2⟩, b3, b4⟩ := h2
  unfold CompareFits at hov
  unfold comparePoints lexLt wrap32
  unfold Int32 at hov
  by_cases hx : p1.x ≠ p2.x
  · rw [if_pos hx] at hov ⊢
    omega
  · rw [if_neg hx] at hov ⊢
    omega

/-- Without overflow in its subtraction, `comparePoints` decides the lexicographic order. -/
theorem comparePoints_fits (p1 p2 : PointT) (hfit : CompareFits p1 p2) :
    (comparePoints p1 p2 < 0 ↔ lexLt p1 p2) ∧ (comparePoints p1 p2 > 0 ↔ lexLt p2 p1) := by
  unfold CompareFits at hfit
  unfold comparePoints lexLt
  by_cases hx : p1.x ≠ p2.x
  · rw [if_pos hx] at hfit ⊢
    rw [wrap32_of_fits _ hfit]
    omega
  · rw [if_neg hx] at hfit ⊢
    rw [wrap32_of_fits _ hfit]
    omega

theorem comparePoints_zero (p1 p2 : PointT) (h1 : Int32Point p1) (h2 : Int32Point p2) :
    comparePoints p1 p2 = 0 ↔ CoordEq p1 p2 := by
  obtain ⟨⟨a1, a2⟩, a3, a4⟩ := h1
  obtain ⟨⟨b1, b2⟩, b3, b4⟩ := h2
  unfold comparePoints CoordEq wrap32
  by_cases hx : p1.x ≠ p2.x
  · rw [if_pos hx]
    omega
  · rw [if_neg hx]
    omega

/-! ### The Graham scan computes the upper hull -/

theorem grahamPop_bounds : ∀ (fuel : Nat) (H : List PointT) (m : Nat),
    (grahamPop fuel H m).2 ≤ m ∧ (grahamPop fuel H m).1.length = H.length := by
  intro fuel
  induction fuel with
  | zero => intro H m; exact ⟨le_refl _, rfl⟩
  | succ fuel ih =>
    intro H m
    rw [grahamPop]
    split_ifs with h
    · obtain ⟨a, b⟩ := ih (H.set (m - 2) (rd H (m - 1))) (m - 1)
      exact ⟨by omega, by rw [b, List.length_set]⟩
    · exact ⟨le_refl _, rfl⟩

theorem grahamLoop_bounds (S : List PointT) (n : Nat) : ∀ (fuel i : Nat) (H : List PointT)
    (m : Nat), m ≤ i → i ≤ n →
    (grahamLoop S n fuel i H m).2 ≤ n ∧ (grahamLoop S n fuel i H m).1.length = H.length := by
  intro fuel
  induction fuel with
  | zero => intro i H m hm hi; exact ⟨by rw [grahamLoop]; omega, rfl⟩
  | succ fuel ih =>
    intro i H m hm hi
    rw [grahamLoop]
    split_ifs with h
    · obtain ⟨a, b⟩ := grahamPop_bounds (m + 1) (H.set m (rd S i)) (m + 1)
      obtain ⟨c, d⟩ := ih (i + 1) (grahamPop (m + 1) (H.set m (rd S i)) (m + 1)).1
        (grahamPop (m + 1) (H.set m (rd S i)) (m + 1)).2 (by omega) (by omega)
      exact ⟨c, by rw [d, b, List.length_set]⟩
    · exact ⟨by omega, rfl⟩

theorem pairwise_of_inc (L : List PointT)
    (h : ∀ j, j + 1 < L.length → lexLt (rd L j) (rd L (j + 1))) : L.Pairwise lexLt := by
  haveI : IsTrans PointT lexLt := ⟨fun _ _ _ h1 h2 => lexLt_trans h1 h2⟩
  rw [← List.chain'_iff_pairwise, List.chain'_iff_get]
  intro j hj
  have := h j (by omega)
  rwa [rd_eq_getElem L j (by omega), rd_eq_getElem L (j + 1) (by omega)] at this

theorem sublist_of_inc (S L : List PointT) (hs : SortedLex S)
    (h : ∀ j, j + 1 < L.length → lexLt (rd L j) (rd L (j + 1)))
    (hm : ∀ j, j < L.length → ∃ k, k < S.length ∧ rd L j = rd S k) : List.Sublist L S := by
  haveI : IsAntisymm PointT lexLt := ⟨fun _ _ h1 h2 => (lexLt_asymm h1 h2).elim⟩
  have hp := pairwise_of_inc L h
  have hnd : L.Nodup := by
    unfold List.Nodup
    refine hp.imp ?_
    intro a b hab e
    rw [e] at hab
    exact lexLt_irrefl b hab
  have hsub : L ⊆ S := by
    intro a ha
    obtain ⟨j, hj, e⟩ := mem_rd ha
    obtain ⟨k, hk, e2⟩ := hm j hj
    rw [e, e2]
    exact rd_mem S k hk
  exact List.sublist_of_subperm_of_sorted (List.subperm_of_subset hnd hsub) hp hs

/-- The Graham scan with the test on exact integers computes the upper hull: for every sorted
sequence `S` of
`n ≥ 2` points with pairwise distinct coordinates, the scan loop of grahamScan.c ends with a
live count `m ≤ n`, and the entries `H[0..m-1]` it leaves (at least two) form a subsequence of
`S` with `H[0] = S[0]` and `H[m-1] = S[n-1]`; every consecutive triple of `H` is a strict
right turn, and every point of `S` lies on or to the right of every directed edge
`H[i] → H[i+1]`. -/
theorem grahamScan_upper_hull (S : List PointT) (hn : 2 ≤ S.length) (hs : SortedLex S) :
    (grahamLoop S S.length S.length 2
        (((List.replicate S.length default).set 0 (rd S 0)).set 1 (rd S 1)) 2).2 ≤ S.length ∧
    (grahamScan S S.length).length
      = (grahamLoop S S.length S.length 2
          (((List.replicate S.length default).set 0 (rd S 0)).set 1 (rd S 1)) 2).2 ∧
    2 ≤ (grahamScan S S.length).length ∧
    List.Sublist (grahamScan S S.length) S ∧
    rd (grahamScan S S.length) 0 = rd S 0 ∧
    rd (grahamScan S S.length) ((grahamScan S S.length).length - 1) = rd S (S.length - 1) ∧
    (∀ j, j + 2 < (grahamScan S S.length).length →
      AREA (rd (grahamScan S S.length) j) (rd (grahamScan S S.length) (j + 1))
        (rd (grahamScan S S.length) (j + 2)) < 0) ∧
    (∀ j, j + 1 < (grahamScan S S.length).length → ∀ k, k < S.length →
      AREA (rd (grahamScan S S.length) j) (rd (grahamScan S S.length) (j + 1)) (rd S k)
        ≤ 0) := by
  have hU := grahamScan_uhull hs hn
  obtain ⟨b1, b2⟩ := grahamLoop_bounds S S.length S.length 2
    (((List.replicate S.length default).set 0 (rd S 0)).set 1 (rd S 1)) 2 (le_refl _) hn
  refine ⟨b1, ?_, hU.len, sublist_of_inc S _ hs hU.inc hU.mem, hU.first, hU.last, hU.turn,
    hU.sup⟩
  unfold grahamScan
  rw [List.length_take, b2, List.length_set, List.length_set, List.length_replicate]
  omega

theorem grahamScan_upper_hull_witness :
    SortedLex [pt 0 0, pt 1 (-1), pt 2 3, pt 3 1, pt 4 2, pt 6 (-1)] ∧
    grahamScan [pt 0 0, pt 1 (-1), pt 2 3, pt 3 1, pt 4 2, pt 6 (-1)] 6
      = [pt 0 0, pt 2 3, pt 4 2, pt 6 (-1)] ∧
    List.Sublist (grahamScan [pt 0 0, pt 1 (-1), pt 2 3, pt 3 1, pt 4 2, pt 6 (-1)] 6)
      [pt 0 0, pt 1 (-1), pt 2 3, pt 3 1, pt 4 2, pt 6 (-1)] :=
  ⟨by decide, by decide,
    (grahamScan_upper_hull [pt 0 0, pt 1 (-1), pt 2 3, pt 3 1, pt 4 2, pt 6 (-1)] (by decide)
      (by decide)).2.2.2.1⟩

/-! ### Where nothing overflows the 32-bit program is the exact one -/

theorem AREA32_small (a b c : PointT) (ha : SmallPoint a) (hb : SmallPoint b)
    (hc : SmallPoint c) : AREA32 a b c = AREA a b c := by
  obtain ⟨a1, a2, a3, a4⟩ := ha
  obtain ⟨b1, b2, b3, b4⟩ := hb
  obtain ⟨c1, c2, c3, c4⟩ := hc
  obtain ⟨p1, p2⟩ := mul_range (b.x - a.x) (c.y - a.y) (by omega) (by omega)
    (by omega) (by omega)
  obtain ⟨q1, q2⟩ := mul_range (c.x - a.x) (b.y - a.y) (by omega) (by omega)
    (by omega) (by omega)
  have hA : Int32 (AREA a b c) := by
    unfold Int32 AREA
    constructor <;> linarith
  have h1 := AREA32_modEq a b c
  have h2 := AREA32_range a b c
  unfold Int32 at hA h2
  unfold Int.ModEq at h1
  omega

theorem RIGHT32_small (a b c : PointT) (ha : SmallPoint a) (hb : SmallPoint b)
    (hc : SmallPoint c) : RIGHT32 a b c = RIGHT a b c := by
  unfold RIGHT32 RIGHT
  rw [AREA32_small a b c ha hb hc]

theorem LEFT32_small (a b c : PointT) (ha : SmallPoint a) (hb : SmallPoint b)
    (hc : SmallPoint c) : LEFT32 a b c = LEFT a b c := by
  unfold LEFT32 LEFT
  rw [AREA32_small a b c ha hb hc]

theorem small_default : SmallPoint (default : PointT) := by decide

theorem small_rd {L : List PointT} (h : SmallList L) (i : Nat) : SmallPoint (rd L i) := by
  rcases Nat.lt_or_ge i L.length with hi | hi
  · exact h _ (rd_mem L i hi)
  · have e : rd L i = default := by
      unfold rd
      rw [List.getD_eq_getElem?_getD, List.getElem?_eq_none hi]
      rfl
    rw [e]
    exact small_default

theorem small_drop {L : List PointT} (h : SmallList L) (k : Nat) : SmallList (L.drop k) :=
  fun p hp => h p (List.mem_of_mem_drop hp)

theorem small_append {L M : List PointT} (h1 : SmallList L) (h2 : SmallList M) :
    SmallList (L ++ M) := by
  intro p hp
  rcases List.mem_append.1 hp with h | h
  · exact h1 p h
  · exact h2 p h

theorem small_copyRange {L : List PointT} (h : SmallList L) (a b : Nat) :
    SmallList (copyRange L a b) := by
  intro p hp
  unfold copyRange at hp
  obtain ⟨k, -, rfl⟩ := List.mem_map.1 hp
  exact small_rd h _

theorem small_singleton {p : PointT} (h : SmallPoint p) : SmallList [p] := by
  intro q hq
  rw [List.mem_singleton.1 hq]
  exact h

theorem tangentUpperLoop32_small (p : PointT) (H : List PointT) (nu : Nat) (hp : SmallPoint p)
    (hH : SmallList H) : ∀ (fuel min max mid : Nat),
    tangentUpperLoop32 p H nu fuel min max mid = tangentUpperLoop p H nu fuel min max mid := by
  intro fuel
  induction fuel with
  | zero => intro min max mid; rfl
  | succ fuel ih =>
    intro min max mid
    rw [tangentUpperLoop32, tangentUpperLoop]
    simp only [RIGHT32_small p _ _ hp (small_rd hH _) (small_rd hH _), ih]

theorem tangentLowerLoop32_small (p : PointT) (H : List PointT) (nu n : Nat)
    (hp : SmallPoint p) (hH : SmallList H) : ∀ (fuel min max mid : Nat),
    tangentLowerLoop32 p H nu n fuel min max mid
      = tangentLowerLoop p H nu n fuel min max mid := by
  intro fuel
  induction fuel with
  | zero => intro min max mid; rfl
  | succ fuel ih =>
    intro min max mid
    rw [tangentLowerLoop32, tangentLowerLoop]
    simp only [LEFT32_small p _ _ hp (small_rd hH _) (small_rd hH _), ih]

theorem findTangent32_small (p : PointT) (HI : HullT) (upper : Int) (hp : SmallPoint p)
    (hH : SmallList HI.H) : findTangent32 p HI upper = findTangent p HI upper := by
  unfold findTangent32 findTangent
  simp only [tangentUpperLoop32_small p HI.H HI.nu hp hH,
    tangentLowerLoop32_small p HI.H HI.nu _ hp hH]

theorem joinUpperLoop32_small (HI1 HI2 : HullT) (h1 : SmallList HI1.H)
    (h2 : SmallList HI2.H) : ∀ (fuel min max : Nat) (s : Nat × Nat),
    joinUpperLoop32 HI1 HI2 fuel min max s = joinUpperLoop HI1 HI2 fuel min max s := by
  intro fuel
  induction fuel with
  | zero => intro min max s; rfl
  | succ fuel ih =>
    intro min max s
    rw [joinUpperLoop32, joinUpperLoop]
    simp only [findTangent32_small _ HI2 1 (small_rd h1 _) h2,
      RIGHT32_small _ _ _ (small_rd h1 _) (small_rd h1 _) (small_rd h2 _), ih]

theorem joinLowerLoop32_small (HI1 HI2 : HullT) (h1 : SmallList HI1.H)
    (h2 : SmallList HI2.H) : ∀ (fuel min max : Nat) (s : Nat × Nat),
    joinLowerLoop32 HI1 HI2 fuel min max s = joinLowerLoop HI1 HI2 fuel min max s := by
  intro fuel
  induction fuel with
  | zero => intro min max s; rfl
  | succ fuel ih =>
    intro min max s
    rw [joinLowerLoop32, joinLowerLoop]
    simp only [findTangent32_small _ HI2 0 (small_rd h1 _) h2,
      LEFT32_small _ _ _ (small_rd h1 _) (small_rd h1 _) (small_rd h2 _), ih]

theorem joinHulls32_small (HI1 HI2 : HullT) (h1 : SmallList HI1.H) (h2 : SmallList HI2.H) :
    joinHulls32 HI1 HI2 = joinHulls HI1 HI2 := by
  unfold joinHulls32 joinHulls
  simp only [joinUpperLoop32_small HI1 HI2 h1 h2, joinLowerLoop32_small HI1 HI2 h1 h2]

theorem small_assemble (HI1 HI2 : HullT) (h1 : SmallList HI1.H) (h2 : SmallList HI2.H)
    (pu qu pl ql : Nat) : SmallList (assemble HI1 HI2 pu qu pl ql).H := by
  unfold assemble
  simp only
  refine small_append (small_append (small_copyRange h1 _ _) (small_copyRange h2 _ _))
    (small_append ?_ ?_)
  · split_ifs
    · exact small_append (small_copyRange h2 _ _) (small_singleton (small_rd h2 _))
    · exact small_copyRange h2 _ _
  · split_ifs
    · exact small_copyRange h1 _ _
    · intro p hp
      cases hp

theorem small_joinHulls (HI1 HI2 : HullT) (h1 : SmallList HI1.H) (h2 : SmallList HI2.H) :
    SmallList (joinHulls HI1 HI2).H := by
  unfold joinHulls
  exact small_assemble HI1 HI2 h1 h2 _ _ _ _

theorem mergeHullBase32_small (S : List PointT) (n : Nat) (hS : SmallList S) :
    mergeHullBase32 S n = mergeHullBase S n := by
  unfold mergeHullBase32 mergeHullBase
  simp only [RIGHT32_small _ _ _ (small_rd hS 0) (small_rd hS 1) (small_rd hS 2),
    LEFT32_small _ _ _ (small_rd hS 0) (small_rd hS 1) (small_rd hS 2)]

theorem small_mergeHullBase (S : List PointT) (n : Nat) (hS : SmallList S) :
    SmallList (mergeHullBase S n).H := by
  have s0 := small_rd hS 0
  have s1 := small_rd hS 1
  have s2 := small_rd hS 2
  unfold mergeHullBase
  split_ifs <;> intro p hp <;> simp only [List.mem_cons, List.mem_singleton, List.mem_nil_iff,
    or_false] at hp <;> rcases hp with h | h | h <;> subst_vars <;> assumption

theorem mergeHullAux32_small : ∀ (fuel : Nat) (S : List PointT) (n : Nat), SmallList S →
    mergeHullAux32 fuel S n = mergeHullAux fuel S n ∧ SmallList (mergeHullAux fuel S n).H := by
  intro fuel
  induction fuel with
  | zero =>
    intro S n hS
    rw [mergeHullAux32, mergeHullAux]
    split_ifs
    · exact ⟨mergeHullBase32_small S n hS, small_mergeHullBase S n hS⟩
    · exact ⟨rfl, fun p hp => by cases hp⟩
  | succ fuel ih =>
    intro S n hS
    rw [mergeHullAux32, mergeHullAux]
    split_ifs
    · exact ⟨mergeHullBase32_small S n hS, small_mergeHullBase S n hS⟩
    · obtain ⟨e1, s1⟩ := ih S (n / 2) hS
      obtain ⟨e2, s2⟩ := ih (S.drop (n / 2)) (n - n / 2) (small_drop hS _)
      simp only
      rw [e1, e2]
      exact ⟨joinHulls32_small _ _ s1 s2, small_joinHulls _ _ s1 s2⟩

/-- On inputs whose coordinates all have absolute value at most `16383`, where no orientation
test can overflow, the program on `int` coordinates computes what the program on exact
integers computes. -/
theorem mergeHull32_small (S : List PointT) (n : Nat) (hS : SmallList S) :
    mergeHull32 S n = mergeHull S n :=
  (mergeHullAux32_small n S n hS).1

theorem small_set {L : List PointT} (h : SmallList L) (i : Nat) {p : PointT}
    (hp : SmallPoint p) : SmallList (L.set i p) := by
  intro q hq
  rcases List.mem_or_eq_of_mem_set hq with h1 | h1
  · exact h q h1
  · rw [h1]
    exact hp

theorem grahamPop32_small : ∀ (fuel : Nat) (H : List PointT) (m : Nat), SmallList H →
    grahamPop32 fuel H m = grahamPop fuel H m ∧ SmallList (grahamPop fuel H m).1 := by
  intro fuel
  induction fuel with
  | zero => intro H m hH; exact ⟨rfl, hH⟩
  | succ fuel ih =>
    intro H m hH
    rw [grahamPop32, grahamPop]
    simp only [RIGHT32_small _ _ _ (small_rd hH _) (small_rd hH _) (small_rd hH _)]
    split_ifs
    · exact ih _ _ (small_set hH _ (small_rd hH _))
    · exact ⟨rfl, hH⟩

theorem grahamLoop32_small (S : List PointT) (n : Nat) (hS : SmallList S) :
    ∀ (fuel i : Nat) (H : List PointT) (m : Nat), SmallList H →
    grahamLoop32 S n fuel i H m = grahamLoop S n fuel i H m := by
  intro fuel
  induction fuel with
  | zero => intro i H m hH; rfl
  | succ fuel ih =>
    intro i H m hH
    rw [grahamLoop32, grahamLoop]
    obtain ⟨e, s⟩ := grahamPop32_small (m + 1) (H.set m (rd S i)) (m + 1)
      (small_set hH _ (small_rd hS _))
    rw [e]
    split_ifs
    · exact ih _ _ _ s
    · rfl

/-- On inputs whose coordinates all have absolute value at most `16383` the scan on `int`
coordinates computes what the scan on exact integers computes. -/
theorem grahamScan32_small (S : List PointT) (n : Nat) (hS : SmallList S) :
    grahamScan32 S n = grahamScan S n := by
  have h0 : SmallList (((List.replicate n (default : PointT)).set 0 (rd S 0)).set 1 (rd S 1)) := by
    refine small_set (small_set ?_ _ (small_rd hS _)) _ (small_rd hS _)
    intro p hp
    rw [(List.mem_replicate.1 hp).2]
    exact small_default
  unfold grahamScan32 grahamScan
  rw [grahamLoop32_small S n hS n 2 _ 2 h0]

/-! ### Inputs on which the orientation test overflows

The points `T0 = (-37968, 38811)`, `T1 = (-28189, -12641)`, `T2 = (8322, 8719)`,
`T3 = (36380, -8148)` are sorted, pairwise distinct and far inside the range of `int`. The exact
value of `AREA (T0, T1, T2)` is `2087443412`, a left turn, but the product
`(T2.x - T0.x) * (T1.y - T0.y)` is beyond `2^31`, and in 32-bit arithmetic the join of the
chains `[T0, T1]` and `[T2, T3]` goes wrong. -/

/-- Claim C1 (convexity) against the program on `int` coordinates: on the sorted input
`T0, T1, T2, T3` of distinct points the program returns the chain `[T0, T1, T2, T3, T2]` with
`nu = 3`, `nl = 2`, whose first triple `T0, T1, T2` is a left turn (`AREA = 2087443412`). -/
theorem mergeHull32_convexity_fails :
    SortedLex [pt (-37968) 38811, pt (-28189) (-12641), pt 8322 8719, pt 36380 (-8148)] ∧
    mergeHull32 [pt (-37968) 38811, pt (-28189) (-12641), pt 8322 8719, pt 36380 (-8148)] 4
      = ⟨[pt (-37968) 38811, pt (-28189) (-12641), pt 8322 8719, pt 36380 (-8148),
          pt 8322 8719], 3, 2⟩ ∧
    AREA (pt (-37968) 38811) (pt (-28189) (-12641)) (pt 8322 8719) = 2087443412 ∧
    ¬ (∀ i, i < 5 →
      AREA (rd [pt (-37968) 38811, pt (-28189) (-12641), pt 8322 8719, pt 36380 (-8148),
            pt 8322 8719] i)
        (rd [pt (-37968) 38811, pt (-28189) (-12641), pt 8322 8719, pt 36380 (-8148),
            pt 8322 8719] ((i + 1) % 5))
        (rd [pt (-37968) 38811, pt (-28189) (-12641), pt 8322 8719, pt 36380 (-8148),
            pt 8322 8719] ((i + 2) % 5)) ≤ 0) := by
  decide

/-- Claim C2 (containment) against the program on `int` coordinates: on the sorted input
`T0, T1, T2, T3` the first edge of the chain returned is `T0 → T1`, and the input point `T2`
lies strictly to its left (`AREA (T0, T1, T2) = 2087443412`). -/
theorem mergeHull32_containment_fails :
    SortedLex [pt (-37968) 38811, pt (-28189) (-12641), pt 8322 8719, pt 36380 (-8148)] ∧
    rd (mergeHull32 [pt (-37968) 38811, pt (-28189) (-12641), pt 8322 8719,
      pt 36380 (-8148)] 4).H 0 = pt (-37968) 38811 ∧
    rd (mergeHull32 [pt (-37968) 38811, pt (-28189) (-12641), pt 8322 8719,
      pt 36380 (-8148)] 4).H 1 = pt (-28189) (-12641) ∧
    pt 8322 8719 ∈ [pt (-37968) 38811, pt (-28189) (-12641), pt 8322 8719, pt 36380 (-8148)] ∧
    0 < AREA
      (rd (mergeHull32 [pt (-37968) 38811, pt (-28189) (-12641), pt 8322 8719,
        pt 36380 (-8148)] 4).H 0)
      (rd (mergeHull32 [pt (-37968) 38811, pt (-28189) (-12641), pt 8322 8719,
        pt 36380 (-8148)] 4).H 1) (pt 8322 8719) := by
  decide

/-- Claim C3 (each input point at most once) against the program on `int` coordinates: on
the sorted input `T0, T1, T2, T3` the chain returned has five entries, and the input point `T2`
is stored at index `2` and again at index `4`. -/
theorem mergeHull32_vertices_fails :
    SortedLex [pt (-37968) 38811, pt (-28189) (-12641), pt 8322 8719, pt 36380 (-8148)] ∧
    (mergeHull32 [pt (-37968) 38811, pt (-28189) (-12641), pt 8322 8719,
      pt 36380 (-8148)] 4).nu
      + (mergeHull32 [pt (-37968) 38811, pt (-28189) (-12641), pt 8322 8719,
        pt 36380 (-8148)] 4).nl = 5 ∧
    rd (mergeHull32 [pt (-37968) 38811, pt (-28189) (-12641), pt 8322 8719,
      pt 36380 (-8148)] 4).H 2 = pt 8322 8719 ∧
    rd (mergeHull32 [pt (-37968) 38811, pt (-28189) (-12641), pt 8322 8719,
      pt 36380 (-8148)] 4).H 4 = pt 8322 8719 ∧
    ¬ (mergeHull32 [pt (-37968) 38811, pt (-28189) (-12641), pt 8322 8719,
      pt 36380 (-8148)] 4).H.Nodup := by
  decide

/-- Claim C4 (minimality) against the program on `int` coordinates: on the sorted input
`T0, T1, T2, T3` the chain returned has `m = 5 ≥ 3` entries and its cyclic triples have the
exact areas `2087443412, -1215149917, 0, -63547906, 2087443412`: two left turns and one
straight one. -/
theorem mergeHull32_minimality_fails :
    SortedLex [pt (-37968) 38811, pt (-28189) (-12641), pt 8322 8719, pt 36380 (-8148)] ∧
    (List.range 5).map (fun i =>
      AREA
        (rd (mergeHull32 [pt (-37968) 38811, pt (-28189) (-12641), pt 8322 8719,
          pt 36380 (-8148)] 4).H i)
        (rd (mergeHull32 [pt (-37968) 38811, pt (-28189) (-12641), pt 8322 8719,
          pt 36380 (-8148)] 4).H ((i + 1) % 5))
        (rd (mergeHull32 [pt (-37968) 38811, pt (-28189) (-12641), pt 8322 8719,
          pt 36380 (-8148)] 4).H ((i + 2) % 5)))
      = [2087443412, -1215149917, 0, -63547906, 2087443412] := by
  decide

/-- Claim C5 (size bound) against the program on `int` coordinates: on the sorted input
`T0, T1, T2, T3` of `n = 4` points the program returns `nu = 3` and `nl = 2`, five entries. -/
theorem mergeHull32_size_fails :
    SortedLex [pt (-37968) 38811, pt (-28189) (-12641), pt 8322 8719, pt 36380 (-8148)] ∧
    (mergeHull32 [pt (-37968) 38811, pt (-28189) (-12641), pt 8322 8719,
      pt 36380 (-8148)] 4).nu = 3 ∧
    (mergeHull32 [pt (-37968) 38811, pt (-28189) (-12641), pt 8322 8719,
      pt 36380 (-8148)] 4).nl = 2 ∧
    ¬ ((mergeHull32 [pt (-37968) 38811, pt (-28189) (-12641), pt 8322 8719,
        pt 36380 (-8148)] 4).nu
      + (mergeHull32 [pt (-37968) 38811, pt (-28189) (-12641), pt 8322 8719,
        pt 36380 (-8148)] 4).nl ≤ 4) := by
  decide

/-- Claim C9 (upper tangent of `findTangent`) against the program on `int` coordinates: the
hull of the sorted points `(65536, 0)`, `(65536, 32768)` is the chain of these two points, the
point `p = (0, 0)` is lexicographically smaller than both, and `findTangent (p, HI, 1)` returns
index `0` although the other point of the hull lies strictly to the left of the line
`p → HI[0]` (`AREA = 2^31`, which the program computes as `-2^31`). -/
theorem findTangent32_upper_fails :
    SortedLex [pt 65536 0, pt 65536 32768] ∧
    mergeHull32 [pt 65536 0, pt 65536 32768] 2 = ⟨[pt 65536 0, pt 65536 32768], 1, 1⟩ ∧
    lexLt (pt 0 0) (pt 65536 0) ∧ lexLt (pt 0 0) (pt 65536 32768) ∧
    findTangent32 (pt 0 0) (mergeHull32 [pt 65536 0, pt 65536 32768] 2) 1 = 0 ∧
    AREA (pt 0 0) (pt 65536 0) (pt 65536 32768) = 2147483648 ∧
    AREA32 (pt 0 0) (pt 65536 0) (pt 65536 32768) = -2147483648 ∧
    0 < AREA (pt 0 0)
      (rd (mergeHull32 [pt 65536 0, pt 65536 32768] 2).H
        (findTangent32 (pt 0 0) (mergeHull32 [pt 65536 0, pt 65536 32768] 2) 1))
      (rd (mergeHull32 [pt 65536 0, pt 65536 32768] 2).H 1) := by
  decide

/-- Claim C12 (base case `n = 3`) against the program on `int` coordinates: the points
`(0, 0)`, `(65536, 0)`, `(65536, 32768)` make a left turn (`AREA = 2^31 > 0`), for which the
claim asks `[p0, p2, p1]` with `nu = 1`, `nl = 2`; the program computes `-2^31` and returns
`[p0, p1, p2]` with `nu = 2`, `nl = 1`, a chain whose triples are left turns. -/
theorem mergeHull32_three_fails :
    0 < AREA (pt 0 0) (pt 65536 0) (pt 65536 32768) ∧
    mergeHull32 [pt 0 0, pt 65536 0, pt 65536 32768] 3
      = ⟨[pt 0 0, pt 65536 0, pt 65536 32768], 2, 1⟩ ∧
    mergeHull32 [pt 0 0, pt 65536 0, pt 65536 32768] 3
      ≠ ⟨[pt 0 0, pt 65536 32768, pt 65536 0], 1, 2⟩ ∧
    ¬ (∀ i, i < 3 →
      AREA (rd (mergeHull32 [pt 0 0, pt 65536 0, pt 65536 32768] 3).H i)
        (rd (mergeHull32 [pt 0 0, pt 65536 0, pt 65536 32768] 3).H ((i + 1) % 3))
        (rd (mergeHull32 [pt 0 0, pt 65536 0, pt 65536 32768] 3).H ((i + 2) % 3)) < 0) := by
  decide

/-- Claim C28 (every write within `[0, n - 1]`) against the program on `int` coordinates:
on the sorted input `T0, T1, T2, T3` with two arrays of length `n = 4`, the two base cases write
`Hbuff[0..3]`, and `joinHulls` then stores a chain of five entries: it writes `H[0..4]`, the last
write one entry past the end of `H`. -/
theorem mergeHullMem32_write_outside :
    SortedLex [pt (-37968) 38811, pt (-28189) (-12641), pt 8322 8719, pt 36380 (-8148)] ∧
    (mergeHullMem32 4 [pt (-37968) 38811, pt (-28189) (-12641), pt 8322 8719,
        pt 36380 (-8148)] 4 ⟨false, 0⟩ ⟨true, 0⟩
        ⟨List.replicate 4 default, List.replicate 4 default, []⟩).1.writes
      = [(true, 0), (true, 1), (true, 2), (true, 3), (false, 0), (false, 1), (false, 2),
          (false, 3), (false, 4)] ∧
    (mergeHullMem32 4 [pt (-37968) 38811, pt (-28189) (-12641), pt 8322 8719,
        pt 36380 (-8148)] 4 ⟨false, 0⟩ ⟨true, 0⟩
        ⟨List.replicate 4 default, List.replicate 4 default, []⟩).2 = ⟨⟨false, 0⟩, 3, 2⟩ ∧
    ¬ (∀ w, w ∈ (mergeHullMem32 4 [pt (-37968) 38811, pt (-28189) (-12641), pt 8322 8719,
        pt 36380 (-8148)] 4 ⟨false, 0⟩ ⟨true, 0⟩
        ⟨List.replicate 4 default, List.replicate 4 default, []⟩).1.writes → w.2 < 4) := by
  decide

/-- Claim C32 (the Graham scan computes the upper hull) against the program on `int`
coordinates: on the sorted input `(0, 0)`, `(65536, 0)`, `(65536, 32768)` the scan keeps all
three points, although they make a left turn (`AREA = 2^31 > 0`, computed as `-2^31`): the one
triple of the result is no right turn, and the input point `(65536, 32768)` is strictly to the
left of the edge `H[0] → H[1]`. -/
theorem grahamScan32_fails :
    SortedLex [pt 0 0, pt 65536 0, pt 65536 32768] ∧
    grahamScan32 [pt 0 0, pt 65536 0, pt 65536 32768] 3
      = [pt 0 0, pt 65536 0, pt 65536 32768] ∧
    AREA (rd (grahamScan32 [pt 0 0, pt 65536 0, pt 65536 32768] 3) 0)
      (rd (grahamScan32 [pt 0 0, pt 65536 0, pt 65536 32768] 3) 1)
      (rd (grahamScan32 [pt 0 0, pt 65536 0, pt 65536 32768] 3) 2) = 2147483648 ∧
    0 < AREA (rd (grahamScan32 [pt 0 0, pt 65536 0, pt 65536 32768] 3) 0)
      (rd (grahamScan32 [pt 0 0, pt 65536 0, pt 65536 32768] 3) 1)
      (rd [pt 0 0, pt 65536 0, pt 65536 32768] 2) := by
  decide

/-! ### The contract of `joinHulls` and of `mergeHull` on the program with `int` coordinates

The statements below are about the program with its orientation tests in 32-bit arithmetic,
for coordinates of absolute value at most `16383`, the range in which `AREA` cannot
overflow. -/

/-- Claim C8, as stated, fails: the chains `[(0,0),(0,1)]` and
`[(3,0),(3,2),(4,0),(3,1),(4,1)]` (`nu = 4`, `nl = 1`) are valid in the sense of the claim
(the second one winds twice around), the first lies to the left of the second, and the point
`(3,2)` of the second chain is strictly to the left of the edge `(3,1) → (4,1)` of the chain
that `joinHulls` returns. -/
theorem joinHulls32_contract_counterexample :
    ChainOK ⟨[pt 0 0, pt 0 1], 1, 1⟩ ∧
    ChainOK ⟨[pt 3 0, pt 3 2, pt 4 0, pt 3 1, pt 4 1], 4, 1⟩ ∧
    LeftOf ⟨[pt 0 0, pt 0 1], 1, 1⟩ ⟨[pt 3 0, pt 3 2, pt 4 0, pt 3 1, pt 4 1], 4, 1⟩ ∧
    joinHulls32 ⟨[pt 0 0, pt 0 1], 1, 1⟩ ⟨[pt 3 0, pt 3 2, pt 4 0, pt 3 1, pt 4 1], 4, 1⟩
      = ⟨[pt 0 0, pt 0 1, pt 3 2, pt 4 0, pt 3 1, pt 4 1, pt 3 0], 5, 2⟩ ∧
    0 < AREA (pt 3 1) (pt 4 1) (pt 3 2) ∧
    ¬ (ChainOK (joinHulls32 ⟨[pt 0 0, pt 0 1], 1, 1⟩
          ⟨[pt 3 0, pt 3 2, pt 4 0, pt 3 1, pt 4 1], 4, 1⟩) ∧
        Covers (joinHulls32 ⟨[pt 0 0, pt 0 1], 1, 1⟩
          ⟨[pt 3 0, pt 3 2, pt 4 0, pt 3 1, pt 4 1], 4, 1⟩) ⟨[pt 0 0, pt 0 1], 1, 1⟩ ∧
        Covers (joinHulls32 ⟨[pt 0 0, pt 0 1], 1, 1⟩
          ⟨[pt 3 0, pt 3 2, pt 4 0, pt 3 1, pt 4 1], 4, 1⟩)
          ⟨[pt 3 0, pt 3 2, pt 4 0, pt 3 1, pt 4 1], 4, 1⟩) := by
  have e : joinHulls32 ⟨[pt 0 0, pt 0 1], 1, 1⟩
      ⟨[pt 3 0, pt 3 2, pt 4 0, pt 3 1, pt 4 1], 4, 1⟩
      = ⟨[pt 0 0, pt 0 1, pt 3 2, pt 4 0, pt 3 1, pt 4 1, pt 3 0], 5, 2⟩ := by decide
  refine ⟨by decide, by decide, by decide, e, by decide, ?_⟩
  rw [e]
  intro h
  have := h.2.2 4 (by decide) 1 (by decide)
  revert this
  decide

/-- Claim C8, amended: if `HI1` and `HI2` are valid in the sense of the claim and in addition
convex (every point of the chain on or to the right of every directed edge of the chain), all
their coordinates have absolute value at most `16383`, and every point of `HI1` is
lexicographically smaller than every point of `HI2`, then `joinHulls`, run on `int`
coordinates, returns a chain that is valid in the sense of the claim and convex, and every
point of `HI1` and of `HI2` lies on or to the right of every directed boundary edge of the
result. -/
theorem joinHulls32_contract (HI1 HI2 : HullT) (h1 : ChainOK HI1) (c1 : Cvx HI1)
    (h2 : ChainOK HI2) (c2 : Cvx HI2) (hsep : LeftOf HI1 HI2) (s1 : SmallList HI1.H)
    (s2 : SmallList HI2.H) :
    ChainOK (joinHulls32 HI1 HI2) ∧ Cvx (joinHulls32 HI1 HI2) ∧
    Covers (joinHulls32 HI1 HI2) HI1 ∧ Covers (joinHulls32 HI1 HI2) HI2 := by
  rw [joinHulls32_small HI1 HI2 s1 s2]
  exact joinHulls_contract HI1 HI2 h1 c1 h2 c2 hsep

theorem joinHulls32_contract_witness :
    ChainOK ⟨[pt 0 0, pt 1 2, pt 2 0], 2, 1⟩ ∧ Cvx ⟨[pt 0 0, pt 1 2, pt 2 0], 2, 1⟩ ∧
    ChainOK ⟨[pt 3 0, pt 4 2, pt 5 0], 2, 1⟩ ∧ Cvx ⟨[pt 3 0, pt 4 2, pt 5 0], 2, 1⟩ ∧
    LeftOf ⟨[pt 0 0, pt 1 2, pt 2 0], 2, 1⟩ ⟨[pt 3 0, pt 4 2, pt 5 0], 2, 1⟩ ∧
    SmallList [pt 0 0, pt 1 2, pt 2 0] ∧ SmallList [pt 3 0, pt 4 2, pt 5 0] ∧
    joinHulls32 ⟨[pt 0 0, pt 1 2, pt 2 0], 2, 1⟩ ⟨[pt 3 0, pt 4 2, pt 5 0], 2, 1⟩
      = ⟨[pt 0 0, pt 1 2, pt 4 2, pt 5 0], 3, 1⟩ ∧
    ChainOK (joinHulls32 ⟨[pt 0 0, pt 1 2, pt 2 0], 2, 1⟩ ⟨[pt 3 0, pt 4 2, pt 5 0], 2, 1⟩) ∧
    Cvx (joinHulls32 ⟨[pt 0 0, pt 1 2, pt 2 0], 2, 1⟩ ⟨[pt 3 0, pt 4 2, pt 5 0], 2, 1⟩) ∧
    Covers (joinHulls32 ⟨[pt 0 0, pt 1 2, pt 2 0], 2, 1⟩ ⟨[pt 3 0, pt 4 2, pt 5 0], 2, 1⟩)
      ⟨[pt 0 0, pt 1 2, pt 2 0], 2, 1⟩ ∧
    Covers (joinHulls32 ⟨[pt 0 0, pt 1 2, pt 2 0], 2, 1⟩ ⟨[pt 3 0, pt 4 2, pt 5 0], 2, 1⟩)
      ⟨[pt 3 0, pt 4 2, pt 5 0], 2, 1⟩ :=
  ⟨by decide, by decide, by decide, by decide, by decide, by decide, by decide, by decide,
    joinHulls32_contract ⟨[pt 0 0, pt 1 2, pt 2 0], 2, 1⟩ ⟨[pt 3 0, pt 4 2, pt 5 0], 2, 1⟩
      (by decide) (by decide) (by decide) (by decide) (by decide) (by decide) (by decide)⟩

/-- Claim C20, as stated, fails: the chains `[(0,0),(0,1)]` and
`[(3,0),(3,2),(4,0),(3,1),(4,3)]` (`nu = 4`, `nl = 1`) are valid in the sense of the contract
of `joinHulls` (the second one winds twice around and is not convex), the first lies to the
left of the second, the upper search ends with `pu = (0,1)` and `qu = (3,2)`, and the point
`(4,3)` of the second chain is strictly to the left of the line `pu → qu`. -/
theorem joinHulls32_upper_tangent_counterexample :
    ChainOK ⟨[pt 0 0, pt 0 1], 1, 1⟩ ∧
    ChainOK ⟨[pt 3 0, pt 3 2, pt 4 0, pt 3 1, pt 4 3], 4, 1⟩ ∧
    ¬ Cvx ⟨[pt 3 0, pt 3 2, pt 4 0, pt 3 1, pt 4 3], 4, 1⟩ ∧
    LeftOf ⟨[pt 0 0, pt 0 1], 1, 1⟩ ⟨[pt 3 0, pt 3 2, pt 4 0, pt 3 1, pt 4 3], 4, 1⟩ ∧
    joinUpperLoop32 ⟨[pt 0 0, pt 0 1], 1, 1⟩ ⟨[pt 3 0, pt 3 2, pt 4 0, pt 3 1, pt 4 3], 4, 1⟩
      2 0 1 (0, 0) = (1, 1) ∧
    findTangent32 (pt 0 1) ⟨[pt 3 0, pt 3 2, pt 4 0, pt 3 1, pt 4 3], 4, 1⟩ 1 = 1 ∧
    0 < AREA (rd [pt 0 0, pt 0 1] 1) (rd [pt 3 0, pt 3 2, pt 4 0, pt 3 1, pt 4 3] 1)
      (rd [pt 3 0, pt 3 2, pt 4 0, pt 3 1, pt 4 3] 4) := by
  decide

/-- Claim C20, amended (common upper tangent): for hull chains `HI1`, `HI2` that are valid in
the sense of the contract of `joinHulls` and in addition convex, with all coordinates of
absolute value at most `16383` and every point of `HI1` lexicographically smaller than every
point of `HI2`, the upper search of `joinHulls`, run on `int` coordinates, ends, within its
budget and the same for every larger one, with a pair `(pu, qu)` where `pu ≤ HI1.nu`,
`qu = findTangent (HI1[pu], HI2, 1)`, and every point of `HI1` and of `HI2` is on or to the
right of the directed line `HI1[pu] → HI2[qu]`. -/
theorem joinHulls32_upper_tangent (HI1 HI2 : HullT) (h1 : ChainOK HI1) (c1 : Cvx HI1)
    (h2 : ChainOK HI2) (c2 : Cvx HI2) (hsep : LeftOf HI1 HI2) (s1 : SmallList HI1.H)
    (s2 : SmallList HI2.H) :
    (joinUpperLoop32 HI1 HI2 (HI1.nu + 1) 0 HI1.nu (0, 0)).1 ≤ HI1.nu ∧
    (joinUpperLoop32 HI1 HI2 (HI1.nu + 1) 0 HI1.nu (0, 0)).2
      = findTangent32 (rd HI1.H (joinUpperLoop32 HI1 HI2 (HI1.nu + 1) 0 HI1.nu (0, 0)).1) HI2 1 ∧
    (∀ i, i < HI1.nu + HI1.nl →
      AREA (rd HI1.H (joinUpperLoop32 HI1 HI2 (HI1.nu + 1) 0 HI1.nu (0, 0)).1)
        (rd HI2.H (joinUpperLoop32 HI1 HI2 (HI1.nu + 1) 0 HI1.nu (0, 0)).2) (rd HI1.H i) ≤ 0) ∧
    (∀ j, j < HI2.nu + HI2.nl →
      AREA (rd HI1.H (joinUpperLoop32 HI1 HI2 (HI1.nu + 1) 0 HI1.nu (0, 0)).1)
        (rd HI2.H (joinUpperLoop32 HI1 HI2 (HI1.nu + 1) 0 HI1.nu (0, 0)).2) (rd HI2.H j) ≤ 0) ∧
    (∀ fuel, HI1.nu + 1 ≤ fuel →
      joinUpperLoop32 HI1 HI2 fuel 0 HI1.nu (0, 0)
        = joinUpperLoop32 HI1 HI2 (HI1.nu + 1) 0 HI1.nu (0, 0)) := by
  simp only [joinUpperLoop32_small HI1 HI2 s1 s2,
    findTangent32_small _ HI2 1 (small_rd s1 _) s2]
  exact joinHulls_upper_tangent HI1 HI2 (chainOK_valid h1 c1) (chainOK_valid h2 c2) hsep

theorem joinHulls32_upper_tangent_witness :
    LeftOf ⟨[pt 0 0, pt 1 2, pt 2 0], 2, 1⟩ ⟨[pt 3 0, pt 4 2, pt 5 0], 2, 1⟩ ∧
    joinUpperLoop32 ⟨[pt 0 0, pt 1 2, pt 2 0], 2, 1⟩ ⟨[pt 3 0, pt 4 2, pt 5 0], 2, 1⟩ 3 0 2
      (0, 0) = (1, 1) ∧
    ∀ j, j < 3 →
      AREA (rd [pt 0 0, pt 1 2, pt 2 0]
          (joinUpperLoop32 ⟨[pt 0 0, pt 1 2, pt 2 0], 2, 1⟩ ⟨[pt 3 0, pt 4 2, pt 5 0], 2, 1⟩
            3 0 2 (0, 0)).1)
        (rd [pt 3 0, pt 4 2, pt 5 0]
          (joinUpperLoop32 ⟨[pt 0 0, pt 1 2, pt 2 0], 2, 1⟩ ⟨[pt 3 0, pt 4 2, pt 5 0], 2, 1⟩
            3 0 2 (0, 0)).2)
        (rd [pt 3 0, pt 4 2, pt 5 0] j) ≤ 0 :=
  ⟨by decide, by decide,
    (joinHulls32_upper_tangent ⟨[pt 0 0, pt 1 2, pt 2 0], 2, 1⟩
      ⟨[pt 3 0, pt 4 2, pt 5 0], 2, 1⟩ (by decide) (by decide) (by decide) (by decide)
      (by decide) (by decide) (by decide)).2.2.2.1⟩

/-- Claim C21, as stated, fails: the chains `[(0,0),(0,1)]` and
`[(3,0),(3,2),(5,1),(3,1),(4,2)]` (`nu = 2`, `nl = 3`) are valid in the sense of the contract
of `joinHulls` (the second one winds twice around and is not convex), the first lies to the
left of the second, the lower search ends with `pl = (0,0)` and `ql = (5,1)`, and the point
`(3,0)` of the second chain is strictly to the right of the line `pl → ql`. -/
theorem joinHulls32_lower_tangent_counterexample :
    ChainOK ⟨[pt 0 0, pt 0 1], 1, 1⟩ ∧
    ChainOK ⟨[pt 3 0, pt 3 2, pt 5 1, pt 3 1, pt 4 2], 2, 3⟩ ∧
    ¬ Cvx ⟨[pt 3 0, pt 3 2, pt 5 1, pt 3 1, pt 4 2], 2, 3⟩ ∧
    LeftOf ⟨[pt 0 0, pt 0 1], 1, 1⟩ ⟨[pt 3 0, pt 3 2, pt 5 1, pt 3 1, pt 4 2], 2, 3⟩ ∧
    joinLowerLoop32 ⟨[pt 0 0, pt 0 1], 1, 1⟩ ⟨[pt 3 0, pt 3 2, pt 5 1, pt 3 1, pt 4 2], 2, 3⟩
      2 1 2 (0, 0) = (2, 2) ∧
    findTangent32 (pt 0 0) ⟨[pt 3 0, pt 3 2, pt 5 1, pt 3 1, pt 4 2], 2, 3⟩ 0 = 2 ∧
    AREA (rd [pt 0 0, pt 0 1] (2 % 2)) (rd [pt 3 0, pt 3 2, pt 5 1, pt 3 1, pt 4 2] 2)
      (rd [pt 3 0, pt 3 2, pt 5 1, pt 3 1, pt 4 2] 0) < 0 := by
  decide

/-- Claim C21, amended (common lower tangent): for hull chains `HI1`, `HI2` that are valid in
the sense of the contract of `joinHulls` and in addition convex, with all coordinates of
absolute value at most `16383` and every point of `HI1` lexicographically smaller than every
point of `HI2`, the lower search of `joinHulls`, run on `int` coordinates, ends, within its
budget and the same for every larger one, with a final `mid` in `[HI1.nu, n1]`, so that
`pl = mid % n1` is an index in `[HI1.nu, n1 - 1]` or index `0`, with
`ql = findTangent (HI1[pl], HI2, 0)`, and every point of `HI1` and of `HI2` is on or to the
left of the directed line `HI1[pl] → HI2[ql]`. -/
theorem joinHulls32_lower_tangent (HI1 HI2 : HullT) (h1 : ChainOK HI1) (c1 : Cvx HI1)
    (h2 : ChainOK HI2) (c2 : Cvx HI2) (hsep : LeftOf HI1 HI2) (s1 : SmallList HI1.H)
    (s2 : SmallList HI2.H) :
    (((joinLowerLoop32 HI1 HI2 (HI1.nl + 1) HI1.nu (HI1.nu + HI1.nl) (0, 0)).1
          % (HI1.nu + HI1.nl) = 0) ∨
      (HI1.nu ≤ (joinLowerLoop32 HI1 HI2 (HI1.nl + 1) HI1.nu (HI1.nu + HI1.nl) (0, 0)).1
          % (HI1.nu + HI1.nl) ∧
        (joinLowerLoop32 HI1 HI2 (HI1.nl + 1) HI1.nu (HI1.nu + HI1.nl) (0, 0)).1
          % (HI1.nu + HI1.nl) ≤ HI1.nu + HI1.nl - 1)) ∧
    (joinLowerLoop32 HI1 HI2 (HI1.nl + 1) HI1.nu (HI1.nu + HI1.nl) (0, 0)).2
      = findTangent32 (rd HI1.H
          ((joinLowerLoop32 HI1 HI2 (HI1.nl + 1) HI1.nu (HI1.nu + HI1.nl) (0, 0)).1
            % (HI1.nu + HI1.nl))) HI2 0 ∧
    (∀ i, i < HI1.nu + HI1.nl →
      0 ≤ AREA (rd HI1.H
          ((joinLowerLoop32 HI1 HI2 (HI1.nl + 1) HI1.nu (HI1.nu + HI1.nl) (0, 0)).1
            % (HI1.nu + HI1.nl)))
        (rd HI2.H (joinLowerLoop32 HI1 HI2 (HI1.nl + 1) HI1.nu (HI1.nu + HI1.nl) (0, 0)).2)
        (rd HI1.H i)) ∧
    (∀ j, j < HI2.nu + HI2.nl →
      0 ≤ AREA (rd HI1.H
          ((joinLowerLoop32 HI1 HI2 (HI1.nl + 1) HI1.nu (HI1.nu + HI1.nl) (0, 0)).1
            % (HI1.nu + HI1.nl)))
        (rd HI2.H (joinLowerLoop32 HI1 HI2 (HI1.nl + 1) HI1.nu (HI1.nu + HI1.nl) (0, 0)).2)
        (rd HI2.H j)) ∧
    (∀ fuel, HI1.nl + 1 ≤ fuel →
      joinLowerLoop32 HI1 HI2 fuel HI1.nu (HI1.nu + HI1.nl) (0, 0)
        = joinLowerLoop32 HI1 HI2 (HI1.nl + 1) HI1.nu (HI1.nu + HI1.nl) (0, 0)) := by
  simp only [joinLowerLoop32_small HI1 HI2 s1 s2,
    findTangent32_small _ HI2 0 (small_rd s1 _) s2]
  exact joinHulls_lower_tangent HI1 HI2 (chainOK_valid h1 c1) (chainOK_valid h2 c2) hsep

theorem joinHulls32_lower_tangent_witness :
    LeftOf ⟨[pt 0 0, pt 1 2, pt 2 0], 2, 1⟩ ⟨[pt 3 0, pt 4 2, pt 5 0], 2, 1⟩ ∧
    joinLowerLoop32 ⟨[pt 0 0, pt 1 2, pt 2 0], 2, 1⟩ ⟨[pt 3 0, pt 4 2, pt 5 0], 2, 1⟩ 2 2 3
      (0, 0) = (3, 2) ∧
    ∀ j, j < 3 →
      0 ≤ AREA (rd [pt 0 0, pt 1 2, pt 2 0]
          ((joinLowerLoop32 ⟨[pt 0 0, pt 1 2, pt 2 0], 2, 1⟩ ⟨[pt 3 0, pt 4 2, pt 5 0], 2, 1⟩
            2 2 3 (0, 0)).1 % 3))
        (rd [pt 3 0, pt 4 2, pt 5 0]
          (joinLowerLoop32 ⟨[pt 0 0, pt 1 2, pt 2 0], 2, 1⟩ ⟨[pt 3 0, pt 4 2, pt 5 0], 2, 1⟩
            2 2 3 (0, 0)).2)
        (rd [pt 3 0, pt 4 2, pt 5 0] j) :=
  ⟨by decide, by decide,
    (joinHulls32_lower_tangent ⟨[pt 0 0, pt 1 2, pt 2 0], 2, 1⟩
      ⟨[pt 3 0, pt 4 2, pt 5 0], 2, 1⟩ (by decide) (by decide) (by decide) (by decide)
      (by decide) (by decide) (by decide)).2.2.2.1⟩

/-- Claim C13, as stated, fails: the two points `(0,0)` with identities `0` and `1` are sorted
and have unique identities, and `mergeHull` returns both of them. -/
theorem mergeHull32_duplicates_counterexample :
    SortedLe [⟨0, 0, 0⟩, ⟨1, 0, 0⟩] ∧ UniqueNum [⟨0, 0, 0⟩, ⟨1, 0, 0⟩] ∧
    2 ≤ [(⟨0, 0, 0⟩ : PointT), ⟨1, 0, 0⟩].length ∧
    mergeHull32 [⟨0, 0, 0⟩, ⟨1, 0, 0⟩] 2 = ⟨[⟨0, 0, 0⟩, ⟨1, 0, 0⟩], 1, 1⟩ ∧
    ¬ NoDupCoords (mergeHull32 [⟨0, 0, 0⟩, ⟨1, 0, 0⟩] 2) := by
  decide

/-- Claim C13, amended: for an input of `n ≥ 2` points sorted by (x, then y), with coordinates
of absolute value at most `16383`, in which points may share their coordinates, if the points
do not all share one position then no two entries of the hull that `mergeHull` computes on
`int` coordinates have equal x and equal y; if on the contrary all points share one position,
the hull consists of the first and the last input point, two entries at the same position with
`nu = nl = 1`. -/
theorem mergeHull32_duplicates (S : List PointT) (hn : 2 ≤ S.length) (hs : SortedLe S)
    (hsm : SmallList S) :
    ((∃ i, i < S.length ∧ ¬ CoordEq (rd S 0) (rd S i)) →
      NoDupCoords (mergeHull32 S S.length)) ∧
    ((∀ i, i < S.length → CoordEq (rd S 0) (rd S i)) →
      mergeHull32 S S.length = ⟨[rd S 0, rd S (S.length - 1)], 1, 1⟩ ∧
      ¬ NoDupCoords (mergeHull32 S S.length)) := by
  rw [mergeHull32_small S S.length hsm]
  exact mergeHull_duplicates S hn hs

theorem mergeHull32_duplicates_witness :
    2 ≤ [(⟨0, 0, 0⟩ : PointT), ⟨1, 0, 0⟩, ⟨2, 1, 2⟩, ⟨3, 1, 2⟩, ⟨4, 2, 0⟩, ⟨5, 2, 0⟩].length ∧
    SortedLe [⟨0, 0, 0⟩, ⟨1, 0, 0⟩, ⟨2, 1, 2⟩, ⟨3, 1, 2⟩, ⟨4, 2, 0⟩, ⟨5, 2, 0⟩] ∧
    SmallList [⟨0, 0, 0⟩, ⟨1, 0, 0⟩, ⟨2, 1, 2⟩, ⟨3, 1, 2⟩, ⟨4, 2, 0⟩, ⟨5, 2, 0⟩] ∧
    NoDupCoords
      (mergeHull32 [⟨0, 0, 0⟩, ⟨1, 0, 0⟩, ⟨2, 1, 2⟩, ⟨3, 1, 2⟩, ⟨4, 2, 0⟩, ⟨5, 2, 0⟩] 6) ∧
    SortedLe [⟨0, 5, 5⟩, ⟨1, 5, 5⟩, ⟨2, 5, 5⟩] ∧
    mergeHull32 [⟨0, 5, 5⟩, ⟨1, 5, 5⟩, ⟨2, 5, 5⟩] 3 = ⟨[⟨0, 5, 5⟩, ⟨2, 5, 5⟩], 1, 1⟩ :=
  ⟨by decide, by decide, by decide,
    (mergeHull32_duplicates [⟨0, 0, 0⟩, ⟨1, 0, 0⟩, ⟨2, 1, 2⟩, ⟨3, 1, 2⟩, ⟨4, 2, 0⟩, ⟨5, 2, 0⟩]
      (by decide) (by decide) (by decide)).1 ⟨2, by decide, by decide⟩,
    by decide,
    ((mergeHull32_duplicates [⟨0, 5, 5⟩, ⟨1, 5, 5⟩, ⟨2, 5, 5⟩] (by decide) (by decide)
      (by decide)).2 (by decide)).1⟩

/-! ### The program on `int` coordinates in the range without overflow -/

/-- For a sorted input with pairwise distinct coordinates of absolute value at most `16383`
the chain that `mergeHull` computes on `int` coordinates is the convex hull of the input. -/
theorem mergeHull32_hullOf {S : List PointT} (hn : 2 ≤ S.length) (hs : SortedLex S)
    (hsm : SmallList S) : HullOf S S.length (mergeHull32 S S.length) := by
  rw [mergeHull32_small S S.length hsm]
  exact mergeHull_hullOf hn hs

/-- For a sorted input with pairwise distinct coordinates of absolute value at most `16383`
the scan of grahamScan.c on `int` coordinates leaves the upper hull of the input. -/
theorem grahamScan32_uhull {S : List PointT} (hs : SortedLex S) (hn : 2 ≤ S.length)
    (hsm : SmallList S) : UHull S S.length (grahamScan32 S S.length) := by
  rw [grahamScan32_small S S.length hsm]
  exact grahamScan_uhull hs hn

/-- For a sorted input with pairwise distinct coordinates of absolute value at most `16383`
the two programs on `int` coordinates agree on the upper hull. -/
theorem mergeHull32_eq_grahamScan32 (S : List PointT) (hn : 2 ≤ S.length) (hs : SortedLex S)
    (hsm : SmallList S) :
    (mergeHull32 S S.length).H.take ((mergeHull32 S S.length).nu + 1)
      = grahamScan32 S S.length := by
  rw [mergeHull32_small S S.length hsm, grahamScan32_small S S.length hsm]
  exact UHull.unique hs (le_refl _) (mergeHull_hullOf hn hs).uhull (grahamScan_uhull hs hn)

end MergeHull
